import Mathlib

/-!
# pcie-exporter: a shallow embedding of `internal/pcie`

The Go sources `internal/pcie/sysfs.go`, `internal/pcie/tree.go` and
`internal/pcie/bandwidth_map.go`, the function `escapeLabelValue` of
`internal/exporter/handler.go` and the function `resolveSysfsRoot` of
`cmd/pcie-exporter/main.go` are rendered as Lean functions, followed by theorems about
them.

Conventions of the embedding.

* A Go `string` is a Lean `String`, that is, a sequence of Unicode characters: the text
  read from sysfs is taken to be valid UTF-8.  An ASCII byte occurs in UTF-8 text only as
  the encoding of the ASCII character itself, so the byte loops of the source that look
  for `'0'..'9'` are rendered as loops over characters, with character positions as
  indices.  Ordering of strings (Go's `<`) is kept byte-wise: see `stringLess`.
* A Go `float64` is a `Float64`: NaN, the two infinities, or a finite value carried as a
  rational number.  Conversion from an integer, addition, division and the parsing of a
  literal round to the nearest float64, ties to even, with overflow to an infinity and
  underflow through the subnormal numbers to 0 (`round64`).  The sign of zero is not
  represented.  The constants of the bandwidth table are kept as the decimal numbers
  written in the source, and their products by the lane counts, which are powers of two,
  are exact (`Float64.mul`).
* A Go `int` is a Lean `Int`; `strconv.Atoi` reports a range error outside
  `[-2^63, 2^63 - 1]` (64-bit targets).
* Multiple return values are tuples; an `error` is an `Option String` (`none` is `nil`).
  The two errors of `ThroughputGBps` are kept structured (`ThroughputError`), each with
  the value its message names.
* The environment read by `os.Getenv` is an argument of `resolveSysfsRoot`.
* The file system is a snapshot `Sysfs`: what `os.ReadDir`, `os.ReadFile` and
  `filepath.EvalSymlinks` answer for every path.
* A Go map is a `GoMap`, the list of its entries with `mapGet` and `mapSet`.  The order
  in which `range` visits a map is not fixed by the language: the loop of `ReadTree` over
  `nodes` takes it as an argument, a `MapOrder`.
* A `*TreeNode` is the key under which `ReadTree` stores the node in `nodes`; that map is
  the heap in which `append` and `sort.Slice` change the child lists.  What `ReadTree`
  returns is a `Forest`: the root pointers and the heap.
* The recursion of `sortTree` is rendered with a bound on its depth; `ReadTree` gives it
  one more than the number of nodes, and `buildForest_spec` shows that this is enough for
  every content of the maps.
-/

namespace PcieExporter

/-! ## Characters and strings -/

/-- The byte test `c >= '0' && c <= '9'`. -/
def isDigit (c : Char) : Bool := decide ('0' ≤ c) && decide (c ≤ '9')

/-- The value `c - '0'` of a decimal digit. -/
def digitVal (c : Char) : Nat := c.toNat - 48

/-- The number denoted by a run of decimal digits, most significant first. -/
def digitsValue (ds : List Char) : Nat := ds.foldl (fun acc c => acc * 10 + digitVal c) 0

/-- Go's `unicode.IsSpace`: the characters with the Unicode White_Space property. -/
def unicode.IsSpace (c : Char) : Bool :=
  let n := c.toNat
  (decide (9 ≤ n) && decide (n ≤ 13)) || n == 32 || n == 0x85 || n == 0xA0 || n == 0x1680
    || (decide (0x2000 ≤ n) && decide (n ≤ 0x200A))
    || n == 0x2028 || n == 0x2029 || n == 0x202F || n == 0x205F || n == 0x3000

/-- Characters of a string with leading and trailing white space removed. -/
def trimSpaceChars (l : List Char) : List Char :=
  ((l.dropWhile unicode.IsSpace).reverse.dropWhile unicode.IsSpace).reverse

/-- Go's `strings.TrimSpace`. -/
def strings.TrimSpace (s : String) : String := ⟨trimSpaceChars s.data⟩

/-- The fields of a character sequence; `cur` is the field being read, in reverse. -/
def fieldsAux : List Char → List Char → List (List Char)
  | [], cur => if cur.isEmpty then [] else [cur.reverse]
  | c :: cs, cur =>
    if unicode.IsSpace c then
      (if cur.isEmpty then fieldsAux cs [] else cur.reverse :: fieldsAux cs [])
    else fieldsAux cs (c :: cur)

/-- Go's `strings.Fields`: the maximal runs of non-space characters, in order. -/
def strings.Fields (s : String) : List String := (fieldsAux s.data []).map String.mk

/-- Splitting at every occurrence of the separator character; `cur` is the part being
read, in reverse. -/
def splitAux (sep : Char) : List Char → List Char → List (List Char)
  | [], cur => [cur.reverse]
  | c :: cs, cur => if c = sep then cur.reverse :: splitAux sep cs [] else splitAux sep cs (c :: cur)

/-- Go's `strings.Split(s, "/")`: the parts between slashes (one part for a string without
a slash, empty parts kept). -/
def strings.SplitSlash (s : String) : List String := (splitAux '/' s.data []).map String.mk

/-- Go's `strings.ToLower`, on the ASCII letters.  The source applies it to path
components and entry names made of hexadecimal digits, colons and dots. -/
def strings.ToLower (s : String) : String := ⟨s.data.map Char.toLower⟩

/-- Go's `filepath.Join` for clean, non-empty elements: the elements separated by `/`. -/
def filepath.Join (elems : List String) : String := "/".intercalate elems

/-- Go's `filepath.ToSlash`: the identity where the separator is `/`, as on Linux. -/
def filepath.ToSlash (path : String) : String := path

/-- UTF-8 encoding of one character, as byte values. -/
def utf8Bytes (c : Char) : List Nat :=
  let n := c.toNat
  if n < 0x80 then [n]
  else if n < 0x800 then [0xC0 + n / 64, 0x80 + n % 64]
  else if n < 0x10000 then [0xE0 + n / 4096, 0x80 + n / 64 % 64, 0x80 + n % 64]
  else [0xF0 + n / 262144, 0x80 + n / 4096 % 64, 0x80 + n / 64 % 64, 0x80 + n % 64]

/-- The bytes of a Go string. -/
def stringBytes (s : String) : List Nat := s.data.flatMap utf8Bytes

/-- Lexicographic comparison of byte sequences. -/
def bytesLess : List Nat → List Nat → Bool
  | [], [] => false
  | [], _ :: _ => true
  | _ :: _, [] => false
  | a :: as, b :: bs => decide (a < b) || (a == b && bytesLess as bs)

/-- Go's `a < b` on strings: byte-wise lexicographic order. -/
def stringLess (a b : String) : Bool := bytesLess (stringBytes a) (stringBytes b)

/-! ## float64 -/

/-- A `float64` value: NaN, an infinity, or a finite value held as a rational number.  The
operations that the source performs on such values (`ofInt`, `add`, `div`, the conversion at
the end of `strconv.ParseFloat`) round their exact result with `round64`. -/
inductive Float64 where
  | nan
  | posInf
  | negInf
  | fin (q : ℚ)
  deriving DecidableEq

namespace Float64

/-- The loop of `floorLog2`; the first argument bounds the number of halvings. -/
def log2Fuel : Nat → Nat → Nat
  | 0, _ => 0
  | fuel + 1, n => if n < 2 then 0 else log2Fuel fuel (n / 2) + 1

/-- The exponent of the highest power of two that is at most `n`, for `n > 0`. -/
def floorLog2 (n : Nat) : Nat := log2Fuel n n

/-- The exponent `e` with `2^e ≤ N / D < 2^(e+1)`, for positive `N` and `D`. -/
def binade (N D : Nat) : Int :=
  let e0 : Int := (floorLog2 N : Int) - (floorLog2 D : Int)
  if D * 2 ^ e0.toNat ≤ N * 2 ^ (-e0).toNat then e0 else e0 - 1

/-- The quotient `a / b` rounded to the nearest natural number, a tie going to the even
neighbour. -/
def roundHalfEven (a b : Nat) : Nat :=
  if 2 * (a % b) < b then a / b
  else if b < 2 * (a % b) then a / b + 1
  else if a / b % 2 = 0 then a / b
  else a / b + 1

/-- The significand `n` and the exponent `k` of the float64 nearest to `N / D`, which is
`n * 2^k`: `k` is 52 below the binade of `N / D`, and not below `-1074` (subnormal
numbers). -/
def mantissa (N D : Nat) : Nat × Int :=
  let e := binade N D
  let k := (if e < -1022 then -1022 else e) - 52
  (roundHalfEven (N * 2 ^ (-k).toNat) (D * 2 ^ k.toNat), k)

/-- The float64 nearest to `± N / D` (round to nearest, ties to even), or an infinity when
that is `2^1024` or beyond.  The sign of zero is not represented. -/
def round64Frac (neg : Bool) (N D : Nat) : Float64 :=
  if N = 0 then Float64.fin 0
  else if (2 ^ 128) ^ 8 ≤ (mantissa N D).1 * 2 ^ (mantissa N D).2.toNat then
    (if neg then Float64.negInf else Float64.posInf)
  else Float64.fin ((if neg then -1 else 1) * ((mantissa N D).1 : ℚ) * 2 ^ (mantissa N D).2)

/-- The float64 nearest to a rational number. -/
def round64 (q : ℚ) : Float64 := round64Frac (decide (q < 0)) q.num.natAbs q.den

/-- The conversion `float64(n)` of an integer: the nearest float64. -/
def ofInt (n : Int) : Float64 := round64Frac (decide (n < 0)) n.natAbs 1

/-- The constant `1e-9`: the float64 nearest to it. -/
def eps : Float64 := round64Frac false 1 1000000000

/-- Go's `math.IsNaN`. -/
def isNaN : Float64 → Bool
  | nan => true
  | _ => false

/-- The comparison `x > y`; false as soon as one side is NaN. -/
def gt : Float64 → Float64 → Bool
  | nan, _ => false
  | _, nan => false
  | posInf, posInf => false
  | posInf, _ => true
  | negInf, _ => false
  | fin _, posInf => false
  | fin _, negInf => true
  | fin p, fin q => decide (q < p)

/-- The comparison `x >= y`; false as soon as one side is NaN. -/
def ge : Float64 → Float64 → Bool
  | nan, _ => false
  | _, nan => false
  | posInf, _ => true
  | negInf, negInf => true
  | negInf, _ => false
  | fin _, posInf => false
  | fin _, negInf => true
  | fin p, fin q => decide (q ≤ p)

/-- The sum `x + y`. -/
def add : Float64 → Float64 → Float64
  | nan, _ => nan
  | _, nan => nan
  | posInf, negInf => nan
  | negInf, posInf => nan
  | posInf, _ => posInf
  | negInf, _ => negInf
  | fin _, posInf => posInf
  | fin _, negInf => negInf
  | fin p, fin q => round64 (p + q)

/-- The quotient `x / y`.  A zero divisor is read as `+0`. -/
def div : Float64 → Float64 → Float64
  | nan, _ => nan
  | _, nan => nan
  | posInf, fin q => if q < 0 then negInf else posInf
  | negInf, fin q => if q < 0 then posInf else negInf
  | fin _, posInf => fin 0
  | fin _, negInf => fin 0
  | fin p, fin q =>
    if q = 0 then (if p = 0 then nan else if 0 < p then posInf else negInf)
    else round64 (p / q)
  | _, _ => nan

/-- The product `x * y`, exact: it is used for the bandwidth table only, whose factors are
powers of two. -/
def mul : Float64 → Float64 → Float64
  | nan, _ => nan
  | _, nan => nan
  | fin p, fin q => fin (p * q)
  | fin p, posInf => if p = 0 then nan else if 0 < p then posInf else negInf
  | fin p, negInf => if p = 0 then nan else if 0 < p then negInf else posInf
  | posInf, fin q => if q = 0 then nan else if 0 < q then posInf else negInf
  | negInf, fin q => if q = 0 then nan else if 0 < q then negInf else posInf
  | posInf, posInf => posInf
  | posInf, negInf => negInf
  | negInf, posInf => negInf
  | negInf, negInf => posInf

end Float64

/-! ## strconv -/

/-- Go's `strconv.Atoi`: an optional sign followed by one or more decimal digits; a value
outside the range of `int` is an error. -/
def strconv.Atoi (s : String) : Option Int :=
  let signed : Bool × List Char :=
    match s.data with
    | '-' :: r => (true, r)
    | '+' :: r => (false, r)
    | r => (false, r)
  let ds := signed.2
  if ds.isEmpty || !ds.all isDigit then none
  else
    let v : Int := if signed.1 then -(digitsValue ds : Int) else (digitsValue ds : Int)
    if -(2 : Int) ^ 63 ≤ v ∧ v < (2 : Int) ^ 63 then some v else none

/-- The value of a hexadecimal letter `a..f` or `A..F`. -/
def hexLetterVal (c : Char) : Option Nat :=
  let l := c.toLower
  if decide ('a' ≤ l) && decide (l ≤ 'f') then some (l.toNat - 97 + 10) else none

/-- State of the mantissa loop of `readFloat`. -/
structure Mantissa where
  /-- All digits read so far, as an integer in the base. -/
  value : Nat := 0
  /-- Number of digits read after the point. -/
  fracDigits : Nat := 0
  sawDigits : Bool := false
  sawDot : Bool := false
  underscores : Bool := false

/-- The mantissa loop of `readFloat`: digits, one point, underscores; stops at the first
other character and returns what is left. -/
def readMantissa (hex : Bool) : List Char → Mantissa → Mantissa × List Char
  | [], m => (m, [])
  | c :: cs, m =>
    let base := if hex then 16 else 10
    let frac := if m.sawDot then m.fracDigits + 1 else m.fracDigits
    if c = '_' then readMantissa hex cs { m with underscores := true }
    else if c = '.' then
      (if m.sawDot then (m, c :: cs) else readMantissa hex cs { m with sawDot := true })
    else if isDigit c then
      readMantissa hex cs
        { m with sawDigits := true, value := m.value * base + digitVal c, fracDigits := frac }
    else
      match (if hex then hexLetterVal c else none) with
      | some v =>
        readMantissa hex cs
          { m with sawDigits := true, value := m.value * base + v, fracDigits := frac }
      | none => (m, c :: cs)

/-- The exponent loop of `readFloat`: digits and underscores. -/
def readExpDigits : List Char → Nat → Bool → Nat × Bool × List Char
  | [], e, us => (e, us, [])
  | c :: cs, e, us =>
    if c = '_' then readExpDigits cs e true
    else if isDigit c then readExpDigits cs (e * 10 + digitVal c) us
    else (e, us, c :: cs)

/-- The scan of `underscoreOK`; `saw` is the class of the last character: `'0'` digit,
`'_'` underscore, `'!'` other. -/
def underscoreScan (hex : Bool) : List Char → Char → Bool
  | [], saw => saw != '_'
  | c :: cs, saw =>
    if isDigit c || (hex && (hexLetterVal c).isSome) then underscoreScan hex cs '0'
    else if c = '_' then (if saw != '0' then false else underscoreScan hex cs '_')
    else if saw = '_' then false
    else underscoreScan hex cs '!'

/-- Go's `underscoreOK`: underscores only between digits, or between a base prefix and a
digit. -/
def underscoreOK (l : List Char) : Bool :=
  let r := match l with
    | '-' :: t => t
    | '+' :: t => t
    | t => t
  match r with
  | '0' :: x :: t =>
    let lx := x.toLower
    if lx = 'b' || lx = 'o' || lx = 'x' then underscoreScan (lx = 'x') t '0'
    else underscoreScan false r '^'
  | _ => underscoreScan false r '^'

/-- The float64 nearest to `± value * base^k`, or `none` when that is an infinity
(`ErrRange`).  A value too small to be represented rounds to 0 without error. -/
def floatOfParts (neg hex : Bool) (value : Nat) (k : Int) : Option Float64 :=
  let b : Nat := if hex then 2 else 10
  let num : Nat := value * b ^ k.toNat
  let den : Nat := b ^ (-k).toNat
  match Float64.round64Frac neg num den with
  | Float64.fin q => some (Float64.fin q)
  | _ => none

/-- Go's `readFloat`: decimal and hexadecimal floating-point literals with an optional
sign, the whole text being consumed.  The result is the sign, whether the literal is
hexadecimal, the digits of the mantissa read as a natural number, and the exponent `k` of
the base (10, or 2 for a hexadecimal literal): the literal stands for
`± value * base^k`. -/
def readFloat (l : List Char) : Option (Bool × Bool × Nat × Int) :=
  let signed : Bool × List Char :=
    match l with
    | '+' :: r => (false, r)
    | '-' :: r => (true, r)
    | r => (false, r)
  let based : Bool × List Char :=
    match signed.2 with
    | '0' :: x :: y :: rest => if x.toLower = 'x' then (true, y :: rest) else (false, signed.2)
    | r => (false, r)
  let hex := based.1
  let mr := readMantissa hex based.2 {}
  let m := mr.1
  let scale : Int := if hex then 4 * (m.fracDigits : Int) else (m.fracDigits : Int)
  if !m.sawDigits then none
  else
    match mr.2 with
    | [] =>
      if hex then none
      else if m.underscores && !underscoreOK l then none
      else some (signed.1, hex, m.value, -scale)
    | c :: r2 =>
      if c.toLower = (if hex then 'p' else 'e') then
        let esigned : Bool × List Char :=
          match r2 with
          | '+' :: t => (false, t)
          | '-' :: t => (true, t)
          | t => (false, t)
        match esigned.2 with
        | [] => none
        | d :: t =>
          if isDigit d then
            let er := readExpDigits (d :: t) 0 m.underscores
            if !er.2.2.isEmpty then none
            else if er.2.1 && !underscoreOK l then none
            else
              some (signed.1, hex, m.value,
                (if esigned.1 then -(er.1 : Int) else (er.1 : Int)) - scale)
          else none
      else none

/-- Go's `special`: the spellings of the infinities and of NaN, letter case ignored. -/
def special (l : List Char) : Option (Option Float64) :=
  let isInf (r : List Char) : Option Bool :=
    let lr := r.map Char.toLower
    if lr.take 3 = ['i', 'n', 'f'] then
      some (decide (lr = ['i', 'n', 'f']) || decide (lr = ['i', 'n', 'f', 'i', 'n', 'i', 't', 'y']))
    else none
  match l with
  | '+' :: r => (isInf r).map (fun whole => if whole then some Float64.posInf else none)
  | '-' :: r => (isInf r).map (fun whole => if whole then some Float64.negInf else none)
  | r =>
    match isInf r with
    | some whole => some (if whole then some Float64.posInf else none)
    | none =>
      let lr := r.map Char.toLower
      if lr.take 3 = ['n', 'a', 'n'] then
        some (if lr = ['n', 'a', 'n'] then some Float64.nan else none)
      else none

/-- Go's `strconv.ParseFloat(s, 64)`; `none` stands for a non-nil error (syntax or range).
The value of a literal is rounded to the nearest float64. -/
def strconv.ParseFloat (s : String) : Option Float64 :=
  match special s.data with
  | some r => r
  | none =>
    match readFloat s.data with
    | none => none
    | some p => floatOfParts p.1 p.2.1 p.2.2.1 p.2.2.2

/-! ## sysfs.go -/

/-- Device contains the minimum PCIe link information needed for exported metrics. -/
structure Device where
  Address : String
  VendorID : String
  DeviceID : String
  Class : String
  CurrentLinkSpeed : String
  MaxLinkSpeed : String
  CurrentLinkWidth : String
  MaxLinkWidth : String
  NegotiatedOK : Bool
  SpeedRatio : Float64
  WidthRatio : Float64
  deriving DecidableEq

/-- The zero value `Device{}`. -/
def Device.zero : Device :=
  ⟨"", "", "", "", "", "", "", "", false, Float64.fin 0, Float64.fin 0⟩

/-- An error of the operating system: its text and whether it is `fs.ErrNotExist`. -/
structure IOError where
  msg : String
  notExist : Bool
  deriving DecidableEq

/-- A snapshot of the file system: the answer of each call, per path. -/
structure Sysfs where
  /-- The entry names `os.ReadDir` lists for a directory.  `os.ReadDir` returns them sorted
  by file name; a snapshot is not held to that, and a theorem that needs it says so. -/
  ReadDir : String → Except IOError (List String)
  /-- The content `os.ReadFile` returns for a file. -/
  ReadFile : String → Except IOError String
  /-- The canonical path `filepath.EvalSymlinks` returns. -/
  EvalSymlinks : String → Except IOError String

/-- Source: `parseFirstInt`, the loop that looks for the first digit; `i` is the index of
the head of the list. -/
def firstDigitIndex : List Char → Nat → Option Nat
  | [], _ => none
  | c :: cs, i => if isDigit c then some i else firstDigitIndex cs (i + 1)

/-- Source: `parseFirstInt`, the loop `for end < len(s) && digit(s[end])`, run on the
characters from index `e` on. -/
def digitRunEnd : List Char → Nat → Nat
  | [], e => e
  | c :: cs, e => if isDigit c then digitRunEnd cs (e + 1) else e

/-- The slice `s[start:stop]`. -/
def sliceChars (l : List Char) (start stop : Nat) : List Char := (l.drop start).take (stop - start)

def parseFirstInt (s : String) : Int × Bool :=
  let s := strings.TrimSpace s
  if s = "" then (0, false)
  else
    match firstDigitIndex s.data 0 with
    | none => (0, false)
    | some start =>
      let stop := digitRunEnd (s.data.drop start) start
      match strconv.Atoi ⟨sliceChars s.data start stop⟩ with
      | none => (0, false)
      | some v => (v, true)

def parseLeadingFloat (s : String) : Float64 × Bool :=
  match strings.Fields (strings.TrimSpace s) with
  | [] => (Float64.fin 0, false)
  | f :: _ =>
    match strconv.ParseFloat f with
    | none => (Float64.fin 0, false)
    | some v => (v, true)

def compareSpeed (current max : String) : Float64 × Bool :=
  let c := parseLeadingFloat current
  let m := parseLeadingFloat max
  if c.2 && m.2 && Float64.gt m.1 (Float64.fin 0) then
    (Float64.div c.1 m.1, Float64.ge (Float64.add c.1 Float64.eps) m.1)
  else if current ≠ "" ∧ current = max then (Float64.fin 1, true)
  else (Float64.nan, false)

def compareWidth (current max : String) : Float64 × Bool :=
  let c := parseFirstInt current
  let m := parseFirstInt max
  if c.2 && m.2 && decide (m.1 > 0) then
    (Float64.div (Float64.ofInt c.1) (Float64.ofInt m.1), decide (c.1 ≥ m.1))
  else if current ≠ "" ∧ current = max then (Float64.fin 1, true)
  else (Float64.nan, false)

def readOptionalTrim (fs : Sysfs) (path : String) : String × Bool × Option String :=
  match fs.ReadFile path with
  | .error err => if err.notExist then ("", false, none) else ("", false, some err.msg)
  | .ok buf => (strings.TrimSpace buf, true, none)

/-- The message of `fmt.Errorf("read <what> for %s: %w", address, err)`. -/
def readErrorf (what address err : String) : String :=
  "read " ++ what ++ " for " ++ address ++ ": " ++ err

def readDevice (fs : Sysfs) (devicePath address : String) : Device × Bool × Option String :=
  match readOptionalTrim fs (filepath.Join [devicePath, "current_link_speed"]) with
  | (_, _, some err) => (Device.zero, false, some (readErrorf "current_link_speed" address err))
  | (currentSpeed, hasCurrentSpeed, none) =>
  match readOptionalTrim fs (filepath.Join [devicePath, "max_link_speed"]) with
  | (_, _, some err) => (Device.zero, false, some (readErrorf "max_link_speed" address err))
  | (maxSpeed, hasMaxSpeed, none) =>
  match readOptionalTrim fs (filepath.Join [devicePath, "current_link_width"]) with
  | (_, _, some err) => (Device.zero, false, some (readErrorf "current_link_width" address err))
  | (currentWidth, hasCurrentWidth, none) =>
  match readOptionalTrim fs (filepath.Join [devicePath, "max_link_width"]) with
  | (_, _, some err) => (Device.zero, false, some (readErrorf "max_link_width" address err))
  | (maxWidth, hasMaxWidth, none) =>
  if !(hasCurrentSpeed && hasMaxSpeed && hasCurrentWidth && hasMaxWidth) then
    (Device.zero, false, none)
  else
  match readOptionalTrim fs (filepath.Join [devicePath, "vendor"]) with
  | (_, _, some err) => (Device.zero, false, some (readErrorf "vendor" address err))
  | (vendorID, _, none) =>
  match readOptionalTrim fs (filepath.Join [devicePath, "device"]) with
  | (_, _, some err) => (Device.zero, false, some (readErrorf "device" address err))
  | (deviceID, _, none) =>
  match readOptionalTrim fs (filepath.Join [devicePath, "class"]) with
  | (_, _, some err) => (Device.zero, false, some (readErrorf "class" address err))
  | (cls, _, none) =>
  let speed := compareSpeed currentSpeed maxSpeed
  let width := compareWidth currentWidth maxWidth
  ({ Address := address
     VendorID := vendorID
     DeviceID := deviceID
     Class := cls
     CurrentLinkSpeed := currentSpeed
     MaxLinkSpeed := maxSpeed
     CurrentLinkWidth := currentWidth
     MaxLinkWidth := maxWidth
     NegotiatedOK := speed.2 && width.2
     SpeedRatio := speed.1
     WidthRatio := width.1 }, true, none)

/-- Go's `sort.Slice(devices, less)` with `less(i, j) = devices[i].Address <
devices[j].Address`.  `sort.Slice` is not stable; it is rendered by insertion sort, which
agrees with every correct sort when no two addresses are equal. -/
def sortByAddress (devices : List Device) : List Device :=
  devices.insertionSort (fun a b => stringLess b.Address a.Address = false)

/-- Source: `ReadDevices`, the loop over the directory entries. -/
def readDevicesLoop (fs : Sysfs) (devicesPath : String) :
    List String → List Device → List Device × Option String
  | [], devices => (devices, none)
  | address :: rest, devices =>
    match readDevice fs (filepath.Join [devicesPath, address]) address with
    | (_, _, some err) => ([], some err)
    | (device, true, none) => readDevicesLoop fs devicesPath rest (devices ++ [device])
    | (_, false, none) => readDevicesLoop fs devicesPath rest devices

/-- ReadDevices enumerates PCIe devices from sysfsRoot/bus/pci/devices. -/
def ReadDevices (fs : Sysfs) (sysfsRoot : String) : List Device × Option String :=
  let devicesPath := filepath.Join [sysfsRoot, "bus", "pci", "devices"]
  match fs.ReadDir devicesPath with
  | .error err => ([], some ("read pci devices from " ++ devicesPath ++ ": " ++ err.msg))
  | .ok entries =>
    match readDevicesLoop fs devicesPath entries [] with
    | (_, some err) => ([], some err)
    | (devices, none) => (sortByAddress devices, none)

/-! ## tree.go -/

/-- The character class `[0-9a-fA-F]`. -/
def isHexDigit (c : Char) : Bool :=
  isDigit c || (decide ('a' ≤ c) && decide (c ≤ 'f')) || (decide ('A' ≤ c) && decide (c ≤ 'F'))

/-- The character class `[0-7]`. -/
def isOctalDigit (c : Char) : Bool := decide ('0' ≤ c) && decide (c ≤ '7')

/-- Source: `pciAddressPattern.MatchString`, for the regular expression
`^[0-9a-fA-F]{4}:[0-9a-fA-F]{2}:[0-9a-fA-F]{2}\.[0-7]$`. -/
def pciAddressPattern (s : String) : Bool :=
  match s.data with
  | [d1, d2, d3, d4, c1, b1, b2, c2, v1, v2, dot, f] =>
    isHexDigit d1 && isHexDigit d2 && isHexDigit d3 && isHexDigit d4 && c1 == ':'
      && isHexDigit b1 && isHexDigit b2 && c2 == ':'
      && isHexDigit v1 && isHexDigit v2 && dot == '.' && isOctalDigit f
  | _ => false

/-- Source: `resolveParentAddress`, the collection of the PCI addresses of a resolved
path, in path order. -/
def pathAddresses (resolvedPath : String) : List String :=
  ((strings.SplitSlash (filepath.ToSlash resolvedPath)).filter pciAddressPattern).map
    strings.ToLower

/-- Source: `resolveParentAddress`, the loop `for i := len(addresses) - 1; i >= 0; i--`;
the argument `k` is `i + 1`, so that `0` is the exit of the loop. -/
def parentLoop (addresses : List String) (address : String) : Nat → String
  | 0 => ""
  | i + 1 =>
    if addresses.getD i "" ≠ address then parentLoop addresses address i
    else if i = 0 then ""
    else addresses.getD (i - 1) ""

def resolveParentAddress (fs : Sysfs) (devicePath address : String) : String × Option String :=
  match fs.EvalSymlinks devicePath with
  | .error err => ("", some ("resolve symlink for " ++ address ++ ": " ++ err.msg))
  | .ok resolvedPath =>
    let addresses := pathAddresses resolvedPath
    if addresses.length < 2 then ("", none)
    else (parentLoop addresses address addresses.length, none)

/-! ### Go maps -/

/-- A Go map, held as the list of its entries in order of first insertion; keys occur
once (`mapSet` keeps it so). -/
abbrev GoMap (κ α : Type) := List (κ × α)

/-- The lookup `m[k]` with its `ok` flag: `none` when the key is absent. -/
def mapGet {κ α : Type} [DecidableEq κ] : GoMap κ α → κ → Option α
  | [], _ => none
  | (k', v) :: rest, k => if k' = k then some v else mapGet rest k

/-- The assignment `m[k] = v`: replaces the entry of an existing key, adds one otherwise. -/
def mapSet {κ α : Type} [DecidableEq κ] : GoMap κ α → κ → α → GoMap κ α
  | [], k, v => [(k, v)]
  | (k', v') :: rest, k, v => if k' = k then (k, v) :: rest else (k', v') :: mapSet rest k v

/-- The keys of a map. -/
def mapKeys {κ α : Type} (m : GoMap κ α) : List κ := m.map Prod.fst

/-- An order in which `range` may visit the keys of a map: some rearrangement of them.
The Go runtime picks one at each loop. -/
structure MapOrder where
  order : List String → List String
  perm : ∀ keys, (order keys).Perm keys

/-! ### Names and link summaries -/

/-- Go's `strings.HasPrefix`. -/
def strings.HasPrefix (s pre : String) : Bool := pre.data.isPrefixOf s.data

/-- Go's `strings.TrimPrefix`: `s` without the leading `pre`, or `s` itself. -/
def strings.TrimPrefix (s pre : String) : String :=
  if pre.data.isPrefixOf s.data then ⟨s.data.drop pre.data.length⟩ else s

/-- Go's `strconv.Itoa`: the decimal numeral of an integer. -/
def strconv.Itoa (n : Int) : String :=
  if n < 0 then ⟨'-' :: Nat.toDigits 10 n.natAbs⟩ else ⟨Nat.toDigits 10 n.toNat⟩

/-- Go's `filepath.Base` for slash-separated paths: the last element, `.` for the empty
path and `/` for a path of slashes only. -/
def filepath.Base (path : String) : String :=
  if path = "" then "."
  else
    let stripped := (path.data.reverse.dropWhile (fun c => c = '/')).reverse
    let last := (stripped.reverse.takeWhile (fun c => c ≠ '/')).reverse
    if last.isEmpty then "/" else ⟨last⟩

def trimHexPrefix (value : String) : String :=
  let value := strings.TrimSpace value
  let value := strings.TrimPrefix value "0x"
  let value := strings.TrimPrefix value "0X"
  value

def formatWidth (width : String) : String :=
  let width := strings.TrimSpace width
  if width = "" then ""
  else if strings.HasPrefix (strings.ToLower width) "x" then
    "x" ++ strings.TrimPrefix (strings.TrimPrefix width "x") "X"
  else
    match parseFirstInt width with
    | (_, false) => width
    | (value, true) => "x" ++ strconv.Itoa value

def formatLinkSummary (speed width : String) : String :=
  let speed := strings.TrimSpace speed
  let width := formatWidth width
  if speed = "" ∧ width = "" then "unknown"
  else if speed = "" then width
  else if width = "" then speed
  else speed ++ " " ++ width

/-- Source: `readDriverName`.  `os.IsNotExist` is read off the same flag as
`errors.Is(err, fs.ErrNotExist)`: the errors of `EvalSymlinks` are not wrapped. -/
def readDriverName (fs : Sysfs) (devicePath : String) : String × Bool × Option String :=
  match fs.EvalSymlinks (filepath.Join [devicePath, "driver"]) with
  | .error err => if err.notExist then ("", false, none) else ("", false, some err.msg)
  | .ok resolvedPath =>
    let name := strings.TrimSpace (filepath.Base resolvedPath)
    if name = "" ∨ name = "." ∨ name = "/" then ("", false, none) else (name, true, none)

def readDeviceName (fs : Sysfs) (devicePath address : String) : String × Option String :=
  match readOptionalTrim fs (filepath.Join [devicePath, "label"]) with
  | (_, _, some err) => ("", some (readErrorf "label" address err))
  | (label, hasLabel, none) =>
  if hasLabel = true ∧ label ≠ "" then (label, none)
  else
  match readDriverName fs devicePath with
  | (_, _, some err) => ("", some (readErrorf "driver" address err))
  | (driverName, hasDriver, none) =>
  if hasDriver then (driverName, none)
  else
  match readOptionalTrim fs (filepath.Join [devicePath, "vendor"]) with
  | (_, _, some err) => ("", some (readErrorf "vendor" address err))
  | (vendorID, _, none) =>
  match readOptionalTrim fs (filepath.Join [devicePath, "device"]) with
  | (_, _, some err) => ("", some (readErrorf "device" address err))
  | (deviceID, _, none) =>
  let vendorID := trimHexPrefix vendorID
  let deviceID := trimHexPrefix deviceID
  if vendorID ≠ "" ∨ deviceID ≠ "" then (vendorID ++ ":" ++ deviceID, none)
  else (address, none)

/-! ### The topology tree -/

/-- TreeNode represents one device in the PCIe topology tree.  `Children` holds pointers to
nodes; a pointer is written as the key under which `ReadTree` stores the node in its map
`nodes`. -/
structure TreeNode where
  BusID : String
  Name : String
  LinkCapacity : String
  LinkStatus : String
  Children : List String
  deriving DecidableEq

/-- The zero value `TreeNode{}`. -/
def TreeNode.zero : TreeNode := ⟨"", "", "", "", []⟩

/-- What `ReadTree` returns besides the error: the pointers to the roots, and the nodes
they point into (the map `nodes` with the child lists as `ReadTree` leaves them). -/
structure Forest where
  roots : List String
  nodes : GoMap String TreeNode
  deriving DecidableEq

def readTreeNode (fs : Sysfs) (devicePath address : String) : TreeNode × Option String :=
  match readDeviceName fs devicePath address with
  | (_, some err) => (TreeNode.zero, some err)
  | (name, none) =>
  match readOptionalTrim fs (filepath.Join [devicePath, "current_link_speed"]) with
  | (_, _, some err) => (TreeNode.zero, some (readErrorf "current_link_speed" address err))
  | (currentSpeed, _, none) =>
  match readOptionalTrim fs (filepath.Join [devicePath, "max_link_speed"]) with
  | (_, _, some err) => (TreeNode.zero, some (readErrorf "max_link_speed" address err))
  | (maxSpeed, _, none) =>
  match readOptionalTrim fs (filepath.Join [devicePath, "current_link_width"]) with
  | (_, _, some err) => (TreeNode.zero, some (readErrorf "current_link_width" address err))
  | (currentWidth, _, none) =>
  match readOptionalTrim fs (filepath.Join [devicePath, "max_link_width"]) with
  | (_, _, some err) => (TreeNode.zero, some (readErrorf "max_link_width" address err))
  | (maxWidth, _, none) =>
  ({ BusID := address
     Name := name
     LinkCapacity := formatLinkSummary maxSpeed maxWidth
     LinkStatus := formatLinkSummary currentSpeed currentWidth
     Children := [] }, none)

/-- Source: `ReadTree`, the loop over the directory entries that fills the maps `nodes`
and `parents`. -/
def readTreeLoop (fs : Sysfs) (devicesPath : String) :
    List String → GoMap String TreeNode → GoMap String String →
      GoMap String TreeNode × GoMap String String × Option String
  | [], nodes, parents => (nodes, parents, none)
  | name :: rest, nodes, parents =>
    let address := strings.ToLower name
    let devicePath := filepath.Join [devicesPath, name]
    match readTreeNode fs devicePath address with
    | (_, some err) => ([], [], some err)
    | (node, none) =>
      let nodes := mapSet nodes address node
      match resolveParentAddress fs devicePath address with
      | (_, some err) => ([], [], some err)
      | (parentAddress, none) =>
        let parents := if parentAddress ≠ "" then mapSet parents address parentAddress else parents
        readTreeLoop fs devicesPath rest nodes parents

/-- Source: `ReadTree`, the loop `for address, node := range nodes` that appends each node
to the child list of its parent or to `roots`; the first argument is the order of the
visit. -/
def attachLoop (parents : GoMap String String) :
    List String → GoMap String TreeNode → List String → GoMap String TreeNode × List String
  | [], nodes, roots => (nodes, roots)
  | address :: rest, nodes, roots =>
    match mapGet parents address with
    | some parentAddress =>
      match mapGet nodes parentAddress with
      | some parentNode =>
        attachLoop parents rest
          (mapSet nodes parentAddress
            { parentNode with Children := parentNode.Children ++ [address] }) roots
      | none => attachLoop parents rest nodes (roots ++ [address])
    | none => attachLoop parents rest nodes (roots ++ [address])

/-- The field `BusID` of the node a pointer refers to. -/
def busIDOf (nodes : GoMap String TreeNode) (pointer : String) : String :=
  match mapGet nodes pointer with
  | some node => node.BusID
  | none => ""

/-- Go's `sort.Slice(nodes, less)` with `less(i, j) = nodes[i].BusID < nodes[j].BusID`, on
a slice of pointers; rendered by insertion sort as in `sortByAddress`. -/
def sortByBusID (nodes : GoMap String TreeNode) (pointers : List String) : List String :=
  pointers.insertionSort
    (fun a b => stringLess (busIDOf nodes b) (busIDOf nodes a) = false)

/-- Source: `sortTree(node.Children)` for the node behind a pointer: the child list is
sorted in place, then the call recurses into each child.  The first argument bounds the
depth of the recursion; `none` means the bound was too small. -/
def sortChildren : Nat → GoMap String TreeNode → String → Option (GoMap String TreeNode)
  | 0, _, _ => none
  | fuel + 1, nodes, pointer =>
    match mapGet nodes pointer with
    | none => some nodes
    | some node =>
      let sorted := sortByBusID nodes node.Children
      sorted.foldlM (fun heap child => sortChildren fuel heap child)
        (mapSet nodes pointer { node with Children := sorted })

/-- Source: `sortTree(roots)`: the root slice is sorted, then the child lists below it. -/
def sortTree (fuel : Nat) (nodes : GoMap String TreeNode) (roots : List String) :
    Option Forest :=
  let sorted := sortByBusID nodes roots
  (sorted.foldlM (fun heap child => sortChildren fuel heap child) nodes).map
    (fun heap => { roots := sorted, nodes := heap })

/-- Source: `ReadTree`, from the filled maps on: attachment, then `sortTree(roots)`.  The
recursion of `sortTree` is given a depth of one more than the number of nodes. -/
def buildForest (nodes : GoMap String TreeNode) (parents : GoMap String String)
    (visit : MapOrder) : Option Forest :=
  let attached := attachLoop parents (visit.order (mapKeys nodes)) nodes []
  sortTree (nodes.length + 1) attached.1 attached.2

/-- ReadTree builds a PCIe topology tree from sysfsRoot/bus/pci/devices.  The result is
`none` only if the depth given to `sortTree` were too small. -/
def ReadTree (fs : Sysfs) (sysfsRoot : String) (visit : MapOrder) :
    Option (Forest × Option String) :=
  let devicesPath := filepath.Join [sysfsRoot, "bus", "pci", "devices"]
  match fs.ReadDir devicesPath with
  | .error err =>
    some (⟨[], []⟩, some ("read pci devices from " ++ devicesPath ++ ": " ++ err.msg))
  | .ok entries =>
    match readTreeLoop fs devicesPath entries [] [] with
    | (_, _, some err) => some (⟨[], []⟩, some err)
    | (nodes, parents, none) => (buildForest nodes parents visit).map (fun forest => (forest, none))

/-! ## bandwidth_map.go -/

/-- LaneCounts tracks the standard lane widths we report. -/
def LaneCounts : List Int := [1, 2, 4, 8, 16]

/-- VersionBandwidth defines theoretical single-direction PCIe throughput. -/
structure VersionBandwidth where
  Version : String
  TransferRateGTps : Float64
  ThroughputGBps : GoMap Int Float64
  deriving DecidableEq

def buildVersionBandwidth (version : String) (transferRateGTps x1GBps : Float64) :
    VersionBandwidth :=
  { Version := version
    TransferRateGTps := transferRateGTps
    ThroughputGBps :=
      [(1, x1GBps),
       (2, Float64.mul x1GBps (Float64.fin 2)),
       (4, Float64.mul x1GBps (Float64.fin 4)),
       (8, Float64.mul x1GBps (Float64.fin 8)),
       (16, Float64.mul x1GBps (Float64.fin 16))] }

/-- VersionBandwidthMap contains PCIe generation capabilities used for expected throughput
checks. -/
def VersionBandwidthMap : GoMap String VersionBandwidth :=
  [("1.0", buildVersionBandwidth "1.0" (Float64.fin (25 / 10)) (Float64.fin (250000 / 1000000))),
   ("2.0", buildVersionBandwidth "2.0" (Float64.fin 5) (Float64.fin (500000 / 1000000))),
   ("3.0", buildVersionBandwidth "3.0" (Float64.fin 8) (Float64.fin (984615 / 1000000))),
   ("4.0", buildVersionBandwidth "4.0" (Float64.fin 16) (Float64.fin (1969231 / 1000000))),
   ("5.0", buildVersionBandwidth "5.0" (Float64.fin 32) (Float64.fin (3938462 / 1000000)))]

/-- The two errors of `ThroughputGBps`, each with the value it names:
`fmt.Errorf("unsupported PCIe version %q", version)` and
`fmt.Errorf("unsupported lane count %d", lanes)`. -/
inductive ThroughputError where
  | unsupportedVersion (version : String)
  | unsupportedLaneCount (lanes : Int)
  deriving DecidableEq

/-- ThroughputGBps returns the theoretical single-direction throughput for a version/lane
combination. -/
def ThroughputGBps (version : String) (lanes : Int) : Float64 × Option ThroughputError :=
  match mapGet VersionBandwidthMap version with
  | none => (Float64.fin 0, some (ThroughputError.unsupportedVersion version))
  | some entry =>
    match mapGet entry.ThroughputGBps lanes with
    | none => (Float64.fin 0, some (ThroughputError.unsupportedLaneCount lanes))
    | some throughput => (throughput, none)

/-! ## handler.go -/

/-- Go's `strings.NewReplacer(oldnew...).Replace`, for old strings that are not empty: the
text is scanned from left to right; where an old string begins, its new string is written
and the scan goes on behind it, an earlier pair winning over a later one; any other
character is copied.  The first argument counts the characters of a matched old string
still to be passed over. -/
def replaceLoop (oldnew : List (String × String)) : Nat → List Char → List Char
  | _, [] => []
  | skip + 1, _ :: rest => replaceLoop oldnew skip rest
  | 0, c :: rest =>
    match oldnew.find? (fun pair => pair.1.data.isPrefixOf (c :: rest)) with
    | some pair => pair.2.data ++ replaceLoop oldnew (pair.1.data.length - 1) rest
    | none => c :: replaceLoop oldnew 0 rest

def strings.Replacer.Replace (oldnew : List (String × String)) (s : String) : String :=
  ⟨replaceLoop oldnew 0 s.data⟩

/-- Source: `escapeLabelValue`.  The old and new strings written as raw string literals in
the source keep each backslash they show: the first old string is two backslashes, and
the three new strings are four backslashes, two backslashes and a double quote, and two
backslashes and the letter `n`. -/
def escapeLabelValue (value : String) : String :=
  strings.Replacer.Replace
    [("\\\\", "\\\\\\\\"),
     ("\"", "\\\\\""),
     ("\n", "\\\\n")] value

/-! ## main.go -/

/-- Source: `resolveSysfsRoot`; `os.Getenv` is the first argument. -/
def resolveSysfsRoot (getenv : String → String) (sysfsRootFlag : String) : String :=
  if sysfsRootFlag ≠ "" then sysfsRootFlag
  else
    let fromEnv := getenv "PCIE_EXPORTER_SYSFS"
    if fromEnv ≠ "" then fromEnv
    else "/sys"

/-! ## Notions used to state the properties -/

/-- The first maximal run of decimal digits of a character sequence. -/
def firstDigitRun (l : List Char) : List Char :=
  (l.dropWhile (fun c => !isDigit c)).takeWhile isDigit

/-- The four link attributes a device must provide. -/
def linkAttributes : List String :=
  ["current_link_speed", "max_link_speed", "current_link_width", "max_link_width"]

/-- The attributes read for a device once its link attributes are all present. -/
def identityAttributes : List String := ["vendor", "device", "class"]

/-- The path of an attribute file of a directory entry. -/
def attributePath (devicesPath name attr : String) : String :=
  filepath.Join [filepath.Join [devicesPath, name], attr]

/-- The attribute file is present: reading it yields text. -/
def attrPresent (fs : Sysfs) (devicesPath name attr : String) : Bool :=
  match fs.ReadFile (attributePath devicesPath name attr) with
  | .ok _ => true
  | .error _ => false

/-- Reading the attribute file fails with an error other than "file does not exist". -/
def attrFails (fs : Sysfs) (devicesPath name attr : String) : Bool :=
  match fs.ReadFile (attributePath devicesPath name attr) with
  | .ok _ => false
  | .error err => !err.notExist

/-- All four link attributes of the entry are present. -/
def hasLinkAttributes (fs : Sysfs) (devicesPath name : String) : Bool :=
  linkAttributes.all (attrPresent fs devicesPath name)

/-- An attribute read that `readDevice` performs on the entry fails with an error other
than "file does not exist": one of the four link attributes, or, when these are all
present, one of `vendor`, `device`, `class`. -/
def entryFails (fs : Sysfs) (devicesPath name : String) : Bool :=
  linkAttributes.any (attrFails fs devicesPath name) ||
    (hasLinkAttributes fs devicesPath name && identityAttributes.any (attrFails fs devicesPath name))

/-- A ratio is the undefined marker or a finite value strictly greater than 0. -/
def undefinedOrPositive (r : Float64) : Prop := r = Float64.nan ∨ ∃ q : ℚ, r = Float64.fin q ∧ 0 < q

/-- The directory `ReadDevices` lists. -/
def devicesDir (sysfsRoot : String) : String := filepath.Join [sysfsRoot, "bus", "pci", "devices"]

/-- The canonical width form: the letter `x` followed by one or more decimal digits. -/
def isCanonicalWidth (s : String) : Prop :=
  ∃ ds : List Char, ds ≠ [] ∧ (∀ c ∈ ds, isDigit c = true) ∧ s = ⟨'x' :: ds⟩

/-- A string with its `0x` or `0X` prefix removed, when it has one. -/
def withoutHexPrefix (s : String) : String :=
  if strings.HasPrefix s "0x" || strings.HasPrefix s "0X" then ⟨s.data.drop 2⟩ else s

/-- The node below which `ReadTree` attaches a device: its resolved parent, when that is
an enumerated device. -/
def attachedParent (nodes : GoMap String TreeNode) (parents : GoMap String String)
    (address : String) : Option String :=
  match mapGet parents address with
  | some parentAddress =>
    if (mapGet nodes parentAddress).isSome then some parentAddress else none
  | none => none

/-- Following `par` from `address` ends after `k` steps at an address without parent. -/
def atLevel (par : String → Option String) : Nat → String → Prop
  | 0, address => par address = none
  | k + 1, address => ∃ p, par address = some p ∧ atLevel par k p

/-- The pointer `c` is in the child list of the node behind the pointer `p`. -/
def isChildOf (nodes : GoMap String TreeNode) (p c : String) : Prop :=
  ∃ node, mapGet nodes p = some node ∧ c ∈ node.Children

/-- The pointer `x` is met when child lists are followed from the roots. -/
def Reaches (forest : Forest) (x : String) : Prop :=
  ∃ r ∈ forest.roots, Relation.ReflTransGen (isChildOf forest.nodes) r x

/-- Two forests are the same tree structure: the same roots in the same order and, at every
pointer met from the roots, the same node with the same children in the same order. -/
def sameForest (f g : Forest) : Prop :=
  f.roots = g.roots ∧ ∀ x, Reaches f x → mapGet f.nodes x = mapGet g.nodes x

/-- The heap `heap` is `heap0` with some child lists sorted: the keys are the same, and
every node is as in `heap0` or has its child list sorted. -/
def sortedFrom (heap0 heap : GoMap String TreeNode) : Prop :=
  mapKeys heap = mapKeys heap0 ∧
  ∀ p n0, mapGet heap0 p = some n0 →
    mapGet heap p = some n0 ∨
    mapGet heap p = some { n0 with Children := sortByBusID heap0 n0.Children }

/-- The node behind `p` has, in `heap`, the sorted child list of its node in `heap0`. -/
def sortedAt (heap0 heap : GoMap String TreeNode) (p : String) : Prop :=
  ∃ n0, mapGet heap0 p = some n0 ∧
    mapGet heap p = some { n0 with Children := sortByBusID heap0 n0.Children }

/-- The forest of the enumerated devices `nodes` under the resolved parents `parents`:
the roots are the devices without attached parent, in strictly ascending order; every
device keeps its fields and has as children the devices attached to it, each once; the
child lists met from the roots are strictly ascending. -/
structure IsForestOf (nodes : GoMap String TreeNode) (parents : GoMap String String)
    (forest : Forest) : Prop where
  roots_mem : ∀ d, d ∈ forest.roots ↔
    d ∈ mapKeys nodes ∧ attachedParent nodes parents d = none
  roots_sorted : forest.roots.Pairwise (fun a b => stringLess a b = true)
  keys : mapKeys forest.nodes = mapKeys nodes
  cell : ∀ p n0, mapGet nodes p = some n0 →
    ∃ n, mapGet forest.nodes p = some n ∧ n.BusID = p ∧ n.Name = n0.Name ∧
      n.LinkCapacity = n0.LinkCapacity ∧ n.LinkStatus = n0.LinkStatus ∧ n.Children.Nodup ∧
      ∀ d, d ∈ n.Children ↔ d ∈ mapKeys nodes ∧ attachedParent nodes parents d = some p
  children_sorted : ∀ x, Reaches forest x → ∀ n, mapGet forest.nodes x = some n →
    n.Children.Pairwise (fun a b => stringLess a b = true)

/-- The traversal of a list of pointers: what `f` lists for each pointer, in turn; `none`
if `f` gives `none` for one of them. -/
def walkList (f : String → Option (List String)) : List String → Option (List String)
  | [] => some []
  | pointer :: rest =>
    match f pointer, walkList f rest with
    | some below, some others => some (below ++ others)
    | _, _ => none

/-- The nodes that the recursion of `sortTree` visits from a pointer on: the node itself,
then what it visits from each child in turn.  A node visited twice is listed twice.  The
first argument bounds the depth; `none` means the bound was too small. -/
def walkNode : Nat → GoMap String TreeNode → String → Option (List String)
  | 0, _, _ => none
  | fuel + 1, heap, pointer =>
    match mapGet heap pointer with
    | none => some [pointer]
    | some node =>
      (walkList (fun child => walkNode fuel heap child) node.Children).map
        (fun below => pointer :: below)

/-- The nodes of a forest, listed by following the child lists from the roots, to a depth
of one more than the number of nodes. -/
def forestNodes (forest : Forest) : Option (List String) :=
  walkList (fun root => walkNode (forest.nodes.length + 1) forest.nodes root) forest.roots

/-- Modelled from the words of the specification: the escaping of one character in a
label value of the Prometheus text format. -/
def prometheusEscapeChar (c : Char) : String :=
  if String.singleton c = "\\" then "\\\\"
  else if String.singleton c = "\"" then "\\\""
  else if String.singleton c = "\n" then "\\n"
  else String.singleton c

/-- Modelled from the words of the specification: every backslash becomes two backslashes,
every double quote a backslash and the quote, every newline a backslash and the letter
`n`, and every other character is copied. -/
def prometheusEscape (value : String) : String :=
  ⟨value.data.flatMap (fun c => (prometheusEscapeChar c).data)⟩

/-! ## Sample snapshots -/

/-- A snapshot of one device with an empty `label` file and a `driver` link. -/
def driverFs : Sysfs where
  ReadDir := fun _ => .ok ["0000:03:00.0"]
  ReadFile := fun path =>
    if path = "/sys/bus/pci/devices/0000:03:00.0/label" then .ok " \n"
    else if path = "/sys/bus/pci/devices/0000:03:00.0/vendor" then .ok "0x144d\n"
    else .error ⟨"open " ++ path ++ ": no such file or directory", true⟩
  EvalSymlinks := fun path =>
    if path = "/sys/bus/pci/devices/0000:03:00.0/driver" then .ok "/sys/bus/pci/drivers/nvme"
    else .ok path

/-- A snapshot of one device without label and driver, whose `vendor` text begins with
`0x0X`. -/
def hexFs : Sysfs where
  ReadDir := fun _ => .ok ["0000:04:00.0"]
  ReadFile := fun path =>
    if path = "/sys/bus/pci/devices/0000:04:00.0/vendor" then .ok "0x0X8086\n"
    else if path = "/sys/bus/pci/devices/0000:04:00.0/device" then .ok "0x1234\n"
    else .error ⟨"open " ++ path ++ ": no such file or directory", true⟩
  EvalSymlinks := fun path =>
    if path = "/sys/bus/pci/devices/0000:04:00.0" then .ok "/sys/devices/pci0000:00/0000:04:00.0"
    else .error ⟨"lstat " ++ path ++ ": no such file or directory", true⟩

/-- The files of a small device tree: a device at full speed and width, a device at half
speed and half width, and a device that lacks `max_link_width`. -/
def sampleFiles : List (String × String) :=
  [("/sys/bus/pci/devices/0000:01:00.0/current_link_speed", "16 GT/s\n"),
   ("/sys/bus/pci/devices/0000:01:00.0/max_link_speed", "16 GT/s\n"),
   ("/sys/bus/pci/devices/0000:01:00.0/current_link_width", "x16\n"),
   ("/sys/bus/pci/devices/0000:01:00.0/max_link_width", "x16\n"),
   ("/sys/bus/pci/devices/0000:01:00.0/vendor", "0x10de\n"),
   ("/sys/bus/pci/devices/0000:01:00.0/device", "0x2331\n"),
   ("/sys/bus/pci/devices/0000:01:00.0/class", "0x030200\n"),
   ("/sys/bus/pci/devices/0000:02:00.0/current_link_speed", "8 GT/s\n"),
   ("/sys/bus/pci/devices/0000:02:00.0/max_link_speed", "16 GT/s\n"),
   ("/sys/bus/pci/devices/0000:02:00.0/current_link_width", "x8\n"),
   ("/sys/bus/pci/devices/0000:02:00.0/max_link_width", "x16\n"),
   ("/sys/bus/pci/devices/0000:02:00.0/vendor", "0x15b3\n"),
   ("/sys/bus/pci/devices/0000:03:00.0/current_link_speed", "8 GT/s\n"),
   ("/sys/bus/pci/devices/0000:03:00.0/max_link_speed", "8 GT/s\n"),
   ("/sys/bus/pci/devices/0000:03:00.0/current_link_width", "x4\n")]

/-- A snapshot holding `sampleFiles`; the directory lists its entries out of order. -/
def sampleFs : Sysfs where
  ReadDir := fun path =>
    if path = "/sys/bus/pci/devices" then .ok ["0000:02:00.0", "0000:03:00.0", "0000:01:00.0"]
    else .error ⟨"open " ++ path ++ ": no such file or directory", true⟩
  ReadFile := fun path =>
    match sampleFiles.lookup path with
    | some text => .ok text
    | none => .error ⟨"open " ++ path ++ ": no such file or directory", true⟩
  EvalSymlinks := fun path => .ok path

/-- The snapshot `sampleFs` with one unreadable attribute file. -/
def brokenFs : Sysfs where
  ReadDir := sampleFs.ReadDir
  ReadFile := fun path =>
    if path = "/sys/bus/pci/devices/0000:03:00.0/max_link_width" then
      .error ⟨"read " ++ path ++ ": input/output error", false⟩
    else sampleFs.ReadFile path
  EvalSymlinks := sampleFs.EvalSymlinks

/-- The device `ReadDevices` builds for entry `0000:01:00.0` of `sampleFs`. -/
def sampleDevice1 : Device :=
  { Address := "0000:01:00.0", VendorID := "0x10de", DeviceID := "0x2331", Class := "0x030200",
    CurrentLinkSpeed := "16 GT/s", MaxLinkSpeed := "16 GT/s", CurrentLinkWidth := "x16",
    MaxLinkWidth := "x16", NegotiatedOK := true, SpeedRatio := Float64.fin 1,
    WidthRatio := Float64.fin 1 }

/-- The device `ReadDevices` builds for entry `0000:02:00.0` of `sampleFs`. -/
def sampleDevice2 : Device :=
  { Address := "0000:02:00.0", VendorID := "0x15b3", DeviceID := "", Class := "",
    CurrentLinkSpeed := "8 GT/s", MaxLinkSpeed := "16 GT/s", CurrentLinkWidth := "x8",
    MaxLinkWidth := "x16", NegotiatedOK := false, SpeedRatio := Float64.fin (1 / 2),
    WidthRatio := Float64.fin (1 / 2) }

/-- The order of first insertion, one possible order of a `range` over a map. -/
def visitInOrder : MapOrder := ⟨fun keys => keys, fun _ => List.Perm.refl _⟩

/-- The reverse of the order of first insertion, another possible order. -/
def visitReversed : MapOrder := ⟨fun keys => keys.reverse, fun keys => List.reverse_perm keys⟩

/-- The attribute files of the topology test: a bridge, a GPU below it, and a NIC without
link attributes. -/
def treeFiles : List (String × String) :=
  [("/sys/bus/pci/devices/0000:00:01.0/vendor", "0x8086\n"),
   ("/sys/bus/pci/devices/0000:00:01.0/device", "0x1234\n"),
   ("/sys/bus/pci/devices/0000:00:01.0/max_link_speed", "16 GT/s PCIe\n"),
   ("/sys/bus/pci/devices/0000:00:01.0/max_link_width", "16\n"),
   ("/sys/bus/pci/devices/0000:00:01.0/current_link_speed", "16 GT/s PCIe\n"),
   ("/sys/bus/pci/devices/0000:00:01.0/current_link_width", "16\n"),
   ("/sys/bus/pci/devices/0000:01:00.0/label", "NVIDIA H100\n"),
   ("/sys/bus/pci/devices/0000:01:00.0/vendor", "0x10de\n"),
   ("/sys/bus/pci/devices/0000:01:00.0/device", "0x2331\n"),
   ("/sys/bus/pci/devices/0000:01:00.0/max_link_speed", "32 GT/s PCIe\n"),
   ("/sys/bus/pci/devices/0000:01:00.0/max_link_width", "16\n"),
   ("/sys/bus/pci/devices/0000:01:00.0/current_link_speed", "16 GT/s PCIe\n"),
   ("/sys/bus/pci/devices/0000:01:00.0/current_link_width", "8\n"),
   ("/sys/bus/pci/devices/0000:02:00.0/vendor", "0x15b3\n"),
   ("/sys/bus/pci/devices/0000:02:00.0/device", "0x1017\n")]

/-- The canonical paths of the topology test; the GPU lies below the bridge. -/
def treeLinks : List (String × String) :=
  [("/sys/bus/pci/devices/0000:00:01.0", "/sys/devices/pci0000:00/0000:00:01.0"),
   ("/sys/bus/pci/devices/0000:01:00.0", "/sys/devices/pci0000:00/0000:00:01.0/0000:01:00.0"),
   ("/sys/bus/pci/devices/0000:02:00.0", "/sys/devices/pci0000:00/0000:02:00.0")]

/-- The snapshot of the topology test.  No device has a `driver` link. -/
def treeFs : Sysfs where
  ReadDir := fun path =>
    if path = "/sys/bus/pci/devices" then .ok ["0000:00:01.0", "0000:01:00.0", "0000:02:00.0"]
    else .error ⟨"open " ++ path ++ ": no such file or directory", true⟩
  ReadFile := fun path =>
    match treeFiles.lookup path with
    | some text => .ok text
    | none => .error ⟨"open " ++ path ++ ": no such file or directory", true⟩
  EvalSymlinks := fun path =>
    match treeLinks.lookup path with
    | some target => .ok target
    | none => .error ⟨"lstat " ++ path ++ ": no such file or directory", true⟩

/-- The forest `ReadTree` returns for `treeFs`. -/
def treeForest : Forest :=
  { roots := ["0000:00:01.0", "0000:02:00.0"]
    nodes :=
      [("0000:00:01.0", ⟨"0000:00:01.0", "8086:1234", "16 GT/s PCIe x16", "16 GT/s PCIe x16",
          ["0000:01:00.0"]⟩),
       ("0000:01:00.0", ⟨"0000:01:00.0", "NVIDIA H100", "32 GT/s PCIe x16", "16 GT/s PCIe x8",
          []⟩),
       ("0000:02:00.0", ⟨"0000:02:00.0", "15b3:1017", "unknown", "unknown", []⟩)] }

/-- The map `nodes` that `ReadTree` fills for `treeFs`. -/
def treeNodes : GoMap String TreeNode :=
  [("0000:00:01.0", ⟨"0000:00:01.0", "8086:1234", "16 GT/s PCIe x16", "16 GT/s PCIe x16", []⟩),
   ("0000:01:00.0", ⟨"0000:01:00.0", "NVIDIA H100", "32 GT/s PCIe x16", "16 GT/s PCIe x8", []⟩),
   ("0000:02:00.0", ⟨"0000:02:00.0", "15b3:1017", "unknown", "unknown", []⟩)]

/-- The map `parents` that `ReadTree` fills for `treeFs`. -/
def treeParents : GoMap String String := [("0000:01:00.0", "0000:00:01.0")]

/-- A snapshot of one device whose canonical path names its own address twice, so that
the device resolves to itself as parent. -/
def selfParentFs : Sysfs where
  ReadDir := fun path =>
    if path = "/sys/bus/pci/devices" then .ok ["0000:00:01.0"]
    else .error ⟨"open " ++ path ++ ": no such file or directory", true⟩
  ReadFile := fun path => .error ⟨"open " ++ path ++ ": no such file or directory", true⟩
  EvalSymlinks := fun path =>
    if path = "/sys/bus/pci/devices/0000:00:01.0" then
      .ok "/sys/devices/pci0000:00/0000:00:01.0/0000:00:01.0"
    else .error ⟨"lstat " ++ path ++ ": no such file or directory", true⟩

/-- The forest `ReadTree` returns for `selfParentFs`: no root. -/
def selfParentForest : Forest :=
  { roots := []
    nodes :=
      [("0000:00:01.0", ⟨"0000:00:01.0", "0000:00:01.0", "unknown", "unknown",
          ["0000:00:01.0"]⟩)] }

/-- A snapshot of three devices: the canonical paths of the first two name each other as
parent, the third has no parent. -/
def cycleFs : Sysfs where
  ReadDir := fun path =>
    if path = "/sys/bus/pci/devices" then .ok ["0000:00:01.0", "0000:01:00.0", "0000:02:00.0"]
    else .error ⟨"open " ++ path ++ ": no such file or directory", true⟩
  ReadFile := fun path => .error ⟨"open " ++ path ++ ": no such file or directory", true⟩
  EvalSymlinks := fun path =>
    if path = "/sys/bus/pci/devices/0000:00:01.0" then
      .ok "/sys/devices/pci0000:00/0000:01:00.0/0000:00:01.0"
    else if path = "/sys/bus/pci/devices/0000:01:00.0" then
      .ok "/sys/devices/pci0000:00/0000:00:01.0/0000:01:00.0"
    else if path = "/sys/bus/pci/devices/0000:02:00.0" then
      .ok "/sys/devices/pci0000:00/0000:02:00.0"
    else .error ⟨"lstat " ++ path ++ ": no such file or directory", true⟩

/-- The forest `ReadTree` returns for `cycleFs`: one root; the two devices of the cycle
hold each other as child and are not met from the root. -/
def cycleForest : Forest :=
  { roots := ["0000:02:00.0"]
    nodes :=
      [("0000:00:01.0", ⟨"0000:00:01.0", "0000:00:01.0", "unknown", "unknown",
          ["0000:01:00.0"]⟩),
       ("0000:01:00.0", ⟨"0000:01:00.0", "0000:01:00.0", "unknown", "unknown",
          ["0000:00:01.0"]⟩),
       ("0000:02:00.0", ⟨"0000:02:00.0", "0000:02:00.0", "unknown", "unknown", []⟩)] }

/-! # Theorems -/

/-! ## Digits, white space and `parseFirstInt` -/

theorem isDigit_iff (c : Char) : isDigit c = true ↔ 48 ≤ c.toNat ∧ c.toNat ≤ 57 := by
  unfold isDigit
  simp only [Bool.and_eq_true, decide_eq_true_eq]
  have h0 : ('0' : Char).toNat = 48 := by decide
  have h9 : ('9' : Char).toNat = 57 := by decide
  rw [Char.le_def, Char.le_def]
  constructor
  · rintro ⟨h1, h2⟩
    have h1' : ('0' : Char).val.toNat ≤ c.val.toNat := h1
    have h2' : c.val.toNat ≤ ('9' : Char).val.toNat := h2
    exact ⟨h1', h2'⟩
  · rintro ⟨h1, h2⟩
    exact ⟨h1, h2⟩

theorem isSpace_not_digit (c : Char) (h : isDigit c = true) : unicode.IsSpace c = false := by
  rw [isDigit_iff] at h
  unfold unicode.IsSpace
  simp
  omega

theorem firstDigitRun_cons_digit (c : Char) (cs : List Char) (h : isDigit c = true) :
    firstDigitRun (c :: cs) = c :: cs.takeWhile isDigit := by
  simp [firstDigitRun, List.dropWhile, List.takeWhile, h]

theorem firstDigitRun_cons_other (c : Char) (cs : List Char) (h : isDigit c = false) :
    firstDigitRun (c :: cs) = firstDigitRun cs := by
  simp [firstDigitRun, List.dropWhile, h]

theorem firstDigitRun_nil_of_no_digit (l : List Char) (h : ∀ c ∈ l, isDigit c = false) :
    firstDigitRun l = [] := by
  induction l with
  | nil => rfl
  | cons c cs ih =>
    rw [firstDigitRun_cons_other c cs (h c (List.mem_cons_self _ _))]
    exact ih (fun d hd => h d (List.mem_cons_of_mem _ hd))

theorem takeWhile_digit_append_spaces (a b : List Char)
    (hb : ∀ c ∈ b, unicode.IsSpace c = true) :
    (a ++ b).takeWhile isDigit = a.takeWhile isDigit := by
  induction a with
  | nil =>
    cases b with
    | nil => rfl
    | cons c cs =>
      have hc : isDigit c = false := by
        cases hd : isDigit c with
        | false => rfl
        | true =>
          have := isSpace_not_digit c hd
          rw [hb c (List.mem_cons_self _ _)] at this
          cases this
      simp [List.takeWhile, hc]
  | cons x xs ih =>
    cases hx : isDigit x <;> simp [List.takeWhile, hx, ih]

theorem firstDigitRun_append_spaces (a b : List Char)
    (hb : ∀ c ∈ b, unicode.IsSpace c = true) :
    firstDigitRun (a ++ b) = firstDigitRun a := by
  induction a with
  | nil =>
    apply firstDigitRun_nil_of_no_digit
    intro c hc
    cases hd : isDigit c with
    | false => rfl
    | true =>
      have := isSpace_not_digit c hd
      rw [hb c (by simpa using hc)] at this
      cases this
  | cons x xs ih =>
    cases hx : isDigit x with
    | false =>
      rw [List.cons_append, firstDigitRun_cons_other x _ hx, firstDigitRun_cons_other x _ hx, ih]
    | true =>
      rw [List.cons_append, firstDigitRun_cons_digit x _ hx, firstDigitRun_cons_digit x _ hx,
        takeWhile_digit_append_spaces xs b hb]

theorem firstDigitRun_spaces_append (a b : List Char)
    (ha : ∀ c ∈ a, unicode.IsSpace c = true) :
    firstDigitRun (a ++ b) = firstDigitRun b := by
  induction a with
  | nil => rfl
  | cons x xs ih =>
    have hx : isDigit x = false := by
      cases hd : isDigit x with
      | false => rfl
      | true =>
        have := isSpace_not_digit x hd
        rw [ha x (List.mem_cons_self _ _)] at this
        cases this
    rw [List.cons_append, firstDigitRun_cons_other x _ hx]
    exact ih (fun d hd => ha d (List.mem_cons_of_mem _ hd))

/-- Trimming splits a sequence into leading white space, the trimmed text and trailing
white space. -/
theorem trimSpaceChars_decomp (l : List Char) :
    ∃ a b, l = a ++ trimSpaceChars l ++ b ∧ (∀ c ∈ a, unicode.IsSpace c = true) ∧
      (∀ c ∈ b, unicode.IsSpace c = true) := by
  refine ⟨l.takeWhile unicode.IsSpace,
    ((l.dropWhile unicode.IsSpace).reverse.takeWhile unicode.IsSpace).reverse, ?_, ?_, ?_⟩
  · unfold trimSpaceChars
    rw [List.append_assoc, ← List.reverse_append, List.takeWhile_append_dropWhile,
      List.reverse_reverse, List.takeWhile_append_dropWhile]
  · intro c hc
    exact List.mem_takeWhile_imp hc
  · intro c hc
    rw [List.mem_reverse] at hc
    exact List.mem_takeWhile_imp hc

theorem firstDigitRun_trim (l : List Char) :
    firstDigitRun (trimSpaceChars l) = firstDigitRun l := by
  obtain ⟨a, b, hl, ha, hb⟩ := trimSpaceChars_decomp l
  conv_rhs => rw [hl]
  rw [firstDigitRun_append_spaces _ b hb, firstDigitRun_spaces_append a _ ha]

theorem firstDigitIndex_none (l : List Char) (i : Nat) (h : ∀ c ∈ l, isDigit c = false) :
    firstDigitIndex l i = none := by
  induction l generalizing i with
  | nil => rfl
  | cons c cs ih =>
    simp only [firstDigitIndex, h c (List.mem_cons_self _ _)]
    exact ih (i + 1) (fun d hd => h d (List.mem_cons_of_mem _ hd))

theorem digitRunEnd_eq (l : List Char) (e : Nat) :
    digitRunEnd l e = e + (l.takeWhile isDigit).length := by
  induction l generalizing e with
  | nil => rfl
  | cons c cs ih =>
    cases hc : isDigit c with
    | false => simp [digitRunEnd, List.takeWhile, hc]
    | true =>
      simp only [digitRunEnd, List.takeWhile, hc, if_true, List.length_cons]
      rw [ih]
      omega

theorem take_length_takeWhile (p : Char → Bool) (l : List Char) :
    l.take (l.takeWhile p).length = l.takeWhile p := by
  induction l with
  | nil => rfl
  | cons c cs ih =>
    cases hc : p c with
    | false => simp [List.takeWhile, hc]
    | true => simp [List.takeWhile, hc, ih]

/-- When a digit exists, the index found is in range and the slice that `parseFirstInt`
cuts out is the first maximal run of digits. -/
theorem firstDigitIndex_slice (l : List Char) (h : ∃ c ∈ l, isDigit c = true) :
    ∃ start, firstDigitIndex l 0 = some start ∧
      sliceChars l start (digitRunEnd (l.drop start) start) = firstDigitRun l := by
  have key : ∀ (l : List Char) (i : Nat), (∃ c ∈ l, isDigit c = true) →
      ∃ k, firstDigitIndex l i = some (i + k) ∧
        (l.drop k).takeWhile isDigit = firstDigitRun l := by
    intro l
    induction l with
    | nil => intro i h; obtain ⟨c, hc, _⟩ := h; cases hc
    | cons c cs ih =>
      intro i h
      cases hc : isDigit c with
      | true =>
        refine ⟨0, ?_, ?_⟩
        · simp [firstDigitIndex, hc]
        · rw [firstDigitRun_cons_digit c cs hc]
          simp [List.takeWhile, hc]
      | false =>
        have h' : ∃ d ∈ cs, isDigit d = true := by
          obtain ⟨d, hd, hdd⟩ := h
          rcases List.mem_cons.mp hd with rfl | hd
          · rw [hc] at hdd; cases hdd
          · exact ⟨d, hd, hdd⟩
        obtain ⟨k, hk1, hk2⟩ := ih (i + 1) h'
        refine ⟨k + 1, ?_, ?_⟩
        · simp only [firstDigitIndex, hc]
          rw [hk1]
          simp
          omega
        · rw [firstDigitRun_cons_other c cs hc, ← hk2]
          rfl
  obtain ⟨k, hk1, hk2⟩ := key l 0 h
  refine ⟨k, by simpa using hk1, ?_⟩
  unfold sliceChars
  rw [digitRunEnd_eq, Nat.add_sub_cancel_left, ← hk2]
  exact take_length_takeWhile _ _

theorem digitsValue_run_atoi (ds : List Char) (hne : ds ≠ []) (hall : ∀ c ∈ ds, isDigit c = true) :
    strconv.Atoi ⟨ds⟩ =
      if digitsValue ds < 2 ^ 63 then some (digitsValue ds : Int) else none := by
  obtain ⟨d, t, rfl⟩ := List.exists_cons_of_ne_nil hne
  have hd : isDigit d = true := hall d (List.mem_cons_self _ _)
  have hminus : d ≠ '-' := by
    rintro rfl
    revert hd
    decide
  have hplus : d ≠ '+' := by
    rintro rfl
    revert hd
    decide
  have hall' : (d :: t).all isDigit = true := by
    rw [List.all_eq_true]
    exact hall
  unfold strconv.Atoi
  have hm : (match (String.mk (d :: t)).data with
      | '-' :: r => (true, r)
      | '+' :: r => (false, r)
      | r => (false, r) : Bool × List Char) = (false, d :: t) := by
    show (match d :: t with
      | '-' :: r => (true, r)
      | '+' :: r => (false, r)
      | r => (false, r) : Bool × List Char) = (false, d :: t)
    split
    · rename_i heq; injection heq with h1 _; exact absurd h1 hminus
    · rename_i heq; injection heq with h1 _; exact absurd h1 hplus
    · rfl
  simp only [hm, hall']
  have h2 : -(2 : Int) ^ 63 ≤ (digitsValue (d :: t) : Int) := by
    have : (0 : Int) ≤ (digitsValue (d :: t) : Int) := Int.natCast_nonneg _
    omega
  by_cases hfit : digitsValue (d :: t) < 2 ^ 63
  · have h1 : (digitsValue (d :: t) : Int) < 2 ^ 63 := by exact_mod_cast hfit
    simp only [Bool.not_true, Bool.or_false, List.isEmpty_cons, Bool.false_eq_true, if_false]
    rw [if_pos ⟨h2, h1⟩, if_pos hfit]
  · have h1 : ¬ (digitsValue (d :: t) : Int) < 2 ^ 63 := by
      intro h; apply hfit; exact_mod_cast h
    simp only [Bool.not_true, Bool.or_false, List.isEmpty_cons, Bool.false_eq_true, if_false]
    rw [if_neg (fun h => h1 h.2), if_neg hfit]

theorem firstDigitRun_all_digits (l : List Char) : ∀ c ∈ firstDigitRun l, isDigit c = true := by
  intro c hc
  exact List.mem_takeWhile_imp hc

theorem firstDigitRun_ne_nil (l : List Char) (h : ∃ c ∈ l, isDigit c = true) :
    firstDigitRun l ≠ [] := by
  induction l with
  | nil => obtain ⟨c, hc, _⟩ := h; cases hc
  | cons c cs ih =>
    cases hc : isDigit c with
    | true => rw [firstDigitRun_cons_digit c cs hc]; exact List.cons_ne_nil _ _
    | false =>
      rw [firstDigitRun_cons_other c cs hc]
      apply ih
      obtain ⟨d, hd, hdd⟩ := h
      rcases List.mem_cons.mp hd with rfl | hd
      · rw [hc] at hdd; cases hdd
      · exact ⟨d, hd, hdd⟩

theorem exists_digit_of_run_ne_nil (l : List Char) (h : firstDigitRun l ≠ []) :
    ∃ c ∈ l, isDigit c = true := by
  by_contra hno
  apply h
  apply firstDigitRun_nil_of_no_digit
  intro c hc
  cases hd : isDigit c with
  | false => rfl
  | true => exact absurd ⟨c, hc, hd⟩ hno

/-- What `parseFirstInt` computes, in terms of the first maximal run of digits. -/
theorem parseFirstInt_eq (s : String) :
    parseFirstInt s =
      if firstDigitRun s.data = [] then (0, false)
      else if digitsValue (firstDigitRun s.data) < 2 ^ 63 then
        ((digitsValue (firstDigitRun s.data) : Int), true)
      else (0, false) := by
  have hrun := firstDigitRun_trim s.data
  unfold parseFirstInt
  by_cases hnil : firstDigitRun s.data = []
  · rw [if_pos hnil]
    have hno : ∀ c ∈ trimSpaceChars s.data, isDigit c = false := by
      intro c hc
      cases hd : isDigit c with
      | false => rfl
      | true =>
        exact absurd (hrun ▸ hnil) (firstDigitRun_ne_nil _ ⟨c, hc, hd⟩)
    simp only [strings.TrimSpace]
    rw [firstDigitIndex_none _ 0 hno]
    split <;> rfl
  · rw [if_neg hnil]
    have hex : ∃ c ∈ trimSpaceChars s.data, isDigit c = true :=
      exists_digit_of_run_ne_nil _ (by rw [hrun]; exact hnil)
    obtain ⟨start, hs1, hs2⟩ := firstDigitIndex_slice _ hex
    have hne : (strings.TrimSpace s) ≠ "" := by
      intro h
      obtain ⟨c, hc, _⟩ := hex
      have : (strings.TrimSpace s).data = [] := by rw [h]
      simp only [strings.TrimSpace] at this
      rw [this] at hc
      cases hc
    rw [if_neg hne]
    simp only [strings.TrimSpace]
    rw [hs1]
    simp only
    rw [hs2, hrun, digitsValue_run_atoi _ hnil (firstDigitRun_all_digits _)]
    by_cases hfit : digitsValue (firstDigitRun s.data) < 2 ^ 63
    · rw [if_pos hfit, if_pos hfit]
    · rw [if_neg hfit, if_neg hfit]

/-! ## Fields and `parseLeadingFloat` -/

theorem fieldsAux_spaces_nil (b : List Char) (hb : ∀ c ∈ b, unicode.IsSpace c = true) :
    fieldsAux b [] = [] := by
  induction b with
  | nil => rfl
  | cons c cs ih =>
    simp only [fieldsAux, hb c (List.mem_cons_self _ _), if_true, List.isEmpty_nil]
    exact ih (fun d hd => hb d (List.mem_cons_of_mem _ hd))

theorem fieldsAux_spaces (b cur : List Char) (hb : ∀ c ∈ b, unicode.IsSpace c = true) :
    fieldsAux b cur = fieldsAux [] cur := by
  cases b with
  | nil => rfl
  | cons c cs =>
    have hcs := fieldsAux_spaces_nil cs (fun d hd => hb d (List.mem_cons_of_mem _ hd))
    cases cur with
    | nil => simp [fieldsAux, hb c (List.mem_cons_self _ _), hcs]
    | cons x xs => simp [fieldsAux, hb c (List.mem_cons_self _ _), hcs]

theorem fieldsAux_append_spaces (a b cur : List Char)
    (hb : ∀ c ∈ b, unicode.IsSpace c = true) :
    fieldsAux (a ++ b) cur = fieldsAux a cur := by
  induction a generalizing cur with
  | nil => exact fieldsAux_spaces b cur hb
  | cons x xs ih =>
    rw [List.cons_append]
    simp only [fieldsAux]
    rw [ih, ih]

theorem fieldsAux_spaces_append (a b : List Char) (ha : ∀ c ∈ a, unicode.IsSpace c = true) :
    fieldsAux (a ++ b) [] = fieldsAux b [] := by
  induction a with
  | nil => rfl
  | cons x xs ih =>
    simp only [List.cons_append, fieldsAux, ha x (List.mem_cons_self _ _), if_true,
      List.isEmpty_nil]
    exact ih (fun d hd => ha d (List.mem_cons_of_mem _ hd))

/-- Trimming does not change the fields of a string. -/
theorem fields_trimSpace (s : String) : strings.Fields (strings.TrimSpace s) = strings.Fields s := by
  obtain ⟨a, b, hl, ha, hb⟩ := trimSpaceChars_decomp s.data
  unfold strings.Fields strings.TrimSpace
  conv_rhs => rw [hl]
  rw [fieldsAux_append_spaces _ b _ hb, fieldsAux_spaces_append a _ ha]

/-- What `parseLeadingFloat` computes, in terms of the first field of the string. -/
theorem parseLeadingFloat_eq (s : String) :
    parseLeadingFloat s =
      match (strings.Fields s).head? with
      | none => (Float64.fin 0, false)
      | some f =>
        match strconv.ParseFloat f with
        | none => (Float64.fin 0, false)
        | some v => (v, true) := by
  unfold parseLeadingFloat
  rw [fields_trimSpace]
  cases strings.Fields s <;> rfl

/-! ## `readDevice` -/

/-- The three outcomes of `readOptionalTrim`, by the outcome of the read. -/
theorem readOptionalTrim_cases (fs : Sysfs) (path : String) :
    (∃ buf, fs.ReadFile path = .ok buf ∧
      readOptionalTrim fs path = (strings.TrimSpace buf, true, none)) ∨
    (∃ err, fs.ReadFile path = .error err ∧ err.notExist = true ∧
      readOptionalTrim fs path = ("", false, none)) ∨
    (∃ err, fs.ReadFile path = .error err ∧ err.notExist = false ∧
      readOptionalTrim fs path = ("", false, some err.msg)) := by
  unfold readOptionalTrim
  cases h : fs.ReadFile path with
  | ok buf => exact Or.inl ⟨buf, rfl, rfl⟩
  | error err =>
    cases hn : err.notExist with
    | true => exact Or.inr (Or.inl ⟨err, rfl, hn, by simp [hn]⟩)
    | false => exact Or.inr (Or.inr ⟨err, rfl, hn, by simp [hn]⟩)

/-- A device is emitted only when its four link attributes are present, and it is built
from the trimmed attribute texts. -/
theorem readDevice_emitted (fs : Sysfs) (devicePath address : String) (d : Device)
    (h : readDevice fs devicePath address = (d, true, none)) :
    ∃ cs ms cw mw ve de cl : String,
      readOptionalTrim fs (filepath.Join [devicePath, "current_link_speed"]) = (cs, true, none) ∧
      readOptionalTrim fs (filepath.Join [devicePath, "max_link_speed"]) = (ms, true, none) ∧
      readOptionalTrim fs (filepath.Join [devicePath, "current_link_width"]) = (cw, true, none) ∧
      readOptionalTrim fs (filepath.Join [devicePath, "max_link_width"]) = (mw, true, none) ∧
      d = { Address := address, VendorID := ve, DeviceID := de, Class := cl,
            CurrentLinkSpeed := cs, MaxLinkSpeed := ms, CurrentLinkWidth := cw,
            MaxLinkWidth := mw,
            NegotiatedOK := (compareSpeed cs ms).2 && (compareWidth cw mw).2,
            SpeedRatio := (compareSpeed cs ms).1, WidthRatio := (compareWidth cw mw).1 } := by
  unfold readDevice at h
  rcases readOptionalTrim_cases fs (filepath.Join [devicePath, "current_link_speed"]) with
    ⟨b1, _, e1⟩ | ⟨x1, _, _, e1⟩ | ⟨x1, _, _, e1⟩ <;>
  rcases readOptionalTrim_cases fs (filepath.Join [devicePath, "max_link_speed"]) with
    ⟨b2, _, e2⟩ | ⟨x2, _, _, e2⟩ | ⟨x2, _, _, e2⟩ <;>
  rcases readOptionalTrim_cases fs (filepath.Join [devicePath, "current_link_width"]) with
    ⟨b3, _, e3⟩ | ⟨x3, _, _, e3⟩ | ⟨x3, _, _, e3⟩ <;>
  rcases readOptionalTrim_cases fs (filepath.Join [devicePath, "max_link_width"]) with
    ⟨b4, _, e4⟩ | ⟨x4, _, _, e4⟩ | ⟨x4, _, _, e4⟩ <;>
  rw [e1, e2, e3, e4] at h <;> simp at h
  rcases readOptionalTrim_cases fs (filepath.Join [devicePath, "vendor"]) with
    ⟨b5, _, e5⟩ | ⟨x5, _, _, e5⟩ | ⟨x5, _, _, e5⟩ <;>
  rcases readOptionalTrim_cases fs (filepath.Join [devicePath, "device"]) with
    ⟨b6, _, e6⟩ | ⟨x6, _, _, e6⟩ | ⟨x6, _, _, e6⟩ <;>
  rcases readOptionalTrim_cases fs (filepath.Join [devicePath, "class"]) with
    ⟨b7, _, e7⟩ | ⟨x7, _, _, e7⟩ | ⟨x7, _, _, e7⟩ <;>
  rw [e5, e6, e7] at h <;> simp at h <;>
  exact ⟨_, _, _, _, _, _, _, e1, e2, e3, e4, h.symm⟩

/-- The outcome of `readDevice` on a directory entry, by the outcome of its reads. -/
theorem readDevice_outcome (fs : Sysfs) (devicesPath name : String) :
    ((readDevice fs (filepath.Join [devicesPath, name]) name).2.2.isSome =
      entryFails fs devicesPath name) ∧
    ((readDevice fs (filepath.Join [devicesPath, name]) name).2.1 =
      (hasLinkAttributes fs devicesPath name && !entryFails fs devicesPath name)) ∧
    ((readDevice fs (filepath.Join [devicesPath, name]) name).2.1 = true →
      (readDevice fs (filepath.Join [devicesPath, name]) name).1.Address = name) := by
  unfold readDevice entryFails hasLinkAttributes linkAttributes identityAttributes
  simp only [List.all_cons, List.all_nil, List.any_cons, List.any_nil, attrPresent, attrFails,
    attributePath]
  rcases readOptionalTrim_cases fs
      (filepath.Join [filepath.Join [devicesPath, name], "current_link_speed"]) with
    ⟨b1, f1, e1⟩ | ⟨x1, f1, n1, e1⟩ | ⟨x1, f1, n1, e1⟩ <;>
  rcases readOptionalTrim_cases fs
      (filepath.Join [filepath.Join [devicesPath, name], "max_link_speed"]) with
    ⟨b2, f2, e2⟩ | ⟨x2, f2, n2, e2⟩ | ⟨x2, f2, n2, e2⟩ <;>
  rcases readOptionalTrim_cases fs
      (filepath.Join [filepath.Join [devicesPath, name], "current_link_width"]) with
    ⟨b3, f3, e3⟩ | ⟨x3, f3, n3, e3⟩ | ⟨x3, f3, n3, e3⟩ <;>
  rcases readOptionalTrim_cases fs
      (filepath.Join [filepath.Join [devicesPath, name], "max_link_width"]) with
    ⟨b4, f4, e4⟩ | ⟨x4, f4, n4, e4⟩ | ⟨x4, f4, n4, e4⟩ <;>
  rw [e1, e2, e3, e4, f1, f2, f3, f4] <;>
  try (simp [*]; done)
  rcases readOptionalTrim_cases fs
      (filepath.Join [filepath.Join [devicesPath, name], "vendor"]) with
    ⟨b5, f5, e5⟩ | ⟨x5, f5, n5, e5⟩ | ⟨x5, f5, n5, e5⟩ <;>
  rcases readOptionalTrim_cases fs
      (filepath.Join [filepath.Join [devicesPath, name], "device"]) with
    ⟨b6, f6, e6⟩ | ⟨x6, f6, n6, e6⟩ | ⟨x6, f6, n6, e6⟩ <;>
  rcases readOptionalTrim_cases fs
      (filepath.Join [filepath.Join [devicesPath, name], "class"]) with
    ⟨b7, f7, e7⟩ | ⟨x7, f7, n7, e7⟩ | ⟨x7, f7, n7, e7⟩ <;>
  rw [e5, e6, e7, f5, f6, f7] <;>
  simp [*]

/-! ## Byte-wise order of strings and sorting -/

theorem bytesLess_asymm (a b : List Nat) (h : bytesLess a b = true) : bytesLess b a = false := by
  induction a generalizing b with
  | nil => cases b <;> simp [bytesLess] at h ⊢
  | cons x xs ih =>
    cases b with
    | nil => simp [bytesLess] at h
    | cons y ys =>
      simp only [bytesLess, Bool.or_eq_true, Bool.and_eq_true, decide_eq_true_eq,
        beq_iff_eq] at h
      simp only [bytesLess, Bool.or_eq_false_iff, decide_eq_false_iff_not,
        Bool.and_eq_false_iff, beq_eq_false_iff_ne, ne_eq]
      rcases h with h | ⟨rfl, h⟩
      · exact ⟨by omega, Or.inl (by omega)⟩
      · exact ⟨by omega, Or.inr (ih ys h)⟩

theorem bytesLess_trichotomy (a b : List Nat) (h1 : bytesLess a b = false)
    (h2 : bytesLess b a = false) : a = b := by
  induction a generalizing b with
  | nil => cases b <;> simp [bytesLess] at h1 ⊢
  | cons x xs ih =>
    cases b with
    | nil => simp [bytesLess] at h2
    | cons y ys =>
      simp only [bytesLess, Bool.or_eq_false_iff, decide_eq_false_iff_not,
        Bool.and_eq_false_iff, beq_eq_false_iff_ne, ne_eq] at h1 h2
      have hxy : x = y := by omega
      subst hxy
      have t1 : bytesLess xs ys = false := by
        rcases h1.2 with h | h
        · exact absurd rfl h
        · exact h
      have t2 : bytesLess ys xs = false := by
        rcases h2.2 with h | h
        · exact absurd rfl h
        · exact h
      rw [ih ys t1 t2]

theorem bytesLess_trans (a b c : List Nat) (h1 : bytesLess a b = true)
    (h2 : bytesLess b c = true) : bytesLess a c = true := by
  induction a generalizing b c with
  | nil =>
    cases b with
    | nil => simp [bytesLess] at h1
    | cons y ys =>
      cases c with
      | nil => simp [bytesLess] at h2
      | cons z zs => rfl
  | cons x xs ih =>
    cases b with
    | nil => simp [bytesLess] at h1
    | cons y ys =>
      cases c with
      | nil => simp [bytesLess] at h2
      | cons z zs =>
        simp only [bytesLess, Bool.or_eq_true, Bool.and_eq_true, decide_eq_true_eq,
          beq_iff_eq] at h1 h2 ⊢
        rcases h1 with h1 | ⟨rfl, h1⟩
        · rcases h2 with h2 | ⟨rfl, h2⟩
          · exact Or.inl (by omega)
          · exact Or.inl h1
        · rcases h2 with h2 | ⟨rfl, h2⟩
          · exact Or.inl h2
          · exact Or.inr ⟨rfl, ih ys zs h1 h2⟩

/-- The order `¬ (b < a)` is transitive. -/
theorem bytesLess_le_trans (a b c : List Nat) (h1 : bytesLess b a = false)
    (h2 : bytesLess c b = false) : bytesLess c a = false := by
  cases h : bytesLess c a with
  | false => rfl
  | true =>
    cases hab : bytesLess a b with
    | true =>
      have := bytesLess_trans c a b h hab
      rw [h2] at this
      cases this
    | false =>
      have e := bytesLess_trichotomy a b hab h1
      subst e
      rw [h2] at h
      cases h

theorem utf8Bytes_append_inj (c d : Char) (r s : List Nat)
    (h : utf8Bytes c ++ r = utf8Bytes d ++ s) : c = d ∧ r = s := by
  have hc : c.toNat < 0x110000 := by
    have := c.valid
    rcases this with h | ⟨_, h⟩
    · exact lt_trans h (by decide)
    · exact h
  have hd : d.toNat < 0x110000 := by
    have := d.valid
    rcases this with h | ⟨_, h⟩
    · exact lt_trans h (by decide)
    · exact h
  have key : c.toNat = d.toNat ∧ r = s := by
    unfold utf8Bytes at h
    simp only at h
    split_ifs at h <;> simp only [List.cons_append, List.nil_append, List.cons.injEq] at h
    all_goals first
      | (exfalso; omega)
      | (obtain ⟨h1, h2⟩ := h; exact ⟨by omega, h2⟩)
      | (obtain ⟨h1, h2, h3⟩ := h; exact ⟨by omega, h3⟩)
      | (obtain ⟨h1, h2, h3, h4⟩ := h; exact ⟨by omega, h4⟩)
      | (obtain ⟨h1, h2, h3, h4, h5⟩ := h; exact ⟨by omega, h5⟩)
  refine ⟨?_, key.2⟩
  apply Char.ext
  apply UInt32.ext
  exact key.1

theorem stringBytes_injective (a b : String) (h : stringBytes a = stringBytes b) : a = b := by
  have key : ∀ l m : List Char, l.flatMap utf8Bytes = m.flatMap utf8Bytes → l = m := by
    intro l
    induction l with
    | nil =>
      intro m hm
      cases m with
      | nil => rfl
      | cons d ds =>
        exfalso
        simp only [List.flatMap_nil, List.flatMap_cons] at hm
        have hlen := congrArg List.length hm
        simp only [List.length_nil, List.length_append] at hlen
        have : 0 < (utf8Bytes d).length := by
          unfold utf8Bytes
          simp only
          split_ifs <;> simp
        omega
    | cons c cs ih =>
      intro m hm
      cases m with
      | nil =>
        exfalso
        simp only [List.flatMap_nil, List.flatMap_cons] at hm
        have hlen := congrArg List.length hm
        simp only [List.length_nil, List.length_append] at hlen
        have : 0 < (utf8Bytes c).length := by
          unfold utf8Bytes
          simp only
          split_ifs <;> simp
        omega
      | cons d ds =>
        simp only [List.flatMap_cons] at hm
        obtain ⟨h1, h2⟩ := utf8Bytes_append_inj c d _ _ hm
        rw [h1, ih ds h2]
  unfold stringBytes at h
  have := key a.data b.data h
  exact String.ext this

theorem stringLess_of_not_ge (a b : String) (hne : a ≠ b) (h : stringLess b a = false) :
    stringLess a b = true := by
  cases hab : stringLess a b with
  | true => rfl
  | false =>
    exact absurd (stringBytes_injective a b (bytesLess_trichotomy _ _ hab h)) hne

theorem sortByAddress_perm (devices : List Device) : (sortByAddress devices).Perm devices :=
  List.perm_insertionSort _ devices

/-- Sorting devices whose addresses are pairwise distinct yields a strictly ascending
sequence. -/
theorem sortByAddress_strict (devices : List Device)
    (hnodup : (devices.map Device.Address).Nodup) :
    (sortByAddress devices).Pairwise (fun a b => stringLess a.Address b.Address = true) := by
  have htotal : IsTotal Device (fun a b => stringLess b.Address a.Address = false) :=
    ⟨fun a b => by
      cases h : stringLess b.Address a.Address with
      | false => exact Or.inl rfl
      | true => exact Or.inr (bytesLess_asymm _ _ h)⟩
  have htrans : IsTrans Device (fun a b => stringLess b.Address a.Address = false) :=
    ⟨fun _ _ _ h1 h2 => bytesLess_le_trans _ _ _ h1 h2⟩
  have hsorted : (sortByAddress devices).Pairwise
      (fun a b => stringLess b.Address a.Address = false) :=
    List.sorted_insertionSort _ devices
  have hnd : ((sortByAddress devices).map Device.Address).Nodup :=
    ((sortByAddress_perm devices).map Device.Address).nodup_iff.mpr hnodup
  have hne : (sortByAddress devices).Pairwise (fun a b => a.Address ≠ b.Address) := by
    rw [List.Nodup, List.pairwise_map] at hnd
    exact hnd
  exact (hsorted.and hne).imp (fun h => stringLess_of_not_ge _ _ h.2 h.1)

/-! ## The loop of `ReadDevices` -/

/-- The loop of `ReadDevices` stops with an error, and no device, as soon as a read fails
on some entry. -/
theorem readDevicesLoop_error (fs : Sysfs) (devicesPath : String) (entries : List String)
    (acc : List Device) (h : ∃ name ∈ entries, entryFails fs devicesPath name = true) :
    ∃ err, readDevicesLoop fs devicesPath entries acc = ([], some err) := by
  induction entries generalizing acc with
  | nil => obtain ⟨n, hn, _⟩ := h; cases hn
  | cons name rest ih =>
    obtain ⟨hsome, hok, _⟩ := readDevice_outcome fs devicesPath name
    unfold readDevicesLoop
    rcases hr : readDevice fs (filepath.Join [devicesPath, name]) name with ⟨d, ok, err⟩
    rw [hr] at hsome hok
    cases err with
    | some e => cases ok <;> exact ⟨e, rfl⟩
    | none =>
      have hnf : entryFails fs devicesPath name = false := by
        simpa using hsome.symm
      have hrest : ∃ n ∈ rest, entryFails fs devicesPath n = true := by
        obtain ⟨n, hn, hf⟩ := h
        rcases List.mem_cons.mp hn with rfl | hn
        · rw [hnf] at hf; cases hf
        · exact ⟨n, hn, hf⟩
      cases ok with
      | true => exact ih _ hrest
      | false => exact ih _ hrest

/-- When no read fails, the loop of `ReadDevices` ends without error and appends one
device for each entry that has its four link attributes, in listing order. -/
theorem readDevicesLoop_ok (fs : Sysfs) (devicesPath : String) (entries : List String)
    (acc : List Device) (h : ∀ name ∈ entries, entryFails fs devicesPath name = false) :
    ∃ devs, readDevicesLoop fs devicesPath entries acc = (acc ++ devs, none) ∧
      devs.map Device.Address = entries.filter (hasLinkAttributes fs devicesPath) := by
  induction entries generalizing acc with
  | nil => exact ⟨[], by simp [readDevicesLoop], rfl⟩
  | cons name rest ih =>
    obtain ⟨hsome, hok, haddr⟩ := readDevice_outcome fs devicesPath name
    have hnf := h name (List.mem_cons_self _ _)
    have hrest : ∀ n ∈ rest, entryFails fs devicesPath n = false :=
      fun n hn => h n (List.mem_cons_of_mem _ hn)
    unfold readDevicesLoop
    rcases hr : readDevice fs (filepath.Join [devicesPath, name]) name with ⟨d, ok, err⟩
    rw [hr] at hsome hok haddr
    rw [hnf] at hsome hok
    cases err with
    | some e => simp at hsome
    | none =>
      cases ok with
      | true =>
        obtain ⟨devs, h1, h2⟩ := ih (acc ++ [d]) hrest
        have hl : hasLinkAttributes fs devicesPath name = true := by simpa using hok.symm
        refine ⟨d :: devs, ?_, ?_⟩
        · simp only [h1, List.append_assoc, List.singleton_append]
        · simp only [List.map_cons, List.filter_cons, hl, if_true, h2]
          rw [haddr rfl]
      | false =>
        obtain ⟨devs, h1, h2⟩ := ih acc hrest
        have hl : hasLinkAttributes fs devicesPath name = false := by simpa using hok.symm
        refine ⟨devs, h1, ?_⟩
        simp [List.filter_cons, hl, h2]

/-- The result of `ReadDevices`, by cases on the snapshot. -/
theorem ReadDevices_cases (fs : Sysfs) (sysfsRoot : String) :
    (∃ err msg, fs.ReadDir (devicesDir sysfsRoot) = .error err ∧
      ReadDevices fs sysfsRoot = ([], some msg)) ∨
    (∃ entries msg, fs.ReadDir (devicesDir sysfsRoot) = .ok entries ∧
      (∃ name ∈ entries, entryFails fs (devicesDir sysfsRoot) name = true) ∧
      ReadDevices fs sysfsRoot = ([], some msg)) ∨
    (∃ entries devs, fs.ReadDir (devicesDir sysfsRoot) = .ok entries ∧
      (∀ name ∈ entries, entryFails fs (devicesDir sysfsRoot) name = false) ∧
      devs.map Device.Address = entries.filter (hasLinkAttributes fs (devicesDir sysfsRoot)) ∧
      ReadDevices fs sysfsRoot = (sortByAddress devs, none)) := by
  have hdef : ReadDevices fs sysfsRoot =
      match fs.ReadDir (devicesDir sysfsRoot) with
      | .error err =>
        ([], some ("read pci devices from " ++ devicesDir sysfsRoot ++ ": " ++ err.msg))
      | .ok entries =>
        match readDevicesLoop fs (devicesDir sysfsRoot) entries [] with
        | (_, some err) => ([], some err)
        | (devices, none) => (sortByAddress devices, none) := rfl
  rw [hdef]
  cases hdir : fs.ReadDir (devicesDir sysfsRoot) with
  | error err => exact Or.inl ⟨err, _, rfl, rfl⟩
  | ok entries =>
    right
    by_cases hf : ∃ name ∈ entries, entryFails fs (devicesDir sysfsRoot) name = true
    · left
      obtain ⟨e, he⟩ := readDevicesLoop_error fs (devicesDir sysfsRoot) entries [] hf
      refine ⟨entries, e, rfl, hf, ?_⟩
      simp only [he]
    · right
      have hall : ∀ name ∈ entries, entryFails fs (devicesDir sysfsRoot) name = false := by
        intro n hn
        cases hv : entryFails fs (devicesDir sysfsRoot) n with
        | false => rfl
        | true => exact absurd ⟨n, hn, hv⟩ hf
      obtain ⟨devs, h1, h2⟩ := readDevicesLoop_ok fs (devicesDir sysfsRoot) entries [] hall
      refine ⟨entries, devs, rfl, hall, h2, ?_⟩
      simp only [h1, List.nil_append]

/-! ## Rounding to float64 -/

namespace Float64

theorem log2Fuel_spec : ∀ (fuel n : Nat), n ≤ fuel → 0 < n →
    2 ^ log2Fuel fuel n ≤ n ∧ n < 2 ^ (log2Fuel fuel n + 1) := by
  intro fuel
  induction fuel with
  | zero => intro n h1 h2; omega
  | succ fuel ih =>
    intro n h1 h2
    unfold log2Fuel
    by_cases hn : n < 2
    · rw [if_pos hn]
      simp only [pow_zero, zero_add, pow_one]
      omega
    · rw [if_neg hn]
      obtain ⟨ih1, ih2⟩ := ih (n / 2) (by omega) (by omega)
      generalize log2Fuel fuel (n / 2) = l at ih1 ih2
      have e1 : 2 ^ (l + 1) = 2 ^ l * 2 := pow_succ 2 l
      have e2 : 2 ^ (l + 1 + 1) = 2 ^ (l + 1) * 2 := pow_succ 2 (l + 1)
      constructor <;> omega

theorem floorLog2_spec (n : Nat) (h : 0 < n) :
    2 ^ floorLog2 n ≤ n ∧ n < 2 ^ (floorLog2 n + 1) :=
  log2Fuel_spec n n (le_refl n) h

theorem roundHalfEven_ge (a b M : Nat) (hb : 0 < b) (h : M * b ≤ a) :
    M ≤ roundHalfEven a b := by
  have h1 : M ≤ a / b := (Nat.le_div_iff_mul_le hb).mpr h
  unfold roundHalfEven
  split
  · exact h1
  · split
    · omega
    · split
      · exact h1
      · omega

theorem roundHalfEven_le (a b M : Nat) (hb : 0 < b) (h : a ≤ M * b) :
    roundHalfEven a b ≤ M := by
  have hdm := Nat.div_add_mod a b
  have hmod := Nat.mod_lt a hb
  by_cases hlt : a / b < M
  · have hle : roundHalfEven a b ≤ a / b + 1 := by
      unfold roundHalfEven
      split
      · omega
      · split
        · omega
        · split <;> omega
    omega
  · have hq : a / b = M := by
      have : a / b ≤ M := by
        calc a / b ≤ M * b / b := Nat.div_le_div_right h
          _ = M := Nat.mul_div_cancel M hb
      omega
    have hr : a % b = 0 := by
      have : b * (a / b) + a % b ≤ M * b := by rw [hdm]; exact h
      rw [hq, Nat.mul_comm] at this
      omega
    unfold roundHalfEven
    rw [hr, hq]
    simp [hb]

/-- A power of two with an integer exponent, as a quotient of powers with natural
exponents. -/
theorem zpow_two_split (z : Int) :
    (2 : ℚ) ^ z = (2 : ℚ) ^ z.toNat / (2 : ℚ) ^ (-z).toNat := by
  rcases le_total 0 z with h | h
  · have h1 : (-z).toNat = 0 := Int.toNat_eq_zero.mpr (by omega)
    rw [h1, pow_zero, div_one]
    conv_lhs => rw [← Int.toNat_of_nonneg h]
    exact zpow_natCast 2 _
  · have h1 : z.toNat = 0 := Int.toNat_eq_zero.mpr h
    rw [h1, pow_zero, one_div]
    have h2 : z = -(((-z).toNat : Int)) := by
      rw [Int.toNat_of_nonneg (by omega)]; omega
    conv_lhs => rw [h2]
    rw [zpow_neg, zpow_natCast]

/-- The quotient the significand is rounded from, as a rational number. -/
theorem scaled_quotient (N D : Nat) (k : Int) :
    ((N * 2 ^ (-k).toNat : Nat) : ℚ) / ((D * 2 ^ k.toNat : Nat) : ℚ) =
      (N : ℚ) / (D : ℚ) / (2 : ℚ) ^ k := by
  rw [zpow_two_split k]
  push_cast
  have h1 : (2 : ℚ) ^ k.toNat ≠ 0 := pow_ne_zero _ (by norm_num)
  have h2 : (2 : ℚ) ^ (-k).toNat ≠ 0 := pow_ne_zero _ (by norm_num)
  by_cases hD : (D : ℚ) = 0
  · simp [hD]
  · field_simp

theorem binade_spec (N D : Nat) (hN : 0 < N) (hD : 0 < D) :
    (2 : ℚ) ^ binade N D ≤ (N : ℚ) / (D : ℚ) ∧
      (N : ℚ) / (D : ℚ) < (2 : ℚ) ^ (binade N D + 1) := by
  obtain ⟨hN1, hN2⟩ := floorLog2_spec N hN
  obtain ⟨hD1, hD2⟩ := floorLog2_spec D hD
  have hDq : (0 : ℚ) < (D : ℚ) := by exact_mod_cast hD
  have hN1q : (2 : ℚ) ^ (floorLog2 N : Int) ≤ (N : ℚ) := by
    rw [zpow_natCast]; exact_mod_cast hN1
  have hN2q : (N : ℚ) < (2 : ℚ) ^ ((floorLog2 N : Int) + 1) := by
    rw [show ((floorLog2 N : Int) + 1) = ((floorLog2 N + 1 : Nat) : Int) from by push_cast; rfl,
      zpow_natCast]
    exact_mod_cast hN2
  have hD1q : (2 : ℚ) ^ (floorLog2 D : Int) ≤ (D : ℚ) := by
    rw [zpow_natCast]; exact_mod_cast hD1
  have hD2q : (D : ℚ) < (2 : ℚ) ^ ((floorLog2 D : Int) + 1) := by
    rw [show ((floorLog2 D : Int) + 1) = ((floorLog2 D + 1 : Nat) : Int) from by push_cast; rfl,
      zpow_natCast]
    exact_mod_cast hD2
  have h2 : (0 : ℚ) < 2 := by norm_num
  have hup : (N : ℚ) / (D : ℚ) <
      (2 : ℚ) ^ ((floorLog2 N : Int) - (floorLog2 D : Int) + 1) := by
    rw [div_lt_iff₀ hDq]
    calc (N : ℚ) < (2 : ℚ) ^ ((floorLog2 N : Int) + 1) := hN2q
      _ = (2 : ℚ) ^ ((floorLog2 N : Int) - (floorLog2 D : Int) + 1) *
            (2 : ℚ) ^ (floorLog2 D : Int) := by
          rw [← zpow_add₀ (by norm_num : (2 : ℚ) ≠ 0)]; congr 1; ring
      _ ≤ (2 : ℚ) ^ ((floorLog2 N : Int) - (floorLog2 D : Int) + 1) * (D : ℚ) :=
          mul_le_mul_of_nonneg_left hD1q (le_of_lt (zpow_pos h2 _))
  have hlow : (2 : ℚ) ^ ((floorLog2 N : Int) - (floorLog2 D : Int) - 1) ≤
      (N : ℚ) / (D : ℚ) := by
    rw [le_div_iff₀ hDq]
    calc (2 : ℚ) ^ ((floorLog2 N : Int) - (floorLog2 D : Int) - 1) * (D : ℚ)
        ≤ (2 : ℚ) ^ ((floorLog2 N : Int) - (floorLog2 D : Int) - 1) *
            (2 : ℚ) ^ ((floorLog2 D : Int) + 1) :=
          mul_le_mul_of_nonneg_left (le_of_lt hD2q) (le_of_lt (zpow_pos h2 _))
      _ = (2 : ℚ) ^ (floorLog2 N : Int) := by
          rw [← zpow_add₀ (by norm_num : (2 : ℚ) ≠ 0)]; congr 1; ring
      _ ≤ (N : ℚ) := hN1q
  unfold binade
  simp only
  have hcond : D * 2 ^ ((floorLog2 N : Int) - (floorLog2 D : Int)).toNat ≤
      N * 2 ^ (-((floorLog2 N : Int) - (floorLog2 D : Int))).toNat ↔
      (2 : ℚ) ^ ((floorLog2 N : Int) - (floorLog2 D : Int)) ≤ (N : ℚ) / (D : ℚ) := by
    rw [zpow_two_split, le_div_iff₀ hDq, div_mul_eq_mul_div,
      div_le_iff₀ (pow_pos h2 _)]
    rw [mul_comm ((2 : ℚ) ^ _) (D : ℚ)]
    exact_mod_cast Iff.rfl
  by_cases hc : D * 2 ^ ((floorLog2 N : Int) - (floorLog2 D : Int)).toNat ≤
      N * 2 ^ (-((floorLog2 N : Int) - (floorLog2 D : Int))).toNat
  · rw [if_pos hc]
    exact ⟨hcond.mp hc, hup⟩
  · rw [if_neg hc]
    refine ⟨hlow, ?_⟩
    rw [sub_add_cancel]
    exact lt_of_not_le (fun h => hc (hcond.mpr h))

end Float64

namespace Float64

/-- The exponent of the unit in the last place for `N / D`. -/
theorem mantissa_exp (N D : Nat) :
    (mantissa N D).2 = (if binade N D < -1022 then -1022 else binade N D) - 52 := rfl

theorem mantissa_le (N D M : Nat) (hD : 0 < D)
    (h : (N : ℚ) / (D : ℚ) ≤ (M : ℚ) * (2 : ℚ) ^ (mantissa N D).2) :
    (mantissa N D).1 ≤ M := by
  have hb : 0 < D * 2 ^ (mantissa N D).2.toNat := Nat.mul_pos hD (pow_pos (by norm_num) _)
  refine roundHalfEven_le _ _ M hb ?_
  have hbq : (0 : ℚ) < ((D * 2 ^ (mantissa N D).2.toNat : Nat) : ℚ) := by exact_mod_cast hb
  have h2 : (0 : ℚ) < (2 : ℚ) ^ (mantissa N D).2 := zpow_pos (by norm_num) _
  have hq := scaled_quotient N D (mantissa N D).2
  have : ((N * 2 ^ (-(mantissa N D).2).toNat : Nat) : ℚ) /
      ((D * 2 ^ (mantissa N D).2.toNat : Nat) : ℚ) ≤ (M : ℚ) := by
    rw [hq, div_le_iff₀ h2]
    exact h
  rw [div_le_iff₀ hbq] at this
  exact_mod_cast this

theorem mantissa_ge (N D M : Nat) (hD : 0 < D)
    (h : (M : ℚ) * (2 : ℚ) ^ (mantissa N D).2 ≤ (N : ℚ) / (D : ℚ)) :
    M ≤ (mantissa N D).1 := by
  have hb : 0 < D * 2 ^ (mantissa N D).2.toNat := Nat.mul_pos hD (pow_pos (by norm_num) _)
  refine roundHalfEven_ge _ _ M hb ?_
  have hbq : (0 : ℚ) < ((D * 2 ^ (mantissa N D).2.toNat : Nat) : ℚ) := by exact_mod_cast hb
  have h2 : (0 : ℚ) < (2 : ℚ) ^ (mantissa N D).2 := zpow_pos (by norm_num) _
  have hq := scaled_quotient N D (mantissa N D).2
  have : (M : ℚ) ≤ ((N * 2 ^ (-(mantissa N D).2).toNat : Nat) : ℚ) /
      ((D * 2 ^ (mantissa N D).2.toNat : Nat) : ℚ) := by
    rw [hq, le_div_iff₀ h2]
    exact h
  rw [le_div_iff₀ hbq] at this
  exact_mod_cast this

/-- A natural power of two as a value with the exponent of the last place. -/
theorem two_pow_split (j k : Int) (h : k ≤ j) :
    (2 : ℚ) ^ j = ((2 ^ (j - k).toNat : Nat) : ℚ) * (2 : ℚ) ^ k := by
  push_cast
  rw [← zpow_natCast, Int.toNat_of_nonneg (by omega), ← zpow_add₀ (by norm_num : (2 : ℚ) ≠ 0)]
  congr 1
  ring

theorem mantissa_le_pow (N D : Nat) (hN : 0 < N) (hD : 0 < D) :
    (mantissa N D).1 ≤ 2 ^ 53 := by
  obtain ⟨_, hup⟩ := binade_spec N D hN hD
  have hk := mantissa_exp N D
  have hle : binade N D + 1 ≤ (mantissa N D).2 + 53 := by
    rw [hk]; split <;> omega
  have h := mantissa_le N D (2 ^ 53) hD (by
    have e1 : ((2 ^ 53 : Nat) : ℚ) * (2 : ℚ) ^ (mantissa N D).2 =
        (2 : ℚ) ^ ((mantissa N D).2 + 53) := by
      push_cast
      rw [zpow_add₀ (by norm_num : (2 : ℚ) ≠ 0)]
      norm_num
      ring
    rw [e1]
    exact le_trans (le_of_lt hup) (zpow_le_zpow_right₀ (by norm_num) hle))
  exact h

/-- The value of `round64Frac` on a positive fraction. -/
theorem round64Frac_pos (N D : Nat) (hN : 0 < N) (hD : 0 < D) :
    round64Frac false N D =
      if (2 : ℚ) ^ (1024 : Int) ≤ ((mantissa N D).1 : ℚ) * (2 : ℚ) ^ (mantissa N D).2 then posInf
      else fin (((mantissa N D).1 : ℚ) * (2 : ℚ) ^ (mantissa N D).2) := by
  have hn := mantissa_le_pow N D hN hD
  have hcond : (2 ^ 128) ^ 8 ≤ (mantissa N D).1 * 2 ^ (mantissa N D).2.toNat ↔
      (2 : ℚ) ^ (1024 : Int) ≤ ((mantissa N D).1 : ℚ) * (2 : ℚ) ^ (mantissa N D).2 := by
    have e1024 : (2 : ℚ) ^ (1024 : Int) = (((2 ^ 128) ^ 8 : Nat) : ℚ) := by
      norm_num
    rcases le_total 0 (mantissa N D).2 with hk | hk
    · have e2 : (2 : ℚ) ^ (mantissa N D).2 = ((2 ^ (mantissa N D).2.toNat : Nat) : ℚ) := by
        push_cast
        rw [← zpow_natCast, Int.toNat_of_nonneg hk]
      rw [e1024, e2]
      exact_mod_cast Iff.rfl
    · have hz : (mantissa N D).2.toNat = 0 := Int.toNat_eq_zero.mpr hk
      rw [hz, pow_zero, mul_one]
      have hsmall : ((mantissa N D).1 : ℚ) * (2 : ℚ) ^ (mantissa N D).2 ≤ (2 : ℚ) ^ (53 : Int) := by
        have h1 : ((mantissa N D).1 : ℚ) ≤ (2 : ℚ) ^ (53 : Int) := by
          have : ((mantissa N D).1 : ℚ) ≤ ((2 ^ 53 : Nat) : ℚ) := by exact_mod_cast hn
          refine le_trans this (le_of_eq ?_)
          norm_num
        have h2 : (2 : ℚ) ^ (mantissa N D).2 ≤ 1 := zpow_le_one_of_nonpos₀ (by norm_num) hk
        calc ((mantissa N D).1 : ℚ) * (2 : ℚ) ^ (mantissa N D).2
            ≤ ((mantissa N D).1 : ℚ) * 1 :=
              mul_le_mul_of_nonneg_left h2 (Nat.cast_nonneg _)
          _ ≤ (2 : ℚ) ^ (53 : Int) := by rw [mul_one]; exact h1
      have hlt : (2 : ℚ) ^ (53 : Int) < (2 : ℚ) ^ (1024 : Int) :=
        zpow_lt_zpow_right₀ (by norm_num) (by norm_num)
      constructor
      · intro h
        have : (2 ^ 128) ^ 8 ≤ 2 ^ 53 := le_trans h hn
        norm_num at this
      · intro h
        exact absurd (lt_of_le_of_lt (le_trans h hsmall) hlt) (lt_irrefl _)
  unfold round64Frac
  rw [if_neg (by omega)]
  by_cases hc : (2 ^ 128) ^ 8 ≤ (mantissa N D).1 * 2 ^ (mantissa N D).2.toNat
  · rw [if_pos hc, if_pos (hcond.mp hc)]
    simp
  · rw [if_neg hc, if_neg (fun h => hc (hcond.mpr h))]
    simp

end Float64

namespace Float64

theorem mantissa_exp_ge (N D : Nat) : -1074 ≤ (mantissa N D).2 := by
  rw [mantissa_exp]; split <;> omega

theorem mantissa_exp_normal (N D : Nat) (h : -1074 < (mantissa N D).2) :
    (mantissa N D).2 = binade N D - 52 := by
  rw [mantissa_exp] at h ⊢
  split at h
  · omega
  · rename_i hb
    rw [if_neg hb]

theorem two_zpow_add (a b : Int) : (2 : ℚ) ^ (a + b) = (2 : ℚ) ^ a * (2 : ℚ) ^ b :=
  zpow_add₀ (by norm_num) a b

/-- In the normal range the significand is at least `2^52`. -/
theorem mantissa_ge_pow (N D : Nat) (hN : 0 < N) (hD : 0 < D) (h : -1074 < (mantissa N D).2) :
    2 ^ 52 ≤ (mantissa N D).1 := by
  have hk := mantissa_exp_normal N D h
  obtain ⟨hlo, _⟩ := binade_spec N D hN hD
  refine mantissa_ge N D (2 ^ 52) hD ?_
  have e1 : ((2 ^ 52 : Nat) : ℚ) * (2 : ℚ) ^ (mantissa N D).2 = (2 : ℚ) ^ binade N D := by
    have : binade N D = 52 + (mantissa N D).2 := by omega
    rw [this, two_zpow_add]
    norm_num
  rw [e1]
  exact hlo

/-- Rounding does not go below a float64 value that is at most the exact value. -/
theorem mantissa_ge_repr (N D M : Nat) (j : Int) (hN : 0 < N) (hD : 0 < D)
    (hM : M < 2 ^ 53) (hj : -1074 ≤ j) (h : (M : ℚ) * (2 : ℚ) ^ j ≤ (N : ℚ) / (D : ℚ)) :
    (M : ℚ) * (2 : ℚ) ^ j ≤ ((mantissa N D).1 : ℚ) * (2 : ℚ) ^ (mantissa N D).2 := by
  have h2 : (0 : ℚ) < (2 : ℚ) ^ (mantissa N D).2 := zpow_pos (by norm_num) _
  rcases le_or_lt (mantissa N D).2 j with hkj | hkj
  · have hs := two_pow_split j (mantissa N D).2 hkj
    have hge := mantissa_ge N D (M * 2 ^ (j - (mantissa N D).2).toNat) hD (by
      rw [Nat.cast_mul, mul_assoc, ← hs]
      exact h)
    rw [hs, ← mul_assoc, ← Nat.cast_mul]
    exact mul_le_mul_of_nonneg_right (by exact_mod_cast hge) (le_of_lt h2)
  · have hn := mantissa_ge_pow N D hN hD (by omega)
    have hMq : (M : ℚ) ≤ (2 : ℚ) ^ (53 : Int) := by
      have : (M : ℚ) ≤ ((2 ^ 53 : Nat) : ℚ) := by exact_mod_cast (le_of_lt hM)
      refine le_trans this (le_of_eq ?_)
      norm_num
    have hnq : (2 : ℚ) ^ (52 : Int) ≤ ((mantissa N D).1 : ℚ) := by
      have : ((2 ^ 52 : Nat) : ℚ) ≤ ((mantissa N D).1 : ℚ) := by exact_mod_cast hn
      refine le_trans (le_of_eq ?_) this
      norm_num
    calc (M : ℚ) * (2 : ℚ) ^ j ≤ (2 : ℚ) ^ (53 : Int) * (2 : ℚ) ^ j :=
          mul_le_mul_of_nonneg_right hMq (le_of_lt (zpow_pos (by norm_num) _))
      _ = (2 : ℚ) ^ (53 + j) := (two_zpow_add 53 j).symm
      _ ≤ (2 : ℚ) ^ (52 + (mantissa N D).2) := zpow_le_zpow_right₀ (by norm_num) (by omega)
      _ = (2 : ℚ) ^ (52 : Int) * (2 : ℚ) ^ (mantissa N D).2 := two_zpow_add 52 _
      _ ≤ ((mantissa N D).1 : ℚ) * (2 : ℚ) ^ (mantissa N D).2 :=
          mul_le_mul_of_nonneg_right hnq (le_of_lt h2)

/-- Rounding does not go above a float64 value that is at least the exact value. -/
theorem mantissa_le_repr (N D M : Nat) (j : Int) (hN : 0 < N) (hD : 0 < D)
    (hM : M < 2 ^ 53) (hj : -1074 ≤ j) (h : (N : ℚ) / (D : ℚ) ≤ (M : ℚ) * (2 : ℚ) ^ j) :
    ((mantissa N D).1 : ℚ) * (2 : ℚ) ^ (mantissa N D).2 ≤ (M : ℚ) * (2 : ℚ) ^ j := by
  have h2 : (0 : ℚ) < (2 : ℚ) ^ (mantissa N D).2 := zpow_pos (by norm_num) _
  rcases le_or_lt (mantissa N D).2 j with hkj | hkj
  · have hs := two_pow_split j (mantissa N D).2 hkj
    have hle := mantissa_le N D (M * 2 ^ (j - (mantissa N D).2).toNat) hD (by
      rw [Nat.cast_mul, mul_assoc, ← hs]
      exact h)
    rw [hs, ← mul_assoc, ← Nat.cast_mul]
    exact mul_le_mul_of_nonneg_right (by exact_mod_cast hle) (le_of_lt h2)
  · exfalso
    have hk := mantissa_exp_normal N D (by omega)
    obtain ⟨hlo, _⟩ := binade_spec N D hN hD
    have hMq : (M : ℚ) < (2 : ℚ) ^ (53 : Int) := by
      have : (M : ℚ) < ((2 ^ 53 : Nat) : ℚ) := by exact_mod_cast hM
      refine lt_of_lt_of_le this (le_of_eq ?_)
      norm_num
    have h3 : (2 : ℚ) ^ binade N D < (2 : ℚ) ^ (53 + j) := by
      calc (2 : ℚ) ^ binade N D ≤ (N : ℚ) / (D : ℚ) := hlo
        _ ≤ (M : ℚ) * (2 : ℚ) ^ j := h
        _ < (2 : ℚ) ^ (53 : Int) * (2 : ℚ) ^ j :=
          mul_lt_mul_of_pos_right hMq (zpow_pos (by norm_num) _)
        _ = (2 : ℚ) ^ (53 + j) := (two_zpow_add 53 j).symm
    have h4 : (2 : ℚ) ^ (53 + j) ≤ (2 : ℚ) ^ binade N D :=
      zpow_le_zpow_right₀ (by norm_num) (by omega)
    exact absurd (lt_of_lt_of_le h3 h4) (lt_irrefl _)

/-- A positive fraction between two float64 values rounds to a finite value between them. -/
theorem round64Frac_between (N D Ml Mh : Nat) (jl jh : Int) (hN : 0 < N) (hD : 0 < D)
    (hMl : Ml < 2 ^ 53) (hjl : -1074 ≤ jl) (hMh : Mh < 2 ^ 53) (hjh : -1074 ≤ jh)
    (hlo : (Ml : ℚ) * (2 : ℚ) ^ jl ≤ (N : ℚ) / (D : ℚ))
    (hhi : (N : ℚ) / (D : ℚ) ≤ (Mh : ℚ) * (2 : ℚ) ^ jh)
    (hfin : (Mh : ℚ) * (2 : ℚ) ^ jh < (2 : ℚ) ^ (1024 : Int)) :
    ∃ r : ℚ, round64Frac false N D = fin r ∧ (Ml : ℚ) * (2 : ℚ) ^ jl ≤ r ∧
      r ≤ (Mh : ℚ) * (2 : ℚ) ^ jh := by
  have a := mantissa_ge_repr N D Ml jl hN hD hMl hjl hlo
  have b := mantissa_le_repr N D Mh jh hN hD hMh hjh hhi
  refine ⟨_, ?_, a, b⟩
  rw [round64Frac_pos N D hN hD, if_neg]
  exact not_le.mpr (lt_of_le_of_lt b hfin)

/-- A fraction of at least `2^1024` rounds to `+Inf`. -/
theorem round64Frac_overflow (N D : Nat) (hN : 0 < N) (hD : 0 < D)
    (h : (2 : ℚ) ^ (1024 : Int) ≤ (N : ℚ) / (D : ℚ)) : round64Frac false N D = posInf := by
  have a := mantissa_ge_repr N D 1 1024 hN hD (by norm_num) (by norm_num)
    (by rw [Nat.cast_one, one_mul]; exact h)
  rw [Nat.cast_one, one_mul] at a
  rw [round64Frac_pos N D hN hD, if_pos a]

theorem roundHalfEven_zero (a b : Nat) (h : 2 * a < b) : roundHalfEven a b = 0 := by
  have hlt : a < b := by omega
  have h1 : a % b = a := Nat.mod_eq_of_lt hlt
  have h2 : a / b = 0 := Nat.div_eq_of_lt hlt
  unfold roundHalfEven
  rw [h1, h2, if_pos h]

/-- A positive fraction below `2^-1075`, half the least positive float64, rounds to 0. -/
theorem round64Frac_underflow (N D : Nat) (hN : 0 < N) (hD : 0 < D)
    (h : (N : ℚ) / (D : ℚ) < (2 : ℚ) ^ (-1075 : Int)) : round64Frac false N D = fin 0 := by
  obtain ⟨hlo, _⟩ := binade_spec N D hN hD
  have hb : binade N D < -1075 := by
    by_contra hge
    have : (2 : ℚ) ^ (-1075 : Int) ≤ (2 : ℚ) ^ binade N D :=
      zpow_le_zpow_right₀ (by norm_num) (by omega)
    exact absurd (lt_of_le_of_lt (le_trans this hlo) h) (lt_irrefl _)
  have hk : (mantissa N D).2 = -1074 := by
    rw [mantissa_exp, if_pos (by omega)]; rfl
  have hn : (mantissa N D).1 = 0 := by
    have hdef : (mantissa N D).1 =
        roundHalfEven (N * 2 ^ (-(mantissa N D).2).toNat) (D * 2 ^ (mantissa N D).2.toNat) := rfl
    rw [hdef]
    apply roundHalfEven_zero
    have hq := scaled_quotient N D (mantissa N D).2
    have hbpos : (0 : ℚ) < ((D * 2 ^ (mantissa N D).2.toNat : Nat) : ℚ) := by
      have : 0 < D * 2 ^ (mantissa N D).2.toNat := Nat.mul_pos hD (pow_pos (by norm_num) _)
      exact_mod_cast this
    have h2 : (0 : ℚ) < (2 : ℚ) ^ (mantissa N D).2 := zpow_pos (by norm_num) _
    have hlt : ((N * 2 ^ (-(mantissa N D).2).toNat : Nat) : ℚ) /
        ((D * 2 ^ (mantissa N D).2.toNat : Nat) : ℚ) < 1 / 2 := by
      rw [hq, div_lt_iff₀ h2, hk]
      refine lt_of_lt_of_le h (le_of_eq ?_)
      have : (-1075 : Int) = -1 + -1074 := by norm_num
      rw [this, two_zpow_add]
      norm_num
    rw [div_lt_iff₀ hbpos] at hlt
    have hlt2 : (2 : ℚ) * ((N * 2 ^ (-(mantissa N D).2).toNat : Nat) : ℚ) <
        ((D * 2 ^ (mantissa N D).2.toNat : Nat) : ℚ) := by linarith
    exact_mod_cast hlt2
  rw [round64Frac_pos N D hN hD, hn, Nat.cast_zero, zero_mul, if_neg]
  exact not_le.mpr (zpow_pos (by norm_num) _)

end Float64

namespace Float64

theorem roundHalfEven_floor_le (a b : Nat) : a / b ≤ roundHalfEven a b := by
  unfold roundHalfEven
  split_ifs <;> omega

theorem roundHalfEven_le_succ (a b : Nat) : roundHalfEven a b ≤ a / b + 1 := by
  unfold roundHalfEven
  split_ifs <;> omega

theorem roundHalfEven_mono (a c b : Nat) (h : a ≤ c) :
    roundHalfEven a b ≤ roundHalfEven c b := by
  have hf : a / b ≤ c / b := Nat.div_le_div_right h
  rcases Nat.lt_or_ge (a / b) (c / b) with hlt | hge
  · exact le_trans (roundHalfEven_le_succ a b) (le_trans hlt (roundHalfEven_floor_le c b))
  · have heq : a / b = c / b := le_antisymm hf hge
    have hr : a % b ≤ c % b := by
      have h1 := Nat.div_add_mod a b
      have h2 := Nat.div_add_mod c b
      rw [heq] at h1
      have : b * (c / b) + a % b ≤ b * (c / b) + c % b := by rw [h1, h2]; exact h
      exact Nat.le_of_add_le_add_left this
    unfold roundHalfEven
    rw [heq]
    generalize c / b = f at *
    generalize a % b = r at *
    generalize c % b = s at *
    split_ifs <;> omega

/-- The binade grows with the numerator. -/
theorem binade_mono (N1 N2 D : Nat) (hN : 0 < N1) (hD : 0 < D) (h : N1 ≤ N2) :
    binade N1 D ≤ binade N2 D := by
  obtain ⟨hlo, _⟩ := binade_spec N1 D hN hD
  obtain ⟨_, hhi⟩ := binade_spec N2 D (lt_of_lt_of_le hN h) hD
  have hDq : (0 : ℚ) < (D : ℚ) := by exact_mod_cast hD
  have hq : (N1 : ℚ) / (D : ℚ) ≤ (N2 : ℚ) / (D : ℚ) :=
    div_le_div_of_nonneg_right (by exact_mod_cast h) (le_of_lt hDq)
  have hlt : (2 : ℚ) ^ binade N1 D < (2 : ℚ) ^ (binade N2 D + 1) :=
    lt_of_le_of_lt (le_trans hlo hq) hhi
  by_contra hcon
  have : (2 : ℚ) ^ (binade N2 D + 1) ≤ (2 : ℚ) ^ binade N1 D :=
    zpow_le_zpow_right₀ (by norm_num) (by omega)
  exact absurd (lt_of_lt_of_le hlt this) (lt_irrefl _)

/-- Rounding is monotone, for fractions with a common denominator. -/
theorem mantissa_mono (N1 N2 D : Nat) (hN : 0 < N1) (hD : 0 < D) (h : N1 ≤ N2) :
    ((mantissa N1 D).1 : ℚ) * (2 : ℚ) ^ (mantissa N1 D).2 ≤
      ((mantissa N2 D).1 : ℚ) * (2 : ℚ) ^ (mantissa N2 D).2 := by
  have hN2 : 0 < N2 := lt_of_lt_of_le hN h
  have hb := binade_mono N1 N2 D hN hD h
  have hk1 := mantissa_exp N1 D
  have hk2 := mantissa_exp N2 D
  have hkle : (mantissa N1 D).2 ≤ (mantissa N2 D).2 := by
    rw [hk1, hk2]; split <;> split <;> omega
  rcases eq_or_lt_of_le hkle with heq | hlt
  · have hn : (mantissa N1 D).1 ≤ (mantissa N2 D).1 := by
      have d1 : (mantissa N1 D).1 =
          roundHalfEven (N1 * 2 ^ (-(mantissa N1 D).2).toNat) (D * 2 ^ (mantissa N1 D).2.toNat) :=
        rfl
      have d2 : (mantissa N2 D).1 =
          roundHalfEven (N2 * 2 ^ (-(mantissa N2 D).2).toNat) (D * 2 ^ (mantissa N2 D).2.toNat) :=
        rfl
      rw [d1, d2, heq]
      exact roundHalfEven_mono _ _ _ (Nat.mul_le_mul_right _ h)
    rw [heq]
    exact mul_le_mul_of_nonneg_right (by exact_mod_cast hn)
      (le_of_lt (zpow_pos (by norm_num) _))
  · have hge1 := mantissa_exp_ge N1 D
    have hnorm := mantissa_exp_normal N2 D (by omega)
    have hblt : binade N1 D + 1 ≤ binade N2 D := by
      rw [hk1] at hlt
      rw [hnorm] at hlt
      split at hlt <;> omega
    obtain ⟨_, hhi1⟩ := binade_spec N1 D hN hD
    obtain ⟨hlo2, _⟩ := binade_spec N2 D hN2 hD
    have hz1 : (N1 : ℚ) / (D : ℚ) ≤ ((1 : Nat) : ℚ) * (2 : ℚ) ^ binade N2 D := by
      rw [Nat.cast_one, one_mul]
      exact le_trans (le_of_lt hhi1) (zpow_le_zpow_right₀ (by norm_num) hblt)
    have hz2 : ((1 : Nat) : ℚ) * (2 : ℚ) ^ binade N2 D ≤ (N2 : ℚ) / (D : ℚ) := by
      rw [Nat.cast_one, one_mul]
      exact hlo2
    have hjb : -1074 ≤ binade N2 D := by omega
    exact le_trans (mantissa_le_repr N1 D 1 _ hN hD (by norm_num) hjb hz1)
      (mantissa_ge_repr N2 D 1 _ hN2 hD (by norm_num) hjb hz2)

/-- The value of `round64Frac` from the significand and the exponent. -/
theorem round64Frac_eval (neg : Bool) (N D n : Nat) (k : Int) (hN : N ≠ 0)
    (hm : mantissa N D = (n, k)) (hfin : ¬ (2 ^ 128) ^ 8 ≤ n * 2 ^ k.toNat) :
    round64Frac neg N D = fin ((if neg then -1 else 1) * (n : ℚ) * (2 : ℚ) ^ k) := by
  unfold round64Frac
  rw [if_neg hN, hm, if_neg hfin]

theorem round64Frac_neg_fin (N D : Nat) (r : ℚ) (h : round64Frac false N D = fin r) :
    round64Frac true N D = fin (-r) := by
  unfold round64Frac at h ⊢
  by_cases hN : N = 0
  · rw [if_pos hN] at h ⊢
    injection h with h
    rw [← h, neg_zero]
  · rw [if_neg hN] at h ⊢
    by_cases hc : (2 ^ 128) ^ 8 ≤ (mantissa N D).1 * 2 ^ (mantissa N D).2.toNat
    · rw [if_pos hc] at h
      simp at h
    · rw [if_neg hc] at h ⊢
      injection h with h
      rw [← h]
      simp

/-! ### Rounding a rational number -/

theorem rat_natAbs_div (q : ℚ) (hq : 0 < q) :
    0 < q.num.natAbs ∧ 0 < q.den ∧ (q.num.natAbs : ℚ) / (q.den : ℚ) = q := by
  have hnum : 0 < q.num := Rat.num_pos.mpr hq
  refine ⟨Int.natAbs_pos.mpr (ne_of_gt hnum), q.den_pos, ?_⟩
  have e : ((q.num.natAbs : Nat) : ℚ) = ((q.num : Int) : ℚ) := by
    have : ((q.num.natAbs : Nat) : Int) = q.num := Int.natAbs_of_nonneg (le_of_lt hnum)
    rw [← Int.cast_natCast, this]
  rw [e]
  exact Rat.num_div_den q

theorem round64_of_pos (q : ℚ) (hq : 0 < q) :
    round64 q = round64Frac false q.num.natAbs q.den := by
  unfold round64
  rw [decide_eq_false (not_lt.mpr (le_of_lt hq))]

theorem round64_zero : round64 0 = fin 0 := by
  simp [round64, round64Frac]

/-- A positive number between two float64 values rounds to a finite value between them. -/
theorem round64_between (q : ℚ) (Ml Mh : Nat) (jl jh : Int) (hq : 0 < q)
    (hMl : Ml < 2 ^ 53) (hjl : -1074 ≤ jl) (hMh : Mh < 2 ^ 53) (hjh : -1074 ≤ jh)
    (hlo : (Ml : ℚ) * (2 : ℚ) ^ jl ≤ q) (hhi : q ≤ (Mh : ℚ) * (2 : ℚ) ^ jh)
    (hfin : (Mh : ℚ) * (2 : ℚ) ^ jh < (2 : ℚ) ^ (1024 : Int)) :
    ∃ r : ℚ, round64 q = fin r ∧ (Ml : ℚ) * (2 : ℚ) ^ jl ≤ r ∧
      r ≤ (Mh : ℚ) * (2 : ℚ) ^ jh := by
  obtain ⟨hn, hd, he⟩ := rat_natAbs_div q hq
  rw [round64_of_pos q hq]
  exact round64Frac_between _ _ Ml Mh jl jh hn hd hMl hjl hMh hjh (by rw [he]; exact hlo)
    (by rw [he]; exact hhi) hfin

/-- A positive float64 value rounds to itself. -/
theorem round64_exact (q : ℚ) (M : Nat) (j : Int) (hq : 0 < q) (hM : M < 2 ^ 53)
    (hj : -1074 ≤ j) (he : q = (M : ℚ) * (2 : ℚ) ^ j) (hfin : q < (2 : ℚ) ^ (1024 : Int)) :
    round64 q = fin q := by
  obtain ⟨r, hr, h1, h2⟩ := round64_between q M M j j hq hM hj hM hj (le_of_eq he.symm)
    (le_of_eq he) (by rw [← he]; exact hfin)
  rw [hr, he]
  exact congrArg fin (le_antisymm h2 h1)

theorem round64_overflow (q : ℚ) (h : (2 : ℚ) ^ (1024 : Int) ≤ q) : round64 q = posInf := by
  have hq : 0 < q := lt_of_lt_of_le (zpow_pos (by norm_num) _) h
  obtain ⟨hn, hd, he⟩ := rat_natAbs_div q hq
  rw [round64_of_pos q hq]
  exact round64Frac_overflow _ _ hn hd (by rw [he]; exact h)

theorem round64_underflow (q : ℚ) (hq : 0 < q) (h : q < (2 : ℚ) ^ (-1075 : Int)) :
    round64 q = fin 0 := by
  obtain ⟨hn, hd, he⟩ := rat_natAbs_div q hq
  rw [round64_of_pos q hq]
  exact round64Frac_underflow _ _ hn hd (by rw [he]; exact h)

/-- A number that is not negative rounds to `+Inf` or to a finite value that is not
negative. -/
theorem round64_nonneg (q : ℚ) (hq : 0 ≤ q) :
    round64 q = posInf ∨ ∃ r : ℚ, round64 q = fin r ∧ 0 ≤ r := by
  rcases eq_or_lt_of_le hq with h0 | hpos
  · rw [← h0, round64_zero]
    exact Or.inr ⟨0, rfl, le_refl _⟩
  · obtain ⟨hn, hd, _⟩ := rat_natAbs_div q hpos
    rw [round64_of_pos q hpos, round64Frac_pos _ _ hn hd]
    split
    · exact Or.inl rfl
    · exact Or.inr ⟨_, rfl, mul_nonneg (Nat.cast_nonneg _) (le_of_lt (zpow_pos (by norm_num) _))⟩

end Float64

namespace Float64

theorem ofInt_zero : ofInt 0 = fin 0 := by
  simp [ofInt, round64Frac]

theorem ofInt_of_pos (n : Int) (h0 : 0 < n) : ofInt n = round64Frac false n.natAbs 1 := by
  unfold ofInt
  rw [decide_eq_false (not_lt.mpr (le_of_lt h0))]

theorem natAbs_cast_div_one (n : Int) (h0 : 0 ≤ n) :
    ((n.natAbs : Nat) : ℚ) / ((1 : Nat) : ℚ) = (n : ℚ) := by
  have : ((n.natAbs : Nat) : Int) = n := Int.natAbs_of_nonneg h0
  rw [Nat.cast_one, div_one, ← Int.cast_natCast, this]

/-- The conversion of an integer of at most `2^53` is exact. -/
theorem ofInt_exact (n : Int) (h0 : 0 ≤ n) (h : n ≤ 2 ^ 53) : ofInt n = fin (n : ℚ) := by
  rcases eq_or_lt_of_le h0 with hz | hpos
  · rw [← hz, ofInt_zero]; simp
  · rw [ofInt_of_pos n hpos]
    have hN : 0 < n.natAbs := Int.natAbs_pos.mpr (ne_of_gt hpos)
    have hq := natAbs_cast_div_one n h0
    have hcast : ((n.natAbs : Nat) : Int) = n := Int.natAbs_of_nonneg h0
    rcases eq_or_lt_of_le h with he | hlt
    · have e53 : ((1 : Nat) : ℚ) * (2 : ℚ) ^ (53 : Int) = (n : ℚ) := by
        rw [he]; norm_num
      have hfin : ((1 : Nat) : ℚ) * (2 : ℚ) ^ (53 : Int) < (2 : ℚ) ^ (1024 : Int) := by
        rw [Nat.cast_one, one_mul]
        exact zpow_lt_zpow_right₀ (by norm_num) (by norm_num)
      obtain ⟨r, hr, h1, h2⟩ := round64Frac_between n.natAbs 1 1 1 53 53 hN (by norm_num)
        (by norm_num) (by norm_num) (by norm_num) (by norm_num)
        (by rw [hq, e53]) (by rw [hq, e53]) hfin
      rw [hr]
      refine congrArg fin ?_
      rw [le_antisymm h2 h1, e53]
    · have hM : n.natAbs < 2 ^ 53 := by omega
      have e0 : ((n.natAbs : Nat) : ℚ) * (2 : ℚ) ^ (0 : Int) = (n : ℚ) := by
        rw [zpow_zero, mul_one, ← Int.cast_natCast, hcast]
      have hfin : ((n.natAbs : Nat) : ℚ) * (2 : ℚ) ^ (0 : Int) < (2 : ℚ) ^ (1024 : Int) := by
        rw [e0]
        have h3 : (n : ℚ) < (2 : ℚ) ^ (53 : Int) := by
          have : (n : ℚ) < ((2 ^ 53 : Int) : ℚ) := by exact_mod_cast hlt
          refine lt_of_lt_of_le this (le_of_eq ?_)
          norm_num
        exact lt_trans h3 (zpow_lt_zpow_right₀ (by norm_num) (by norm_num))
      obtain ⟨r, hr, h1, h2⟩ := round64Frac_between n.natAbs 1 n.natAbs n.natAbs 0 0 hN
        (by norm_num) hM (by norm_num) hM (by norm_num)
        (by rw [hq, e0]) (by rw [hq, e0]) hfin
      rw [hr]
      refine congrArg fin ?_
      rw [le_antisymm h2 h1, e0]

/-- The conversion of a positive integer below `2^63` is finite, between 1 and `2^63`. -/
theorem ofInt_fin (n : Int) (h0 : 0 < n) (h : n < 2 ^ 63) :
    ∃ r : ℚ, ofInt n = fin r ∧ 1 ≤ r ∧ r ≤ 2 ^ 63 ∧
      r = ((mantissa n.natAbs 1).1 : ℚ) * (2 : ℚ) ^ (mantissa n.natAbs 1).2 := by
  have hN : 0 < n.natAbs := Int.natAbs_pos.mpr (ne_of_gt h0)
  have hq := natAbs_cast_div_one n (le_of_lt h0)
  have h1 : (1 : ℚ) ≤ (n : ℚ) := by exact_mod_cast h0
  have h2 : (n : ℚ) ≤ 2 ^ 63 := by exact_mod_cast (le_of_lt h)
  have a := mantissa_ge_repr n.natAbs 1 1 0 hN (by norm_num) (by norm_num) (by norm_num)
    (by rw [hq]; norm_num; exact h1)
  have b := mantissa_le_repr n.natAbs 1 1 63 hN (by norm_num) (by norm_num) (by norm_num)
    (by rw [hq]; norm_num; exact h2)
  have b2 : ((1 : Nat) : ℚ) * (2 : ℚ) ^ (63 : Int) = 2 ^ 63 := by norm_num
  have a2 : ((1 : Nat) : ℚ) * (2 : ℚ) ^ (0 : Int) = 1 := by norm_num
  rw [a2] at a
  rw [b2] at b
  refine ⟨_, ?_, a, b, rfl⟩
  rw [ofInt_of_pos n h0, round64Frac_pos _ _ hN (by norm_num), if_neg]
  refine not_le.mpr (lt_of_le_of_lt b ?_)
  have : (2 : ℚ) ^ (63 : Int) < (2 : ℚ) ^ (1024 : Int) :=
    zpow_lt_zpow_right₀ (by norm_num) (by norm_num)
  refine lt_of_le_of_lt (le_of_eq ?_) this
  norm_num

/-- The conversion of integers is monotone. -/
theorem ofInt_mono (m c : Int) (hm : 0 < m) (hmc : m ≤ c) (hc : c < 2 ^ 63) :
    ∃ p r : ℚ, ofInt m = fin p ∧ ofInt c = fin r ∧ 1 ≤ p ∧ p ≤ r ∧ r ≤ 2 ^ 63 := by
  obtain ⟨p, hp, hp1, _, hpe⟩ := ofInt_fin m hm (lt_of_le_of_lt hmc hc)
  obtain ⟨r, hr, _, hr2, hre⟩ := ofInt_fin c (lt_of_lt_of_le hm hmc) hc
  refine ⟨p, r, hp, hr, hp1, ?_, hr2⟩
  rw [hpe, hre]
  exact mantissa_mono _ _ 1 (Int.natAbs_pos.mpr (ne_of_gt hm)) (by norm_num) (by omega)

theorem div_fin (p q : ℚ) (hq : q ≠ 0) : div (fin p) (fin q) = round64 (p / q) := by
  simp only [div]
  rw [if_neg hq]

/-- The quotient of the conversions of two integers `0 ≤ c` and `0 < m`, both below
`2^63`. -/
theorem div_ofInt (c m : Int) (hc0 : 0 ≤ c) (hc : c < 2 ^ 63) (hm0 : 0 < m) (hm : m < 2 ^ 63) :
    ∃ r : ℚ, div (ofInt c) (ofInt m) = fin r ∧ 0 ≤ r ∧ (0 < c → 0 < r) ∧ (m ≤ c → 1 ≤ r) ∧
      (c < m → r ≤ 1) ∧ (c ≤ 2 ^ 53 → m ≤ 2 ^ 53 → c < m → r < 1) ∧
      (c ≤ 2 ^ 53 → m ≤ 2 ^ 53 → fin r = round64 ((c : ℚ) / (m : ℚ))) := by
  obtain ⟨p, hp, hp1, hp2, _⟩ := ofInt_fin m hm0 hm
  have hp0 : (0 : ℚ) < p := lt_of_lt_of_le zero_lt_one hp1
  rcases eq_or_lt_of_le hc0 with hz | hcpos
  · refine ⟨0, ?_, le_refl _, ?_, ?_, ?_, ?_, ?_⟩
    · rw [← hz, ofInt_zero, hp, div_fin _ _ (ne_of_gt hp0), zero_div, round64_zero]
    · intro h; omega
    · intro h; omega
    · intro _; exact zero_le_one
    · intro _ _ _; exact zero_lt_one
    · intro _ _
      rw [← hz]
      simp [round64_zero]
  · obtain ⟨rc, hrc, hrc1, hrc2, _⟩ := ofInt_fin c hcpos hc
    have hq1 : (1 : ℚ) / 2 ^ 63 ≤ rc / p := by
      rw [div_le_div_iff₀ (by positivity) hp0]
      nlinarith
    have hq2 : rc / p ≤ 2 ^ 63 := by
      rw [div_le_iff₀ hp0]
      nlinarith
    have hqpos : (0 : ℚ) < rc / p := lt_of_lt_of_le (by positivity) hq1
    have e63 : ((1 : Nat) : ℚ) * (2 : ℚ) ^ (63 : Int) = 2 ^ 63 := by norm_num
    have em63 : ((1 : Nat) : ℚ) * (2 : ℚ) ^ (-63 : Int) = 1 / 2 ^ 63 := by
      rw [zpow_neg]; norm_num
    have e0 : ((1 : Nat) : ℚ) * (2 : ℚ) ^ (0 : Int) = 1 := by norm_num
    have hfin63 : ((1 : Nat) : ℚ) * (2 : ℚ) ^ (63 : Int) < (2 : ℚ) ^ (1024 : Int) := by
      rw [Nat.cast_one, one_mul]
      exact zpow_lt_zpow_right₀ (by norm_num) (by norm_num)
    have hfin0 : ((1 : Nat) : ℚ) * (2 : ℚ) ^ (0 : Int) < (2 : ℚ) ^ (1024 : Int) := by
      rw [Nat.cast_one, one_mul]
      exact zpow_lt_zpow_right₀ (by norm_num) (by norm_num)
    obtain ⟨r, hr, hr1, hr2⟩ := round64_between (rc / p) 1 1 (-63) 63 hqpos (by norm_num)
      (by norm_num) (by norm_num) (by norm_num) (by rw [em63]; exact hq1)
      (by rw [e63]; exact hq2) hfin63
    have hdiv : div (ofInt c) (ofInt m) = fin r := by
      rw [hrc, hp, div_fin _ _ (ne_of_gt hp0), hr]
    rw [em63] at hr1
    have hrpos : (0 : ℚ) < r := lt_of_lt_of_le (by positivity) hr1
    refine ⟨r, hdiv, le_of_lt hrpos, fun _ => hrpos, ?_, ?_, ?_, ?_⟩
    · intro hmc
      obtain ⟨p', r', hp', hr', _, hle, _⟩ := ofInt_mono m c hm0 hmc hc
      rw [hp] at hp'
      rw [hrc] at hr'
      injection hp' with hp'
      injection hr' with hr'
      rw [← hp', ← hr'] at hle
      have hge : (1 : ℚ) ≤ rc / p := by rw [le_div_iff₀ hp0, one_mul]; exact hle
      obtain ⟨r2, hr2e, hl, _⟩ := round64_between (rc / p) 1 1 0 63 hqpos (by norm_num)
        (by norm_num) (by norm_num) (by norm_num) (by rw [e0]; exact hge)
        (by rw [e63]; exact hq2) hfin63
      rw [hr] at hr2e
      injection hr2e with hr2e
      rw [hr2e, ← e0]
      exact hl
    · intro hcm
      obtain ⟨p', r', hp', hr', _, hle, _⟩ := ofInt_mono c m hcpos (le_of_lt hcm) hm
      rw [hrc] at hp'
      rw [hp] at hr'
      injection hp' with hp'
      injection hr' with hr'
      rw [← hp', ← hr'] at hle
      have hle1 : rc / p ≤ 1 := by rw [div_le_iff₀ hp0, one_mul]; exact hle
      obtain ⟨r2, hr2e, _, hu⟩ := round64_between (rc / p) 1 1 (-63) 0 hqpos (by norm_num)
        (by norm_num) (by norm_num) (by norm_num) (by rw [em63]; exact hq1)
        (by rw [e0]; exact hle1) hfin0
      rw [hr] at hr2e
      injection hr2e with hr2e
      rw [hr2e, ← e0]
      exact hu
    · intro hc53 hm53 hcm
      have ec := ofInt_exact c hc0 hc53
      have em := ofInt_exact m (le_of_lt hm0) hm53
      rw [hrc] at ec
      rw [hp] at em
      injection ec with ec
      injection em with em
      have hmq : (m : ℚ) ≤ 2 ^ 53 := by exact_mod_cast hm53
      have hcq : (c : ℚ) + 1 ≤ (m : ℚ) := by exact_mod_cast hcm
      have em0 : (0 : ℚ) < (m : ℚ) := by exact_mod_cast hm0
      have hpiv : ((2 ^ 53 - 1 : Nat) : ℚ) * (2 : ℚ) ^ (-53 : Int) = 1 - 1 / 2 ^ 53 := by
        rw [zpow_neg]; norm_num
      have hle1 : rc / p ≤ 1 - 1 / 2 ^ 53 := by
        rw [ec, em, div_le_iff₀ em0]
        have : (1 : ℚ) / 2 ^ 53 * (m : ℚ) ≤ 1 := by
          rw [div_mul_eq_mul_div, one_mul, div_le_iff₀ (by positivity), one_mul]
          exact hmq
        nlinarith
      obtain ⟨r2, hr2e, _, hu⟩ := round64_between (rc / p) 1 (2 ^ 53 - 1) (-63) (-53) hqpos
        (by norm_num) (by norm_num) (by norm_num) (by norm_num) (by rw [em63]; exact hq1)
        (by rw [hpiv]; exact hle1)
        (by
          rw [hpiv]
          have : (1 : ℚ) < (2 : ℚ) ^ (1024 : Int) := one_lt_zpow₀ (by norm_num) (by norm_num)
          have h0 : (0 : ℚ) < 1 / 2 ^ 53 := by positivity
          linarith)
      rw [hr] at hr2e
      injection hr2e with hr2e
      rw [hr2e]
      rw [hpiv] at hu
      have h0 : (0 : ℚ) < 1 / 2 ^ 53 := by positivity
      linarith
    · intro hc53 hm53
      have ec := ofInt_exact c hc0 hc53
      have em := ofInt_exact m (le_of_lt hm0) hm53
      rw [hrc] at ec
      rw [hp] at em
      injection ec with ec
      injection em with em
      rw [← hr, ec, em]

end Float64

theorem parseFirstInt_lt (s : String) : (parseFirstInt s).1 < 2 ^ 63 := by
  rw [parseFirstInt_eq]
  split
  · norm_num
  · split
    · rename_i h
      show ((digitsValue (firstDigitRun s.data) : Nat) : Int) < 2 ^ 63
      exact_mod_cast h
    · norm_num

namespace Float64

/-- The rounded quotient is an integer nearest to the quotient. -/
theorem roundHalfEven_nearest (a b M : Nat) (hb : 0 < b) :
    |((roundHalfEven a b : Nat) : ℚ) * (b : ℚ) - (a : ℚ)| ≤ |(M : ℚ) * (b : ℚ) - (a : ℚ)| := by
  have hdm := Nat.div_add_mod a b
  have hr : a % b < b := Nat.mod_lt a hb
  have hA : (a : ℚ) = (b : ℚ) * ((a / b : Nat) : ℚ) + ((a % b : Nat) : ℚ) := by
    exact_mod_cast hdm.symm
  have hB : (0 : ℚ) < (b : ℚ) := by exact_mod_cast hb
  have hR0 : (0 : ℚ) ≤ ((a % b : Nat) : ℚ) := Nat.cast_nonneg _
  have hRB : ((a % b : Nat) : ℚ) < (b : ℚ) := by exact_mod_cast hr
  -- the distance of `M` from the quotient
  have hM : ((a % b : Nat) : ℚ) ≤ |(M : ℚ) * (b : ℚ) - (a : ℚ)| ∨
      (b : ℚ) - ((a % b : Nat) : ℚ) ≤ |(M : ℚ) * (b : ℚ) - (a : ℚ)| := by
    rcases Nat.lt_or_ge (a / b) M with h | h
    · right
      have h1 : ((a / b : Nat) : ℚ) + 1 ≤ (M : ℚ) := by exact_mod_cast h
      have h2 : (((a / b : Nat) : ℚ) + 1) * (b : ℚ) ≤ (M : ℚ) * (b : ℚ) :=
        mul_le_mul_of_nonneg_right h1 (le_of_lt hB)
      refine le_trans ?_ (le_abs_self _)
      rw [hA]
      linarith
    · left
      have h1 : (M : ℚ) ≤ ((a / b : Nat) : ℚ) := by exact_mod_cast h
      have h2 : (M : ℚ) * (b : ℚ) ≤ ((a / b : Nat) : ℚ) * (b : ℚ) :=
        mul_le_mul_of_nonneg_right h1 (le_of_lt hB)
      refine le_trans ?_ (neg_le_abs _)
      rw [hA]
      linarith
  have hdown : 2 * (a % b) ≤ b →
      |((a / b : Nat) : ℚ) * (b : ℚ) - (a : ℚ)| ≤ |(M : ℚ) * (b : ℚ) - (a : ℚ)| := by
    intro h2
    have h2q : 2 * ((a % b : Nat) : ℚ) ≤ (b : ℚ) := by exact_mod_cast h2
    have e : ((a / b : Nat) : ℚ) * (b : ℚ) - (a : ℚ) = -((a % b : Nat) : ℚ) := by
      rw [hA]; ring
    rw [e, abs_neg, abs_of_nonneg hR0]
    rcases hM with h | h
    · exact h
    · exact le_trans (by linarith) h
  have hup : b ≤ 2 * (a % b) →
      |((a / b + 1 : Nat) : ℚ) * (b : ℚ) - (a : ℚ)| ≤ |(M : ℚ) * (b : ℚ) - (a : ℚ)| := by
    intro h2
    have h2q : (b : ℚ) ≤ 2 * ((a % b : Nat) : ℚ) := by exact_mod_cast h2
    have e : ((a / b + 1 : Nat) : ℚ) * (b : ℚ) - (a : ℚ) = (b : ℚ) - ((a % b : Nat) : ℚ) := by
      rw [hA]; push_cast; ring
    rw [e, abs_of_nonneg (by linarith)]
    rcases hM with h | h
    · exact le_trans (by linarith) h
    · exact h
  unfold roundHalfEven
  split_ifs with c1 c2 c3
  · exact hdown (by omega)
  · exact hup (by omega)
  · exact hdown (by omega)
  · exact hup (by omega)

/-- The rounded quotient is within one half of the quotient. -/
theorem roundHalfEven_half (a b : Nat) (hb : 0 < b) :
    |((roundHalfEven a b : Nat) : ℚ) * (b : ℚ) - (a : ℚ)| ≤ (b : ℚ) / 2 := by
  have hdm := Nat.div_add_mod a b
  have hr : a % b < b := Nat.mod_lt a hb
  have hA : (a : ℚ) = (b : ℚ) * ((a / b : Nat) : ℚ) + ((a % b : Nat) : ℚ) := by
    exact_mod_cast hdm.symm
  have hR0 : (0 : ℚ) ≤ ((a % b : Nat) : ℚ) := Nat.cast_nonneg _
  have hdown : 2 * (a % b) ≤ b →
      |((a / b : Nat) : ℚ) * (b : ℚ) - (a : ℚ)| ≤ (b : ℚ) / 2 := by
    intro h2
    have h2q : 2 * ((a % b : Nat) : ℚ) ≤ (b : ℚ) := by exact_mod_cast h2
    have e : ((a / b : Nat) : ℚ) * (b : ℚ) - (a : ℚ) = -((a % b : Nat) : ℚ) := by
      rw [hA]; ring
    rw [e, abs_neg, abs_of_nonneg hR0]
    linarith
  have hup : b ≤ 2 * (a % b) →
      |((a / b + 1 : Nat) : ℚ) * (b : ℚ) - (a : ℚ)| ≤ (b : ℚ) / 2 := by
    intro h2
    have h2q : (b : ℚ) ≤ 2 * ((a % b : Nat) : ℚ) := by exact_mod_cast h2
    have hRB : ((a % b : Nat) : ℚ) < (b : ℚ) := by exact_mod_cast hr
    have e : ((a / b + 1 : Nat) : ℚ) * (b : ℚ) - (a : ℚ) = (b : ℚ) - ((a % b : Nat) : ℚ) := by
      rw [hA]; push_cast; ring
    rw [e, abs_of_nonneg (by linarith)]
    linarith
  unfold roundHalfEven
  split_ifs with c1 c2 c3
  · exact hdown (by omega)
  · exact hup (by omega)
  · exact hdown (by omega)
  · exact hup (by omega)

/-- The distance of `n * 2^k` from `N / D`, from the distance of `n` from the scaled
quotient. -/
theorem mantissa_dist (N D M : Nat) (hD : 0 < D) :
    (M : ℚ) * (2 : ℚ) ^ (mantissa N D).2 - (N : ℚ) / (D : ℚ) =
      ((M : ℚ) * ((D * 2 ^ (mantissa N D).2.toNat : Nat) : ℚ) -
        ((N * 2 ^ (-(mantissa N D).2).toNat : Nat) : ℚ)) *
        ((2 : ℚ) ^ (mantissa N D).2 / ((D * 2 ^ (mantissa N D).2.toNat : Nat) : ℚ)) := by
  have hq := scaled_quotient N D (mantissa N D).2
  have hb : (0 : ℚ) < ((D * 2 ^ (mantissa N D).2.toNat : Nat) : ℚ) := by
    have : 0 < D * 2 ^ (mantissa N D).2.toNat := Nat.mul_pos hD (pow_pos (by norm_num) _)
    exact_mod_cast this
  have h2 : (0 : ℚ) < (2 : ℚ) ^ (mantissa N D).2 := zpow_pos (by norm_num) _
  generalize ((N * 2 ^ (-(mantissa N D).2).toNat : Nat) : ℚ) = A at hq ⊢
  generalize ((D * 2 ^ (mantissa N D).2.toNat : Nat) : ℚ) = B at hq hb ⊢
  generalize (2 : ℚ) ^ (mantissa N D).2 = P at hq h2 ⊢
  generalize (N : ℚ) / (D : ℚ) = Q at hq ⊢
  have e : Q = A / B * P := by
    rw [hq]
    field_simp
  rw [e]
  field_simp
  ring

theorem mantissa_scale_pos (N D : Nat) (hD : 0 < D) :
    (0 : ℚ) < (2 : ℚ) ^ (mantissa N D).2 / ((D * 2 ^ (mantissa N D).2.toNat : Nat) : ℚ) := by
  have hb : (0 : ℚ) < ((D * 2 ^ (mantissa N D).2.toNat : Nat) : ℚ) := by
    have : 0 < D * 2 ^ (mantissa N D).2.toNat := Nat.mul_pos hD (pow_pos (by norm_num) _)
    exact_mod_cast this
  exact div_pos (zpow_pos (by norm_num) _) hb

/-- Among the multiples of `2^k`, the rounded value is nearest to the exact value. -/
theorem mantissa_nearest_grid (N D M : Nat) (hD : 0 < D) :
    |((mantissa N D).1 : ℚ) * (2 : ℚ) ^ (mantissa N D).2 - (N : ℚ) / (D : ℚ)| ≤
      |(M : ℚ) * (2 : ℚ) ^ (mantissa N D).2 - (N : ℚ) / (D : ℚ)| := by
  have hb : 0 < D * 2 ^ (mantissa N D).2.toNat := Nat.mul_pos hD (pow_pos (by norm_num) _)
  have hs := mantissa_scale_pos N D hD
  rw [mantissa_dist N D M hD, mantissa_dist N D (mantissa N D).1 hD, abs_mul, abs_mul,
    abs_of_pos hs]
  exact mul_le_mul_of_nonneg_right
    (roundHalfEven_nearest (N * 2 ^ (-(mantissa N D).2).toNat) _ M hb) (le_of_lt hs)

/-- The rounded value is within half a unit in the last place of the exact value. -/
theorem mantissa_half (N D : Nat) (hD : 0 < D) :
    |((mantissa N D).1 : ℚ) * (2 : ℚ) ^ (mantissa N D).2 - (N : ℚ) / (D : ℚ)| ≤
      (2 : ℚ) ^ (mantissa N D).2 / 2 := by
  have hb : 0 < D * 2 ^ (mantissa N D).2.toNat := Nat.mul_pos hD (pow_pos (by norm_num) _)
  have hbq : (0 : ℚ) < ((D * 2 ^ (mantissa N D).2.toNat : Nat) : ℚ) := by exact_mod_cast hb
  have hs := mantissa_scale_pos N D hD
  rw [mantissa_dist N D (mantissa N D).1 hD, abs_mul, abs_of_pos hs]
  have h := mul_le_mul_of_nonneg_right
    (roundHalfEven_half (N * 2 ^ (-(mantissa N D).2).toNat) _ hb) (le_of_lt hs)
  refine le_trans h (le_of_eq ?_)
  field_simp
  ring

end Float64

namespace Float64

/-- The rounded value is a float64 value nearest to the exact value. -/
theorem mantissa_nearest (N D M : Nat) (j : Int) (hN : 0 < N) (hD : 0 < D)
    (hM : M < 2 ^ 53) (hj : -1074 ≤ j) :
    |((mantissa N D).1 : ℚ) * (2 : ℚ) ^ (mantissa N D).2 - (N : ℚ) / (D : ℚ)| ≤
      |(M : ℚ) * (2 : ℚ) ^ j - (N : ℚ) / (D : ℚ)| := by
  rcases le_or_lt (mantissa N D).2 j with hkj | hkj
  · have hs := two_pow_split j (mantissa N D).2 hkj
    have h := mantissa_nearest_grid N D (M * 2 ^ (j - (mantissa N D).2).toNat) hD
    rw [Nat.cast_mul, mul_assoc, ← hs] at h
    exact h
  · have hk := mantissa_exp_normal N D (by omega)
    obtain ⟨hlo, _⟩ := binade_spec N D hN hD
    have hg := mantissa_nearest_grid N D (2 ^ 52) hD
    have e1 : ((2 ^ 52 : Nat) : ℚ) * (2 : ℚ) ^ (mantissa N D).2 = (2 : ℚ) ^ binade N D := by
      have : binade N D = 52 + (mantissa N D).2 := by omega
      rw [this, two_zpow_add]
      norm_num
    rw [e1] at hg
    have hMq : (M : ℚ) ≤ (2 : ℚ) ^ (53 : Int) := by
      have : (M : ℚ) ≤ ((2 ^ 53 : Nat) : ℚ) := by exact_mod_cast (le_of_lt hM)
      refine le_trans this (le_of_eq ?_)
      norm_num
    have hy : (M : ℚ) * (2 : ℚ) ^ j ≤ (2 : ℚ) ^ binade N D := by
      calc (M : ℚ) * (2 : ℚ) ^ j ≤ (2 : ℚ) ^ (53 : Int) * (2 : ℚ) ^ j :=
            mul_le_mul_of_nonneg_right hMq (le_of_lt (zpow_pos (by norm_num) _))
        _ = (2 : ℚ) ^ (53 + j) := (two_zpow_add 53 j).symm
        _ ≤ (2 : ℚ) ^ binade N D := zpow_le_zpow_right₀ (by norm_num) (by omega)
    refine le_trans hg ?_
    rw [abs_of_nonpos (by linarith), abs_of_nonpos (by linarith)]
    linarith

/-- A finite result of `round64Frac` is a float64 value: its magnitude is `M * 2^j` with
`M < 2^53` and `j ≥ -1074`, below `2^1024`. -/
theorem round64Frac_repr (neg : Bool) (N D : Nat) (hD : 0 < D) (r : ℚ)
    (h : round64Frac neg N D = fin r) :
    ∃ (M : Nat) (j : Int), M < 2 ^ 53 ∧ -1074 ≤ j ∧ |r| = (M : ℚ) * (2 : ℚ) ^ j ∧
      |r| < (2 : ℚ) ^ (1024 : Int) := by
  rcases Nat.eq_zero_or_pos N with hz | hN
  · rw [hz] at h
    have : r = 0 := by
      simp [round64Frac] at h
      exact h.symm
    rw [this]
    exact ⟨0, 0, by norm_num, by norm_num, by simp, by simp; exact zpow_pos (by norm_num) _⟩
  · have hpos := round64Frac_pos N D hN hD
    have habs : |r| = ((mantissa N D).1 : ℚ) * (2 : ℚ) ^ (mantissa N D).2 ∧
        ¬ (2 : ℚ) ^ (1024 : Int) ≤ ((mantissa N D).1 : ℚ) * (2 : ℚ) ^ (mantissa N D).2 := by
      have hnn : (0 : ℚ) ≤ ((mantissa N D).1 : ℚ) * (2 : ℚ) ^ (mantissa N D).2 :=
        mul_nonneg (Nat.cast_nonneg _) (le_of_lt (zpow_pos (by norm_num) _))
      by_cases hc : (2 : ℚ) ^ (1024 : Int) ≤
          ((mantissa N D).1 : ℚ) * (2 : ℚ) ^ (mantissa N D).2
      · rw [if_pos hc] at hpos
        cases neg
        · rw [hpos] at h; cases h
        · have hne : round64Frac true N D ≠ fin r := by
            intro h2
            unfold round64Frac at hpos h2
            rw [if_neg (by omega)] at hpos h2
            by_cases hc2 : (2 ^ 128) ^ 8 ≤ (mantissa N D).1 * 2 ^ (mantissa N D).2.toNat
            · rw [if_pos hc2] at h2
              simp at h2
            · rw [if_neg hc2] at hpos
              simp at hpos
          exact absurd h hne
      · rw [if_neg hc] at hpos
        refine ⟨?_, hc⟩
        cases neg
        · rw [hpos] at h
          injection h with h
          rw [← h, abs_of_nonneg hnn]
        · rw [round64Frac_neg_fin N D _ hpos] at h
          injection h with h
          rw [← h, abs_neg, abs_of_nonneg hnn]
    obtain ⟨hval, hfin⟩ := habs
    have hn := mantissa_le_pow N D hN hD
    have hk := mantissa_exp_ge N D
    rcases eq_or_lt_of_le hn with he | hlt
    · refine ⟨1, (mantissa N D).2 + 53, by norm_num, by omega, ?_, ?_⟩
      · rw [hval, he, two_zpow_add]
        norm_num
        ring
      · rw [hval]; exact not_le.mp hfin
    · exact ⟨(mantissa N D).1, (mantissa N D).2, hlt, hk, hval, by rw [hval]; exact not_le.mp hfin⟩

/-- A negative number rounds to `-Inf` or to a finite value that is not positive. -/
theorem round64_of_neg (q : ℚ) (hq : q < 0) :
    round64 q = negInf ∨ ∃ r : ℚ, round64 q = fin r ∧ r ≤ 0 := by
  unfold round64 round64Frac
  rw [decide_eq_true hq]
  by_cases hN : q.num.natAbs = 0
  · rw [if_pos hN]
    exact Or.inr ⟨0, rfl, le_refl _⟩
  · rw [if_neg hN]
    by_cases hc : (2 ^ 128) ^ 8 ≤
        (mantissa q.num.natAbs q.den).1 * 2 ^ (mantissa q.num.natAbs q.den).2.toNat
    · rw [if_pos hc]
      exact Or.inl rfl
    · rw [if_neg hc]
      refine Or.inr ⟨_, rfl, ?_⟩
      have hnn : (0 : ℚ) ≤ ((mantissa q.num.natAbs q.den).1 : ℚ) *
          (2 : ℚ) ^ (mantissa q.num.natAbs q.den).2 :=
        mul_nonneg (Nat.cast_nonneg _) (le_of_lt (zpow_pos (by norm_num) _))
      have e : (if true = true then (-1 : ℚ) else 1) *
          ((mantissa q.num.natAbs q.den).1 : ℚ) * (2 : ℚ) ^ (mantissa q.num.natAbs q.den).2 =
          -(((mantissa q.num.natAbs q.den).1 : ℚ) *
            (2 : ℚ) ^ (mantissa q.num.natAbs q.den).2) := by
        rw [if_pos rfl]
        ring
      rw [e]
      linarith

/-- Rounding a positive number gives at least any float64 value below it. -/
theorem round64_ge_repr (q : ℚ) (M : Nat) (j : Int) (hq : 0 < q) (hM : M < 2 ^ 53)
    (hj : -1074 ≤ j) (h : (M : ℚ) * (2 : ℚ) ^ j ≤ q) :
    ge (round64 q) (fin ((M : ℚ) * (2 : ℚ) ^ j)) = true := by
  obtain ⟨hn, hd, he⟩ := rat_natAbs_div q hq
  rw [round64_of_pos q hq, round64Frac_pos _ _ hn hd]
  have a := mantissa_ge_repr _ _ M j hn hd hM hj (by rw [he]; exact h)
  split
  · rfl
  · simp only [ge]
    exact decide_eq_true a

/-- A finite result of rounding a positive number is nearest to it among the float64
values. -/
theorem round64_nearest (q r : ℚ) (M : Nat) (j : Int) (hq : 0 < q) (hM : M < 2 ^ 53)
    (hj : -1074 ≤ j) (hr : round64 q = fin r) :
    |r - q| ≤ |(M : ℚ) * (2 : ℚ) ^ j - q| := by
  obtain ⟨hn, hd, he⟩ := rat_natAbs_div q hq
  rw [round64_of_pos q hq, round64Frac_pos _ _ hn hd] at hr
  have a := mantissa_nearest _ _ M j hn hd hM hj
  rw [he] at a
  split at hr
  · cases hr
  · injection hr with hr
    rw [← hr]
    exact a

/-- In the range of the normal numbers, rounding has a relative error of at most
`2^-53`. -/
theorem round64_near (q : ℚ) (hlo : (2 : ℚ) ^ (-1022 : Int) ≤ q)
    (hhi : q ≤ (2 : ℚ) ^ (1023 : Int)) :
    ∃ r : ℚ, round64 q = fin r ∧ |r - q| ≤ q / 2 ^ 53 := by
  have hq : 0 < q := lt_of_lt_of_le (zpow_pos (by norm_num) _) hlo
  obtain ⟨hn, hd, he⟩ := rat_natAbs_div q hq
  obtain ⟨r, hr, _, _⟩ := round64_between q 1 1 (-1022) 1023 hq (by norm_num) (by norm_num)
    (by norm_num) (by norm_num) (by rw [Nat.cast_one, one_mul]; exact hlo)
    (by rw [Nat.cast_one, one_mul]; exact hhi)
    (by rw [Nat.cast_one, one_mul]; exact zpow_lt_zpow_right₀ (by norm_num) (by norm_num))
  refine ⟨r, hr, ?_⟩
  rw [round64_of_pos q hq, round64Frac_pos _ _ hn hd] at hr
  have a := mantissa_half q.num.natAbs q.den hd
  rw [he] at a
  obtain ⟨blo, bhi⟩ := binade_spec _ _ hn hd
  rw [he] at blo bhi
  have hbin : -1022 ≤ binade q.num.natAbs q.den := by
    by_contra hcon
    have : (2 : ℚ) ^ (binade q.num.natAbs q.den + 1) ≤ (2 : ℚ) ^ (-1022 : Int) :=
      zpow_le_zpow_right₀ (by norm_num) (by omega)
    exact absurd (lt_of_lt_of_le bhi (le_trans this hlo)) (lt_irrefl _)
  have hk : (mantissa q.num.natAbs q.den).2 = binade q.num.natAbs q.den - 52 := by
    rw [mantissa_exp, if_neg (by omega)]
  split at hr
  · cases hr
  · injection hr with hr
    rw [← hr]
    refine le_trans a ?_
    rw [hk]
    have e1 : (2 : ℚ) ^ (binade q.num.natAbs q.den - 52) / 2 =
        (2 : ℚ) ^ binade q.num.natAbs q.den / 2 ^ 53 := by
      have : binade q.num.natAbs q.den - 52 = binade q.num.natAbs q.den + -52 := by ring
      have h52 : (2 : ℚ) ^ (-52 : Int) = 1 / 2 ^ 52 := by
        rw [zpow_neg]
        norm_num
      rw [this, two_zpow_add, h52]
      ring
    rw [e1]
    exact div_le_div_of_nonneg_right blo (by positivity)

end Float64

theorem special_not_fin (l : List Char) (r : ℚ) : special l ≠ some (some (Float64.fin r)) := by
  unfold special
  intro h
  simp only at h
  split at h
  · simp only [Option.map_eq_some'] at h
    obtain ⟨w, _, hw⟩ := h
    split at hw <;> simp at hw
  · simp only [Option.map_eq_some'] at h
    obtain ⟨w, _, hw⟩ := h
    split at hw <;> simp at hw
  · split at h
    · simp only [Option.some.injEq] at h
      split at h <;> simp at h
    · split at h
      · simp only [Option.some.injEq] at h
        split at h <;> simp at h
      · simp at h

theorem floatOfParts_repr (neg hex : Bool) (value : Nat) (k : Int) (r : ℚ)
    (h : floatOfParts neg hex value k = some (Float64.fin r)) :
    ∃ (M : Nat) (j : Int), M < 2 ^ 53 ∧ -1074 ≤ j ∧ |r| = (M : ℚ) * (2 : ℚ) ^ j ∧
      |r| < (2 : ℚ) ^ (1024 : Int) := by
  unfold floatOfParts at h
  simp only at h
  have hD : 0 < (if hex then 2 else 10) ^ (-k).toNat := by
    cases hex <;> exact pow_pos (by norm_num) _
  cases hr : Float64.round64Frac neg (value * (if hex then 2 else 10) ^ k.toNat)
      ((if hex then 2 else 10) ^ (-k).toNat) with
  | nan => rw [hr] at h; simp at h
  | posInf => rw [hr] at h; simp at h
  | negInf => rw [hr] at h; simp at h
  | fin q =>
    rw [hr] at h
    simp only [Option.some.injEq, Float64.fin.injEq] at h
    rw [← h]
    exact Float64.round64Frac_repr neg _ _ hD q hr

/-- A finite number returned by `strconv.ParseFloat` is a float64 value. -/
theorem ParseFloat_repr (s : String) (r : ℚ)
    (h : strconv.ParseFloat s = some (Float64.fin r)) :
    ∃ (M : Nat) (j : Int), M < 2 ^ 53 ∧ -1074 ≤ j ∧ |r| = (M : ℚ) * (2 : ℚ) ^ j ∧
      |r| < (2 : ℚ) ^ (1024 : Int) := by
  unfold strconv.ParseFloat at h
  split at h
  · rename_i x hx
    rw [h] at hx
    exact absurd hx (special_not_fin _ _)
  · split at h
    · cases h
    · exact floatOfParts_repr _ _ _ _ r h

/-- The sum `c + 1e-9` is at least `m` after rounding when it is so before. -/
theorem speed_flag_true (c m : ℚ) (M : Nat) (j : Int) (hm : 0 < m) (hM : M < 2 ^ 53)
    (hj : -1074 ≤ j) (hrep : m = (M : ℚ) * (2 : ℚ) ^ j)
    (h : m ≤ c + 4835703278458517 / 2 ^ 82) :
    Float64.ge (Float64.round64 (c + 4835703278458517 / 2 ^ 82)) (Float64.fin m) = true := by
  have hx : 0 < c + 4835703278458517 / 2 ^ 82 := lt_of_lt_of_le hm h
  rw [hrep]
  exact Float64.round64_ge_repr _ M j hx hM hj (by rw [← hrep]; exact h)

/-- The sum `c + 1e-9` is below `m` after rounding when `c` is below `m` by more than
twice `1e-9`. -/
theorem speed_flag_false (c m : ℚ) (Mc Mm : Nat) (jc jm : Int) (hm : 0 < m)
    (hMc : Mc < 2 ^ 53) (hjc : -1074 ≤ jc) (hc : |c| = (Mc : ℚ) * (2 : ℚ) ^ jc)
    (hMm : Mm < 2 ^ 53) (hjm : -1074 ≤ jm) (hrep : m = (Mm : ℚ) * (2 : ℚ) ^ jm)
    (hfin : m < (2 : ℚ) ^ (1024 : Int))
    (h : c + 2 * (4835703278458517 / 2 ^ 82) < m) :
    Float64.ge (Float64.round64 (c + 4835703278458517 / 2 ^ 82)) (Float64.fin m) = false := by
  have hE : (0 : ℚ) < 4835703278458517 / 2 ^ 82 := by positivity
  have hErep : (4835703278458517 : ℚ) / 2 ^ 82 =
      ((4835703278458517 : Nat) : ℚ) * (2 : ℚ) ^ (-82 : Int) := by
    rw [zpow_neg]
    norm_num
  rcases lt_trichotomy (c + 4835703278458517 / 2 ^ 82) 0 with hneg | hzero | hpos
  · rcases Float64.round64_of_neg _ hneg with hr | ⟨r, hr, hr0⟩
    · rw [hr]; rfl
    · rw [hr]
      simp only [Float64.ge]
      exact decide_eq_false (by linarith)
  · rw [hzero, Float64.round64_zero]
    simp only [Float64.ge]
    exact decide_eq_false (by linarith)
  · have hxm : c + 4835703278458517 / 2 ^ 82 ≤ (Mm : ℚ) * (2 : ℚ) ^ jm := by
      rw [← hrep]; linarith
    obtain ⟨r, hr, _, hrm⟩ := Float64.round64_between _ 0 Mm 0 jm hpos (by norm_num)
      (by norm_num) hMm hjm (by simp; exact le_of_lt hpos) hxm (by rw [← hrep]; exact hfin)
    rw [hr]
    simp only [Float64.ge]
    apply decide_eq_false
    rw [not_le]
    rcases le_or_lt c 0 with hc0 | hc0
    · obtain ⟨r2, hr2, _, hre⟩ := Float64.round64_between _ 0 4835703278458517 0 (-82) hpos
        (by norm_num) (by norm_num) (by norm_num) (by norm_num) (by simp; exact le_of_lt hpos)
        (by rw [← hErep]; linarith)
        (by
          rw [← hErep]
          have : (1 : ℚ) < (2 : ℚ) ^ (1024 : Int) := one_lt_zpow₀ (by norm_num) (by norm_num)
          have h1 : (4835703278458517 : ℚ) / 2 ^ 82 < 1 := by norm_num
          linarith)
      rw [hr] at hr2
      injection hr2 with hr2
      rw [hr2]
      rw [← hErep] at hre
      linarith
    · have hcabs : c = (Mc : ℚ) * (2 : ℚ) ^ jc := by rw [← hc, abs_of_pos hc0]
      have hn := Float64.round64_nearest _ r Mc jc hpos hMc hjc hr
      rw [← hcabs] at hn
      have e : c - (c + 4835703278458517 / 2 ^ 82) = -(4835703278458517 / 2 ^ 82) := by ring
      rw [e, abs_neg, abs_of_pos hE] at hn
      have := (abs_le.mp hn).2
      linarith

/-! ## Values of the sample snapshot -/

theorem floatOfParts_fin (neg hex : Bool) (value : Nat) (k : Int) (r : ℚ)
    (h : Float64.round64Frac neg (value * (if hex then 2 else 10) ^ k.toNat)
      ((if hex then 2 else 10) ^ (-k).toNat) = Float64.fin r) :
    floatOfParts neg hex value k = some (Float64.fin r) := by
  unfold floatOfParts
  simp only [h]

theorem round64Frac_nat {n : Nat} (h0 : 0 < n) (h : n < 2 ^ 53) :
    Float64.round64Frac false n 1 = Float64.fin (n : ℚ) := by
  have h1 := Float64.ofInt_exact (n : Int) (by omega) (by omega)
  rw [Float64.ofInt_of_pos (n : Int) (by omega)] at h1
  simpa using h1

theorem eps_eq : Float64.eps = Float64.fin (4835703278458517 / 2 ^ 82) := by
  have hm : Float64.mantissa 1 1000000000 = (4835703278458517, -82) := by decide
  have h := Float64.round64Frac_eval false 1 1000000000 _ _ (by decide) hm (by decide)
  unfold Float64.eps
  rw [h]
  refine congrArg Float64.fin ?_
  rw [zpow_neg]
  norm_num

theorem add_fin_eps (c : ℚ) :
    Float64.add (Float64.fin c) Float64.eps =
      Float64.round64 (c + 4835703278458517 / 2 ^ 82) := by
  rw [eps_eq]
  rfl

theorem ParseFloat_of_parts (s : String) (neg hex : Bool) (value : Nat) (k : Int)
    (hs : special s.data = none) (hr : readFloat s.data = some (neg, hex, value, k)) :
    strconv.ParseFloat s = floatOfParts neg hex value k := by
  unfold strconv.ParseFloat
  rw [hs, hr]

theorem parseLeadingFloat_of_field (s f : String) (v : Float64)
    (hf : (strings.Fields s).head? = some f) (hp : strconv.ParseFloat f = some v) :
    parseLeadingFloat s = (v, true) := by
  rw [parseLeadingFloat_eq, hf]
  simp only [hp]

theorem ParseFloat_8 : strconv.ParseFloat "8" = some (Float64.fin 8) := by
  rw [ParseFloat_of_parts "8" false false 8 0 (by decide) (by decide)]
  exact floatOfParts_fin false false 8 0 8 (by
    have := round64Frac_nat (show 0 < 8 by decide) (show 8 < 2 ^ 53 by decide)
    simpa using this)

theorem ParseFloat_16 : strconv.ParseFloat "16" = some (Float64.fin 16) := by
  rw [ParseFloat_of_parts "16" false false 16 0 (by decide) (by decide)]
  exact floatOfParts_fin false false 16 0 16 (by
    have := round64Frac_nat (show 0 < 16 by decide) (show 16 < 2 ^ 53 by decide)
    simpa using this)

theorem parseLeadingFloat_8 : parseLeadingFloat "8 GT/s" = (Float64.fin 8, true) :=
  parseLeadingFloat_of_field _ "8" _ (by decide) ParseFloat_8

theorem parseLeadingFloat_16 : parseLeadingFloat "16 GT/s" = (Float64.fin 16, true) :=
  parseLeadingFloat_of_field _ "16" _ (by decide) ParseFloat_16

/-- The result of `compareSpeed` when both speeds parse as finite numbers and the maximum
is positive. -/
theorem compareSpeed_fin (current max : String) (c m : ℚ)
    (hc : parseLeadingFloat current = (Float64.fin c, true))
    (hm : parseLeadingFloat max = (Float64.fin m, true)) (hpos : 0 < m) :
    compareSpeed current max =
      (Float64.round64 (c / m),
        Float64.ge (Float64.round64 (c + 4835703278458517 / 2 ^ 82)) (Float64.fin m)) := by
  unfold compareSpeed
  simp only [hc, hm, Bool.true_and, Float64.gt]
  rw [if_pos (by simpa using hpos), Float64.div_fin _ _ (ne_of_gt hpos), add_fin_eps]

theorem compareSpeed_8_16 : compareSpeed "8 GT/s" "16 GT/s" = (Float64.fin (1 / 2), false) := by
  rw [compareSpeed_fin _ _ 8 16 parseLeadingFloat_8 parseLeadingFloat_16 (by norm_num)]
  have h1 : Float64.round64 (8 / 16) = Float64.fin (1 / 2) := by
    have := Float64.round64_exact (8 / 16) 1 (-1) (by norm_num) (by norm_num) (by norm_num)
      (by rw [zpow_neg]; norm_num)
      (lt_of_lt_of_le (by norm_num) (one_le_zpow₀ (by norm_num) (by norm_num)))
    rw [this]
    norm_num
  obtain ⟨r, hr, _, hu⟩ := Float64.round64_between (8 + 4835703278458517 / 2 ^ 82) 1 9 3 0
    (by norm_num) (by norm_num) (by norm_num) (by norm_num) (by norm_num) (by norm_num)
    (by norm_num)
    (lt_of_lt_of_le (by norm_num) (zpow_le_zpow_right₀ (by norm_num : (1 : ℚ) ≤ 2)
      (by norm_num : (4 : Int) ≤ 1024)))
  rw [h1, hr]
  simp only [Float64.ge]
  have : ¬ (16 : ℚ) ≤ r := by
    have : r ≤ 9 := by simpa using hu
    linarith
  rw [decide_eq_false this]

theorem compareSpeed_16_16 : compareSpeed "16 GT/s" "16 GT/s" = (Float64.fin 1, true) := by
  rw [compareSpeed_fin _ _ 16 16 parseLeadingFloat_16 parseLeadingFloat_16 (by norm_num)]
  have h1 : Float64.round64 (16 / 16) = Float64.fin 1 := by
    have := Float64.round64_exact (16 / 16) 1 0 (by norm_num) (by norm_num) (by norm_num)
      (by norm_num)
      (lt_of_le_of_lt (by norm_num) (one_lt_zpow₀ (by norm_num) (by norm_num)))
    rw [this]
    norm_num
  obtain ⟨r, hr, hl, _⟩ := Float64.round64_between (16 + 4835703278458517 / 2 ^ 82) 1 17 4 0
    (by norm_num) (by norm_num) (by norm_num) (by norm_num) (by norm_num) (by norm_num)
    (by norm_num)
    (lt_of_lt_of_le (by norm_num) (zpow_le_zpow_right₀ (by norm_num : (1 : ℚ) ≤ 2)
      (by norm_num : (5 : Int) ≤ 1024)))
  rw [h1, hr]
  simp only [Float64.ge]
  have : (16 : ℚ) ≤ r := by
    have : (2 : ℚ) ^ (4 : Int) ≤ r := by simpa using hl
    refine le_trans (le_of_eq ?_) this
    norm_num
  rw [decide_eq_true this]

/-- The result of `compareWidth` when both widths hold an integer and the maximum is
positive. -/
theorem compareWidth_int (current max : String) (c m : Int)
    (hc : parseFirstInt current = (c, true)) (hm : parseFirstInt max = (m, true))
    (hpos : 0 < m) :
    compareWidth current max =
      (Float64.div (Float64.ofInt c) (Float64.ofInt m), decide (c ≥ m)) := by
  unfold compareWidth
  simp only [hc, hm, Bool.true_and]
  rw [if_pos (by simpa using hpos)]

theorem round64_half : Float64.round64 (1 / 2) = Float64.fin (1 / 2) :=
  Float64.round64_exact (1 / 2) 1 (-1) (by norm_num) (by norm_num) (by norm_num)
    (by rw [zpow_neg]; norm_num)
    (lt_of_lt_of_le (by norm_num) (one_le_zpow₀ (by norm_num) (by norm_num)))

theorem round64_one : Float64.round64 1 = Float64.fin 1 :=
  Float64.round64_exact 1 1 0 (by norm_num) (by norm_num) (by norm_num) (by norm_num)
    (one_lt_zpow₀ (by norm_num) (by norm_num))

theorem compareWidth_8_16 : compareWidth "x8" "x16" = (Float64.fin (1 / 2), false) := by
  rw [compareWidth_int "x8" "x16" 8 16 (by decide) (by decide) (by decide),
    Float64.ofInt_exact 8 (by decide) (by decide), Float64.ofInt_exact 16 (by decide) (by decide),
    Float64.div_fin _ _ (by norm_num)]
  have e : ((8 : Int) : ℚ) / ((16 : Int) : ℚ) = 1 / 2 := by norm_num
  rw [e, round64_half]
  rfl

theorem compareWidth_16_16 : compareWidth "x16" "x16" = (Float64.fin 1, true) := by
  rw [compareWidth_int "x16" "x16" 16 16 (by decide) (by decide) (by decide),
    Float64.ofInt_exact 16 (by decide) (by decide), Float64.div_fin _ _ (by norm_num)]
  have e : ((16 : Int) : ℚ) / ((16 : Int) : ℚ) = 1 := by norm_num
  rw [e, round64_one]
  rfl

theorem sample_readDevice2 :
    readDevice sampleFs "/sys/bus/pci/devices/0000:02:00.0" "0000:02:00.0" =
      (sampleDevice2, true, none) := by
  have e : readDevice sampleFs "/sys/bus/pci/devices/0000:02:00.0" "0000:02:00.0" =
      ({ Address := "0000:02:00.0", VendorID := "0x15b3", DeviceID := "", Class := "",
         CurrentLinkSpeed := "8 GT/s", MaxLinkSpeed := "16 GT/s", CurrentLinkWidth := "x8",
         MaxLinkWidth := "x16",
         NegotiatedOK := (compareSpeed "8 GT/s" "16 GT/s").2 && (compareWidth "x8" "x16").2,
         SpeedRatio := (compareSpeed "8 GT/s" "16 GT/s").1,
         WidthRatio := (compareWidth "x8" "x16").1 }, true, none) := by rfl
  rw [e, compareSpeed_8_16, compareWidth_8_16]
  rfl

theorem sample_readDevice1 :
    readDevice sampleFs "/sys/bus/pci/devices/0000:01:00.0" "0000:01:00.0" =
      (sampleDevice1, true, none) := by
  have e : readDevice sampleFs "/sys/bus/pci/devices/0000:01:00.0" "0000:01:00.0" =
      ({ Address := "0000:01:00.0", VendorID := "0x10de", DeviceID := "0x2331",
         Class := "0x030200",
         CurrentLinkSpeed := "16 GT/s", MaxLinkSpeed := "16 GT/s", CurrentLinkWidth := "x16",
         MaxLinkWidth := "x16",
         NegotiatedOK := (compareSpeed "16 GT/s" "16 GT/s").2 && (compareWidth "x16" "x16").2,
         SpeedRatio := (compareSpeed "16 GT/s" "16 GT/s").1,
         WidthRatio := (compareWidth "x16" "x16").1 }, true, none) := by rfl
  rw [e, compareSpeed_16_16, compareWidth_16_16]
  rfl

theorem sample_readDevice3 :
    readDevice sampleFs "/sys/bus/pci/devices/0000:03:00.0" "0000:03:00.0" =
      (Device.zero, false, none) := by rfl

theorem sample_ReadDevices :
    ReadDevices sampleFs "/sys" = ([sampleDevice1, sampleDevice2], none) := by
  have hdir : sampleFs.ReadDir (filepath.Join ["/sys", "bus", "pci", "devices"]) =
      .ok ["0000:02:00.0", "0000:03:00.0", "0000:01:00.0"] := by rfl
  have p1 : filepath.Join [filepath.Join ["/sys", "bus", "pci", "devices"], "0000:01:00.0"] =
      "/sys/bus/pci/devices/0000:01:00.0" := by decide
  have p2 : filepath.Join [filepath.Join ["/sys", "bus", "pci", "devices"], "0000:02:00.0"] =
      "/sys/bus/pci/devices/0000:02:00.0" := by decide
  have p3 : filepath.Join [filepath.Join ["/sys", "bus", "pci", "devices"], "0000:03:00.0"] =
      "/sys/bus/pci/devices/0000:03:00.0" := by decide
  unfold ReadDevices
  simp only [hdir, readDevicesLoop, p1, p2, p3, sample_readDevice1, sample_readDevice2,
    sample_readDevice3, List.nil_append, List.cons_append]
  have hs : sortByAddress [sampleDevice2, sampleDevice1] = [sampleDevice1, sampleDevice2] := by
    have h1 : stringLess sampleDevice1.Address sampleDevice2.Address = true := by decide
    simp [sortByAddress, List.insertionSort, List.orderedInsert, h1]
  rw [hs]

namespace Float64

/-- Rounding a fraction in lowest terms. -/
theorem round64_frac (N D : Nat) (hN : 0 < N) (hD : 0 < D) (hco : Nat.Coprime N D) :
    round64 ((N : ℚ) / (D : ℚ)) = round64Frac false N D := by
  have hq : (0 : ℚ) < (N : ℚ) / (D : ℚ) := div_pos (by exact_mod_cast hN) (by exact_mod_cast hD)
  rw [round64_of_pos _ hq]
  have hnum : ((N : ℚ) / (D : ℚ)).num = (N : Int) := by
    have := Rat.num_div_eq_of_coprime (a := (N : Int)) (b := (D : Int)) (by exact_mod_cast hD)
      (by simpa using hco)
    simpa using this
  have hden : ((N : ℚ) / (D : ℚ)).den = D := by
    have := Rat.den_div_eq_of_coprime (a := (N : Int)) (b := (D : Int)) (by exact_mod_cast hD)
      (by simpa using hco)
    have h2 : ((((N : ℚ) / (D : ℚ)).den : Nat) : Int) = (D : Int) := by simpa using this
    exact_mod_cast h2
  rw [hnum, hden]
  rfl

end Float64

/-! ## Two speeds one unit in the last place from `2^22` -/

theorem parseLeadingFloat_below :
    parseLeadingFloat "4194303.9999999995 GT/s" = (Float64.fin (2 ^ 22 - 1 / 2 ^ 31), true) := by
  have hm : Float64.mantissa 41943039999999995 (10 ^ 10) = (9007199254740991, -31) := by decide
  have hr : Float64.round64Frac false 41943039999999995 (10 ^ 10) =
      Float64.fin (2 ^ 22 - 1 / 2 ^ 31) := by
    rw [Float64.round64Frac_eval false _ _ _ _ (by decide) hm (by decide)]
    refine congrArg Float64.fin ?_
    rw [zpow_neg]
    norm_num
  have h : floatOfParts false false 41943039999999995 (-10) =
      some (Float64.fin (2 ^ 22 - 1 / 2 ^ 31)) :=
    floatOfParts_fin false false 41943039999999995 (-10) _ hr
  have e := ParseFloat_of_parts "4194303.9999999995" false false 41943039999999995 (-10)
    (by decide) (by decide)
  exact parseLeadingFloat_of_field _ "4194303.9999999995" _ (by decide) (by rw [e, h])

theorem parseLeadingFloat_above :
    parseLeadingFloat "4194304.000000001 GT/s" = (Float64.fin (2 ^ 22 + 1 / 2 ^ 30), true) := by
  have hm : Float64.mantissa 4194304000000001 (10 ^ 9) = (4503599627370497, -30) := by decide
  have hr : Float64.round64Frac false 4194304000000001 (10 ^ 9) =
      Float64.fin (2 ^ 22 + 1 / 2 ^ 30) := by
    rw [Float64.round64Frac_eval false _ _ _ _ (by decide) hm (by decide)]
    refine congrArg Float64.fin ?_
    rw [zpow_neg]
    norm_num
  have h : floatOfParts false false 4194304000000001 (-9) =
      some (Float64.fin (2 ^ 22 + 1 / 2 ^ 30)) :=
    floatOfParts_fin false false 4194304000000001 (-9) _ hr
  have e := ParseFloat_of_parts "4194304.000000001" false false 4194304000000001 (-9)
    (by decide) (by decide)
  exact parseLeadingFloat_of_field _ "4194304.000000001" _ (by decide) (by rw [e, h])

set_option maxRecDepth 100000 in
theorem mantissa_below_sum :
    Float64.mantissa 20282409603651673007850716059285 (2 ^ 82) = (4503599627370497, -30) := by
  decide

set_option maxRecDepth 100000 in
theorem mantissa_above_diff :
    Float64.mantissa 20282409603651670091843600197995 (2 ^ 82) = (9007199254740992, -31) := by
  decide

/-- The sum of `2^22 - 2^-31` and `1e-9` rounds up to `2^22 + 2^-30`. -/
theorem round64_below_sum :
    Float64.round64 (2 ^ 22 - 1 / 2 ^ 31 + 4835703278458517 / 2 ^ 82) =
      Float64.fin (2 ^ 22 + 1 / 2 ^ 30) := by
  have e : ((2 : ℚ) ^ 22 - 1 / 2 ^ 31 + 4835703278458517 / 2 ^ 82) =
      ((20282409603651673007850716059285 : Nat) : ℚ) / ((2 ^ 82 : Nat) : ℚ) := by norm_num
  rw [e, Float64.round64_frac _ _ (by norm_num) (by norm_num) (by norm_num),
    Float64.round64Frac_eval false _ _ _ _ (by decide) mantissa_below_sum (by decide)]
  refine congrArg Float64.fin ?_
  rw [zpow_neg]
  norm_num

/-- The difference of `2^22 + 2^-30` and `1e-9` rounds up to `2^22`. -/
theorem round64_above_diff :
    Float64.round64 (2 ^ 22 + 1 / 2 ^ 30 - 4835703278458517 / 2 ^ 82) =
      Float64.fin (2 ^ 22) := by
  have e : ((2 : ℚ) ^ 22 + 1 / 2 ^ 30 - 4835703278458517 / 2 ^ 82) =
      ((20282409603651670091843600197995 : Nat) : ℚ) / ((2 ^ 82 : Nat) : ℚ) := by norm_num
  rw [e, Float64.round64_frac _ _ (by norm_num) (by norm_num) (by norm_num),
    Float64.round64Frac_eval false _ _ _ _ (by decide) mantissa_above_diff (by decide)]
  refine congrArg Float64.fin ?_
  rw [zpow_neg]
  norm_num

/-! ## Speeds whose quotient leaves the range of float64 -/

theorem compareWidth_0_16 : compareWidth "0" "16" = (Float64.fin 0, false) := by
  rw [compareWidth_int "0" "16" 0 16 (by decide) (by decide) (by decide),
    Float64.ofInt_zero, Float64.ofInt_exact 16 (by decide) (by decide),
    Float64.div_fin _ _ (by norm_num), zero_div, Float64.round64_zero]
  rfl

theorem parseLeadingFloat_0 : parseLeadingFloat "0 GT/s" = (Float64.fin 0, true) := by
  have h : floatOfParts false false 0 0 = some (Float64.fin 0) :=
    floatOfParts_fin false false 0 0 0 (by simp [Float64.round64Frac])
  have e := ParseFloat_of_parts "0" false false 0 0 (by decide) (by decide)
  exact parseLeadingFloat_of_field _ "0" _ (by decide) (by rw [e, h])

theorem parseLeadingFloat_neg8 : parseLeadingFloat "-8 GT/s" = (Float64.fin (-8), true) := by
  have h8 : Float64.round64Frac false 8 1 = Float64.fin 8 := by
    have := round64Frac_nat (show 0 < 8 by decide) (show 8 < 2 ^ 53 by decide)
    simpa using this
  have h : floatOfParts true false 8 0 = some (Float64.fin (-8)) :=
    floatOfParts_fin true false 8 0 (-8) (Float64.round64Frac_neg_fin 8 1 8 h8)
  have e := ParseFloat_of_parts "-8" true false 8 0 (by decide) (by decide)
  exact parseLeadingFloat_of_field _ "-8" _ (by decide) (by rw [e, h])

theorem round64_neg_half : Float64.round64 (-8 / 16) = Float64.fin (-1 / 2) := by
  have hq : ((-8 : ℚ) / 16) = -1 / 2 := by norm_num
  have hnum : ((-1 : ℚ) / 2).num = -1 := by
    have := Rat.num_div_eq_of_coprime (a := (-1 : Int)) (b := (2 : Int)) (by norm_num)
      (by norm_num)
    simpa using this
  have hden : ((-1 : ℚ) / 2).den = 2 := by
    have := Rat.den_div_eq_of_coprime (a := (-1 : Int)) (b := (2 : Int)) (by norm_num)
      (by norm_num)
    have h2 : (((((-1 : ℚ) / 2).den : Nat)) : Int) = 2 := by simpa using this
    exact_mod_cast h2
  have hm : Float64.mantissa 1 2 = (4503599627370496, -53) := by decide
  rw [hq]
  unfold Float64.round64
  rw [hnum, hden, decide_eq_true (by norm_num)]
  have e : (-1 : Int).natAbs = 1 := by decide
  rw [e, Float64.round64Frac_eval true 1 2 _ _ (by decide) hm (by decide)]
  refine congrArg Float64.fin ?_
  rw [zpow_neg]
  norm_num

theorem parseLeadingFloat_huge :
    ∃ c : ℚ, parseLeadingFloat "1e200" = (Float64.fin c, true) ∧ (2 : ℚ) ^ (664 : Int) ≤ c ∧
      c ≤ (2 : ℚ) ^ (665 : Int) := by
  obtain ⟨r, hr, hlo, hhi⟩ := Float64.round64Frac_between (10 ^ 200) 1 1 1 664 665
    (by positivity) (by norm_num) (by norm_num) (by norm_num) (by norm_num) (by norm_num)
    (by norm_num) (by norm_num)
    (by rw [Nat.cast_one, one_mul]; exact zpow_lt_zpow_right₀ (by norm_num) (by norm_num))
  rw [Nat.cast_one, one_mul] at hlo hhi
  have h : floatOfParts false false 1 200 = some (Float64.fin r) :=
    floatOfParts_fin false false 1 200 r hr
  have e := ParseFloat_of_parts "1e200" false false 1 200 (by decide) (by decide)
  exact ⟨r, parseLeadingFloat_of_field _ "1e200" _ (by decide) (by rw [e, h]), hlo, hhi⟩

theorem parseLeadingFloat_tiny :
    ∃ m : ℚ, parseLeadingFloat "1e-200" = (Float64.fin m, true) ∧
      (2 : ℚ) ^ (-665 : Int) ≤ m ∧ m ≤ (2 : ℚ) ^ (-664 : Int) := by
  obtain ⟨r, hr, hlo, hhi⟩ := Float64.round64Frac_between 1 (10 ^ 200) 1 1 (-665) (-664)
    (by norm_num) (by positivity) (by norm_num) (by norm_num) (by norm_num) (by norm_num)
    (by rw [zpow_neg]; norm_num) (by rw [zpow_neg]; norm_num)
    (by rw [Nat.cast_one, one_mul]; exact zpow_lt_zpow_right₀ (by norm_num) (by norm_num))
  rw [Nat.cast_one, one_mul] at hlo hhi
  have h : floatOfParts false false 1 (-200) = some (Float64.fin r) :=
    floatOfParts_fin false false 1 (-200) r hr
  have e := ParseFloat_of_parts "1e-200" false false 1 (-200) (by decide) (by decide)
  exact ⟨r, parseLeadingFloat_of_field _ "1e-200" _ (by decide) (by rw [e, h]), hlo, hhi⟩

theorem zpow_664_quotient (c m : ℚ) (hc : (2 : ℚ) ^ (664 : Int) ≤ c)
    (hm0 : 0 < m) (hm : m ≤ (2 : ℚ) ^ (-664 : Int)) : (2 : ℚ) ^ (1024 : Int) ≤ c / m := by
  rw [le_div_iff₀ hm0]
  have h1 : (2 : ℚ) ^ (1024 : Int) * m ≤ (2 : ℚ) ^ (1024 : Int) * (2 : ℚ) ^ (-664 : Int) :=
    mul_le_mul_of_nonneg_left hm (le_of_lt (zpow_pos (by norm_num) _))
  have h2 : (2 : ℚ) ^ (1024 : Int) * (2 : ℚ) ^ (-664 : Int) = (2 : ℚ) ^ (360 : Int) := by
    rw [← Float64.two_zpow_add]
    norm_num
  have h3 : (2 : ℚ) ^ (360 : Int) ≤ (2 : ℚ) ^ (664 : Int) :=
    zpow_le_zpow_right₀ (by norm_num) (by norm_num)
  linarith

theorem zpow_664_small (c m : ℚ) (hc : c ≤ (2 : ℚ) ^ (-664 : Int))
    (hm : (2 : ℚ) ^ (664 : Int) ≤ m) : c / m < (2 : ℚ) ^ (-1075 : Int) := by
  have hm0 : 0 < m := lt_of_lt_of_le (zpow_pos (by norm_num) _) hm
  rw [div_lt_iff₀ hm0]
  have h1 : (2 : ℚ) ^ (-1075 : Int) * (2 : ℚ) ^ (664 : Int) ≤ (2 : ℚ) ^ (-1075 : Int) * m :=
    mul_le_mul_of_nonneg_left hm (le_of_lt (zpow_pos (by norm_num) _))
  have h2 : (2 : ℚ) ^ (-1075 : Int) * (2 : ℚ) ^ (664 : Int) = (2 : ℚ) ^ (-411 : Int) := by
    rw [← Float64.two_zpow_add]
    norm_num
  have h3 : (2 : ℚ) ^ (-664 : Int) < (2 : ℚ) ^ (-411 : Int) :=
    zpow_lt_zpow_right₀ (by norm_num) (by norm_num)
  linarith

/-- Beyond `2^53` the conversion to float64 rounds: `2^53` against `2^53 + 1` gives the
ratio 1.0, with at-maximum false. -/
theorem compareWidth_wide :
    compareWidth "9007199254740992" "9007199254740993" = (Float64.fin 1, false) := by
  have hc : parseFirstInt "9007199254740992" = (9007199254740992, true) := by decide
  have hm : parseFirstInt "9007199254740993" = (9007199254740993, true) := by decide
  have o1 : Float64.ofInt 9007199254740992 = Float64.fin 9007199254740992 := by
    simpa using Float64.ofInt_exact 9007199254740992 (by decide) (by decide)
  have o2 : Float64.ofInt 9007199254740993 = Float64.fin 9007199254740992 := by
    have hmant : Float64.mantissa 9007199254740993 1 = (4503599627370496, 1) := by decide
    have h := Float64.round64Frac_eval false 9007199254740993 1 _ _ (by decide) hmant
      (by decide)
    rw [Float64.ofInt_of_pos 9007199254740993 (by decide)]
    have e : (9007199254740993 : Int).natAbs = 9007199254740993 := by decide
    rw [e, h]
    refine congrArg Float64.fin ?_
    norm_num
  rw [compareWidth_int _ _ _ _ hc hm (by decide), o1, o2, Float64.div_fin _ _ (by norm_num)]
  have e : (9007199254740992 : ℚ) / 9007199254740992 = 1 := by norm_num
  rw [e, round64_one]
  rfl

/-! ## The loop of `resolveParentAddress` -/

/-- The loop of `resolveParentAddress` passes over indices that do not hold the address. -/
theorem parentLoop_skip (l : List String) (address : String) (k0 k : Nat) (hk : k0 ≤ k)
    (h : ∀ i, k0 ≤ i → i < k → l.getD i "" ≠ address) :
    parentLoop l address k = parentLoop l address k0 := by
  induction k with
  | zero =>
    have : k0 = 0 := Nat.le_zero.mp hk
    rw [this]
  | succ n ih =>
    by_cases hkn : k0 = n + 1
    · rw [hkn]
    · have hle : k0 ≤ n := by omega
      have hn : l.getD n "" ≠ address := h n hle (Nat.lt_succ_self n)
      rw [parentLoop, if_pos hn]
      exact ih hle (fun i h1 h2 => h i h1 (Nat.lt_succ_of_lt h2))

theorem parentLoop_absent (l : List String) (address : String) (h : address ∉ l) :
    parentLoop l address l.length = "" := by
  rw [parentLoop_skip l address 0 l.length (Nat.zero_le _)]
  · rfl
  · intro i _ hi heq
    apply h
    rw [← heq, List.getD_eq_getElem l "" hi]
    exact List.getElem_mem hi

theorem getD_append_at (pre post : List String) (x : String) :
    (pre ++ x :: post).getD pre.length "" = x := by
  induction pre with
  | nil => rfl
  | cons y ys ih => simpa using ih

theorem getD_append_after (pre post : List String) (x : String) (i : Nat)
    (h1 : pre.length + 1 ≤ i) (h2 : i < (pre ++ x :: post).length) :
    (pre ++ x :: post).getD i "" ∈ post := by
  induction pre generalizing i with
  | nil =>
    obtain ⟨j, rfl⟩ : ∃ j, i = j + 1 := ⟨i - 1, by simp at h1; omega⟩
    have hj : j < post.length := by simpa using h2
    simp only [List.nil_append, List.getD_cons_succ]
    rw [List.getD_eq_getElem post "" hj]
    exact List.getElem_mem hj
  | cons y ys ih =>
    obtain ⟨j, rfl⟩ : ∃ j, i = j + 1 := ⟨i - 1, by simp at h1; omega⟩
    simp only [List.cons_append, List.getD_cons_succ]
    apply ih
    · simp only [List.length_cons] at h1; omega
    · simp only [List.cons_append, List.length_cons] at h2; omega

theorem parentLoop_last (pre post : List String) (address : String) (h : address ∉ post) :
    parentLoop (pre ++ address :: post) address (pre ++ address :: post).length =
      if pre.length = 0 then "" else (pre ++ address :: post).getD (pre.length - 1) "" := by
  rw [parentLoop_skip (pre ++ address :: post) address (pre.length + 1)]
  · have hget : (pre ++ address :: post).getD pre.length "" = address :=
      getD_append_at pre post address
    rw [parentLoop, if_neg (by rw [hget]; exact fun hne => hne rfl)]
  · simp only [List.length_append, List.length_cons]; omega
  · intro i h1 h2 heq
    apply h
    rw [← heq]
    exact getD_append_after pre post address i h1 h2

theorem parseFirstInt_nonneg (s : String) : 0 ≤ (parseFirstInt s).1 := by
  rw [parseFirstInt_eq]
  split
  · exact le_refl _
  · split
    · exact Int.natCast_nonneg _
    · exact le_refl _

/-! ## Names and link summaries -/

theorem dropWhile_head_not (p : Char → Bool) (l : List Char) (c : Char) (rest : List Char)
    (h : l.dropWhile p = c :: rest) : p c = false := by
  induction l with
  | nil => cases h
  | cons x xs ih =>
    cases hx : p x with
    | true =>
      rw [List.dropWhile_cons_of_pos hx] at h
      exact ih h
    | false =>
      rw [List.dropWhile_cons_of_neg (by simp [hx])] at h
      injection h with h1 _
      rw [← h1]; exact hx

theorem trimSpaceChars_idem (l : List Char) :
    trimSpaceChars (trimSpaceChars l) = trimSpaceChars l := by
  have hdef : ∀ m : List Char, trimSpaceChars m =
      (m.dropWhile unicode.IsSpace).rdropWhile unicode.IsSpace := fun _ => rfl
  have h2 : (trimSpaceChars l).rdropWhile unicode.IsSpace = trimSpaceChars l := by
    rw [hdef]
    exact List.rdropWhile_idempotent _ _
  have h1 : (trimSpaceChars l).dropWhile unicode.IsSpace = trimSpaceChars l := by
    have hpre : trimSpaceChars l <+: l.dropWhile unicode.IsSpace := by
      rw [hdef]; exact List.rdropWhile_prefix _ _
    obtain ⟨s, hs⟩ := hpre
    cases ht : trimSpaceChars l with
    | nil => rfl
    | cons c t =>
      rw [ht] at hs
      have hc := dropWhile_head_not unicode.IsSpace l c (t ++ s) hs.symm
      rw [List.dropWhile_cons_of_neg (by simp [hc])]
  rw [hdef (trimSpaceChars l), h1, h2]

theorem trimSpace_idem (s : String) :
    strings.TrimSpace (strings.TrimSpace s) = strings.TrimSpace s := by
  unfold strings.TrimSpace
  rw [trimSpaceChars_idem]

/-- For a text that does not begin with `0x0X`, removing a leading `0x` and then a leading
`0X` removes its one `0x` or `0X` prefix. -/
theorem trimPrefix_hex (t : String) (h : strings.HasPrefix t "0x0X" = false) :
    strings.TrimPrefix (strings.TrimPrefix t "0x") "0X" = withoutHexPrefix t := by
  obtain ⟨l⟩ := t
  have e1 : ("0x" : String).data = ['0', 'x'] := rfl
  have e2 : ("0X" : String).data = ['0', 'X'] := rfl
  have e3 : ("0x0X" : String).data = ['0', 'x', '0', 'X'] := rfl
  unfold strings.HasPrefix at h
  rw [e3] at h
  cases h1 : (['0', 'x'] : List Char).isPrefixOf l with
  | true =>
    obtain ⟨r, rfl⟩ := List.isPrefixOf_iff_prefix.mp h1
    have hr : (['0', 'X'] : List Char).isPrefixOf r = false := by
      cases hr : (['0', 'X'] : List Char).isPrefixOf r with
      | false => rfl
      | true =>
        obtain ⟨r2, rfl⟩ := List.isPrefixOf_iff_prefix.mp hr
        rw [show (['0', 'x'] ++ (['0', 'X'] ++ r2) : List Char) = ['0', 'x', '0', 'X'] ++ r2 from rfl]
          at h
        rw [List.isPrefixOf_iff_prefix.mpr (List.prefix_append _ _)] at h
        cases h
    have s1 : strings.TrimPrefix ⟨['0', 'x'] ++ r⟩ "0x" = ⟨r⟩ := by
      unfold strings.TrimPrefix
      rw [e1]
      simp only [h1, if_true]
      rfl
    rw [s1]
    unfold strings.TrimPrefix withoutHexPrefix strings.HasPrefix
    rw [e1, e2]
    simp only [hr, h1, Bool.true_or, if_true, Bool.false_eq_true, if_false]
    rfl
  | false =>
    have s1 : strings.TrimPrefix ⟨l⟩ "0x" = ⟨l⟩ := by
      unfold strings.TrimPrefix
      rw [e1]
      simp only [h1, Bool.false_eq_true, if_false]
    rw [s1]
    unfold strings.TrimPrefix withoutHexPrefix strings.HasPrefix
    rw [e1, e2]
    simp only [h1, Bool.false_or]
    rfl

theorem readOptionalTrim_trimmed (fs : Sysfs) (path value : String) (ok : Bool)
    (err : Option String) (h : readOptionalTrim fs path = (value, ok, err)) :
    strings.TrimSpace value = value := by
  rcases readOptionalTrim_cases fs path with ⟨buf, _, e⟩ | ⟨x, _, _, e⟩ | ⟨x, _, _, e⟩
  · rw [e] at h
    injection h with h1 _
    rw [← h1, trimSpace_idem]
  · rw [e] at h
    injection h with h1 _
    rw [← h1]; decide
  · rw [e] at h
    injection h with h1 _
    rw [← h1]; decide

/-- What `readDeviceName` returns once label and driver are out of the way. -/
theorem readDeviceName_fallback (fs : Sysfs) (devicePath address label driverName vendor
    device : String) (hasLabel hasVendor hasDevice : Bool)
    (hlabel : readOptionalTrim fs (filepath.Join [devicePath, "label"]) = (label, hasLabel, none))
    (hunusable : ¬ (hasLabel = true ∧ label ≠ ""))
    (hdriver : readDriverName fs devicePath = (driverName, false, none))
    (hvendor : readOptionalTrim fs (filepath.Join [devicePath, "vendor"]) =
      (vendor, hasVendor, none))
    (hdevice : readOptionalTrim fs (filepath.Join [devicePath, "device"]) =
      (device, hasDevice, none)) :
    readDeviceName fs devicePath address =
      if strings.TrimPrefix (strings.TrimPrefix vendor "0x") "0X" ≠ "" ∨
          strings.TrimPrefix (strings.TrimPrefix device "0x") "0X" ≠ "" then
        (strings.TrimPrefix (strings.TrimPrefix vendor "0x") "0X" ++ ":" ++
          strings.TrimPrefix (strings.TrimPrefix device "0x") "0X", none)
      else (address, none) := by
  have hv : trimHexPrefix vendor = strings.TrimPrefix (strings.TrimPrefix vendor "0x") "0X" := by
    unfold trimHexPrefix
    simp only [readOptionalTrim_trimmed fs _ vendor hasVendor none hvendor]
  have hd : trimHexPrefix device = strings.TrimPrefix (strings.TrimPrefix device "0x") "0X" := by
    unfold trimHexPrefix
    simp only [readOptionalTrim_trimmed fs _ device hasDevice none hdevice]
  unfold readDeviceName
  rw [hlabel]
  simp only [if_neg hunusable]
  rw [hdriver]
  simp only [Bool.false_eq_true, if_false]
  rw [hvendor, hdevice]
  simp only [hv, hd]

theorem digitChar_isDigit (n : Nat) (h : n < 10) : isDigit (Nat.digitChar n) = true := by
  interval_cases n <;> decide

theorem toDigitsCore_isDigit (fuel n : Nat) (ds : List Char)
    (h : ∀ c ∈ ds, isDigit c = true) :
    ∀ c ∈ Nat.toDigitsCore 10 fuel n ds, isDigit c = true := by
  induction fuel generalizing n ds with
  | zero => simpa [Nat.toDigitsCore] using h
  | succ f ih =>
    have hd : isDigit (Nat.digitChar (n % 10)) = true :=
      digitChar_isDigit _ (Nat.mod_lt _ (by decide))
    have hcons : ∀ c ∈ Nat.digitChar (n % 10) :: ds, isDigit c = true := by
      intro c hc
      rcases List.mem_cons.mp hc with rfl | hc
      · exact hd
      · exact h c hc
    unfold Nat.toDigitsCore
    simp only
    split
    · exact hcons
    · exact ih _ _ hcons

theorem toDigitsCore_ne_nil (fuel n : Nat) (ds : List Char) (h : ds ≠ [] ∨ fuel ≠ 0) :
    Nat.toDigitsCore 10 fuel n ds ≠ [] := by
  induction fuel generalizing n ds with
  | zero =>
    rcases h with h | h
    · simpa [Nat.toDigitsCore] using h
    · exact absurd rfl h
  | succ f ih =>
    unfold Nat.toDigitsCore
    simp only
    split
    · exact List.cons_ne_nil _ _
    · exact ih _ _ (Or.inl (List.cons_ne_nil _ _))

/-- The decimal numeral of a natural number is a non-empty run of digits. -/
theorem toDigits_numeral (n : Nat) :
    Nat.toDigits 10 n ≠ [] ∧ ∀ c ∈ Nat.toDigits 10 n, isDigit c = true :=
  ⟨toDigitsCore_ne_nil _ _ _ (Or.inr (Nat.succ_ne_zero _)),
   toDigitsCore_isDigit _ _ _ (fun _ hc => absurd hc (List.not_mem_nil _))⟩

theorem toLower_eq_x (c : Char) : c.toLower = 'x' ↔ c = 'x' ∨ c = 'X' := by
  constructor
  · intro h
    unfold Char.toLower at h
    simp only at h
    split at h
    · rename_i hup
      right
      have hn : c.toNat = 88 := by
        generalize c.toNat = n at h hup
        obtain ⟨h1, h2⟩ := hup
        interval_cases n <;> first | rfl | (exfalso; revert h; decide)
      apply Char.ext
      apply UInt32.ext
      exact hn
    · exact Or.inl h
  · rintro (rfl | rfl) <;> decide

/-- The test `strings.HasPrefix(strings.ToLower(width), "x")` holds exactly for the
strings that begin with `x` or `X`. -/
theorem hasPrefix_lower_x (w : String) :
    strings.HasPrefix (strings.ToLower w) "x" = true ↔
      ∃ c r, w.data = c :: r ∧ (c = 'x' ∨ c = 'X') := by
  obtain ⟨l⟩ := w
  unfold strings.HasPrefix strings.ToLower
  rw [show ("x" : String).data = ['x'] from rfl]
  cases l with
  | nil => simp [List.isPrefixOf]
  | cons c r =>
    simp only [List.map_cons, List.isPrefixOf, Bool.and_true, beq_iff_eq]
    constructor
    · intro h
      exact ⟨c, r, rfl, (toLower_eq_x c).mp h.symm⟩
    · rintro ⟨c', r', heq, hc⟩
      injection heq with h1 _
      rw [← h1] at hc
      exact ((toLower_eq_x c).mpr hc).symm

theorem trimPrefix_char_hit (c : Char) (r : List Char) :
    strings.TrimPrefix ⟨c :: r⟩ ⟨[c]⟩ = ⟨r⟩ := by
  simp [strings.TrimPrefix, List.isPrefixOf]

theorem trimPrefix_char_miss (c a : Char) (r : List Char) (h : a ≠ c) :
    strings.TrimPrefix ⟨a :: r⟩ ⟨[c]⟩ = ⟨a :: r⟩ := by
  simp [strings.TrimPrefix, List.isPrefixOf, h, Ne.symm h]

theorem trimPrefix_char_nil (c : Char) : strings.TrimPrefix ⟨[]⟩ ⟨[c]⟩ = ⟨[]⟩ := by
  simp [strings.TrimPrefix, List.isPrefixOf]

theorem append_x (r : List Char) : "x" ++ (⟨r⟩ : String) = ⟨'x' :: r⟩ := rfl

/-- What `formatWidth` computes when the trimmed width does not begin with `x` or `X`. -/
theorem formatWidth_digits (width : String)
    (hne : strings.TrimSpace width ≠ "")
    (hx : strings.HasPrefix (strings.ToLower (strings.TrimSpace width)) "x" = false) :
    formatWidth width =
      if firstDigitRun (strings.TrimSpace width).data = [] then strings.TrimSpace width
      else if digitsValue (firstDigitRun (strings.TrimSpace width).data) < 2 ^ 63 then
        ⟨'x' :: Nat.toDigits 10 (digitsValue (firstDigitRun (strings.TrimSpace width).data))⟩
      else strings.TrimSpace width := by
  unfold formatWidth
  simp only [if_neg hne, hx, Bool.false_eq_true, if_false]
  rw [parseFirstInt_eq]
  by_cases hnil : firstDigitRun (strings.TrimSpace width).data = []
  · simp only [if_pos hnil]
  · simp only [if_neg hnil]
    by_cases hfit : digitsValue (firstDigitRun (strings.TrimSpace width).data) < 2 ^ 63
    · simp only [if_pos hfit]
      unfold strconv.Itoa
      rw [if_neg (by exact not_lt.mpr (Int.natCast_nonneg _))]
      simp only [Int.toNat_ofNat]
      rfl
    · simp only [if_neg hfit]

/-! ## The bandwidth table -/

/-- Every version of the table has an entry built from a finite one-lane throughput. -/
theorem versionBandwidth_entry (version : String)
    (h : version ∈ ["1.0", "2.0", "3.0", "4.0", "5.0"]) :
    ∃ entry q, mapGet VersionBandwidthMap version = some entry ∧
      entry.ThroughputGBps = [(1, Float64.fin q), (2, Float64.mul (Float64.fin q) (Float64.fin 2)),
        (4, Float64.mul (Float64.fin q) (Float64.fin 4)),
        (8, Float64.mul (Float64.fin q) (Float64.fin 8)),
        (16, Float64.mul (Float64.fin q) (Float64.fin 16))] := by
  simp only [List.mem_cons, List.mem_singleton, List.not_mem_nil, or_false] at h
  rcases h with rfl | rfl | rfl | rfl | rfl <;> exact ⟨_, _, rfl, rfl⟩

/-- The entries of the table, as exact values. -/
theorem ThroughputGBps_values :
    ThroughputGBps "4.0" 16 = (Float64.fin (31507696 / 1000000), none) ∧
      ThroughputGBps "5.0" 1 = (Float64.fin (3938462 / 1000000), none) ∧
      ThroughputGBps "5.0" 16 = (Float64.fin (63015392 / 1000000), none) ∧
      ThroughputGBps "3.0" 8 = (Float64.fin (7876920 / 1000000), none) := by
  refine ⟨?_, ?_, ?_, ?_⟩ <;>
    simp [ThroughputGBps, VersionBandwidthMap, mapGet, buildVersionBandwidth, Float64.mul] <;>
    norm_num

/-! ## Go maps -/

theorem mapGet_mapSet {κ α : Type} [DecidableEq κ] (m : GoMap κ α) (k k' : κ) (v : α) :
    mapGet (mapSet m k v) k' = if k = k' then some v else mapGet m k' := by
  induction m with
  | nil => simp [mapSet, mapGet]
  | cons e rest ih =>
    obtain ⟨k0, v0⟩ := e
    by_cases h0 : k0 = k
    · subst h0
      by_cases h1 : k0 = k' <;> simp [mapSet, mapGet, h1]
    · by_cases h1 : k0 = k'
      · subst h1
        simp [mapSet, mapGet, h0, Ne.symm h0]
      · simp [mapSet, mapGet, h0, h1, ih]

theorem mapGet_eq_none {κ α : Type} [DecidableEq κ] (m : GoMap κ α) (k : κ) :
    mapGet m k = none ↔ k ∉ mapKeys m := by
  induction m with
  | nil => simp [mapGet, mapKeys]
  | cons e rest ih =>
    obtain ⟨k0, v0⟩ := e
    by_cases h0 : k0 = k
    · simp [mapGet, mapKeys, h0]
    · simp only [mapKeys] at ih
      simp [mapGet, mapKeys, h0, Ne.symm h0, ih]

theorem mapGet_isSome {κ α : Type} [DecidableEq κ] (m : GoMap κ α) (k : κ) :
    (mapGet m k).isSome = true ↔ k ∈ mapKeys m := by
  rw [← not_iff_not, Bool.not_eq_true, Option.not_isSome, Option.isNone_iff_eq_none]
  exact mapGet_eq_none m k

theorem mapGet_of_mem {κ α : Type} [DecidableEq κ] (m : GoMap κ α) (k : κ)
    (h : k ∈ mapKeys m) : ∃ v, mapGet m k = some v := by
  cases hg : mapGet m k with
  | none => exact absurd h ((mapGet_eq_none m k).mp hg)
  | some v => exact ⟨v, rfl⟩

theorem mem_of_mapGet {κ α : Type} [DecidableEq κ] (m : GoMap κ α) (k : κ) (v : α)
    (h : mapGet m k = some v) : k ∈ mapKeys m := by
  by_contra hk
  rw [(mapGet_eq_none m k).mpr hk] at h
  cases h

theorem mapKeys_mapSet_of_mem {κ α : Type} [DecidableEq κ] (m : GoMap κ α) (k : κ) (v : α)
    (h : k ∈ mapKeys m) : mapKeys (mapSet m k v) = mapKeys m := by
  induction m with
  | nil => simp [mapKeys] at h
  | cons e rest ih =>
    obtain ⟨k0, v0⟩ := e
    by_cases h0 : k0 = k
    · simp [mapSet, mapKeys, h0]
    · have hrest : k ∈ mapKeys rest := by
        simp only [mapKeys, List.map_cons, List.mem_cons] at h
        rcases h with h | h
        · exact absurd h.symm h0
        · exact h
      simp only [mapKeys] at ih
      simp [mapSet, mapKeys, h0, ih hrest]

theorem mapKeys_mapSet_of_not_mem {κ α : Type} [DecidableEq κ] (m : GoMap κ α) (k : κ) (v : α)
    (h : k ∉ mapKeys m) : mapKeys (mapSet m k v) = mapKeys m ++ [k] := by
  induction m with
  | nil => simp [mapSet, mapKeys]
  | cons e rest ih =>
    obtain ⟨k0, v0⟩ := e
    simp only [mapKeys, List.map_cons, List.mem_cons, not_or] at h
    simp only [mapKeys] at ih
    simp [mapSet, mapKeys, Ne.symm h.1, ih h.2]

theorem mem_mapKeys_mapSet {κ α : Type} [DecidableEq κ] (m : GoMap κ α) (k k' : κ) (v : α) :
    k' ∈ mapKeys (mapSet m k v) ↔ k' = k ∨ k' ∈ mapKeys m := by
  by_cases h : k ∈ mapKeys m
  · rw [mapKeys_mapSet_of_mem m k v h]
    constructor
    · exact Or.inr
    · rintro (rfl | h')
      · exact h
      · exact h'
  · rw [mapKeys_mapSet_of_not_mem m k v h]
    simp [or_comm]

theorem mapKeys_mapSet_nodup {κ α : Type} [DecidableEq κ] (m : GoMap κ α) (k : κ) (v : α)
    (h : (mapKeys m).Nodup) : (mapKeys (mapSet m k v)).Nodup := by
  by_cases hk : k ∈ mapKeys m
  · rw [mapKeys_mapSet_of_mem m k v hk]
    exact h
  · rw [mapKeys_mapSet_of_not_mem m k v hk]
    exact List.Nodup.append h (List.nodup_singleton k) (by simpa using hk)

theorem mapKeys_length {κ α : Type} (m : GoMap κ α) : (mapKeys m).length = m.length := by
  simp [mapKeys]

/-! ## The attachment loop of `ReadTree` -/

theorem attachedParent_some (nodes : GoMap String TreeNode) (parents : GoMap String String)
    (a p : String) :
    attachedParent nodes parents a = some p ↔ mapGet parents a = some p ∧ p ∈ mapKeys nodes := by
  unfold attachedParent
  cases hpa : mapGet parents a with
  | none => simp
  | some q =>
    by_cases hq : (mapGet nodes q).isSome = true
    · simp only [hq, if_true, Option.some.injEq]
      constructor
      · rintro rfl
        exact ⟨rfl, (mapGet_isSome nodes q).mp hq⟩
      · exact fun h => h.1
    · simp only [hq, Bool.false_eq_true, if_false, Option.some.injEq]
      constructor
      · intro h
        cases h
      · rintro ⟨rfl, h⟩
        exact absurd ((mapGet_isSome nodes q).mpr h) hq

theorem attachedParent_none (nodes : GoMap String TreeNode) (parents : GoMap String String)
    (a : String) :
    attachedParent nodes parents a = none ↔
      mapGet parents a = none ∨ ∃ p, mapGet parents a = some p ∧ p ∉ mapKeys nodes := by
  unfold attachedParent
  cases hpa : mapGet parents a with
  | none => simp
  | some q =>
    by_cases hq : (mapGet nodes q).isSome = true
    · have hmem := (mapGet_isSome nodes q).mp hq
      simp [hq, hmem]
    · have hmem : q ∉ mapKeys nodes := fun h => hq ((mapGet_isSome nodes q).mpr h)
      simp [hq, hmem]

theorem attachedParent_mapSet (nodes : GoMap String TreeNode) (parents : GoMap String String)
    (p : String) (n : TreeNode) (hp : p ∈ mapKeys nodes) :
    attachedParent (mapSet nodes p n) parents = attachedParent nodes parents := by
  funext a
  unfold attachedParent
  cases mapGet parents a with
  | none => rfl
  | some q =>
    simp only [mapGet_mapSet]
    by_cases h : p = q
    · subst h
      obtain ⟨v, hv⟩ := mapGet_of_mem nodes p hp
      simp [hv]
    · simp [h]

/-- The attachment loop in closed form: the keys stay, every visited address without
attached parent is appended to the roots, and every node receives, in the order of the
visit, the addresses attached to it. -/
theorem attachLoop_spec (parents : GoMap String String) :
    ∀ (order : List String) (nodes : GoMap String TreeNode) (roots : List String),
      mapKeys (attachLoop parents order nodes roots).1 = mapKeys nodes ∧
      (attachLoop parents order nodes roots).2 =
        roots ++ order.filter (fun a => attachedParent nodes parents a = none) ∧
      ∀ p, mapGet (attachLoop parents order nodes roots).1 p =
        (mapGet nodes p).map (fun n =>
          { n with Children := n.Children ++
              order.filter (fun a => attachedParent nodes parents a = some p) }) := by
  intro order
  induction order with
  | nil =>
    intro nodes roots
    refine ⟨rfl, by simp [attachLoop], fun p => ?_⟩
    cases hg : mapGet nodes p with
    | none => simp [attachLoop, hg]
    | some n => simp [attachLoop, hg]
  | cons a rest ih =>
    intro nodes roots
    have hroot : attachedParent nodes parents a = none →
        attachLoop parents (a :: rest) nodes roots = attachLoop parents rest nodes (roots ++ [a]) := by
      intro hnone
      rcases (attachedParent_none nodes parents a).mp hnone with h | ⟨q, h, hq⟩
      · simp only [attachLoop, h]
      · simp only [attachLoop, h, (mapGet_eq_none nodes q).mpr hq]
    cases hpar : attachedParent nodes parents a with
    | none =>
      rw [hroot hpar]
      obtain ⟨h1, h2, h3⟩ := ih nodes (roots ++ [a])
      refine ⟨h1, ?_, fun p => ?_⟩
      · rw [h2]
        simp [List.filter_cons, hpar]
      · rw [h3 p]
        simp [List.filter_cons, hpar]
    | some q =>
      obtain ⟨hq, hmem⟩ := (attachedParent_some nodes parents a q).mp hpar
      obtain ⟨pn, hpn⟩ := mapGet_of_mem nodes q hmem
      have hstep : attachLoop parents (a :: rest) nodes roots =
          attachLoop parents rest
            (mapSet nodes q { pn with Children := pn.Children ++ [a] }) roots := by
        simp only [attachLoop, hq, hpn]
      rw [hstep]
      obtain ⟨h1, h2, h3⟩ := ih (mapSet nodes q { pn with Children := pn.Children ++ [a] }) roots
      rw [attachedParent_mapSet nodes parents q _ hmem] at h2 h3
      refine ⟨?_, ?_, fun p => ?_⟩
      · rw [h1, mapKeys_mapSet_of_mem nodes q _ hmem]
      · rw [h2]
        simp [List.filter_cons, hpar]
      · rw [h3 p, mapGet_mapSet]
        by_cases hqp : q = p
        · subst hqp
          simp [List.filter_cons, hpar, hpn]
        · have hne : ¬ (some q = some p) := fun h => hqp (Option.some.inj h)
          simp [List.filter_cons, hpar, hqp, hne]

/-! ## Levels -/

theorem atLevel_unique (par : String → Option String) :
    ∀ (k j : Nat) (a : String), atLevel par k a → atLevel par j a → k = j := by
  intro k
  induction k with
  | zero =>
    intro j a h0 hj
    cases j with
    | zero => rfl
    | succ j =>
      obtain ⟨p, hp, _⟩ := hj
      rw [show par a = none from h0] at hp
      cases hp
  | succ k ih =>
    intro j a hk hj
    obtain ⟨p, hp, hkp⟩ := hk
    cases j with
    | zero =>
      rw [show par a = none from hj] at hp
      cases hp
    | succ j =>
      obtain ⟨q, hq, hjq⟩ := hj
      rw [hp] at hq
      cases hq
      rw [ih j p hkp hjq]

/-- The chain of ancestors of an address at level `k`: `k + 1` distinct addresses. -/
theorem atLevel_chain (par : String → Option String) (keys : List String)
    (hclosed : ∀ a p, par a = some p → p ∈ keys) :
    ∀ (k : Nat) (a : String), a ∈ keys → atLevel par k a →
      ∃ l : List String, l.length = k + 1 ∧ l.Nodup ∧
        ∀ x ∈ l, x ∈ keys ∧ ∃ j, j ≤ k ∧ atLevel par j x := by
  intro k
  induction k with
  | zero =>
    intro a ha h0
    refine ⟨[a], rfl, List.nodup_singleton a, fun x hx => ?_⟩
    rw [List.mem_singleton] at hx
    subst hx
    exact ⟨ha, 0, le_refl 0, h0⟩
  | succ k ih =>
    intro a ha hk
    obtain ⟨p, hp, hkp⟩ := hk
    obtain ⟨l, hlen, hnd, hall⟩ := ih p (hclosed a p hp) hkp
    refine ⟨a :: l, by simp [hlen], List.nodup_cons.mpr ⟨fun hmem => ?_, hnd⟩, fun x hx => ?_⟩
    · obtain ⟨_, j, hj, hja⟩ := hall a hmem
      have := atLevel_unique par (k + 1) j a ⟨p, hp, hkp⟩ hja
      omega
    · rcases List.mem_cons.mp hx with rfl | hx
      · exact ⟨ha, k + 1, le_refl _, ⟨p, hp, hkp⟩⟩
      · obtain ⟨hxk, j, hj, hjx⟩ := hall x hx
        exact ⟨hxk, j, by omega, hjx⟩

/-- A level is smaller than the number of addresses. -/
theorem atLevel_lt_length (par : String → Option String) (keys : List String)
    (hclosed : ∀ a p, par a = some p → p ∈ keys) (k : Nat) (a : String) (ha : a ∈ keys)
    (h : atLevel par k a) : k < keys.length := by
  obtain ⟨l, hlen, hnd, hall⟩ := atLevel_chain par keys hclosed k a ha h
  have hle : l.length ≤ keys.length :=
    (List.subperm_of_subset hnd (fun x hx => (hall x hx).1)).length_le
  omega

/-! ## Sorting pointers by `BusID` -/

theorem sortByBusID_perm (heap : GoMap String TreeNode) (l : List String) :
    (sortByBusID heap l).Perm l :=
  List.perm_insertionSort _ l

theorem mem_sortByBusID (heap : GoMap String TreeNode) (l : List String) (x : String) :
    x ∈ sortByBusID heap l ↔ x ∈ l :=
  (sortByBusID_perm heap l).mem_iff

theorem sortByBusID_sorted (heap : GoMap String TreeNode) (l : List String) :
    (sortByBusID heap l).Pairwise
      (fun a b => stringLess (busIDOf heap b) (busIDOf heap a) = false) := by
  have htotal : IsTotal String (fun a b => stringLess (busIDOf heap b) (busIDOf heap a) = false) :=
    ⟨fun a b => by
      cases h : stringLess (busIDOf heap b) (busIDOf heap a) with
      | false => exact Or.inl rfl
      | true => exact Or.inr (bytesLess_asymm _ _ h)⟩
  have htrans : IsTrans String (fun a b => stringLess (busIDOf heap b) (busIDOf heap a) = false) :=
    ⟨fun _ _ _ h1 h2 => bytesLess_le_trans _ _ _ h1 h2⟩
  exact List.sorted_insertionSort _ l

/-- Sorting a sorted list of pointers changes nothing. -/
theorem sortByBusID_idem (heap : GoMap String TreeNode) (l : List String) :
    sortByBusID heap (sortByBusID heap l) = sortByBusID heap l :=
  List.Sorted.insertionSort_eq (sortByBusID_sorted heap l)

/-- Pointers that are distinct and whose nodes carry the pointer as `BusID` come out
strictly ascending. -/
theorem sortByBusID_strict (heap : GoMap String TreeNode) (l : List String) (hnd : l.Nodup)
    (hid : ∀ a ∈ l, busIDOf heap a = a) :
    (sortByBusID heap l).Pairwise (fun a b => stringLess a b = true) := by
  have hnd2 : (sortByBusID heap l).Pairwise (fun a b => a ≠ b) :=
    (sortByBusID_perm heap l).nodup_iff.mpr hnd
  refine ((sortByBusID_sorted heap l).and hnd2).imp_of_mem ?_
  intro a b ha hb h
  rw [hid a ((mem_sortByBusID heap l a).mp ha), hid b ((mem_sortByBusID heap l b).mp hb)] at h
  exact stringLess_of_not_ge a b h.2 h.1

theorem stringLess_irrefl (a : String) : stringLess a a = false := by
  cases h : stringLess a a with
  | false => rfl
  | true =>
    have h2 : stringLess a a = false := bytesLess_asymm _ _ h
    rw [h] at h2
    cases h2

/-- A strictly ascending list is determined by its members. -/
theorem strict_sorted_unique (l1 l2 : List String)
    (h1 : l1.Pairwise (fun a b => stringLess a b = true))
    (h2 : l2.Pairwise (fun a b => stringLess a b = true))
    (hmem : ∀ d, d ∈ l1 ↔ d ∈ l2) : l1 = l2 := by
  have hne : ∀ l : List String, l.Pairwise (fun a b => stringLess a b = true) → l.Nodup :=
    fun l h => h.imp (fun {a b} hab heq => by
      subst heq
      rw [stringLess_irrefl a] at hab
      cases hab)
  have hperm : l1.Perm l2 := (List.perm_ext_iff_of_nodup (hne l1 h1) (hne l2 h2)).mpr hmem
  have hanti : IsAntisymm String (fun a b => stringLess a b = true) :=
    ⟨fun a b hab hba => by
      have h3 : stringLess b a = false := bytesLess_asymm _ _ hab
      rw [h3] at hba
      cases hba⟩
  exact List.eq_of_perm_of_sorted hperm h1 h2

/-! ## `sortTree` -/

theorem busIDOf_sortedFrom (heap0 heap : GoMap String TreeNode) (h : sortedFrom heap0 heap) :
    busIDOf heap = busIDOf heap0 := by
  funext p
  unfold busIDOf
  cases h0 : mapGet heap0 p with
  | none =>
    have hp : p ∉ mapKeys heap := by
      rw [h.1]
      exact (mapGet_eq_none heap0 p).mp h0
    rw [(mapGet_eq_none heap p).mpr hp]
  | some n0 =>
    rcases h.2 p n0 h0 with h1 | h1 <;> rw [h1]

theorem sortByBusID_sortedFrom (heap0 heap : GoMap String TreeNode) (h : sortedFrom heap0 heap)
    (l : List String) : sortByBusID heap l = sortByBusID heap0 l := by
  unfold sortByBusID
  rw [busIDOf_sortedFrom heap0 heap h]

theorem sortedFrom_refl (heap0 : GoMap String TreeNode) : sortedFrom heap0 heap0 :=
  ⟨rfl, fun _ _ h => Or.inl h⟩

/-- Sorting the child list of one node keeps `sortedFrom`, sorts that node and leaves the
sorted nodes sorted. -/
theorem sortedFrom_step (heap0 heap : GoMap String TreeNode) (a : String) (n0 : TreeNode)
    (hs : sortedFrom heap0 heap) (hn0 : mapGet heap0 a = some n0) :
    sortedFrom heap0
        (mapSet heap a { n0 with Children := sortByBusID heap0 n0.Children }) ∧
      sortedAt heap0 (mapSet heap a { n0 with Children := sortByBusID heap0 n0.Children }) a ∧
      ∀ p, sortedAt heap0 heap p →
        sortedAt heap0 (mapSet heap a { n0 with Children := sortByBusID heap0 n0.Children }) p := by
  have ha : a ∈ mapKeys heap := by
    rw [hs.1]
    exact mem_of_mapGet heap0 a n0 hn0
  refine ⟨⟨?_, fun p m0 hm0 => ?_⟩, ⟨n0, hn0, ?_⟩, fun p hp => ?_⟩
  · rw [mapKeys_mapSet_of_mem heap a _ ha, hs.1]
  · rw [mapGet_mapSet]
    by_cases hap : a = p
    · subst hap
      rw [hn0] at hm0
      cases hm0
      exact Or.inr (by simp)
    · simp only [hap, if_false]
      exact hs.2 p m0 hm0
  · rw [mapGet_mapSet]
    simp
  · obtain ⟨m0, hm0, hm⟩ := hp
    refine ⟨m0, hm0, ?_⟩
    rw [mapGet_mapSet]
    by_cases hap : a = p
    · subst hap
      rw [hn0] at hm0
      cases hm0
      simp
    · simp only [hap, if_false]
      exact hm

/-- A fold of a sorting step over pointers: if each step succeeds and sorts what lies below
its pointer, so does the fold. -/
theorem sortFold_spec (heap0 : GoMap String TreeNode)
    (f : GoMap String TreeNode → String → Option (GoMap String TreeNode))
    (good : String → Prop)
    (hf : ∀ c heap, good c → sortedFrom heap0 heap →
      ∃ heap', f heap c = some heap' ∧ sortedFrom heap0 heap' ∧
        (∀ p, sortedAt heap0 heap p → sortedAt heap0 heap' p) ∧
        ∀ d, Relation.ReflTransGen (isChildOf heap0) c d → sortedAt heap0 heap' d) :
    ∀ (cs : List String) (heap : GoMap String TreeNode), (∀ c ∈ cs, good c) →
      sortedFrom heap0 heap →
      ∃ heap', cs.foldlM f heap = some heap' ∧ sortedFrom heap0 heap' ∧
        (∀ p, sortedAt heap0 heap p → sortedAt heap0 heap' p) ∧
        ∀ c ∈ cs, ∀ d, Relation.ReflTransGen (isChildOf heap0) c d → sortedAt heap0 heap' d := by
  intro cs
  induction cs with
  | nil =>
    intro heap _ hs
    exact ⟨heap, rfl, hs, fun _ h => h, fun c hc => absurd hc (List.not_mem_nil c)⟩
  | cons c rest ih =>
    intro heap hgood hs
    obtain ⟨heap1, hf1, hs1, hmono1, hbelow1⟩ := hf c heap (hgood c (List.mem_cons_self c rest)) hs
    obtain ⟨heap2, hf2, hs2, hmono2, hbelow2⟩ :=
      ih heap1 (fun x hx => hgood x (List.mem_cons_of_mem c hx)) hs1
    refine ⟨heap2, ?_, hs2, fun p hp => hmono2 p (hmono1 p hp), fun x hx d hd => ?_⟩
    · rw [List.foldlM_cons, hf1]
      exact hf2
    · rcases List.mem_cons.mp hx with rfl | hx
      · exact hmono2 d (hbelow1 d hd)
      · exact hbelow2 x hx d hd

/-- The recursion of `sortTree` below one node: with enough depth left it returns, and it
has then sorted the child list of every node below the pointer. -/
theorem sortChildren_spec (heap0 : GoMap String TreeNode) (par : String → Option String)
    (hchild : ∀ p c, isChildOf heap0 p c → c ∈ mapKeys heap0 ∧ par c = some p)
    (hclosed : ∀ a p, par a = some p → p ∈ mapKeys heap0) :
    ∀ (fuel k : Nat) (a : String) (heap : GoMap String TreeNode), a ∈ mapKeys heap0 →
      atLevel par k a → (mapKeys heap0).length ≤ k + fuel → sortedFrom heap0 heap →
      ∃ heap', sortChildren fuel heap a = some heap' ∧ sortedFrom heap0 heap' ∧
        (∀ p, sortedAt heap0 heap p → sortedAt heap0 heap' p) ∧
        ∀ d, Relation.ReflTransGen (isChildOf heap0) a d → sortedAt heap0 heap' d := by
  intro fuel
  induction fuel with
  | zero =>
    intro k a heap ha hk hlen _
    have := atLevel_lt_length par (mapKeys heap0) hclosed k a ha hk
    omega
  | succ fuel ih =>
    intro k a heap ha hk hlen hs
    obtain ⟨n0, hn0⟩ := mapGet_of_mem heap0 a ha
    obtain ⟨hs1, hat1, hmono1⟩ := sortedFrom_step heap0 heap a n0 hs hn0
    have hrun : sortChildren (fuel + 1) heap a =
        (sortByBusID heap0 n0.Children).foldlM (fun h c => sortChildren fuel h c)
          (mapSet heap a { n0 with Children := sortByBusID heap0 n0.Children }) := by
      rcases hs.2 a n0 hn0 with hcur | hcur
      · simp only [sortChildren, hcur, sortByBusID_sortedFrom heap0 heap hs]
      · simp only [sortChildren, hcur, sortByBusID_sortedFrom heap0 heap hs, sortByBusID_idem]
    have hgood : ∀ c ∈ sortByBusID heap0 n0.Children,
        c ∈ mapKeys heap0 ∧ atLevel par (k + 1) c := by
      intro c hc
      obtain ⟨hck, hcp⟩ := hchild a c ⟨n0, hn0, (mem_sortByBusID heap0 _ c).mp hc⟩
      exact ⟨hck, a, hcp, hk⟩
    obtain ⟨heap2, hf2, hs2, hmono2, hbelow2⟩ :=
      sortFold_spec heap0 (fun h c => sortChildren fuel h c)
        (fun c => c ∈ mapKeys heap0 ∧ atLevel par (k + 1) c)
        (fun c h hc hsh => ih (k + 1) c h hc.1 hc.2 (by omega) hsh)
        (sortByBusID heap0 n0.Children) _ hgood hs1
    refine ⟨heap2, by rw [hrun]; exact hf2, hs2, fun p hp => hmono2 p (hmono1 p hp),
      fun d hd => ?_⟩
    rcases Relation.ReflTransGen.cases_head hd with rfl | ⟨c, hc, hcd⟩
    · exact hmono2 _ hat1
    · obtain ⟨m0, hm0, hcm⟩ := hc
      rw [hn0] at hm0
      cases hm0
      exact hbelow2 c ((mem_sortByBusID heap0 _ c).mpr hcm) d hcd

theorem isChildOf_sortedFrom (heap0 heap : GoMap String TreeNode) (hs : sortedFrom heap0 heap)
    (p c : String) : isChildOf heap p c ↔ isChildOf heap0 p c := by
  constructor
  · rintro ⟨n, hn, hc⟩
    have hp : p ∈ mapKeys heap0 := hs.1 ▸ mem_of_mapGet heap p n hn
    obtain ⟨n0, hn0⟩ := mapGet_of_mem heap0 p hp
    refine ⟨n0, hn0, ?_⟩
    rcases hs.2 p n0 hn0 with h | h
    · rw [h] at hn
      cases hn
      exact hc
    · rw [h] at hn
      cases hn
      exact (mem_sortByBusID heap0 _ c).mp hc
  · rintro ⟨n0, hn0, hc⟩
    rcases hs.2 p n0 hn0 with h | h
    · exact ⟨n0, h, hc⟩
    · exact ⟨_, h, (mem_sortByBusID heap0 _ c).mpr hc⟩

/-- From the filled maps on, `ReadTree` returns, and what it returns is the forest of the
enumerated devices. -/
theorem buildForest_spec (nodes : GoMap String TreeNode) (parents : GoMap String String)
    (visit : MapOrder) (hnd : (mapKeys nodes).Nodup)
    (hid : ∀ p n, mapGet nodes p = some n → n.BusID = p ∧ n.Children = []) :
    ∃ forest, buildForest nodes parents visit = some forest ∧
      IsForestOf nodes parents forest := by
  have hperm := visit.perm (mapKeys nodes)
  have hbuild : buildForest nodes parents visit =
      sortTree (nodes.length + 1)
        (attachLoop parents (visit.order (mapKeys nodes)) nodes []).1
        (attachLoop parents (visit.order (mapKeys nodes)) nodes []).2 := rfl
  generalize visit.order (mapKeys nodes) = order at hperm hbuild
  have hond : order.Nodup := hperm.nodup_iff.mpr hnd
  obtain ⟨hk0, hr0, hc0⟩ := attachLoop_spec parents order nodes []
  generalize hH0 : (attachLoop parents order nodes []).1 = heap0 at hk0 hc0 hbuild
  generalize hR0 : (attachLoop parents order nodes []).2 = roots0 at hr0 hbuild
  rw [List.nil_append] at hr0
  have hcell0 : ∀ p n0, mapGet nodes p = some n0 →
      mapGet heap0 p = some { n0 with
        Children := order.filter (fun a => attachedParent nodes parents a = some p) } := by
    intro p n0 hn0
    rw [hc0 p, hn0, Option.map_some', (hid p n0 hn0).2, List.nil_append]
  have hbus : ∀ a, a ∈ mapKeys nodes → busIDOf heap0 a = a := by
    intro a ha
    obtain ⟨n0, hn0⟩ := mapGet_of_mem nodes a ha
    unfold busIDOf
    rw [hcell0 a n0 hn0]
    exact (hid a n0 hn0).1
  have hchild : ∀ p c, isChildOf heap0 p c →
      c ∈ mapKeys heap0 ∧ attachedParent nodes parents c = some p := by
    rintro p c ⟨n, hn, hc⟩
    have hp : p ∈ mapKeys nodes := hk0 ▸ mem_of_mapGet heap0 p n hn
    obtain ⟨n0, hn0⟩ := mapGet_of_mem nodes p hp
    rw [hcell0 p n0 hn0] at hn
    cases hn
    obtain ⟨hc1, hc2⟩ := List.mem_filter.mp hc
    exact ⟨hk0 ▸ hperm.mem_iff.mp hc1, of_decide_eq_true hc2⟩
  have hclosed : ∀ a p, attachedParent nodes parents a = some p → p ∈ mapKeys heap0 :=
    fun a p h => hk0 ▸ ((attachedParent_some nodes parents a p).mp h).2
  have hrootmem : ∀ d, d ∈ roots0 ↔
      d ∈ mapKeys nodes ∧ attachedParent nodes parents d = none := by
    intro d
    rw [hr0, List.mem_filter, hperm.mem_iff, decide_eq_true_iff]
  have hrootnd : roots0.Nodup := hr0 ▸ hond.filter _
  obtain ⟨heap1, hfold, hs, _, hbelow⟩ :=
    sortFold_spec heap0 (fun h c => sortChildren (nodes.length + 1) h c)
      (fun c => c ∈ mapKeys heap0 ∧ atLevel (attachedParent nodes parents) 0 c)
      (fun c h hc hsh =>
        sortChildren_spec heap0 (attachedParent nodes parents) hchild hclosed
          (nodes.length + 1) 0 c h hc.1 hc.2
          (by rw [hk0, mapKeys_length]; omega) hsh)
      (sortByBusID heap0 roots0) heap0
      (fun c hc => by
        have hc1 := (hrootmem c).mp ((mem_sortByBusID heap0 roots0 c).mp hc)
        exact ⟨hk0 ▸ hc1.1, hc1.2⟩)
      (sortedFrom_refl heap0)
  refine ⟨⟨sortByBusID heap0 roots0, heap1⟩, ?_, ?_⟩
  · rw [hbuild]
    simp only [sortTree, hfold, Option.map_some']
  · have hcell1 : ∀ p n0, mapGet nodes p = some n0 →
        ∃ l, mapGet heap1 p = some { n0 with Children := l } ∧ l.Nodup ∧
          (∀ d, d ∈ l ↔ d ∈ mapKeys nodes ∧ attachedParent nodes parents d = some p) ∧
          (sortedAt heap0 heap1 p → l.Pairwise (fun a b => stringLess a b = true)) := by
      intro p n0 hn0
      have hfnd : (order.filter
          (fun a => attachedParent nodes parents a = some p)).Nodup := hond.filter _
      have hfmem : ∀ d, d ∈ order.filter
          (fun a => attachedParent nodes parents a = some p) ↔
          d ∈ mapKeys nodes ∧ attachedParent nodes parents d = some p := by
        intro d
        rw [List.mem_filter, hperm.mem_iff, decide_eq_true_iff]
      have hstrict : (sortByBusID heap0 (order.filter
          (fun a => attachedParent nodes parents a = some p))).Pairwise
          (fun a b => stringLess a b = true) :=
        sortByBusID_strict heap0 _ hfnd (fun a ha => hbus a ((hfmem a).mp ha).1)
      rcases hs.2 p _ (hcell0 p n0 hn0) with h | h
      · refine ⟨_, h, hfnd, hfmem, fun hat => ?_⟩
        obtain ⟨m0, hm0, hm⟩ := hat
        rw [hcell0 p n0 hn0] at hm0
        cases hm0
        rw [h] at hm
        have hm2 := congrArg TreeNode.Children (Option.some.inj hm)
        simp only at hm2
        rw [hm2]
        exact hstrict
      · exact ⟨_, h, (sortByBusID_perm heap0 _).nodup_iff.mpr hfnd,
          fun d => ((mem_sortByBusID heap0 _ d).trans (hfmem d)), fun _ => hstrict⟩
    refine ⟨fun d => ?_, ?_, ?_, fun p n0 hn0 => ?_, fun x hx n hn => ?_⟩
    · exact (mem_sortByBusID heap0 roots0 d).trans (hrootmem d)
    · exact sortByBusID_strict heap0 roots0 hrootnd (fun a ha => hbus a ((hrootmem a).mp ha).1)
    · exact hs.1.trans hk0
    · obtain ⟨l, hl, hlnd, hlmem, _⟩ := hcell1 p n0 hn0
      exact ⟨_, hl, (hid p n0 hn0).1, rfl, rfl, rfl, hlnd, hlmem⟩
    · obtain ⟨r, hr, hrx⟩ := hx
      have hrx0 : Relation.ReflTransGen (isChildOf heap0) r x :=
        hrx.mono (fun a b hab => (isChildOf_sortedFrom heap0 heap1 hs a b).mp hab)
      have hat := hbelow r hr x hrx0
      have hxk : x ∈ mapKeys nodes := by
        have := mem_of_mapGet heap1 x n hn
        rw [hs.1, hk0] at this
        exact this
      obtain ⟨n0, hn0⟩ := mapGet_of_mem nodes x hxk
      obtain ⟨l, hl, _, _, hsorted⟩ := hcell1 x n0 hn0
      rw [hl] at hn
      cases hn
      exact hsorted hat

/-! ## The forest of the enumerated devices -/

theorem isForestOf_child_iff (nodes : GoMap String TreeNode) (parents : GoMap String String)
    (forest : Forest) (h : IsForestOf nodes parents forest) (p c : String) :
    isChildOf forest.nodes p c ↔
      c ∈ mapKeys nodes ∧ attachedParent nodes parents c = some p := by
  constructor
  · rintro ⟨n, hn, hc⟩
    have hp : p ∈ mapKeys nodes := h.keys ▸ mem_of_mapGet forest.nodes p n hn
    obtain ⟨n0, hn0⟩ := mapGet_of_mem nodes p hp
    obtain ⟨m, hm, _, _, _, _, _, hmem⟩ := h.cell p n0 hn0
    rw [hm] at hn
    cases hn
    exact (hmem c).mp hc
  · rintro ⟨hc, hpar⟩
    have hp : p ∈ mapKeys nodes := ((attachedParent_some nodes parents c p).mp hpar).2
    obtain ⟨n0, hn0⟩ := mapGet_of_mem nodes p hp
    obtain ⟨m, hm, _, _, _, _, _, hmem⟩ := h.cell p n0 hn0
    exact ⟨m, hm, (hmem c).mpr ⟨hc, hpar⟩⟩

/-- The addresses met from the roots are the enumerated addresses whose chain of attached
parents ends at a device without attached parent. -/
theorem isForestOf_reaches (nodes : GoMap String TreeNode) (parents : GoMap String String)
    (forest : Forest) (h : IsForestOf nodes parents forest) (x : String) :
    Reaches forest x ↔
      x ∈ mapKeys nodes ∧ ∃ k, atLevel (attachedParent nodes parents) k x := by
  constructor
  · rintro ⟨r, hr, hrx⟩
    induction hrx with
    | refl =>
      obtain ⟨hrk, hr0⟩ := (h.roots_mem r).mp hr
      exact ⟨hrk, 0, hr0⟩
    | tail _ hbc ih =>
      obtain ⟨_, k, hk⟩ := ih
      obtain ⟨hc, hpar⟩ := (isForestOf_child_iff nodes parents forest h _ _).mp hbc
      exact ⟨hc, k + 1, _, hpar, hk⟩
  · rintro ⟨hx, k, hk⟩
    induction k generalizing x with
    | zero => exact ⟨x, (h.roots_mem x).mpr ⟨hx, hk⟩, Relation.ReflTransGen.refl⟩
    | succ k ih =>
      obtain ⟨p, hp, hkp⟩ := hk
      have hpk : p ∈ mapKeys nodes := ((attachedParent_some nodes parents x p).mp hp).2
      obtain ⟨r, hr, hrp⟩ := ih p hpk hkp
      exact ⟨r, hr, hrp.tail ((isForestOf_child_iff nodes parents forest h p x).mpr ⟨hx, hp⟩)⟩

/-- Below an address at level `k`, every proper descendant has a higher level. -/
theorem isForestOf_descend (nodes : GoMap String TreeNode) (parents : GoMap String String)
    (forest : Forest) (h : IsForestOf nodes parents forest) (x y : String) (k : Nat)
    (hk : atLevel (attachedParent nodes parents) k x)
    (hxy : Relation.TransGen (isChildOf forest.nodes) x y) :
    ∃ j, k < j ∧ atLevel (attachedParent nodes parents) j y := by
  induction hxy with
  | single hab =>
    exact ⟨k + 1, by omega, _,
      ((isForestOf_child_iff nodes parents forest h _ _).mp hab).2, hk⟩
  | tail _ hbc ih =>
    obtain ⟨j, hj, hjb⟩ := ih
    exact ⟨j + 1, by omega, _,
      ((isForestOf_child_iff nodes parents forest h _ _).mp hbc).2, hjb⟩

/-- Two forests of device sets with the same lookups are the same forest. -/
theorem isForestOf_unique (nodes1 nodes2 : GoMap String TreeNode)
    (parents1 parents2 : GoMap String String) (f g : Forest)
    (hnodes : ∀ a, mapGet nodes1 a = mapGet nodes2 a)
    (hparents : ∀ a, mapGet parents1 a = mapGet parents2 a)
    (hf : IsForestOf nodes1 parents1 f) (hg : IsForestOf nodes2 parents2 g) :
    sameForest f g := by
  have hkeys : ∀ a, a ∈ mapKeys nodes1 ↔ a ∈ mapKeys nodes2 := by
    intro a
    rw [← mapGet_isSome, ← mapGet_isSome, hnodes a]
  have hpar : attachedParent nodes1 parents1 = attachedParent nodes2 parents2 := by
    funext a
    unfold attachedParent
    rw [hparents a]
    cases mapGet parents2 a with
    | none => rfl
    | some q => simp only [hnodes q]
  have hroots : f.roots = g.roots := by
    refine strict_sorted_unique _ _ hf.roots_sorted hg.roots_sorted (fun d => ?_)
    rw [hf.roots_mem, hg.roots_mem, hkeys d, hpar]
  refine ⟨hroots, fun x hx => ?_⟩
  have hx1 := (isForestOf_reaches nodes1 parents1 f hf x).mp hx
  have hx2 : Reaches g x :=
    (isForestOf_reaches nodes2 parents2 g hg x).mpr ⟨(hkeys x).mp hx1.1, hpar ▸ hx1.2⟩
  obtain ⟨n0, hn0⟩ := mapGet_of_mem nodes1 x hx1.1
  obtain ⟨n, hn, hb, hname, hcap, hstat, _, hmem⟩ := hf.cell x n0 hn0
  obtain ⟨m, hm, hb2, hname2, hcap2, hstat2, _, hmem2⟩ := hg.cell x n0 (hnodes x ▸ hn0)
  have hch : n.Children = m.Children := by
    refine strict_sorted_unique _ _ (hf.children_sorted x hx n hn)
      (hg.children_sorted x hx2 m hm) (fun d => ?_)
    rw [hmem, hmem2, hkeys d, hpar]
  rw [hn, hm]
  congr 1
  cases n
  cases m
  simp only at hb hb2 hname hname2 hcap hcap2 hstat hstat2 hch
  subst hb hname hcap hstat hch
  simp only [TreeNode.mk.injEq, and_true]
  exact ⟨hb2.symm, hname2.symm, hcap2.symm, hstat2.symm⟩

/-! ## The loop of `ReadTree` over the directory entries -/

theorem readTreeNode_ok (fs : Sysfs) (devicePath address : String) (node : TreeNode)
    (h : readTreeNode fs devicePath address = (node, none)) :
    node.BusID = address ∧ node.Children = [] := by
  unfold readTreeNode at h
  split at h
  · cases h
  · split at h
    · cases h
    · split at h
      · cases h
      · split at h
        · cases h
        · split at h
          · cases h
          · cases h
            exact ⟨rfl, rfl⟩

/-- One turn of the loop of `ReadTree`, when neither call fails. -/
theorem readTreeLoop_cons (fs : Sysfs) (devicesPath name : String) (rest : List String)
    (nodes : GoMap String TreeNode) (parents : GoMap String String) (node : TreeNode)
    (parentAddress : String)
    (hnode : readTreeNode fs (filepath.Join [devicesPath, name]) (strings.ToLower name) =
      (node, none))
    (hparent : resolveParentAddress fs (filepath.Join [devicesPath, name])
      (strings.ToLower name) = (parentAddress, none)) :
    readTreeLoop fs devicesPath (name :: rest) nodes parents =
      readTreeLoop fs devicesPath rest (mapSet nodes (strings.ToLower name) node)
        (if parentAddress ≠ "" then mapSet parents (strings.ToLower name) parentAddress
          else parents) := by
  simp only [readTreeLoop, hnode, hparent]

/-- The loop of `ReadTree` succeeds exactly when both calls succeed for every entry. -/
theorem readTreeLoop_ok_iff (fs : Sysfs) (devicesPath : String) :
    ∀ (entries : List String) (nodes : GoMap String TreeNode) (parents : GoMap String String),
      (readTreeLoop fs devicesPath entries nodes parents).2.2 = none ↔
        ∀ e ∈ entries,
          (readTreeNode fs (filepath.Join [devicesPath, e]) (strings.ToLower e)).2 = none ∧
          (resolveParentAddress fs (filepath.Join [devicesPath, e])
            (strings.ToLower e)).2 = none := by
  intro entries
  induction entries with
  | nil =>
    intro nodes parents
    simp [readTreeLoop]
  | cons name rest ih =>
    intro nodes parents
    rcases hnode : readTreeNode fs (filepath.Join [devicesPath, name]) (strings.ToLower name)
      with ⟨node, _ | err⟩
    · rcases hparent : resolveParentAddress fs (filepath.Join [devicesPath, name])
        (strings.ToLower name) with ⟨parentAddress, _ | err⟩
      · rw [readTreeLoop_cons fs devicesPath name rest nodes parents node parentAddress
          hnode hparent, ih]
        simp [hnode, hparent]
      · simp [readTreeLoop, hnode, hparent]
    · simp [readTreeLoop, hnode]

/-- What the loop of `ReadTree` leaves in the map `nodes`: distinct keys, each node under
its own `BusID` and without children, the keys being the lower-cased entry names. -/
theorem readTreeLoop_wf (fs : Sysfs) (devicesPath : String) :
    ∀ (entries : List String) (nodes : GoMap String TreeNode) (parents : GoMap String String)
      (nodes' : GoMap String TreeNode) (parents' : GoMap String String),
      (mapKeys nodes).Nodup →
      (∀ p n, mapGet nodes p = some n → n.BusID = p ∧ n.Children = []) →
      readTreeLoop fs devicesPath entries nodes parents = (nodes', parents', none) →
      (mapKeys nodes').Nodup ∧
      (∀ p n, mapGet nodes' p = some n → n.BusID = p ∧ n.Children = []) ∧
      ∀ a, a ∈ mapKeys nodes' ↔ a ∈ mapKeys nodes ∨ ∃ e ∈ entries, a = strings.ToLower e := by
  intro entries
  induction entries with
  | nil =>
    intro nodes parents nodes' parents' hnd hid h
    simp only [readTreeLoop, Prod.mk.injEq, and_true] at h
    obtain ⟨rfl, rfl⟩ := h
    exact ⟨hnd, hid, fun a => by simp⟩
  | cons name rest ih =>
    intro nodes parents nodes' parents' hnd hid h
    rcases hnode : readTreeNode fs (filepath.Join [devicesPath, name]) (strings.ToLower name)
      with ⟨node, _ | err⟩
    · rcases hparent : resolveParentAddress fs (filepath.Join [devicesPath, name])
        (strings.ToLower name) with ⟨parentAddress, _ | err⟩
      · rw [readTreeLoop_cons fs devicesPath name rest nodes parents node parentAddress
          hnode hparent] at h
        obtain ⟨h1, h2, h3⟩ := ih _ _ nodes' parents'
          (mapKeys_mapSet_nodup nodes (strings.ToLower name) node hnd)
          (fun p n hp => by
            rw [mapGet_mapSet] at hp
            by_cases hk : strings.ToLower name = p
            · rw [if_pos hk] at hp
              cases hp
              exact hk ▸ readTreeNode_ok fs _ _ node hnode
            · rw [if_neg hk] at hp
              exact hid p n hp) h
        refine ⟨h1, h2, fun a => ?_⟩
        rw [h3 a, mem_mapKeys_mapSet]
        simp only [List.mem_cons, exists_eq_or_imp]
        tauto
      · simp only [readTreeLoop, hnode, hparent] at h
        cases h
    · simp only [readTreeLoop, hnode] at h
      cases h

/-- When the lower-cased entry names are pairwise distinct, the maps filled by the loop of
`ReadTree` hold for each address what the two calls return for its entry. -/
theorem readTreeLoop_lookup (fs : Sysfs) (devicesPath : String) :
    ∀ (entries : List String) (nodes : GoMap String TreeNode) (parents : GoMap String String)
      (nodes' : GoMap String TreeNode) (parents' : GoMap String String),
      (entries.map strings.ToLower).Nodup →
      (∀ e ∈ entries, mapGet nodes (strings.ToLower e) = none) →
      (∀ e ∈ entries, mapGet parents (strings.ToLower e) = none) →
      readTreeLoop fs devicesPath entries nodes parents = (nodes', parents', none) →
      (∀ a n, mapGet nodes' a = some n ↔
        (∃ e ∈ entries, strings.ToLower e = a ∧
          readTreeNode fs (filepath.Join [devicesPath, e]) a = (n, none)) ∨
        mapGet nodes a = some n) ∧
      (∀ a p, mapGet parents' a = some p ↔
        (∃ e ∈ entries, strings.ToLower e = a ∧ p ≠ "" ∧
          resolveParentAddress fs (filepath.Join [devicesPath, e]) a = (p, none)) ∨
        mapGet parents a = some p) := by
  intro entries
  induction entries with
  | nil =>
    intro nodes parents nodes' parents' _ _ _ h
    simp only [readTreeLoop, Prod.mk.injEq, and_true] at h
    obtain ⟨rfl, rfl⟩ := h
    exact ⟨fun a n => by simp, fun a p => by simp⟩
  | cons name rest ih =>
    intro nodes parents nodes' parents' hnd hn0 hp0 h
    rw [List.map_cons, List.nodup_cons] at hnd
    have hne : ∀ e ∈ rest, strings.ToLower name ≠ strings.ToLower e :=
      fun e he heq => hnd.1 (heq ▸ List.mem_map_of_mem _ he)
    rcases hnode : readTreeNode fs (filepath.Join [devicesPath, name]) (strings.ToLower name)
      with ⟨node, _ | err⟩
    · rcases hparent : resolveParentAddress fs (filepath.Join [devicesPath, name])
        (strings.ToLower name) with ⟨parentAddress, _ | err⟩
      · rw [readTreeLoop_cons fs devicesPath name rest nodes parents node parentAddress
          hnode hparent] at h
        have hn1 : ∀ e ∈ rest,
            mapGet (mapSet nodes (strings.ToLower name) node) (strings.ToLower e) = none := by
          intro e he
          rw [mapGet_mapSet, if_neg (hne e he)]
          exact hn0 e (List.mem_cons_of_mem _ he)
        have hp1 : ∀ e ∈ rest,
            mapGet (if parentAddress ≠ "" then
              mapSet parents (strings.ToLower name) parentAddress else parents)
              (strings.ToLower e) = none := by
          intro e he
          split
          · rw [mapGet_mapSet, if_neg (hne e he)]
            exact hp0 e (List.mem_cons_of_mem _ he)
          · exact hp0 e (List.mem_cons_of_mem _ he)
        obtain ⟨h1, h2⟩ := ih _ _ nodes' parents' hnd.2 hn1 hp1 h
        refine ⟨fun a n => ?_, fun a p => ?_⟩
        · rw [h1 a n, mapGet_mapSet]
          simp only [List.mem_cons, exists_eq_or_imp]
          by_cases hk : strings.ToLower name = a
          · subst hk
            rw [if_pos rfl, hnode, hn0 name (List.mem_cons_self _ _)]
            simp only [true_and, Option.some.injEq, Prod.mk.injEq, and_true]
            constructor
            · rintro (h | h)
              · exact Or.inl (Or.inr h)
              · exact Or.inl (Or.inl h)
            · rintro ((h | h) | h)
              · exact Or.inr h
              · exact Or.inl h
              · cases h
          · rw [if_neg hk]
            simp only [hk, false_and, false_or]
        · simp only [List.mem_cons, exists_eq_or_imp]
          rw [h2 a p]
          by_cases hk : strings.ToLower name = a
          · subst hk
            rw [hparent, hp0 name (List.mem_cons_self _ _)]
            by_cases hpa : parentAddress = ""
            · rw [if_neg (not_not.mpr hpa), hp0 name (List.mem_cons_self _ _)]
              simp only [true_and, Prod.mk.injEq, and_true]
              constructor
              · rintro (h | h)
                · exact Or.inl (Or.inr h)
                · cases h
              · rintro ((⟨h1, h2⟩ | h) | h)
                · exact absurd (h2.symm.trans hpa) h1
                · exact Or.inl h
                · cases h
            · rw [if_pos hpa, mapGet_mapSet, if_pos rfl]
              simp only [true_and, Prod.mk.injEq, and_true, Option.some.injEq]
              constructor
              · rintro (h | h)
                · exact Or.inl (Or.inr h)
                · exact Or.inl (Or.inl ⟨h ▸ hpa, h⟩)
              · rintro ((⟨_, h⟩ | h) | h)
                · exact Or.inr h
                · exact Or.inl h
                · cases h
          · have hget : mapGet (if parentAddress ≠ "" then
                mapSet parents (strings.ToLower name) parentAddress else parents) a =
                mapGet parents a := by
              split
              · rw [mapGet_mapSet, if_neg hk]
              · rfl
            rw [hget]
            simp only [hk, false_and, false_or]
      · simp only [readTreeLoop, hnode, hparent] at h
        cases h
    · simp only [readTreeLoop, hnode] at h
      cases h

/-! ## `ReadTree` -/

/-- `ReadTree` once the directory is listed. -/
theorem ReadTree_of_dir (fs : Sysfs) (sysfsRoot : String) (visit : MapOrder)
    (entries : List String) (hdir : fs.ReadDir (devicesDir sysfsRoot) = .ok entries) :
    ReadTree fs sysfsRoot visit =
      match readTreeLoop fs (devicesDir sysfsRoot) entries [] [] with
      | (_, _, some err) => some (⟨[], []⟩, some err)
      | (nodes, parents, none) =>
        (buildForest nodes parents visit).map (fun forest => (forest, none)) := by
  unfold ReadTree
  simp only
  rw [show filepath.Join [sysfsRoot, "bus", "pci", "devices"] = devicesDir sysfsRoot from rfl,
    hdir]

/-- When the loop over the entries succeeds, `ReadTree` returns the forest of the
enumerated devices. -/
theorem ReadTree_forest (fs : Sysfs) (sysfsRoot : String) (visit : MapOrder)
    (entries : List String) (nodes : GoMap String TreeNode) (parents : GoMap String String)
    (hdir : fs.ReadDir (devicesDir sysfsRoot) = .ok entries)
    (hloop : readTreeLoop fs (devicesDir sysfsRoot) entries [] [] = (nodes, parents, none)) :
    ∃ forest, ReadTree fs sysfsRoot visit = some (forest, none) ∧
      IsForestOf nodes parents forest ∧
      ∀ a, a ∈ mapKeys nodes ↔ ∃ e ∈ entries, a = strings.ToLower e := by
  obtain ⟨hnd, hid, hkeys⟩ := readTreeLoop_wf fs (devicesDir sysfsRoot) entries [] [] nodes
    parents List.nodup_nil (fun p n h => by simp [mapGet] at h) hloop
  obtain ⟨forest, hbuild, hforest⟩ := buildForest_spec nodes parents visit hnd hid
  refine ⟨forest, ?_, hforest, fun a => ?_⟩
  · rw [ReadTree_of_dir fs sysfsRoot visit entries hdir, hloop]
    simp only [hbuild, Option.map_some']
  · rw [hkeys a]
    simp [mapKeys]

/-- The outcomes of `ReadTree`: an error with the empty forest, or the forest of the
enumerated devices. -/
theorem ReadTree_cases (fs : Sysfs) (sysfsRoot : String) (visit : MapOrder) :
    (∃ err, ReadTree fs sysfsRoot visit = some (⟨[], []⟩, some err)) ∨
    ∃ entries nodes parents forest,
      fs.ReadDir (devicesDir sysfsRoot) = .ok entries ∧
      readTreeLoop fs (devicesDir sysfsRoot) entries [] [] = (nodes, parents, none) ∧
      ReadTree fs sysfsRoot visit = some (forest, none) ∧ IsForestOf nodes parents forest := by
  cases hdir : fs.ReadDir (devicesDir sysfsRoot) with
  | error err =>
    refine Or.inl ⟨"read pci devices from " ++ devicesDir sysfsRoot ++ ": " ++ err.msg, ?_⟩
    unfold ReadTree
    simp only
    rw [show filepath.Join [sysfsRoot, "bus", "pci", "devices"] = devicesDir sysfsRoot from rfl,
      hdir]
  | ok entries =>
    rcases hloop : readTreeLoop fs (devicesDir sysfsRoot) entries [] [] with
      ⟨nodes, parents, _ | err⟩
    · obtain ⟨forest, h1, h2, _⟩ :=
        ReadTree_forest fs sysfsRoot visit entries nodes parents hdir hloop
      exact Or.inr ⟨entries, nodes, parents, forest, rfl, hloop, h1, h2⟩
    · refine Or.inl ⟨err, ?_⟩
      rw [ReadTree_of_dir fs sysfsRoot visit entries hdir, hloop]

theorem readTreeNode_congr (fs1 fs2 : Sysfs) (hfile : fs2.ReadFile = fs1.ReadFile)
    (hlink : fs2.EvalSymlinks = fs1.EvalSymlinks) (devicePath address : String) :
    readTreeNode fs2 devicePath address = readTreeNode fs1 devicePath address := by
  cases fs1
  cases fs2
  simp only at hfile hlink
  subst hfile hlink
  rfl

theorem resolveParentAddress_congr (fs1 fs2 : Sysfs)
    (hlink : fs2.EvalSymlinks = fs1.EvalSymlinks) (devicePath address : String) :
    resolveParentAddress fs2 devicePath address = resolveParentAddress fs1 devicePath address := by
  unfold resolveParentAddress
  rw [hlink]

/-- The loop of `ReadTree` depends on the files and links of the snapshot only. -/
theorem readTreeLoop_congr (fs1 fs2 : Sysfs) (hfile : fs2.ReadFile = fs1.ReadFile)
    (hlink : fs2.EvalSymlinks = fs1.EvalSymlinks) (devicesPath : String) :
    ∀ (entries : List String) (nodes : GoMap String TreeNode) (parents : GoMap String String),
      readTreeLoop fs2 devicesPath entries nodes parents =
        readTreeLoop fs1 devicesPath entries nodes parents := by
  intro entries
  induction entries with
  | nil => intro nodes parents; rfl
  | cons name rest ih =>
    intro nodes parents
    simp only [readTreeLoop, readTreeNode_congr fs1 fs2 hfile hlink,
      resolveParentAddress_congr fs1 fs2 hlink, ih]

/-! ## The outcomes of `compareWidth` -/

/-- The three outcomes of `compareWidth`: the quotient of the conversions of two parsed
integers with a positive divisor, the equality of the raw strings, or no ratio. -/
theorem compareWidth_outcomes (current max : String) :
    (∃ c m : Int, 0 ≤ c ∧ c < 2 ^ 63 ∧ 0 < m ∧ m < 2 ^ 63 ∧
      parseFirstInt current = (c, true) ∧ parseFirstInt max = (m, true) ∧
      compareWidth current max =
        (Float64.div (Float64.ofInt c) (Float64.ofInt m), decide (c ≥ m))) ∨
    compareWidth current max = (Float64.fin 1, true) ∨
    compareWidth current max = (Float64.nan, false) := by
  unfold compareWidth
  simp only
  by_cases hcond : ((parseFirstInt current).2 && (parseFirstInt max).2 &&
      decide ((parseFirstInt max).1 > 0)) = true
  · rw [if_pos hcond]
    simp only [Bool.and_eq_true, decide_eq_true_eq] at hcond
    exact Or.inl ⟨(parseFirstInt current).1, (parseFirstInt max).1,
      parseFirstInt_nonneg current, parseFirstInt_lt current, hcond.2, parseFirstInt_lt max,
      Prod.ext rfl hcond.1.1, Prod.ext rfl hcond.1.2, rfl⟩
  · rw [if_neg hcond]
    by_cases heq : current ≠ "" ∧ current = max
    · rw [if_pos heq]
      exact Or.inr (Or.inl rfl)
    · rw [if_neg heq]
      exact Or.inr (Or.inr rfl)

/-! ## `formatWidth` applied twice -/

theorem trimSpaceChars_eq_self (l : List Char) (h : trimSpaceChars l = l) :
    l.dropWhile unicode.IsSpace = l ∧ l.rdropWhile unicode.IsSpace = l := by
  have hdef : trimSpaceChars l = (l.dropWhile unicode.IsSpace).rdropWhile unicode.IsSpace := rfl
  have hpre : trimSpaceChars l <+: l.dropWhile unicode.IsSpace := by
    rw [hdef]; exact List.rdropWhile_prefix _ _
  have hsuf : l.dropWhile unicode.IsSpace <:+ l := List.dropWhile_suffix _
  have hlen : (l.dropWhile unicode.IsSpace).length = l.length := by
    have h1 := hpre.length_le
    have h2 := hsuf.length_le
    rw [h] at h1
    omega
  have hd : l.dropWhile unicode.IsSpace = l := hsuf.eq_of_length hlen
  refine ⟨hd, ?_⟩
  rw [hdef, hd] at h
  exact h

theorem trimSpaceChars_of_eq_self (l : List Char) (h1 : l.dropWhile unicode.IsSpace = l)
    (h2 : l.rdropWhile unicode.IsSpace = l) : trimSpaceChars l = l := by
  have hdef : trimSpaceChars l = (l.dropWhile unicode.IsSpace).rdropWhile unicode.IsSpace := rfl
  rw [hdef, h1, h2]

/-- A trimmed text stays trimmed when its first character is replaced by one that is not
white space. -/
theorem trimSpaceChars_swap_head (a b : Char) (r : List Char)
    (h : trimSpaceChars (a :: r) = a :: r) (hb : unicode.IsSpace b = false) :
    trimSpaceChars (b :: r) = b :: r := by
  obtain ⟨_, h2⟩ := trimSpaceChars_eq_self _ h
  refine trimSpaceChars_of_eq_self _ ?_ ?_
  · rw [List.dropWhile_cons_of_neg (by simp [hb])]
  · rw [List.rdropWhile_eq_self_iff] at h2 ⊢
    intro hl
    cases r with
    | nil => simpa using hb
    | cons c t =>
      have := h2 (List.cons_ne_nil _ _)
      simpa [List.getLast_cons] using this

/-- A trimmed text stays trimmed when its second character is removed and its first
character is replaced by one that is not white space. -/
theorem trimSpaceChars_drop_second (a c b : Char) (r : List Char)
    (h : trimSpaceChars (a :: c :: r) = a :: c :: r) (hb : unicode.IsSpace b = false) :
    trimSpaceChars (b :: r) = b :: r := by
  obtain ⟨_, h2⟩ := trimSpaceChars_eq_self _ h
  refine trimSpaceChars_of_eq_self _ ?_ ?_
  · rw [List.dropWhile_cons_of_neg (by simp [hb])]
  · rw [List.rdropWhile_eq_self_iff] at h2 ⊢
    intro hl
    cases r with
    | nil => simpa using hb
    | cons d t =>
      have := h2 (List.cons_ne_nil _ _)
      simpa [List.getLast_cons] using this

theorem formatWidth_trim (width : String) :
    formatWidth (strings.TrimSpace width) = formatWidth width := by
  unfold formatWidth
  simp only [trimSpace_idem]

/-- What `formatWidth` computes when the trimmed width begins with `x` or `X`. -/
theorem formatWidth_letter (width : String) (c : Char) (r : List Char)
    (hdata : (strings.TrimSpace width).data = c :: r) (hc : c = 'x' ∨ c = 'X') :
    formatWidth width =
      "x" ++ strings.TrimPrefix (strings.TrimPrefix ⟨c :: r⟩ "x") "X" := by
  have hne : strings.TrimSpace width ≠ "" := by
    intro h; rw [h] at hdata; cases hdata
  have hx : strings.HasPrefix (strings.ToLower (strings.TrimSpace width)) "x" = true :=
    (hasPrefix_lower_x _).mpr ⟨c, r, hdata, hc⟩
  have hmk : strings.TrimSpace width = ⟨c :: r⟩ := String.ext hdata
  unfold formatWidth
  simp only [if_neg hne, hx, if_true]
  rw [hmk]

/-- A trimmed width that begins with `X` has the `X` replaced by `x`. -/
theorem formatWidth_upper (width : String) (r : List Char)
    (hdata : (strings.TrimSpace width).data = 'X' :: r) : formatWidth width = ⟨'x' :: r⟩ := by
  rw [formatWidth_letter width 'X' r hdata (Or.inr rfl)]
  rw [show ("x" : String) = ⟨['x']⟩ from rfl, show ("X" : String) = ⟨['X']⟩ from rfl,
    trimPrefix_char_miss 'x' 'X' r (by decide), trimPrefix_char_hit]
  rfl

/-- A trimmed width that begins with `xX` loses the `X`. -/
theorem formatWidth_lower_upper (width : String) (r : List Char)
    (hdata : (strings.TrimSpace width).data = 'x' :: 'X' :: r) :
    formatWidth width = ⟨'x' :: r⟩ := by
  rw [formatWidth_letter width 'x' _ hdata (Or.inl rfl)]
  rw [show ("x" : String) = ⟨['x']⟩ from rfl, show ("X" : String) = ⟨['X']⟩ from rfl,
    trimPrefix_char_hit, trimPrefix_char_hit]
  rfl

/-- A trimmed width that begins with `x`, not followed by `X`, is returned as it is. -/
theorem formatWidth_lower (width : String) (r : List Char)
    (hdata : (strings.TrimSpace width).data = 'x' :: r) (hr : ∀ r2, r ≠ 'X' :: r2) :
    formatWidth width = ⟨'x' :: r⟩ := by
  rw [formatWidth_letter width 'x' r hdata (Or.inl rfl)]
  rw [show ("x" : String) = ⟨['x']⟩ from rfl, show ("X" : String) = ⟨['X']⟩ from rfl,
    trimPrefix_char_hit]
  have h2 : strings.TrimPrefix ⟨r⟩ ⟨['X']⟩ = ⟨r⟩ := by
    cases r with
    | nil => exact trimPrefix_char_nil _
    | cons a t => exact trimPrefix_char_miss 'X' a t (fun h => hr t (by rw [h]))
  rw [h2]
  rfl

/-- On a text `x r` that is trimmed, `formatWidth` is the identity exactly when `r` does
not begin with `X`. -/
theorem formatWidth_x_fixed (r : List Char) (htrim : trimSpaceChars ('x' :: r) = 'x' :: r) :
    formatWidth ⟨'x' :: r⟩ = ⟨'x' :: r⟩ ↔ ∀ r2, r ≠ 'X' :: r2 := by
  have hdata : (strings.TrimSpace ⟨'x' :: r⟩).data = 'x' :: r := htrim
  constructor
  · intro h r2 hr
    subst hr
    rw [formatWidth_lower_upper _ r2 hdata] at h
    have hlen := congrArg (fun s : String => s.data.length) h
    simp at hlen
  · intro hr
    exact formatWidth_lower _ r hdata hr

theorem isSpace_x : unicode.IsSpace 'x' = false := by decide

/-! ## The nodes met from the roots -/

theorem mapSet_length_le {κ α : Type} [DecidableEq κ] (m : GoMap κ α) (k : κ) (v : α) :
    (mapSet m k v).length ≤ m.length + 1 := by
  rw [← mapKeys_length, ← mapKeys_length]
  by_cases h : k ∈ mapKeys m
  · rw [mapKeys_mapSet_of_mem m k v h]
    omega
  · rw [mapKeys_mapSet_of_not_mem m k v h]
    simp

/-- The loop of `ReadTree` adds at most one node per entry. -/
theorem readTreeLoop_length (fs : Sysfs) (devicesPath : String) :
    ∀ (entries : List String) (nodes : GoMap String TreeNode) (parents : GoMap String String)
      (nodes' : GoMap String TreeNode) (parents' : GoMap String String),
      readTreeLoop fs devicesPath entries nodes parents = (nodes', parents', none) →
      nodes'.length ≤ nodes.length + entries.length := by
  intro entries
  induction entries with
  | nil =>
    intro nodes parents nodes' parents' h
    simp only [readTreeLoop, Prod.mk.injEq, and_true] at h
    obtain ⟨rfl, rfl⟩ := h
    simp
  | cons name rest ih =>
    intro nodes parents nodes' parents' h
    rcases hnode : readTreeNode fs (filepath.Join [devicesPath, name]) (strings.ToLower name)
      with ⟨node, _ | err⟩
    · rcases hparent : resolveParentAddress fs (filepath.Join [devicesPath, name])
        (strings.ToLower name) with ⟨parentAddress, _ | err⟩
      · rw [readTreeLoop_cons fs devicesPath name rest nodes parents node parentAddress
          hnode hparent] at h
        have h1 := ih _ _ nodes' parents' h
        have h2 := mapSet_length_le nodes (strings.ToLower name) node
        simp only [List.length_cons]
        omega
      · simp only [readTreeLoop, hnode, hparent] at h
        cases h
    · simp only [readTreeLoop, hnode] at h
      cases h

/-- A traversal of a list of distinct pointers: if the traversal from each pointer returns
a list without repetition of what lies below it, and no address lies below two of the
pointers, the traversal of the list returns a list without repetition of what lies below
its pointers. -/
theorem walkList_spec (f : String → Option (List String)) (good : String → Prop)
    (below : String → String → Prop)
    (hf : ∀ c, good c → ∃ l, f c = some l ∧ l.Nodup ∧ ∀ x, x ∈ l ↔ below c x)
    (hdisj : ∀ c1 c2 x, good c1 → good c2 → below c1 x → below c2 x → c1 = c2) :
    ∀ cs : List String, cs.Nodup → (∀ c ∈ cs, good c) →
      ∃ l, walkList f cs = some l ∧ l.Nodup ∧ ∀ x, x ∈ l ↔ ∃ c ∈ cs, below c x := by
  intro cs
  induction cs with
  | nil =>
    intro _ _
    exact ⟨[], rfl, List.nodup_nil, fun x => by simp⟩
  | cons c rest ih =>
    intro hnd hgood
    obtain ⟨hc, hrest⟩ := List.nodup_cons.mp hnd
    obtain ⟨l1, hl1, hnd1, hmem1⟩ := hf c (hgood c (List.mem_cons_self c rest))
    obtain ⟨l2, hl2, hnd2, hmem2⟩ := ih hrest (fun x hx => hgood x (List.mem_cons_of_mem c hx))
    refine ⟨l1 ++ l2, ?_, ?_, fun x => ?_⟩
    · simp only [walkList, hl1, hl2]
    · refine List.Nodup.append hnd1 hnd2 ?_
      intro x hx1 hx2
      obtain ⟨c2, hc2, hbelow2⟩ := (hmem2 x).mp hx2
      have heq := hdisj c c2 x (hgood c (List.mem_cons_self c rest))
        (hgood c2 (List.mem_cons_of_mem c hc2)) ((hmem1 x).mp hx1) hbelow2
      exact hc (heq ▸ hc2)
    · rw [List.mem_append, hmem1, hmem2]
      simp only [List.mem_cons, exists_eq_or_imp]

/-- In the forest of the enumerated devices, an address reached from another address of
the same level is that address. -/
theorem isForestOf_same_level (nodes : GoMap String TreeNode) (parents : GoMap String String)
    (forest : Forest) (h : IsForestOf nodes parents forest) (a b : String) (k : Nat)
    (ha : atLevel (attachedParent nodes parents) k a)
    (hb : atLevel (attachedParent nodes parents) k b)
    (hab : Relation.ReflTransGen (isChildOf forest.nodes) a b) : a = b := by
  rcases Relation.reflTransGen_iff_eq_or_transGen.mp hab with heq | htrans
  · exact heq.symm
  · obtain ⟨j, hj, hjb⟩ := isForestOf_descend nodes parents forest h a b k ha htrans
    have := atLevel_unique (attachedParent nodes parents) k j b hb hjb
    omega

/-- In the forest of the enumerated devices, no address lies below two addresses of the
same level. -/
theorem isForestOf_disjoint (nodes : GoMap String TreeNode) (parents : GoMap String String)
    (forest : Forest) (h : IsForestOf nodes parents forest) (c1 c2 x : String) (k : Nat)
    (h1 : atLevel (attachedParent nodes parents) k c1)
    (h2 : atLevel (attachedParent nodes parents) k c2)
    (hx1 : Relation.ReflTransGen (isChildOf forest.nodes) c1 x)
    (hx2 : Relation.ReflTransGen (isChildOf forest.nodes) c2 x) : c1 = c2 := by
  have hunique : Relator.RightUnique (Function.swap (isChildOf forest.nodes)) := by
    intro d p q hp hq
    have hp' := ((isForestOf_child_iff nodes parents forest h p d).mp hp).2
    have hq' := ((isForestOf_child_iff nodes parents forest h q d).mp hq).2
    rw [hp'] at hq'
    exact Option.some.inj hq'
  have hs1 := Relation.reflTransGen_swap.mpr hx1
  have hs2 := Relation.reflTransGen_swap.mpr hx2
  rcases Relation.ReflTransGen.total_of_right_unique hunique hs1 hs2 with h12 | h21
  · exact (isForestOf_same_level nodes parents forest h c2 c1 k h2 h1
      (Relation.reflTransGen_swap.mp h12)).symm
  · exact isForestOf_same_level nodes parents forest h c1 c2 k h1 h2
      (Relation.reflTransGen_swap.mp h21)

/-- The traversal from an address at level `k`, with enough depth left, returns the
addresses below it, each once. -/
theorem walkNode_spec (nodes : GoMap String TreeNode) (parents : GoMap String String)
    (forest : Forest) (h : IsForestOf nodes parents forest) :
    ∀ (fuel k : Nat) (p : String), p ∈ mapKeys nodes →
      atLevel (attachedParent nodes parents) k p → (mapKeys nodes).length ≤ k + fuel →
      ∃ l, walkNode fuel forest.nodes p = some l ∧ l.Nodup ∧
        ∀ x, x ∈ l ↔ Relation.ReflTransGen (isChildOf forest.nodes) p x := by
  intro fuel
  induction fuel with
  | zero =>
    intro k p hp hk hlen
    have := atLevel_lt_length (attachedParent nodes parents) (mapKeys nodes)
      (fun a q hq => ((attachedParent_some nodes parents a q).mp hq).2) k p hp hk
    omega
  | succ fuel ih =>
    intro k p hp hk hlen
    obtain ⟨n0, hn0⟩ := mapGet_of_mem nodes p hp
    obtain ⟨n, hn, _, _, _, _, hnd, hmem⟩ := h.cell p n0 hn0
    have hgood : ∀ c ∈ n.Children,
        c ∈ mapKeys nodes ∧ atLevel (attachedParent nodes parents) (k + 1) c := by
      intro c hc
      obtain ⟨hck, hcp⟩ := (hmem c).mp hc
      exact ⟨hck, p, hcp, hk⟩
    obtain ⟨l, hl, hlnd, hlmem⟩ :=
      walkList_spec (fun child => walkNode fuel forest.nodes child)
        (fun c => c ∈ mapKeys nodes ∧ atLevel (attachedParent nodes parents) (k + 1) c)
        (Relation.ReflTransGen (isChildOf forest.nodes))
        (fun c hc => ih (k + 1) c hc.1 hc.2 (by omega))
        (fun c1 c2 x hc1 hc2 hx1 hx2 =>
          isForestOf_disjoint nodes parents forest h c1 c2 x (k + 1) hc1.2 hc2.2 hx1 hx2)
        n.Children hnd hgood
    refine ⟨p :: l, ?_, ?_, fun x => ?_⟩
    · simp only [walkNode, hn, hl, Option.map_some']
    · refine List.nodup_cons.mpr ⟨fun hpl => ?_, hlnd⟩
      obtain ⟨c, hc, hcp⟩ := (hlmem p).mp hpl
      have hpc : Relation.TransGen (isChildOf forest.nodes) p p :=
        Relation.TransGen.head' ⟨n, hn, hc⟩ hcp
      obtain ⟨j, hj, hjp⟩ := isForestOf_descend nodes parents forest h p p k hk hpc
      have := atLevel_unique (attachedParent nodes parents) k j p hk hjp
      omega
    · rw [List.mem_cons, hlmem]
      constructor
      · rintro (rfl | ⟨c, hc, hcx⟩)
        · exact Relation.ReflTransGen.refl
        · exact Relation.ReflTransGen.head ⟨n, hn, hc⟩ hcx
      · intro hpx
        rcases Relation.ReflTransGen.cases_head hpx with heq | ⟨c, hc, hcx⟩
        · exact Or.inl heq.symm
        · obtain ⟨m, hm, hcm⟩ := hc
          rw [hn] at hm
          cases hm
          exact Or.inr ⟨c, hcm, hcx⟩

/-- The nodes of the forest of the enumerated devices: the traversal from the roots
returns, and lists each address met from the roots once; they are at most as many as the
enumerated devices. -/
theorem forestNodes_spec (nodes : GoMap String TreeNode) (parents : GoMap String String)
    (forest : Forest) (h : IsForestOf nodes parents forest) :
    ∃ l, forestNodes forest = some l ∧ l.Nodup ∧ (∀ x, x ∈ l ↔ Reaches forest x) ∧
      l.length ≤ nodes.length := by
  have hlen : forest.nodes.length = (mapKeys nodes).length := by
    rw [← mapKeys_length, h.keys]
  have hrootnd : forest.roots.Nodup :=
    h.roots_sorted.imp (fun {a b} hab heq => by
      subst heq
      rw [stringLess_irrefl a] at hab
      cases hab)
  obtain ⟨l, hl, hlnd, hlmem⟩ :=
    walkList_spec (fun root => walkNode (forest.nodes.length + 1) forest.nodes root)
      (fun c => c ∈ mapKeys nodes ∧ atLevel (attachedParent nodes parents) 0 c)
      (Relation.ReflTransGen (isChildOf forest.nodes))
      (fun c hc => walkNode_spec nodes parents forest h (forest.nodes.length + 1) 0 c hc.1 hc.2
        (by omega))
      (fun c1 c2 x hc1 hc2 hx1 hx2 =>
        isForestOf_disjoint nodes parents forest h c1 c2 x 0 hc1.2 hc2.2 hx1 hx2)
      forest.roots hrootnd (fun c hc => (h.roots_mem c).mp hc)
  refine ⟨l, hl, hlnd, hlmem, ?_⟩
  have hsub : l ⊆ mapKeys nodes := by
    intro x hx
    exact ((isForestOf_reaches nodes parents forest h x).mp ((hlmem x).mp hx)).1
  have := (List.subperm_of_subset hlnd hsub).length_le
  rw [mapKeys_length] at this
  exact this

/-! ## The properties -/

/-- C1: when `ReadDevices` succeeds, the addresses of its output are exactly the directory
entry names whose four link attributes are all present; an entry that lacks one of the
four does not appear, and, the entry names being distinct, an entry with all four
appears exactly once. -/
theorem ReadDevices_addresses (fs : Sysfs) (sysfsRoot : String) (devs : List Device)
    (h : ReadDevices fs sysfsRoot = (devs, none)) :
    ∃ entries, fs.ReadDir (devicesDir sysfsRoot) = .ok entries ∧
      (∀ a, a ∈ devs.map Device.Address ↔
        a ∈ entries ∧ hasLinkAttributes fs (devicesDir sysfsRoot) a = true) ∧
      (∀ a ∈ entries, ∀ attr ∈ linkAttributes,
        attrPresent fs (devicesDir sysfsRoot) a attr = false → a ∉ devs.map Device.Address) ∧
      (entries.Nodup → ∀ a ∈ entries, hasLinkAttributes fs (devicesDir sysfsRoot) a = true →
        (devs.map Device.Address).count a = 1) := by
  rcases ReadDevices_cases fs sysfsRoot with ⟨_, msg, _, hr⟩ | ⟨_, msg, _, _, hr⟩ |
    ⟨entries, ds, hdir, _, hmap, hr⟩
  · rw [hr] at h; cases h
  · rw [hr] at h; cases h
  · rw [hr] at h
    injection h with h _
    subst h
    have hperm : ((sortByAddress ds).map Device.Address).Perm
        (entries.filter (hasLinkAttributes fs (devicesDir sysfsRoot))) := by
      rw [← hmap]
      exact (sortByAddress_perm ds).map _
    have hmem : ∀ a, a ∈ (sortByAddress ds).map Device.Address ↔
        a ∈ entries ∧ hasLinkAttributes fs (devicesDir sysfsRoot) a = true := by
      intro a
      rw [hperm.mem_iff, List.mem_filter]
    refine ⟨entries, hdir, hmem, ?_, ?_⟩
    · intro a _ attr hattr habsent hin
      have hall := ((hmem a).mp hin).2
      unfold hasLinkAttributes at hall
      rw [List.all_eq_true] at hall
      rw [hall attr hattr] at habsent
      cases habsent
    · intro hnodup a ha hl
      rw [hperm.count_eq]
      exact List.count_eq_one_of_mem (hnodup.filter _) (List.mem_filter.mpr ⟨ha, hl⟩)

/-- C1 on the sample snapshot: of the three entries, the two with all four link attributes
are the addresses of the output. -/
theorem ReadDevices_addresses_witness :
    ∃ entries, sampleFs.ReadDir (devicesDir "/sys") = .ok entries ∧
      (∀ a, a ∈ [sampleDevice1, sampleDevice2].map Device.Address ↔
        a ∈ entries ∧ hasLinkAttributes sampleFs (devicesDir "/sys") a = true) ∧
      (∀ a ∈ entries, ∀ attr ∈ linkAttributes,
        attrPresent sampleFs (devicesDir "/sys") a attr = false →
          a ∉ [sampleDevice1, sampleDevice2].map Device.Address) ∧
      (entries.Nodup → ∀ a ∈ entries, hasLinkAttributes sampleFs (devicesDir "/sys") a = true →
        ([sampleDevice1, sampleDevice2].map Device.Address).count a = 1) :=
  ReadDevices_addresses sampleFs "/sys" [sampleDevice1, sampleDevice2] sample_ReadDevices

/-- C2: when the directory entries have pairwise distinct names, the devices returned by
a successful `ReadDevices` are strictly ascending by `Address` in byte-wise order, so no
two of them have the same `Address`. -/
theorem ReadDevices_sorted (fs : Sysfs) (sysfsRoot : String) (entries : List String)
    (devs : List Device) (hdir : fs.ReadDir (devicesDir sysfsRoot) = .ok entries)
    (hnodup : entries.Nodup) (h : ReadDevices fs sysfsRoot = (devs, none)) :
    devs.Pairwise (fun a b => stringLess a.Address b.Address = true) ∧
      (devs.map Device.Address).Nodup := by
  rcases ReadDevices_cases fs sysfsRoot with ⟨_, msg, _, hr⟩ | ⟨_, msg, _, _, hr⟩ |
    ⟨entries', ds, hdir', _, hmap, hr⟩
  · rw [hr] at h; cases h
  · rw [hr] at h; cases h
  · rw [hr] at h
    injection h with h _
    subst h
    rw [hdir] at hdir'
    injection hdir' with hdir'
    subst hdir'
    have hnd : (ds.map Device.Address).Nodup := by
      rw [hmap]
      exact hnodup.filter _
    exact ⟨sortByAddress_strict ds hnd,
      ((sortByAddress_perm ds).map Device.Address).nodup_iff.mpr hnd⟩

/-- C2 on the sample snapshot, whose directory lists `0000:02:00.0` before `0000:01:00.0`. -/
theorem ReadDevices_sorted_witness :
    [sampleDevice1, sampleDevice2].Pairwise (fun a b => stringLess a.Address b.Address = true) ∧
      ([sampleDevice1, sampleDevice2].map Device.Address).Nodup :=
  ReadDevices_sorted sampleFs "/sys" ["0000:02:00.0", "0000:03:00.0", "0000:01:00.0"]
    [sampleDevice1, sampleDevice2] (by rfl) (by decide) sample_ReadDevices

/-- C3 as stated fails: the speeds `4194303.9999999995` and `4194304.000000001` parse as
the float64 values `c = 2^22 - 2^-31` and `m = 2^22 + 2^-30`, and `compareSpeed` reports
at-maximum true, because it tests `c + 1e-9 ≥ m` in float64 and the sum rounds up to `m`.
Yet `c ≥ m - 1e-9` is false: for the exact numbers, for the decimal numbers of the two
texts, and also in float64, where `m - 1e-9` rounds to `2^22`, which is above `c`. -/
theorem compareSpeed_numeric_counterexample :
    parseLeadingFloat "4194303.9999999995 GT/s" = (Float64.fin (2 ^ 22 - 1 / 2 ^ 31), true) ∧
      parseLeadingFloat "4194304.000000001 GT/s" = (Float64.fin (2 ^ 22 + 1 / 2 ^ 30), true) ∧
      (compareSpeed "4194303.9999999995 GT/s" "4194304.000000001 GT/s").2 = true ∧
      ¬ ((2 ^ 22 + 1 / 2 ^ 30 : ℚ) - 1 / 10 ^ 9 ≤ 2 ^ 22 - 1 / 2 ^ 31) ∧
      ¬ ((4194304000000001 / 10 ^ 9 : ℚ) - 1 / 10 ^ 9 ≤ 41943039999999995 / 10 ^ 10) ∧
      Float64.eps = Float64.fin (4835703278458517 / 2 ^ 82) ∧
      Float64.ge (Float64.fin (2 ^ 22 - 1 / 2 ^ 31))
        (Float64.round64 (2 ^ 22 + 1 / 2 ^ 30 - 4835703278458517 / 2 ^ 82)) = false := by
  refine ⟨parseLeadingFloat_below, parseLeadingFloat_above, ?_, by norm_num, by norm_num,
    eps_eq, ?_⟩
  · rw [compareSpeed_fin _ _ _ _ parseLeadingFloat_below parseLeadingFloat_above (by positivity),
      round64_below_sum]
    simp [Float64.ge]
  · rw [round64_above_diff]
    simp only [Float64.ge]
    exact decide_eq_false (by norm_num)

/-- C3 (amended): when the first field of each speed string parses as a finite number, `c`
for the current and `m > 0` for the maximum, `compareSpeed` returns the float64 quotient of
`c` by `m`, which is the float64 nearest to `c / m` (within a relative error of `2^-53`
when `c / m` lies in the range of the normal numbers), and the flag `c + 1e-9 ≥ m`
computed in float64.  The flag is true whenever `c ≥ m - 1e-9`; it is false whenever `c`
is below `m` by more than twice the float64 constant `1e-9`; in between, it depends on the
rounding of the sum. -/
theorem compareSpeed_numeric (current max tc tm : String) (c m : ℚ)
    (hc : (strings.Fields current).head? = some tc)
    (hpc : strconv.ParseFloat tc = some (Float64.fin c))
    (hm : (strings.Fields max).head? = some tm)
    (hpm : strconv.ParseFloat tm = some (Float64.fin m))
    (hpos : 0 < m) :
    compareSpeed current max =
      (Float64.div (Float64.fin c) (Float64.fin m),
        Float64.ge (Float64.add (Float64.fin c) Float64.eps) (Float64.fin m)) ∧
    (compareSpeed current max).1 = Float64.round64 (c / m) ∧
    ((2 : ℚ) ^ (-1022 : Int) ≤ c / m → c / m ≤ (2 : ℚ) ^ (1023 : Int) →
      ∃ r : ℚ, (compareSpeed current max).1 = Float64.fin r ∧ |r - c / m| ≤ c / m / 2 ^ 53) ∧
    Float64.eps = Float64.fin (4835703278458517 / 2 ^ 82) ∧
    (m - 1 / 10 ^ 9 ≤ c → (compareSpeed current max).2 = true) ∧
    (c < m - 2 * (4835703278458517 / 2 ^ 82) → (compareSpeed current max).2 = false) := by
  have h1 : parseLeadingFloat current = (Float64.fin c, true) := by
    rw [parseLeadingFloat_eq, hc]; simp only [hpc]
  have h2 : parseLeadingFloat max = (Float64.fin m, true) := by
    rw [parseLeadingFloat_eq, hm]; simp only [hpm]
  have hfin := compareSpeed_fin current max c m h1 h2 hpos
  obtain ⟨Mc, jc, hMc, hjc, hcrep, _⟩ := ParseFloat_repr tc c hpc
  obtain ⟨Mm, jm, hMm, hjm, hmrep, hmfin⟩ := ParseFloat_repr tm m hpm
  rw [abs_of_pos hpos] at hmrep hmfin
  refine ⟨?_, ?_, ?_, eps_eq, ?_, ?_⟩
  · rw [hfin, Float64.div_fin _ _ (ne_of_gt hpos), add_fin_eps]
  · rw [hfin]
  · intro hlo hhi
    obtain ⟨r, hr, hnear⟩ := Float64.round64_near (c / m) hlo hhi
    exact ⟨r, by rw [hfin, hr], hnear⟩
  · intro hle
    rw [hfin]
    refine speed_flag_true c m Mm jm hpos hMm hjm hmrep ?_
    have : (1 : ℚ) / 10 ^ 9 ≤ 4835703278458517 / 2 ^ 82 := by norm_num
    linarith
  · intro hlt
    rw [hfin]
    exact speed_flag_false c m Mc Mm jc jm hpos hMc hjc hcrep hMm hjm hmrep hmfin
      (by linarith)

/-- C3 (amended) at 8 GT/s against 16 GT/s, which gives the ratio 0.5 and at-maximum
false, and at equal speeds, which give the ratio 1.0 and at-maximum true. -/
theorem compareSpeed_numeric_witness :
    compareSpeed "8 GT/s" "16 GT/s" = (Float64.fin (1 / 2), false) ∧
      compareSpeed "16 GT/s" "16 GT/s" = (Float64.fin 1, true) := by
  have a := compareSpeed_numeric "8 GT/s" "16 GT/s" "8" "16" 8 16 (by decide) ParseFloat_8
    (by decide) ParseFloat_16 (by norm_num)
  have b := compareSpeed_numeric "16 GT/s" "16 GT/s" "16" "16" 16 16 (by decide) ParseFloat_16
    (by decide) ParseFloat_16 (by norm_num)
  constructor
  · refine Prod.ext ?_ ?_
    · rw [a.2.1]
      have e : (8 : ℚ) / 16 = 1 / 2 := by norm_num
      rw [e, round64_half]
    · exact a.2.2.2.2.2 (by norm_num)
  · refine Prod.ext ?_ ?_
    · rw [b.2.1]
      have e : (16 : ℚ) / 16 = 1 := by norm_num
      rw [e, round64_one]
    · exact b.2.2.2.2.1 (by norm_num)

/-- C4 as stated fails: two empty strings are equal and do not parse, yet `compareSpeed`
does not return ratio 1.0 and true for them. -/
theorem compareSpeed_fallback_counterexample :
    ¬ (∀ current max : String,
        ((parseLeadingFloat current).2 = false ∨ (parseLeadingFloat max).2 = false) →
        (current = max → compareSpeed current max = (Float64.fin 1, true)) ∧
        (current ≠ max → compareSpeed current max = (Float64.nan, false))) := by
  intro h
  have h1 := (h "" "" (Or.inl (by decide))).1 rfl
  revert h1
  with_unfolding_all decide

/-- C4 (amended): when numeric parsing fails on at least one side, `compareSpeed` and
`compareWidth` compare the raw strings: equal and non-empty gives ratio 1.0 and true;
anything else, the pair of empty strings included, gives NaN and false. -/
theorem compare_fallback (current max : String) :
    (((parseLeadingFloat current).2 = false ∨ (parseLeadingFloat max).2 = false) →
      compareSpeed current max =
        if current ≠ "" ∧ current = max then (Float64.fin 1, true) else (Float64.nan, false)) ∧
    (((parseFirstInt current).2 = false ∨ (parseFirstInt max).2 = false) →
      compareWidth current max =
        if current ≠ "" ∧ current = max then (Float64.fin 1, true) else (Float64.nan, false)) := by
  constructor
  · intro h
    unfold compareSpeed
    rcases h with h | h <;> simp [h]
  · intro h
    unfold compareWidth
    rcases h with h | h <;> simp [h]

/-- C4 (amended) at the strings of the fallback test, and at the pair of empty strings. -/
theorem compare_fallback_witness :
    compareSpeed "Unknown" "Unknown" = (Float64.fin 1, true) ∧
      compareSpeed "n/a" "16 GT/s" = (Float64.nan, false) ∧
      compareSpeed "" "" = (Float64.nan, false) ∧
      compareWidth "auto" "auto" = (Float64.fin 1, true) ∧
      compareWidth "" "" = (Float64.nan, false) :=
  ⟨((compare_fallback "Unknown" "Unknown").1 (Or.inl (by with_unfolding_all decide))).trans
      (by decide),
   ((compare_fallback "n/a" "16 GT/s").1 (Or.inl (by with_unfolding_all decide))).trans
      (by decide),
   ((compare_fallback "" "").1 (Or.inl (by with_unfolding_all decide))).trans (by decide),
   ((compare_fallback "auto" "auto").2 (Or.inl (by decide))).trans (by decide),
   ((compare_fallback "" "").2 (Or.inl (by decide))).trans (by decide)⟩

/-- C5 as stated fails: the conversion of an integer to float64 is exact only up to
`2^53`.  The widths `9007199254740992` (`2^53`) and `9007199254740993` parse as these
integers, both within the range of `int`, and `compareWidth` returns the ratio 1.0 with
at-maximum false, whereas the exact quotient is below 1. -/
theorem compareWidth_numeric_counterexample :
    parseFirstInt "9007199254740992" = (9007199254740992, true) ∧
      parseFirstInt "9007199254740993" = (9007199254740993, true) ∧
      compareWidth "9007199254740992" "9007199254740993" = (Float64.fin 1, false) ∧
      (9007199254740992 : ℚ) / 9007199254740993 ≠ 1 := by
  exact ⟨by decide, by decide, compareWidth_wide, by norm_num⟩

/-- C5 (amended): when both width strings contain a run of digits, with first-run values
`c` and `m` below `2^63` and `m > 0`, `compareWidth` returns the float64 quotient of the
conversions of `c` and `m` to float64, and the flag `c ≥ m`.  When `c` and `m` are at most
`2^53` the conversions are exact and the ratio is the float64 nearest to `c / m`: it is
within a relative error of `2^-53` of `c / m`, and it is `c / m` itself when that is a
float64 value, such as 0.5 for `x8` against `x16`. -/
theorem compareWidth_numeric (current max : String)
    (hc : ∃ d ∈ current.data, isDigit d = true) (hm : ∃ d ∈ max.data, isDigit d = true)
    (hcfit : digitsValue (firstDigitRun current.data) < 2 ^ 63)
    (hmfit : digitsValue (firstDigitRun max.data) < 2 ^ 63)
    (hpos : 0 < digitsValue (firstDigitRun max.data)) :
    compareWidth current max =
      (Float64.div (Float64.ofInt (digitsValue (firstDigitRun current.data)))
          (Float64.ofInt (digitsValue (firstDigitRun max.data))),
        decide (digitsValue (firstDigitRun max.data) ≤
          digitsValue (firstDigitRun current.data))) ∧
    (digitsValue (firstDigitRun current.data) ≤ 2 ^ 53 →
      digitsValue (firstDigitRun max.data) ≤ 2 ^ 53 →
      compareWidth current max =
        (Float64.round64 ((digitsValue (firstDigitRun current.data) : ℚ) /
            (digitsValue (firstDigitRun max.data) : ℚ)),
          decide (digitsValue (firstDigitRun max.data) ≤
            digitsValue (firstDigitRun current.data))) ∧
      (∃ r : ℚ, (compareWidth current max).1 = Float64.fin r ∧
        |r - (digitsValue (firstDigitRun current.data) : ℚ) /
            (digitsValue (firstDigitRun max.data) : ℚ)| ≤
          (digitsValue (firstDigitRun current.data) : ℚ) /
            (digitsValue (firstDigitRun max.data) : ℚ) / 2 ^ 53) ∧
      ∀ (M : Nat) (j : Int), M < 2 ^ 53 → -1074 ≤ j →
        (digitsValue (firstDigitRun current.data) : ℚ) /
            (digitsValue (firstDigitRun max.data) : ℚ) = (M : ℚ) * (2 : ℚ) ^ j →
        compareWidth current max =
          (Float64.fin ((digitsValue (firstDigitRun current.data) : ℚ) /
              (digitsValue (firstDigitRun max.data) : ℚ)),
            decide (digitsValue (firstDigitRun max.data) ≤
              digitsValue (firstDigitRun current.data)))) := by
  have h1 : parseFirstInt current = ((digitsValue (firstDigitRun current.data) : Int), true) := by
    rw [parseFirstInt_eq, if_neg (firstDigitRun_ne_nil _ hc), if_pos hcfit]
  have h2 : parseFirstInt max = ((digitsValue (firstDigitRun max.data) : Int), true) := by
    rw [parseFirstInt_eq, if_neg (firstDigitRun_ne_nil _ hm), if_pos hmfit]
  have hpos' : (0 : Int) < (digitsValue (firstDigitRun max.data) : Int) := by exact_mod_cast hpos
  have hflag : decide ((digitsValue (firstDigitRun current.data) : Int) ≥
      (digitsValue (firstDigitRun max.data) : Int)) =
      decide (digitsValue (firstDigitRun max.data) ≤
        digitsValue (firstDigitRun current.data)) := by
    apply decide_eq_decide.mpr
    exact Int.ofNat_le
  have hw := compareWidth_int current max _ _ h1 h2 hpos'
  rw [hflag] at hw
  refine ⟨hw, ?_⟩
  intro hc53 hm53
  have ec := Float64.ofInt_exact (digitsValue (firstDigitRun current.data) : Int)
    (Int.natCast_nonneg _) (by exact_mod_cast hc53)
  have em := Float64.ofInt_exact (digitsValue (firstDigitRun max.data) : Int)
    (Int.natCast_nonneg _) (by exact_mod_cast hm53)
  have hmq : (0 : ℚ) < (digitsValue (firstDigitRun max.data) : ℚ) := by exact_mod_cast hpos
  have hround : compareWidth current max =
      (Float64.round64 ((digitsValue (firstDigitRun current.data) : ℚ) /
          (digitsValue (firstDigitRun max.data) : ℚ)),
        decide (digitsValue (firstDigitRun max.data) ≤
          digitsValue (firstDigitRun current.data))) := by
    rw [hw, ec, em, Float64.div_fin _ _ (by exact_mod_cast (ne_of_gt hpos))]
    simp only [Int.cast_natCast]
  have hcq : (digitsValue (firstDigitRun current.data) : ℚ) ≤ (2 : ℚ) ^ (53 : Int) := by
    have : (digitsValue (firstDigitRun current.data) : ℚ) ≤ ((2 ^ 53 : Nat) : ℚ) := by
      exact_mod_cast hc53
    refine le_trans this (le_of_eq ?_)
    norm_num
  have hmq53 : (digitsValue (firstDigitRun max.data) : ℚ) ≤ (2 : ℚ) ^ (53 : Int) := by
    have : (digitsValue (firstDigitRun max.data) : ℚ) ≤ ((2 ^ 53 : Nat) : ℚ) := by
      exact_mod_cast hm53
    refine le_trans this (le_of_eq ?_)
    norm_num
  have hm1 : (1 : ℚ) ≤ (digitsValue (firstDigitRun max.data) : ℚ) := by exact_mod_cast hpos
  have hup : (digitsValue (firstDigitRun current.data) : ℚ) /
      (digitsValue (firstDigitRun max.data) : ℚ) ≤ (2 : ℚ) ^ (53 : Int) :=
    le_trans (div_le_self (Nat.cast_nonneg _) hm1) hcq
  refine ⟨hround, ?_, ?_⟩
  · rcases Nat.eq_zero_or_pos (digitsValue (firstDigitRun current.data)) with hz | hcpos
    · refine ⟨0, ?_, ?_⟩
      · rw [hround, hz]
        simp [Float64.round64_zero]
      · rw [hz]
        simp
    · have hc1 : (1 : ℚ) ≤ (digitsValue (firstDigitRun current.data) : ℚ) := by
        exact_mod_cast hcpos
      have hlow : (2 : ℚ) ^ (-53 : Int) ≤ (digitsValue (firstDigitRun current.data) : ℚ) /
          (digitsValue (firstDigitRun max.data) : ℚ) := by
        rw [le_div_iff₀ hmq]
        have h53 : (2 : ℚ) ^ (-53 : Int) * (2 : ℚ) ^ (53 : Int) = 1 := by
          rw [← Float64.two_zpow_add]
          norm_num
        have hp : (0 : ℚ) ≤ (2 : ℚ) ^ (-53 : Int) := le_of_lt (zpow_pos (by norm_num) _)
        calc (2 : ℚ) ^ (-53 : Int) * (digitsValue (firstDigitRun max.data) : ℚ)
            ≤ (2 : ℚ) ^ (-53 : Int) * (2 : ℚ) ^ (53 : Int) :=
              mul_le_mul_of_nonneg_left hmq53 hp
          _ = 1 := h53
          _ ≤ (digitsValue (firstDigitRun current.data) : ℚ) := hc1
      obtain ⟨r, hr, hnear⟩ := Float64.round64_near _
        (le_trans (zpow_le_zpow_right₀ (by norm_num) (by norm_num)) hlow)
        (le_trans hup (zpow_le_zpow_right₀ (by norm_num) (by norm_num)))
      exact ⟨r, by rw [hround, hr], hnear⟩
  intro M j hM hj hq
  rw [hround]
  rcases Nat.eq_zero_or_pos (digitsValue (firstDigitRun current.data)) with hz | hcpos
  · rw [hz]
    simp [Float64.round64_zero]
  · have hqpos : (0 : ℚ) < (digitsValue (firstDigitRun current.data) : ℚ) /
        (digitsValue (firstDigitRun max.data) : ℚ) :=
      div_pos (by exact_mod_cast hcpos) hmq
    have hfin : (digitsValue (firstDigitRun current.data) : ℚ) /
        (digitsValue (firstDigitRun max.data) : ℚ) < (2 : ℚ) ^ (1024 : Int) :=
      lt_of_le_of_lt hup (zpow_lt_zpow_right₀ (by norm_num) (by norm_num))
    rw [Float64.round64_exact _ M j hqpos hM hj hq hfin]

/-- C5 (amended) at `x8` against `x16`: the ratio 0.5, a float64 value, and at-maximum
false. -/
theorem compareWidth_numeric_witness :
    compareWidth "x8" "x16" = (Float64.fin (1 / 2), false) := by
  have h := (compareWidth_numeric "x8" "x16" (by decide) (by decide) (by decide) (by decide)
    (by decide)).2
  have h8 : digitsValue (firstDigitRun "x8".data) = 8 := by decide
  have h16 : digitsValue (firstDigitRun "x16".data) = 16 := by decide
  rw [h8, h16] at h
  have h2 := (h (by norm_num) (by norm_num)).2.2 1 (-1) (by norm_num) (by norm_num)
    (by rw [zpow_neg]; norm_num)
  rw [h2]
  norm_num

/-- C6: a string without a decimal digit makes `parseFirstInt` report failure; a string
with a digit whose first maximal run of digits denotes a number below `2^63` makes it
succeed with that number, wherever the run sits. -/
theorem parseFirstInt_first_run (s : String) :
    ((∀ c ∈ s.data, isDigit c = false) → parseFirstInt s = (0, false)) ∧
    ((∃ c ∈ s.data, isDigit c = true) → digitsValue (firstDigitRun s.data) < 2 ^ 63 →
      parseFirstInt s = ((digitsValue (firstDigitRun s.data) : Int), true)) := by
  rw [parseFirstInt_eq]
  constructor
  · intro h
    rw [if_pos (firstDigitRun_nil_of_no_digit _ h)]
  · intro h hfit
    rw [if_neg (firstDigitRun_ne_nil _ h), if_pos hfit]

/-- C6 at a string without digits and at `x8`, `8`, `width8`, `x16 lanes 4`. -/
theorem parseFirstInt_first_run_witness :
    parseFirstInt "n/a" = (0, false) ∧ parseFirstInt "x8" = (8, true) ∧
      parseFirstInt "8" = (8, true) ∧ parseFirstInt "width8" = (8, true) ∧
      parseFirstInt "x16 lanes 4" = (16, true) :=
  ⟨(parseFirstInt_first_run "n/a").1 (by decide),
   (parseFirstInt_first_run "x8").2 (by decide) (by decide),
   (parseFirstInt_first_run "8").2 (by decide) (by decide),
   (parseFirstInt_first_run "width8").2 (by decide) (by decide),
   (parseFirstInt_first_run "x16 lanes 4").2 (by decide) (by decide)⟩

/-- C7: for a device emitted by `readDevice`, `NegotiatedOK` holds exactly when the flags
of `compareSpeed` and `compareWidth` on the stored strings both hold, and the two stored
ratios are the ratios of those calls. -/
theorem readDevice_negotiated (fs : Sysfs) (devicePath address : String) (d : Device)
    (h : readDevice fs devicePath address = (d, true, none)) :
    (d.NegotiatedOK = true ↔
      (compareSpeed d.CurrentLinkSpeed d.MaxLinkSpeed).2 = true ∧
        (compareWidth d.CurrentLinkWidth d.MaxLinkWidth).2 = true) ∧
    d.SpeedRatio = (compareSpeed d.CurrentLinkSpeed d.MaxLinkSpeed).1 ∧
    d.WidthRatio = (compareWidth d.CurrentLinkWidth d.MaxLinkWidth).1 := by
  obtain ⟨cs, ms, cw, mw, ve, de, cl, _, _, _, _, rfl⟩ := readDevice_emitted fs devicePath address d h
  exact ⟨Bool.and_eq_true _ _ ▸ Iff.rfl, rfl, rfl⟩

/-- C7 at the half-speed, half-width device of the sample snapshot. -/
theorem readDevice_negotiated_witness :
    (sampleDevice2.NegotiatedOK = true ↔
      (compareSpeed "8 GT/s" "16 GT/s").2 = true ∧ (compareWidth "x8" "x16").2 = true) ∧
    sampleDevice2.SpeedRatio = (compareSpeed "8 GT/s" "16 GT/s").1 ∧
    sampleDevice2.WidthRatio = (compareWidth "x8" "x16").1 :=
  readDevice_negotiated sampleFs "/sys/bus/pci/devices/0000:02:00.0" "0000:02:00.0"
    sampleDevice2 sample_readDevice2

/-- C8 as stated fails: a current width of `0` against `16` gives the ratio 0, which is
neither NaN nor strictly positive. -/
theorem ratio_positive_counterexample :
    ¬ (∀ current max : String,
        undefinedOrPositive (compareSpeed current max).1 ∧
        undefinedOrPositive (compareWidth current max).1) := by
  intro h
  have hw := (h "0" "16").2
  rw [compareWidth_0_16] at hw
  rcases hw with hw | ⟨q, hq, hpos⟩
  · cases hw
  · injection hq with hq
    rw [← hq] at hpos
    exact lt_irrefl _ hpos

/-- C8 (amended): the ratio of `compareWidth` is NaN or a finite value that is at least 0,
and strictly positive unless the current width parses as 0; the ratio of `compareSpeed`
is NaN, or 1.0 from the comparison of the raw strings, or the float64 quotient of the two
parsed numbers.  For finite numbers `c` and `m > 0` that quotient is the float64 nearest
to `c / m`: finite and strictly positive when `c / m` lies in the range of the normal
numbers, `+Inf` when `c / m` is `2^1024` or more, 0 when `c / m` is below `2^-1075`, and
not positive when `c` is negative. -/
theorem ratio_range (current max : String) :
    ((compareWidth current max).1 = Float64.nan ∨
      ∃ q : ℚ, (compareWidth current max).1 = Float64.fin q ∧ 0 ≤ q ∧
        ((parseFirstInt current).1 ≠ 0 → 0 < q)) ∧
    ((compareSpeed current max).1 = Float64.nan ∨
      (compareSpeed current max).1 = Float64.fin 1 ∨
      ((parseLeadingFloat current).2 = true ∧ (parseLeadingFloat max).2 = true ∧
        (compareSpeed current max).1 =
          Float64.div (parseLeadingFloat current).1 (parseLeadingFloat max).1)) ∧
    (∀ c m : ℚ, parseLeadingFloat current = (Float64.fin c, true) →
      parseLeadingFloat max = (Float64.fin m, true) → 0 < m →
      (compareSpeed current max).1 = Float64.round64 (c / m) ∧
      (0 ≤ c → (compareSpeed current max).1 = Float64.posInf ∨
        ∃ q : ℚ, (compareSpeed current max).1 = Float64.fin q ∧ 0 ≤ q) ∧
      ((2 : ℚ) ^ (-1022 : Int) ≤ c / m → c / m ≤ (2 : ℚ) ^ (1023 : Int) →
        ∃ q : ℚ, (compareSpeed current max).1 = Float64.fin q ∧ 0 < q) ∧
      ((2 : ℚ) ^ (1024 : Int) ≤ c / m → (compareSpeed current max).1 = Float64.posInf) ∧
      (0 < c → c / m < (2 : ℚ) ^ (-1075 : Int) →
        (compareSpeed current max).1 = Float64.fin 0) ∧
      (c < 0 → (compareSpeed current max).1 = Float64.negInf ∨
        ∃ q : ℚ, (compareSpeed current max).1 = Float64.fin q ∧ q ≤ 0)) := by
  refine ⟨?_, ?_, ?_⟩
  · rcases compareWidth_outcomes current max with ⟨c, m, hc0, hc, hm0, hm, hpc, _, h⟩ | h | h
    · obtain ⟨r, hr, hr0, hrpos, _⟩ := Float64.div_ofInt c m hc0 hc hm0 hm
      right
      refine ⟨r, by rw [h, hr], hr0, ?_⟩
      intro hne
      rw [hpc] at hne
      exact hrpos (lt_of_le_of_ne hc0 (Ne.symm hne))
    · right
      exact ⟨1, by rw [h], zero_le_one, fun _ => zero_lt_one⟩
    · left
      rw [h]
  · by_cases hcond : ((parseLeadingFloat current).2 && (parseLeadingFloat max).2 &&
        Float64.gt (parseLeadingFloat max).1 (Float64.fin 0)) = true
    · have hw : (compareSpeed current max).1 =
          Float64.div (parseLeadingFloat current).1 (parseLeadingFloat max).1 := by
        simp only [compareSpeed]
        rw [if_pos hcond]
      simp only [Bool.and_eq_true] at hcond
      exact Or.inr (Or.inr ⟨hcond.1.1, hcond.1.2, hw⟩)
    · by_cases hs : current ≠ "" ∧ current = max
      · have hw : compareSpeed current max = (Float64.fin 1, true) := by
          simp only [compareSpeed]
          rw [if_neg hcond, if_pos hs]
        exact Or.inr (Or.inl (by rw [hw]))
      · have hw : compareSpeed current max = (Float64.nan, false) := by
          simp only [compareSpeed]
          rw [if_neg hcond, if_neg hs]
        exact Or.inl (by rw [hw])
  · intro c m hc hm hpos
    have hfin := compareSpeed_fin current max c m hc hm hpos
    have hratio : (compareSpeed current max).1 = Float64.round64 (c / m) := by rw [hfin]
    rw [hratio]
    refine ⟨rfl, ?_, ?_, ?_, ?_, ?_⟩
    · intro hc0
      exact Float64.round64_nonneg _ (div_nonneg hc0 (le_of_lt hpos))
    · intro hlo hhi
      have hq : 0 < c / m := lt_of_lt_of_le (zpow_pos (by norm_num) _) hlo
      obtain ⟨r, hr, hl, _⟩ := Float64.round64_between (c / m) 1 1 (-1022) 1023 hq
        (by norm_num) (by norm_num) (by norm_num) (by norm_num)
        (by rw [Nat.cast_one, one_mul]; exact hlo) (by rw [Nat.cast_one, one_mul]; exact hhi)
        (by rw [Nat.cast_one, one_mul]; exact zpow_lt_zpow_right₀ (by norm_num) (by norm_num))
      rw [Nat.cast_one, one_mul] at hl
      exact ⟨r, hr, lt_of_lt_of_le (zpow_pos (by norm_num) _) hl⟩
    · intro hbig
      exact Float64.round64_overflow _ hbig
    · intro hc0 hsmall
      exact Float64.round64_underflow _ (div_pos hc0 hpos) hsmall
    · intro hneg
      exact Float64.round64_of_neg _ (div_neg_of_neg_of_pos hneg hpos)

/-- C8 (amended) at speeds whose ratio is not a finite positive value: a current speed of
0 gives the ratio 0, `1e200` against `1e-200` gives `+Inf`, `1e-200` against `1e200` gives
0, and `-8` against 16 gives `-0.5`. -/
theorem ratio_range_witness :
    (compareSpeed "0 GT/s" "8 GT/s").1 = Float64.fin 0 ∧
      (compareSpeed "1e200" "1e-200").1 = Float64.posInf ∧
      (compareSpeed "1e-200" "1e200").1 = Float64.fin 0 ∧
      (compareSpeed "-8 GT/s" "16 GT/s").1 = Float64.fin (-1 / 2) := by
  obtain ⟨big, hbig, hb1, hb2⟩ := parseLeadingFloat_huge
  obtain ⟨small, hsmall, hs1, hs2⟩ := parseLeadingFloat_tiny
  have hbig0 : 0 < big := lt_of_lt_of_le (zpow_pos (by norm_num) _) hb1
  have hsmall0 : 0 < small := lt_of_lt_of_le (zpow_pos (by norm_num) _) hs1
  refine ⟨?_, ?_, ?_, ?_⟩
  · have h := ((ratio_range "0 GT/s" "8 GT/s").2.2 0 8 parseLeadingFloat_0 parseLeadingFloat_8
      (by norm_num)).1
    rw [h, zero_div, Float64.round64_zero]
  · exact ((ratio_range "1e200" "1e-200").2.2 big small hbig hsmall hsmall0).2.2.2.1
      (zpow_664_quotient big small hb1 hsmall0 hs2)
  · exact ((ratio_range "1e-200" "1e200").2.2 small big hsmall hbig hbig0).2.2.2.2.1 hsmall0
      (zpow_664_small small big hs2 hb1)
  · have h := ((ratio_range "-8 GT/s" "16 GT/s").2.2 (-8) 16 parseLeadingFloat_neg8
      parseLeadingFloat_16 (by norm_num)).1
    rw [h, round64_neg_half]

/-- C9: `ReadDevices` is all-or-nothing.  A failed directory listing, or a failed read
(other than "file does not exist") of an attribute of any entry, makes it return an error
with an empty device list; an error never comes with devices; and when every failing read
is a "file does not exist", there is no error. -/
theorem ReadDevices_all_or_nothing (fs : Sysfs) (sysfsRoot : String) :
    ((∃ err, fs.ReadDir (devicesDir sysfsRoot) = .error err) →
      (ReadDevices fs sysfsRoot).1 = [] ∧ (ReadDevices fs sysfsRoot).2 ≠ none) ∧
    (∀ entries, fs.ReadDir (devicesDir sysfsRoot) = .ok entries →
      (∃ name ∈ entries, entryFails fs (devicesDir sysfsRoot) name = true) →
      (ReadDevices fs sysfsRoot).1 = [] ∧ (ReadDevices fs sysfsRoot).2 ≠ none) ∧
    ((ReadDevices fs sysfsRoot).2 ≠ none → (ReadDevices fs sysfsRoot).1 = []) ∧
    (∀ entries, fs.ReadDir (devicesDir sysfsRoot) = .ok entries →
      (∀ path err, fs.ReadFile path = .error err → err.notExist = true) →
      (ReadDevices fs sysfsRoot).2 = none) := by
  rcases ReadDevices_cases fs sysfsRoot with ⟨err, msg, hdir, hr⟩ | ⟨entries, msg, hdir, hf, hr⟩ |
    ⟨entries, ds, hdir, hall, _, hr⟩
  · refine ⟨fun _ => by rw [hr]; exact ⟨rfl, by simp⟩, ?_, fun _ => by rw [hr], ?_⟩
    · intro entries hd
      rw [hdir] at hd
      cases hd
    · intro entries hd
      rw [hdir] at hd
      cases hd
  · refine ⟨fun _ => by rw [hr]; exact ⟨rfl, by simp⟩, fun _ _ _ => by rw [hr]; exact ⟨rfl, by simp⟩,
      fun _ => by rw [hr], ?_⟩
    intro entries' hd habs
    exfalso
    obtain ⟨name, _, hfail⟩ := hf
    have hnofail : ∀ attr, attrFails fs (devicesDir sysfsRoot) name attr = false := by
      intro attr
      unfold attrFails
      cases hread : fs.ReadFile (attributePath (devicesDir sysfsRoot) name attr) with
      | ok _ => rfl
      | error e => simp [habs _ e hread]
    unfold entryFails at hfail
    simp [List.any_eq_true, hnofail] at hfail
  · refine ⟨?_, ?_, fun hne => by rw [hr] at hne; exact absurd rfl hne, fun _ _ _ => by rw [hr]⟩
    · rintro ⟨err, hd⟩
      rw [hdir] at hd
      cases hd
    · intro entries' hd hf
      rw [hdir] at hd
      injection hd with hd
      subst hd
      obtain ⟨name, hn, hfail⟩ := hf
      rw [hall name hn] at hfail
      cases hfail

/-- C9 on the snapshot with an unreadable `max_link_width`: an error and no device, although
the entry listed before it was read successfully. -/
theorem ReadDevices_all_or_nothing_witness :
    (ReadDevices brokenFs "/sys").1 = [] ∧ (ReadDevices brokenFs "/sys").2 ≠ none :=
  (ReadDevices_all_or_nothing brokenFs "/sys").2.1
    ["0000:02:00.0", "0000:03:00.0", "0000:01:00.0"] (by rfl)
    ⟨"0000:03:00.0", by decide, by decide⟩

/-- C10 as stated fails: on a path whose chain is `a, b, a` the address `a` is the first
component of the chain, yet the result is `b`, not "no parent". -/
theorem resolveParentAddress_first_counterexample :
    ¬ (∀ (fs : Sysfs) (devicePath address resolved : String),
        fs.EvalSymlinks devicePath = .ok resolved →
        ((pathAddresses resolved).length < 2 ∨ address ∉ pathAddresses resolved ∨
          (pathAddresses resolved).head? = some address) →
        resolveParentAddress fs devicePath address = ("", none)) := by
  intro h
  have h1 := h sampleFs "/sys/devices/pci0000:00/0000:00:01.0/0000:01:00.0/0000:00:01.0"
    "0000:00:01.0" "/sys/devices/pci0000:00/0000:00:01.0/0000:01:00.0/0000:00:01.0" rfl
    (Or.inr (Or.inr (by decide)))
  revert h1
  decide

/-- C10 (amended): with `chain` the PCI addresses of the canonical path, in path order and
lower-cased, `resolveParentAddress` returns no parent when `chain` has fewer than two
elements, when the address does not occur in `chain`, or when its only occurrence is the
first element; otherwise it returns the element just before the last occurrence of the
address. -/
theorem resolveParentAddress_chain (fs : Sysfs) (devicePath address resolved : String)
    (h : fs.EvalSymlinks devicePath = .ok resolved) :
    ((pathAddresses resolved).length < 2 →
      resolveParentAddress fs devicePath address = ("", none)) ∧
    (address ∉ pathAddresses resolved →
      resolveParentAddress fs devicePath address = ("", none)) ∧
    (∀ post, pathAddresses resolved = address :: post → address ∉ post →
      resolveParentAddress fs devicePath address = ("", none)) ∧
    (∀ pre p post, pathAddresses resolved = pre ++ p :: address :: post → address ∉ post →
      resolveParentAddress fs devicePath address = (p, none)) := by
  have hdef : resolveParentAddress fs devicePath address =
      if (pathAddresses resolved).length < 2 then ("", none)
      else (parentLoop (pathAddresses resolved) address (pathAddresses resolved).length, none) := by
    unfold resolveParentAddress
    rw [h]
  refine ⟨?_, ?_, ?_, ?_⟩
  · intro hlt
    rw [hdef, if_pos hlt]
  · intro habs
    rw [hdef, parentLoop_absent _ _ habs]
    split <;> rfl
  · intro post hchain hpost
    rw [hdef, hchain]
    have := parentLoop_last [] post address hpost
    simp only [List.nil_append, List.length_nil, if_true] at this
    rw [this]
    split <;> rfl
  · intro pre p post hchain hpost
    rw [hdef, hchain]
    have hlen : ¬ (pre ++ p :: address :: post).length < 2 := by
      simp only [List.length_append, List.length_cons]
      omega
    rw [if_neg hlen]
    have hl := parentLoop_last (pre ++ [p]) post address hpost
    have happ : pre ++ [p] ++ address :: post = pre ++ p :: address :: post := by simp
    rw [happ] at hl
    rw [hl, if_neg (by simp)]
    congr 1
    have hidx : (pre ++ [p]).length - 1 = pre.length := by simp
    rw [hidx]
    exact getD_append_at pre (address :: post) p

/-- C10 (amended) at a device below a bridge, and at a device alone in its chain. -/
theorem resolveParentAddress_chain_witness :
    resolveParentAddress sampleFs "/sys/devices/pci0000:00/0000:00:01.0/0000:01:00.0"
        "0000:01:00.0" = ("0000:00:01.0", none) ∧
      resolveParentAddress sampleFs "/sys/devices/pci0000:00/0000:02:00.0"
        "0000:02:00.0" = ("", none) :=
  ⟨(resolveParentAddress_chain sampleFs "/sys/devices/pci0000:00/0000:00:01.0/0000:01:00.0"
      "0000:01:00.0" "/sys/devices/pci0000:00/0000:00:01.0/0000:01:00.0" rfl).2.2.2
      [] "0000:00:01.0" [] (by decide) (by decide),
   (resolveParentAddress_chain sampleFs "/sys/devices/pci0000:00/0000:02:00.0"
      "0000:02:00.0" "/sys/devices/pci0000:00/0000:02:00.0" rfl).1 (by decide)⟩

/-- C11: when the loop over the entries has filled the maps `nodes` and `parents`,
`ReadTree` returns a forest, never an error, in which `D` is in the child list of `P` if and
only if `D` is enumerated, `P` is the resolved parent of `D` and `P` is enumerated, and in
which `D` is a root if and only if `D` is enumerated and has no resolved parent or one
that is not enumerated.  The enumerated addresses are the lower-cased entry names and,
when these are pairwise distinct, the resolved parent of an address is the non-empty
result of `resolveParentAddress` for its entry. -/
theorem ReadTree_attachment (fs : Sysfs) (sysfsRoot : String) (visit : MapOrder)
    (entries : List String) (nodes : GoMap String TreeNode) (parents : GoMap String String)
    (hdir : fs.ReadDir (devicesDir sysfsRoot) = .ok entries)
    (hloop : readTreeLoop fs (devicesDir sysfsRoot) entries [] [] = (nodes, parents, none)) :
    ∃ forest, ReadTree fs sysfsRoot visit = some (forest, none) ∧
      (∀ P D, isChildOf forest.nodes P D ↔
        D ∈ mapKeys nodes ∧ mapGet parents D = some P ∧ P ∈ mapKeys nodes) ∧
      (∀ D, D ∈ forest.roots ↔
        D ∈ mapKeys nodes ∧
          (mapGet parents D = none ∨ ∃ P, mapGet parents D = some P ∧ P ∉ mapKeys nodes)) ∧
      (∀ D, D ∈ mapKeys nodes ↔ ∃ e ∈ entries, D = strings.ToLower e) ∧
      ((entries.map strings.ToLower).Nodup →
        ∀ D P, mapGet parents D = some P ↔
          ∃ e ∈ entries, strings.ToLower e = D ∧ P ≠ "" ∧
            resolveParentAddress fs (filepath.Join [devicesDir sysfsRoot, e]) D = (P, none)) := by
  obtain ⟨forest, hread, hforest, hkeys⟩ :=
    ReadTree_forest fs sysfsRoot visit entries nodes parents hdir hloop
  refine ⟨forest, hread, fun P D => ?_, fun D => ?_, hkeys, fun hnodup D P => ?_⟩
  · rw [isForestOf_child_iff nodes parents forest hforest, attachedParent_some]
  · rw [hforest.roots_mem, attachedParent_none]
  · obtain ⟨_, hp⟩ := readTreeLoop_lookup fs (devicesDir sysfsRoot) entries [] [] nodes parents
      hnodup (fun _ _ => rfl) (fun _ _ => rfl) hloop
    rw [hp D P]
    simp [mapGet]

/-- C11 on the snapshot of the topology test: two roots, the bridge with the GPU as its
only child, and the NIC. -/
theorem ReadTree_attachment_witness :
    (∃ forest, ReadTree treeFs "/sys" visitReversed = some (forest, none) ∧
      (∀ P D, isChildOf forest.nodes P D ↔
        D ∈ mapKeys treeNodes ∧ mapGet treeParents D = some P ∧ P ∈ mapKeys treeNodes) ∧
      (∀ D, D ∈ forest.roots ↔
        D ∈ mapKeys treeNodes ∧
          (mapGet treeParents D = none ∨
            ∃ P, mapGet treeParents D = some P ∧ P ∉ mapKeys treeNodes)) ∧
      (∀ D, D ∈ mapKeys treeNodes ↔
        ∃ e ∈ ["0000:00:01.0", "0000:01:00.0", "0000:02:00.0"], D = strings.ToLower e) ∧
      ((["0000:00:01.0", "0000:01:00.0", "0000:02:00.0"].map strings.ToLower).Nodup →
        ∀ D P, mapGet treeParents D = some P ↔
          ∃ e ∈ ["0000:00:01.0", "0000:01:00.0", "0000:02:00.0"],
            strings.ToLower e = D ∧ P ≠ "" ∧
              resolveParentAddress treeFs (filepath.Join [devicesDir "/sys", e]) D =
                (P, none))) ∧
      ReadTree treeFs "/sys" visitReversed = some (treeForest, none) :=
  ⟨ReadTree_attachment treeFs "/sys" visitReversed
      ["0000:00:01.0", "0000:01:00.0", "0000:02:00.0"] treeNodes treeParents (by rfl)
      (by decide),
    by decide⟩

/-- C12 as stated fails: a device whose canonical path names its own address twice resolves
to itself as parent; `ReadTree` succeeds with no root, so following child lists from the
roots does not reach the enumerated address. -/
theorem ReadTree_simple_forest_counterexample :
    ¬ ∀ (fs : Sysfs) (sysfsRoot : String) (visit : MapOrder) (entries : List String)
        (forest : Forest),
        fs.ReadDir (devicesDir sysfsRoot) = .ok entries → entries.Nodup →
        ReadTree fs sysfsRoot visit = some (forest, none) →
        ∀ e ∈ entries, Reaches forest (strings.ToLower e) := by
  intro h
  obtain ⟨r, hr, _⟩ := h selfParentFs "/sys" visitInOrder ["0000:00:01.0"] selfParentForest
    (by rfl) (by decide) (by decide) "0000:00:01.0" (List.mem_singleton.mpr rfl)
  exact absurd hr (List.not_mem_nil r)

/-- C12 (amended): when the loop over the entries has filled the maps `nodes` and `parents`,
`ReadTree` returns a forest over the lower-cased entry names in which following child lists
from the roots reaches exactly the enumerated addresses whose chain of attached parents
ends at a device without attached parent, hence every enumerated address when all chains
end; no address occurs twice among the roots or twice in a child list, none occurs in two
child lists or both as a root and as a child, and no address met from the roots is its own
ancestor. -/
theorem ReadTree_simple_forest (fs : Sysfs) (sysfsRoot : String) (visit : MapOrder)
    (entries : List String) (nodes : GoMap String TreeNode) (parents : GoMap String String)
    (hdir : fs.ReadDir (devicesDir sysfsRoot) = .ok entries)
    (hloop : readTreeLoop fs (devicesDir sysfsRoot) entries [] [] = (nodes, parents, none)) :
    ∃ forest, ReadTree fs sysfsRoot visit = some (forest, none) ∧
      (∀ a, a ∈ mapKeys nodes ↔ ∃ e ∈ entries, a = strings.ToLower e) ∧
      (∀ x, Reaches forest x ↔
        x ∈ mapKeys nodes ∧ ∃ k, atLevel (attachedParent nodes parents) k x) ∧
      ((∀ a ∈ mapKeys nodes, ∃ k, atLevel (attachedParent nodes parents) k a) →
        ∀ e ∈ entries, Reaches forest (strings.ToLower e)) ∧
      forest.roots.Nodup ∧
      (∀ p n, mapGet forest.nodes p = some n → n.Children.Nodup) ∧
      (∀ p q d, isChildOf forest.nodes p d → isChildOf forest.nodes q d → p = q) ∧
      (∀ p d, isChildOf forest.nodes p d → d ∉ forest.roots) ∧
      (∀ x, Reaches forest x → ¬ Relation.TransGen (isChildOf forest.nodes) x x) := by
  obtain ⟨forest, hread, hforest, hkeys⟩ :=
    ReadTree_forest fs sysfsRoot visit entries nodes parents hdir hloop
  have hreach := isForestOf_reaches nodes parents forest hforest
  have hchild := isForestOf_child_iff nodes parents forest hforest
  refine ⟨forest, hread, hkeys, hreach, fun hall e he => ?_, ?_, fun p n hn => ?_,
    fun p q d hp hq => ?_, fun p d hp hd => ?_, fun x hx hcycle => ?_⟩
  · have hmem : strings.ToLower e ∈ mapKeys nodes := (hkeys _).mpr ⟨e, he, rfl⟩
    exact (hreach _).mpr ⟨hmem, hall _ hmem⟩
  · exact hforest.roots_sorted.imp (fun {a b} hab heq => by
      subst heq
      rw [stringLess_irrefl a] at hab
      cases hab)
  · have hp : p ∈ mapKeys nodes := hforest.keys ▸ mem_of_mapGet forest.nodes p n hn
    obtain ⟨n0, hn0⟩ := mapGet_of_mem nodes p hp
    obtain ⟨m, hm, _, _, _, _, hnd, _⟩ := hforest.cell p n0 hn0
    rw [hm] at hn
    cases hn
    exact hnd
  · have h1 := ((hchild p d).mp hp).2
    rw [((hchild q d).mp hq).2] at h1
    exact (Option.some.inj h1).symm
  · have h1 := ((hchild p d).mp hp).2
    rw [((hforest.roots_mem d).mp hd).2] at h1
    cases h1
  · obtain ⟨_, k, hk⟩ := (hreach x).mp hx
    obtain ⟨j, hj, hjx⟩ := isForestOf_descend nodes parents forest hforest x x k hk hcycle
    have := atLevel_unique (attachedParent nodes parents) k j x hk hjx
    omega

/-- C12 (amended) on the snapshot of the topology test. -/
theorem ReadTree_simple_forest_witness :
    ∃ forest, ReadTree treeFs "/sys" visitInOrder = some (forest, none) ∧
      (∀ a, a ∈ mapKeys treeNodes ↔
        ∃ e ∈ ["0000:00:01.0", "0000:01:00.0", "0000:02:00.0"], a = strings.ToLower e) ∧
      (∀ x, Reaches forest x ↔
        x ∈ mapKeys treeNodes ∧ ∃ k, atLevel (attachedParent treeNodes treeParents) k x) ∧
      ((∀ a ∈ mapKeys treeNodes, ∃ k, atLevel (attachedParent treeNodes treeParents) k a) →
        ∀ e ∈ ["0000:00:01.0", "0000:01:00.0", "0000:02:00.0"],
          Reaches forest (strings.ToLower e)) ∧
      forest.roots.Nodup ∧
      (∀ p n, mapGet forest.nodes p = some n → n.Children.Nodup) ∧
      (∀ p q d, isChildOf forest.nodes p d → isChildOf forest.nodes q d → p = q) ∧
      (∀ p d, isChildOf forest.nodes p d → d ∉ forest.roots) ∧
      (∀ x, Reaches forest x → ¬ Relation.TransGen (isChildOf forest.nodes) x x) :=
  ReadTree_simple_forest treeFs "/sys" visitInOrder
    ["0000:00:01.0", "0000:01:00.0", "0000:02:00.0"] treeNodes treeParents (by rfl) (by decide)

/-- C13: in the forest returned by a successful `ReadTree`, the root list and the child list
of every node met from a root are strictly ascending by `BusID` in byte-wise order. -/
theorem ReadTree_sorted (fs : Sysfs) (sysfsRoot : String) (visit : MapOrder) (forest : Forest)
    (h : ReadTree fs sysfsRoot visit = some (forest, none)) :
    forest.roots.Pairwise
        (fun a b => stringLess (busIDOf forest.nodes a) (busIDOf forest.nodes b) = true) ∧
      ∀ x, Reaches forest x → ∀ n, mapGet forest.nodes x = some n →
        n.Children.Pairwise
          (fun a b => stringLess (busIDOf forest.nodes a) (busIDOf forest.nodes b) = true) := by
  rcases ReadTree_cases fs sysfsRoot visit with ⟨err, herr⟩ |
    ⟨entries, nodes, parents, forest', _, _, hread, hforest⟩
  · rw [herr] at h
    cases h
  · rw [hread] at h
    cases h
    have hbus : ∀ a, a ∈ mapKeys nodes → busIDOf forest.nodes a = a := by
      intro a ha
      obtain ⟨n0, hn0⟩ := mapGet_of_mem nodes a ha
      obtain ⟨n, hn, hb, _⟩ := hforest.cell a n0 hn0
      unfold busIDOf
      rw [hn]
      exact hb
    refine ⟨hforest.roots_sorted.imp_of_mem (fun {a b} ha hb hab => ?_), fun x hx n hn => ?_⟩
    · rw [hbus a ((hforest.roots_mem a).mp ha).1, hbus b ((hforest.roots_mem b).mp hb).1]
      exact hab
    · refine (hforest.children_sorted x hx n hn).imp_of_mem (fun {a b} ha hb hab => ?_)
      rw [hbus a ((isForestOf_child_iff nodes parents forest hforest x a).mp ⟨n, hn, ha⟩).1,
        hbus b ((isForestOf_child_iff nodes parents forest hforest x b).mp ⟨n, hn, hb⟩).1]
      exact hab

/-- C13 on the snapshot of the topology test, with the map visited in reverse order. -/
theorem ReadTree_sorted_witness :
    treeForest.roots.Pairwise
        (fun a b => stringLess (busIDOf treeForest.nodes a) (busIDOf treeForest.nodes b) = true) ∧
      ∀ x, Reaches treeForest x → ∀ n, mapGet treeForest.nodes x = some n →
        n.Children.Pairwise
          (fun a b =>
            stringLess (busIDOf treeForest.nodes a) (busIDOf treeForest.nodes b) = true) :=
  ReadTree_sorted treeFs "/sys" visitReversed treeForest (by decide)

/-- C14: the directory entries come sorted by file name, as `os.ReadDir` returns them, so
two listings of the same entries, with pairwise distinct names, are the same listing.  For
two snapshots with the same files and links that list the same entries, and for any two
orders of visiting the node map, `ReadTree` returns in both cases, with the same error if
any, and returns the same forest: the same roots in the same order and, at every address
met from the roots, the same node with the same children in the same order. -/
theorem ReadTree_order_independent (fs1 fs2 : Sysfs) (sysfsRoot : String)
    (entries1 entries2 : List String) (visit1 visit2 : MapOrder)
    (hfile : fs2.ReadFile = fs1.ReadFile) (hlink : fs2.EvalSymlinks = fs1.EvalSymlinks)
    (hdir1 : fs1.ReadDir (devicesDir sysfsRoot) = .ok entries1)
    (hdir2 : fs2.ReadDir (devicesDir sysfsRoot) = .ok entries2)
    (hperm : entries1.Perm entries2)
    (hsorted1 : entries1.Pairwise (fun a b => stringLess a b = true))
    (hsorted2 : entries2.Pairwise (fun a b => stringLess a b = true)) :
    ∃ f g e, ReadTree fs1 sysfsRoot visit1 = some (f, e) ∧
      ReadTree fs2 sysfsRoot visit2 = some (g, e) ∧ sameForest f g := by
  have heq : entries1 = entries2 :=
    strict_sorted_unique entries1 entries2 hsorted1 hsorted2 (fun d => hperm.mem_iff)
  subst heq
  have hread2 := ReadTree_of_dir fs2 sysfsRoot visit2 entries1 hdir2
  rw [readTreeLoop_congr fs1 fs2 hfile hlink] at hread2
  have hread1 := ReadTree_of_dir fs1 sysfsRoot visit1 entries1 hdir1
  rcases hloop : readTreeLoop fs1 (devicesDir sysfsRoot) entries1 [] [] with
    ⟨nodes, parents, _ | err⟩
  · obtain ⟨hnd, hid, _⟩ := readTreeLoop_wf fs1 (devicesDir sysfsRoot) entries1 [] []
      nodes parents List.nodup_nil (fun p n h => by simp [mapGet] at h) hloop
    obtain ⟨f, hf, hforest1⟩ := buildForest_spec nodes parents visit1 hnd hid
    obtain ⟨g, hg, hforest2⟩ := buildForest_spec nodes parents visit2 hnd hid
    refine ⟨f, g, none, ?_, ?_,
      isForestOf_unique nodes nodes parents parents f g (fun _ => rfl) (fun _ => rfl)
        hforest1 hforest2⟩
    · rw [hread1, hloop]
      simp only [hf, Option.map_some']
    · rw [hread2, hloop]
      simp only [hg, Option.map_some']
  · refine ⟨⟨[], []⟩, ⟨[], []⟩, some err, ?_, ?_, rfl, fun _ _ => rfl⟩
    · rw [hread1, hloop]
    · rw [hread2, hloop]

/-- C14 on the snapshot of the topology test, whose listing is sorted, with the node map
visited in two orders. -/
theorem ReadTree_order_independent_witness :
    ∃ f g e, ReadTree treeFs "/sys" visitInOrder = some (f, e) ∧
      ReadTree treeFs "/sys" visitReversed = some (g, e) ∧ sameForest f g :=
  ReadTree_order_independent treeFs treeFs "/sys"
    ["0000:00:01.0", "0000:01:00.0", "0000:02:00.0"]
    ["0000:00:01.0", "0000:01:00.0", "0000:02:00.0"] visitInOrder visitReversed rfl rfl
    (by rfl) (by rfl) (List.Perm.refl _) (by decide) (by decide)

/-- C15: a `label` file whose trimmed text is not empty gives the device its name,
whatever the `driver` link and the `vendor` and `device` files hold; a `label` file whose
trimmed text is empty does not, and the driver name is used when there is one. -/
theorem readDeviceName_label (fs : Sysfs) (devicePath address : String) :
    (∀ buf, fs.ReadFile (filepath.Join [devicePath, "label"]) = .ok buf →
      strings.TrimSpace buf ≠ "" →
      readDeviceName fs devicePath address = (strings.TrimSpace buf, none)) ∧
    (∀ buf driverName, fs.ReadFile (filepath.Join [devicePath, "label"]) = .ok buf →
      strings.TrimSpace buf = "" →
      readDriverName fs devicePath = (driverName, true, none) →
      readDeviceName fs devicePath address = (driverName, none)) := by
  constructor
  · intro buf hread hne
    have h1 : readOptionalTrim fs (filepath.Join [devicePath, "label"]) =
        (strings.TrimSpace buf, true, none) := by
      unfold readOptionalTrim; rw [hread]
    unfold readDeviceName
    rw [h1]
    simp only [hne, ne_eq, not_false_eq_true, and_self, if_true]
  · intro buf driverName hread hempty hdriver
    have h1 : readOptionalTrim fs (filepath.Join [devicePath, "label"]) =
        (strings.TrimSpace buf, true, none) := by
      unfold readOptionalTrim; rw [hread]
    unfold readDeviceName
    rw [h1, hdriver]
    simp only [hempty, ne_eq, not_true_eq_false, and_false, if_false, if_true]

/-- C15 at the GPU of the topology test, and at a device with an empty label and a
driver. -/
theorem readDeviceName_label_witness :
    readDeviceName treeFs "/sys/bus/pci/devices/0000:01:00.0" "0000:01:00.0" =
        ("NVIDIA H100", none) ∧
      readDeviceName driverFs "/sys/bus/pci/devices/0000:03:00.0" "0000:03:00.0" =
        ("nvme", none) :=
  ⟨((readDeviceName_label treeFs "/sys/bus/pci/devices/0000:01:00.0" "0000:01:00.0").1
      "NVIDIA H100\n" (by rfl) (by decide)).trans (by decide),
   (readDeviceName_label driverFs "/sys/bus/pci/devices/0000:03:00.0" "0000:03:00.0").2
      " \n" "nvme" (by rfl) (by decide) (by decide)⟩

/-- C16 as stated fails: a `vendor` text `0x0X8086` loses both `0x` and `0X`, so the name
is `8086:1234` and not `0X8086:1234`. -/
theorem readDeviceName_hex_counterexample :
    ¬ (∀ (fs : Sysfs) (devicePath address label driverName vendor device : String)
        (hasLabel hasVendor hasDevice : Bool),
        readOptionalTrim fs (filepath.Join [devicePath, "label"]) = (label, hasLabel, none) →
        ¬ (hasLabel = true ∧ label ≠ "") →
        readDriverName fs devicePath = (driverName, false, none) →
        readOptionalTrim fs (filepath.Join [devicePath, "vendor"]) = (vendor, hasVendor, none) →
        readOptionalTrim fs (filepath.Join [devicePath, "device"]) = (device, hasDevice, none) →
        (withoutHexPrefix vendor ≠ "" ∨ withoutHexPrefix device ≠ "" →
          readDeviceName fs devicePath address =
            (withoutHexPrefix vendor ++ ":" ++ withoutHexPrefix device, none)) ∧
        (withoutHexPrefix vendor = "" ∧ withoutHexPrefix device = "" →
          readDeviceName fs devicePath address = (address, none))) := by
  intro h
  have h1 := (h hexFs "/sys/bus/pci/devices/0000:04:00.0" "0000:04:00.0" "" "" "0x0X8086"
    "0x1234" false true true (by decide) (by decide) (by decide) (by decide) (by decide)).1
    (by decide)
  revert h1
  decide

/-- C16 (amended): for a device without usable label and without driver name, whose
`vendor` and `device` files are read without error, the name is `<vendor>:<device>` when
one of the two parts is not empty, each part being the trimmed text with a leading `0x`
removed and then a leading `0X` removed, and the bus address when both parts are empty.
For a text that does not begin with `0x0X` the part is the text without its `0x` or `0X`
prefix. -/
theorem readDeviceName_hex (fs : Sysfs) (devicePath address label driverName vendor
    device : String) (hasLabel hasVendor hasDevice : Bool)
    (hlabel : readOptionalTrim fs (filepath.Join [devicePath, "label"]) = (label, hasLabel, none))
    (hunusable : ¬ (hasLabel = true ∧ label ≠ ""))
    (hdriver : readDriverName fs devicePath = (driverName, false, none))
    (hvendor : readOptionalTrim fs (filepath.Join [devicePath, "vendor"]) =
      (vendor, hasVendor, none))
    (hdevice : readOptionalTrim fs (filepath.Join [devicePath, "device"]) =
      (device, hasDevice, none)) :
    (strings.TrimPrefix (strings.TrimPrefix vendor "0x") "0X" ≠ "" ∨
        strings.TrimPrefix (strings.TrimPrefix device "0x") "0X" ≠ "" →
      readDeviceName fs devicePath address =
        (strings.TrimPrefix (strings.TrimPrefix vendor "0x") "0X" ++ ":" ++
          strings.TrimPrefix (strings.TrimPrefix device "0x") "0X", none)) ∧
    (strings.TrimPrefix (strings.TrimPrefix vendor "0x") "0X" = "" ∧
        strings.TrimPrefix (strings.TrimPrefix device "0x") "0X" = "" →
      readDeviceName fs devicePath address = (address, none)) ∧
    (strings.HasPrefix vendor "0x0X" = false →
      strings.TrimPrefix (strings.TrimPrefix vendor "0x") "0X" = withoutHexPrefix vendor) ∧
    (strings.HasPrefix device "0x0X" = false →
      strings.TrimPrefix (strings.TrimPrefix device "0x") "0X" = withoutHexPrefix device) := by
  have hname := readDeviceName_fallback fs devicePath address label driverName vendor device
    hasLabel hasVendor hasDevice hlabel hunusable hdriver hvendor hdevice
  refine ⟨?_, ?_, trimPrefix_hex vendor, trimPrefix_hex device⟩
  · intro hne
    rw [hname, if_pos hne]
  · intro hempty
    rw [hname, if_neg (by rw [hempty.1, hempty.2]; simp)]

/-- C16 (amended) at the bridge and the NIC of the topology test, at a device without
`vendor` and `device` files, and at the `vendor` text `0x0X8086`. -/
theorem readDeviceName_hex_witness :
    readDeviceName treeFs "/sys/bus/pci/devices/0000:00:01.0" "0000:00:01.0" =
        ("8086:1234", none) ∧
      readDeviceName treeFs "/sys/bus/pci/devices/0000:02:00.0" "0000:02:00.0" =
        ("15b3:1017", none) ∧
      readDeviceName treeFs "/sys/bus/pci/devices/0000:09:00.0" "0000:09:00.0" =
        ("0000:09:00.0", none) ∧
      readDeviceName hexFs "/sys/bus/pci/devices/0000:04:00.0" "0000:04:00.0" =
        ("8086:1234", none) :=
  ⟨((readDeviceName_hex treeFs "/sys/bus/pci/devices/0000:00:01.0" "0000:00:01.0" "" ""
      "0x8086" "0x1234" false true true (by decide) (by decide) (by decide) (by decide)
      (by decide)).1 (by decide)).trans (by decide),
   ((readDeviceName_hex treeFs "/sys/bus/pci/devices/0000:02:00.0" "0000:02:00.0" "" ""
      "0x15b3" "0x1017" false true true (by decide) (by decide) (by decide) (by decide)
      (by decide)).1 (by decide)).trans (by decide),
   (readDeviceName_hex treeFs "/sys/bus/pci/devices/0000:09:00.0" "0000:09:00.0" "" ""
      "" "" false false false (by decide) (by decide) (by decide) (by decide)
      (by decide)).2.1 (by decide),
   ((readDeviceName_hex hexFs "/sys/bus/pci/devices/0000:04:00.0" "0000:04:00.0" "" ""
      "0x0X8086" "0x1234" false true true (by decide) (by decide) (by decide) (by decide)
      (by decide)).1 (by decide)).trans (by decide)⟩

/-- C17: with `s` the trimmed speed and `w = formatWidth width`, `formatLinkSummary` is
`unknown` when both are empty, `w` when only `s` is empty, `s` when only `w` is empty, and
`s`, one space, `w` otherwise. -/
theorem formatLinkSummary_cases (speed width : String) :
    (strings.TrimSpace speed = "" → formatWidth width = "" →
      formatLinkSummary speed width = "unknown") ∧
    (strings.TrimSpace speed = "" → formatWidth width ≠ "" →
      formatLinkSummary speed width = formatWidth width) ∧
    (strings.TrimSpace speed ≠ "" → formatWidth width = "" →
      formatLinkSummary speed width = strings.TrimSpace speed) ∧
    (strings.TrimSpace speed ≠ "" → formatWidth width ≠ "" →
      formatLinkSummary speed width = strings.TrimSpace speed ++ " " ++ formatWidth width) := by
  unfold formatLinkSummary
  refine ⟨?_, ?_, ?_, ?_⟩
  · intro hs hw
    simp only [hs, hw, and_self, if_true]
  · intro hs hw
    simp only [hs, hw, and_false, if_false, if_true]
  · intro hs hw
    simp only [hs, hw, false_and, if_false, if_true]
  · intro hs hw
    simp only [hs, hw, false_and, if_false]

/-- C17 at the bridge of the topology test and at two absent attributes. -/
theorem formatLinkSummary_cases_witness :
    formatLinkSummary "16 GT/s PCIe" "16" = "16 GT/s PCIe x16" ∧
      formatLinkSummary "" "" = "unknown" :=
  ⟨((formatLinkSummary_cases "16 GT/s PCIe" "16").2.2.2 (by decide) (by decide)).trans
      (by decide),
   (formatLinkSummary_cases "" "").1 (by decide) (by decide)⟩

/-- C18 as stated fails: `xyz` begins with `x`, and `formatWidth` returns it unchanged,
which is not `x` followed by a decimal numeral. -/
theorem formatWidth_canonical_counterexample :
    ¬ (∀ width : String,
        (strings.HasPrefix (strings.TrimSpace width) "x" = true ∨
          strings.HasPrefix (strings.TrimSpace width) "X" = true ∨
          ∃ c ∈ (strings.TrimSpace width).data, isDigit c = true) →
        isCanonicalWidth (formatWidth width)) := by
  intro h
  obtain ⟨ds, _, hall, heq⟩ := h "xyz" (Or.inl (by decide))
  have hf : formatWidth "xyz" = ⟨['x', 'y', 'z']⟩ := by decide
  rw [hf] at heq
  injection heq with heq
  injection heq with _ hds
  have hy := hall 'y' (by rw [← hds]; exact List.mem_cons_self _ _)
  revert hy
  decide

/-- C18 (amended): with `w` the trimmed width, `formatWidth` returns the empty string when
`w` is empty; when `w` begins with `x` or `X` it returns `x` followed by what follows that
first letter (without one further leading `X` after a lowercase `x`), which is the
canonical form only if that rest is a decimal numeral; when `w` begins otherwise and its
first run of digits denotes a number below `2^63` it returns the canonical form `x`
followed by the decimal numeral of that number; in every other case it returns `w`. -/
theorem formatWidth_cases (width : String) :
    (strings.TrimSpace width = "" → formatWidth width = "") ∧
    (∀ r, (strings.TrimSpace width).data = 'X' :: r → formatWidth width = ⟨'x' :: r⟩) ∧
    (∀ r, (strings.TrimSpace width).data = 'x' :: 'X' :: r → formatWidth width = ⟨'x' :: r⟩) ∧
    (∀ r, (strings.TrimSpace width).data = 'x' :: r → (∀ r2, r ≠ 'X' :: r2) →
      formatWidth width = ⟨'x' :: r⟩) ∧
    (strings.TrimSpace width ≠ "" →
      strings.HasPrefix (strings.ToLower (strings.TrimSpace width)) "x" = false →
      (∃ c ∈ (strings.TrimSpace width).data, isDigit c = true) →
      digitsValue (firstDigitRun (strings.TrimSpace width).data) < 2 ^ 63 →
      formatWidth width =
          ⟨'x' :: Nat.toDigits 10 (digitsValue (firstDigitRun (strings.TrimSpace width).data))⟩ ∧
        isCanonicalWidth (formatWidth width)) ∧
    (strings.TrimSpace width ≠ "" →
      strings.HasPrefix (strings.ToLower (strings.TrimSpace width)) "x" = false →
      ((∀ c ∈ (strings.TrimSpace width).data, isDigit c = false) ∨
        ¬ digitsValue (firstDigitRun (strings.TrimSpace width).data) < 2 ^ 63) →
      formatWidth width = strings.TrimSpace width) := by
  have hbranch : ∀ c r, (strings.TrimSpace width).data = c :: r → (c = 'x' ∨ c = 'X') →
      formatWidth width =
        "x" ++ strings.TrimPrefix (strings.TrimPrefix (strings.TrimSpace width) "x") "X" := by
    intro c r hdata hc
    have hne : strings.TrimSpace width ≠ "" := by
      intro h; rw [h] at hdata; cases hdata
    have hx : strings.HasPrefix (strings.ToLower (strings.TrimSpace width)) "x" = true :=
      (hasPrefix_lower_x _).mpr ⟨c, r, hdata, hc⟩
    unfold formatWidth
    simp only [if_neg hne, hx, if_true]
  have hmk : ∀ l, strings.TrimSpace width = ⟨l⟩ ↔ (strings.TrimSpace width).data = l := by
    intro l
    constructor
    · intro h; rw [h]
    · intro h; exact String.ext h
  refine ⟨?_, ?_, ?_, ?_, ?_, ?_⟩
  · intro h
    unfold formatWidth
    simp only [h, if_true]
  · intro r hdata
    rw [hbranch 'X' r hdata (Or.inr rfl), (hmk _).mpr hdata]
    rw [show ("x" : String) = ⟨['x']⟩ from rfl, show ("X" : String) = ⟨['X']⟩ from rfl,
      trimPrefix_char_miss 'x' 'X' r (by decide), trimPrefix_char_hit]
    rfl
  · intro r hdata
    rw [hbranch 'x' _ hdata (Or.inl rfl), (hmk _).mpr hdata]
    rw [show ("x" : String) = ⟨['x']⟩ from rfl, show ("X" : String) = ⟨['X']⟩ from rfl,
      trimPrefix_char_hit, trimPrefix_char_hit]
    rfl
  · intro r hdata hr
    rw [hbranch 'x' r hdata (Or.inl rfl), (hmk _).mpr hdata]
    rw [show ("x" : String) = ⟨['x']⟩ from rfl, show ("X" : String) = ⟨['X']⟩ from rfl,
      trimPrefix_char_hit]
    have h2 : strings.TrimPrefix ⟨r⟩ ⟨['X']⟩ = ⟨r⟩ := by
      cases r with
      | nil => exact trimPrefix_char_nil _
      | cons a t => exact trimPrefix_char_miss 'X' a t (fun h => hr t (by rw [h]))
    rw [h2]
    rfl
  · intro hne hx hdigit hfit
    have hrun := firstDigitRun_ne_nil _ hdigit
    have hval := formatWidth_digits width hne hx
    rw [if_neg hrun, if_pos hfit] at hval
    refine ⟨hval, ?_⟩
    rw [hval]
    exact ⟨_, (toDigits_numeral _).1, (toDigits_numeral _).2, rfl⟩
  · intro hne hx hcase
    have hval := formatWidth_digits width hne hx
    rcases hcase with hno | hbig
    · rw [if_pos (firstDigitRun_nil_of_no_digit _ hno)] at hval
      exact hval
    · by_cases hnil : firstDigitRun (strings.TrimSpace width).data = []
      · rw [if_pos hnil] at hval; exact hval
      · rw [if_neg hnil, if_neg hbig] at hval; exact hval

/-- C18 (amended) at the widths of the topology test and at widths that stay as they
are. -/
theorem formatWidth_cases_witness :
    formatWidth "16\n" = "x16" ∧ formatWidth "X8" = "x8" ∧ formatWidth "x16 lanes" = "x16 lanes" ∧
      formatWidth "auto" = "auto" ∧ formatWidth " \n" = "" :=
  ⟨((formatWidth_cases "16\n").2.2.2.2.1 (by decide) (by decide) (by decide) (by decide)).1.trans
      (by decide),
   (formatWidth_cases "X8").2.1 ['8'] (by decide),
   (formatWidth_cases "x16 lanes").2.2.2.1 _ (by decide)
      (by intro r2 h; injection h with h1 _; exact absurd h1 (by decide)),
   ((formatWidth_cases "auto").2.2.2.2.2 (by decide) (by decide) (Or.inl (by decide))).trans
      (by decide),
   (formatWidth_cases " \n").1 (by decide)⟩

/-- C19: `ThroughputGBps` succeeds, with the entry of the table, exactly for the versions
`1.0` to `5.0` and the lane counts 1, 2, 4, 8, 16; a version outside the table gives the
error naming the version, whatever the lane count, and a version of the table with another
lane count gives the error naming the lane count. -/
theorem ThroughputGBps_lookup (version : String) (lanes : Int) :
    ((ThroughputGBps version lanes).2 = none ↔
      version ∈ ["1.0", "2.0", "3.0", "4.0", "5.0"] ∧ lanes ∈ LaneCounts) ∧
    ((ThroughputGBps version lanes).2 = none →
      ∃ entry, mapGet VersionBandwidthMap version = some entry ∧
        mapGet entry.ThroughputGBps lanes = some (ThroughputGBps version lanes).1) ∧
    (version ∉ ["1.0", "2.0", "3.0", "4.0", "5.0"] →
      ThroughputGBps version lanes =
        (Float64.fin 0, some (ThroughputError.unsupportedVersion version))) ∧
    (version ∈ ["1.0", "2.0", "3.0", "4.0", "5.0"] → lanes ∉ LaneCounts →
      ThroughputGBps version lanes =
        (Float64.fin 0, some (ThroughputError.unsupportedLaneCount lanes))) := by
  have hmiss : version ∉ ["1.0", "2.0", "3.0", "4.0", "5.0"] →
      mapGet VersionBandwidthMap version = none := by
    intro h
    simp only [List.mem_cons, List.mem_singleton, List.not_mem_nil, or_false, not_or] at h
    obtain ⟨h1, h2, h3, h4, h5⟩ := h
    simp only [VersionBandwidthMap, mapGet, if_neg (Ne.symm h1), if_neg (Ne.symm h2),
      if_neg (Ne.symm h3), if_neg (Ne.symm h4), if_neg (Ne.symm h5)]
  have hhit : version ∈ ["1.0", "2.0", "3.0", "4.0", "5.0"] →
      ∃ entry x1, mapGet VersionBandwidthMap version = some entry ∧
        entry.ThroughputGBps = [(1, x1), (2, Float64.mul x1 (Float64.fin 2)),
          (4, Float64.mul x1 (Float64.fin 4)), (8, Float64.mul x1 (Float64.fin 8)),
          (16, Float64.mul x1 (Float64.fin 16))] := by
    intro h
    simp only [List.mem_cons, List.mem_singleton, List.not_mem_nil, or_false] at h
    rcases h with rfl | rfl | rfl | rfl | rfl <;> exact ⟨_, _, rfl, rfl⟩
  have hlmiss : ∀ (x1 : Float64), lanes ∉ LaneCounts →
      mapGet ([(1, x1), (2, Float64.mul x1 (Float64.fin 2)),
          (4, Float64.mul x1 (Float64.fin 4)), (8, Float64.mul x1 (Float64.fin 8)),
          (16, Float64.mul x1 (Float64.fin 16))] : GoMap Int Float64) lanes = none := by
    intro x1 h
    simp only [LaneCounts, List.mem_cons, List.mem_singleton, List.not_mem_nil, or_false,
      not_or] at h
    obtain ⟨h1, h2, h3, h4, h5⟩ := h
    simp only [mapGet, if_neg (Ne.symm h1), if_neg (Ne.symm h2), if_neg (Ne.symm h3),
      if_neg (Ne.symm h4), if_neg (Ne.symm h5)]
  have hlhit : ∀ (x1 : Float64), lanes ∈ LaneCounts →
      ∃ x, mapGet ([(1, x1), (2, Float64.mul x1 (Float64.fin 2)),
          (4, Float64.mul x1 (Float64.fin 4)), (8, Float64.mul x1 (Float64.fin 8)),
          (16, Float64.mul x1 (Float64.fin 16))] : GoMap Int Float64) lanes = some x := by
    intro x1 h
    simp only [LaneCounts, List.mem_cons, List.mem_singleton, List.not_mem_nil, or_false] at h
    rcases h with rfl | rfl | rfl | rfl | rfl <;> exact ⟨_, rfl⟩
  by_cases hv : version ∈ ["1.0", "2.0", "3.0", "4.0", "5.0"]
  · obtain ⟨entry, x1, hentry, htab⟩ := hhit hv
    by_cases hl : lanes ∈ LaneCounts
    · obtain ⟨x, hx⟩ := hlhit x1 hl
      have hres : ThroughputGBps version lanes = (x, none) := by
        unfold ThroughputGBps
        simp only [hentry, htab, hx]
      rw [hres]
      exact ⟨⟨fun _ => ⟨hv, hl⟩, fun _ => rfl⟩, fun _ => ⟨entry, hentry, by rw [htab]; exact hx⟩,
        fun h => absurd hv h, fun _ h => absurd hl h⟩
    · have hres : ThroughputGBps version lanes =
          (Float64.fin 0, some (ThroughputError.unsupportedLaneCount lanes)) := by
        unfold ThroughputGBps
        simp only [hentry, htab, hlmiss x1 hl]
      rw [hres]
      exact ⟨⟨fun h => (by cases h), fun h => absurd h.2 hl⟩, fun h => (by cases h),
        fun h => absurd hv h, fun _ _ => rfl⟩
  · have hres : ThroughputGBps version lanes =
        (Float64.fin 0, some (ThroughputError.unsupportedVersion version)) := by
      unfold ThroughputGBps
      simp only [hmiss hv]
    rw [hres]
    exact ⟨⟨fun h => (by cases h), fun h => absurd h.1 hv⟩, fun h => (by cases h),
      fun _ => rfl, fun h => absurd h hv⟩

/-- C19 at the two failing lookups of the test. -/
theorem ThroughputGBps_lookup_witness :
    ThroughputGBps "6.0" 16 = (Float64.fin 0, some (ThroughputError.unsupportedVersion "6.0")) ∧
      ThroughputGBps "4.0" 12 =
        (Float64.fin 0, some (ThroughputError.unsupportedLaneCount 12)) :=
  ⟨(ThroughputGBps_lookup "6.0" 16).2.2.1 (by decide),
   (ThroughputGBps_lookup "4.0" 12).2.2.2 (by decide) (by decide)⟩

/-- C20: for every version of the table and every lane count `L` of `LaneCounts`, the
throughput for `L` lanes is `L` times the throughput for one lane. -/
theorem ThroughputGBps_linear (version : String) (lanes : Int)
    (hv : version ∈ ["1.0", "2.0", "3.0", "4.0", "5.0"]) (hl : lanes ∈ LaneCounts) :
    (ThroughputGBps version lanes).1 =
      Float64.mul (ThroughputGBps version 1).1 (Float64.ofInt lanes) := by
  obtain ⟨entry, q, hentry, htab⟩ := versionBandwidth_entry version hv
  have o1 : Float64.ofInt 1 = Float64.fin 1 := by
    simpa using Float64.ofInt_exact 1 (by decide) (by decide)
  have o2 : Float64.ofInt 2 = Float64.fin 2 := by
    simpa using Float64.ofInt_exact 2 (by decide) (by decide)
  have o4 : Float64.ofInt 4 = Float64.fin 4 := by
    simpa using Float64.ofInt_exact 4 (by decide) (by decide)
  have o8 : Float64.ofInt 8 = Float64.fin 8 := by
    simpa using Float64.ofInt_exact 8 (by decide) (by decide)
  have o16 : Float64.ofInt 16 = Float64.fin 16 := by
    simpa using Float64.ofInt_exact 16 (by decide) (by decide)
  simp only [LaneCounts, List.mem_cons, List.mem_singleton, List.not_mem_nil, or_false] at hl
  unfold ThroughputGBps
  simp only [hentry, htab]
  rcases hl with rfl | rfl | rfl | rfl | rfl <;>
    simp [mapGet, Float64.mul, o1, o2, o4, o8, o16]

/-- C20 at the values of the tests: 31.507696 for 4.0 at x16, 3.938462 and 63.015392 for
5.0 at x1 and x16 with transfer rate 32.0, and 7.876920 for 3.0 at x8. -/
theorem ThroughputGBps_linear_witness :
    ThroughputGBps "4.0" 16 = (Float64.fin (31507696 / 1000000), none) ∧
      ThroughputGBps "5.0" 1 = (Float64.fin (3938462 / 1000000), none) ∧
      ThroughputGBps "5.0" 16 = (Float64.fin (63015392 / 1000000), none) ∧
      (mapGet VersionBandwidthMap "5.0").map VersionBandwidth.TransferRateGTps =
        some (Float64.fin 32) ∧
      ThroughputGBps "3.0" 8 = (Float64.fin (7876920 / 1000000), none) ∧
      (ThroughputGBps "3.0" 8).1 =
        Float64.mul (ThroughputGBps "3.0" 1).1 (Float64.ofInt 8) :=
  ⟨ThroughputGBps_values.1, ThroughputGBps_values.2.1, ThroughputGBps_values.2.2.1, rfl,
   ThroughputGBps_values.2.2.2,
   ThroughputGBps_linear "3.0" 8 (by decide) (by decide)⟩

/-- C21 fails on the code: the strings given to the replacer are raw string literals, so
the old string for the backslash is two backslashes and every new string begins with two
backslashes.  A double quote becomes two backslashes and the quote, not a backslash and
the quote; a newline becomes two backslashes and `n`; a single backslash is copied
unchanged.  Hence `escapeLabelValue` is not the escaping of the Prometheus text
format. -/
theorem escapeLabelValue_counterexample :
    escapeLabelValue "\"" = "\\\\\"" ∧ prometheusEscape "\"" = "\\\"" ∧
      escapeLabelValue "\n" = "\\\\n" ∧ prometheusEscape "\n" = "\\n" ∧
      escapeLabelValue "\\" = "\\" ∧ prometheusEscape "\\" = "\\\\" ∧
      escapeLabelValue "\\\\" = "\\\\\\\\" ∧
      ¬ ∀ value : String, escapeLabelValue value = prometheusEscape value := by
  refine ⟨by decide, by decide, by decide, by decide, by decide, by decide, by decide, ?_⟩
  intro h
  exact absurd (h "\"") (by decide)

/-- C22: with the environment as an input, `resolveSysfsRoot` returns the flag value when
it is not empty, otherwise the value of `PCIE_EXPORTER_SYSFS` when that is not empty, and
otherwise `/sys`; the result is never empty. -/
theorem resolveSysfsRoot_precedence (getenv : String → String) (f e : String)
    (he : getenv "PCIE_EXPORTER_SYSFS" = e) :
    (f ≠ "" → resolveSysfsRoot getenv f = f) ∧
    (f = "" → e ≠ "" → resolveSysfsRoot getenv f = e) ∧
    (f = "" → e = "" → resolveSysfsRoot getenv f = "/sys") ∧
    resolveSysfsRoot getenv f ≠ "" := by
  unfold resolveSysfsRoot
  simp only [he]
  by_cases hf : f = ""
  · by_cases hev : e = ""
    · simp [hf, hev]
    · simp [hf, hev]
  · simp [hf]

/-- C22 at the three cases of the tests. -/
theorem resolveSysfsRoot_precedence_witness :
    resolveSysfsRoot (fun _ => "/from/env") "/from/flag" = "/from/flag" ∧
      resolveSysfsRoot (fun _ => "/from/env") "" = "/from/env" ∧
      resolveSysfsRoot (fun _ => "") "" = "/sys" :=
  ⟨(resolveSysfsRoot_precedence (fun _ => "/from/env") "/from/flag" "/from/env" rfl).1
      (by decide),
   (resolveSysfsRoot_precedence (fun _ => "/from/env") "" "/from/env" rfl).2.1 rfl (by decide),
   (resolveSysfsRoot_precedence (fun _ => "") "" "" rfl).2.2.1 rfl rfl⟩

/-- C23 as stated fails: `formatWidth` turns `XX8` into `xX8`, and `xX8` into `x8`. -/
theorem formatWidth_idempotent_counterexample :
    formatWidth "XX8" = "xX8" ∧ formatWidth "xX8" = "x8" ∧
      ¬ ∀ w : String, formatWidth (formatWidth w) = formatWidth w := by
  refine ⟨by decide, by decide, ?_⟩
  intro h
  exact absurd (h "XX8") (by decide)

/-- C23 (amended): applying `formatWidth` a second time changes nothing exactly when the
trimmed width does not begin with `XX` or with `xXX`. -/
theorem formatWidth_idempotent (w : String) :
    formatWidth (formatWidth w) = formatWidth w ↔
      ¬ (strings.HasPrefix (strings.TrimSpace w) "XX" = true ∨
        strings.HasPrefix (strings.TrimSpace w) "xXX" = true) := by
  have htrim : trimSpaceChars (strings.TrimSpace w).data = (strings.TrimSpace w).data :=
    trimSpaceChars_idem w.data
  have hmk : ∀ l, (strings.TrimSpace w).data = l → strings.TrimSpace w = ⟨l⟩ :=
    fun l h => String.ext h
  have hXX : ("XX" : String) = ⟨['X', 'X']⟩ := rfl
  have hxXX : ("xXX" : String) = ⟨['x', 'X', 'X']⟩ := rfl
  cases hdata : (strings.TrimSpace w).data with
  | nil =>
    have hw : formatWidth w = "" := by
      unfold formatWidth
      simp only [hmk _ hdata]
      rfl
    rw [hw, hmk _ hdata, hXX, hxXX]
    simp [strings.HasPrefix, List.isPrefixOf]
    decide
  | cons c r =>
    rw [hdata] at htrim
    rw [hmk _ hdata, hXX, hxXX]
    by_cases hcX : c = 'X'
    · subst hcX
      rw [formatWidth_upper w r hdata,
        formatWidth_x_fixed r (trimSpaceChars_swap_head 'X' 'x' r htrim isSpace_x)]
      cases r with
      | nil => simp [strings.HasPrefix, List.isPrefixOf]
      | cons a t =>
        by_cases ha : a = 'X'
        · subst ha
          simp [strings.HasPrefix, List.isPrefixOf]
        · simp [strings.HasPrefix, List.isPrefixOf, ha, Ne.symm ha]
    · by_cases hcx : c = 'x'
      · subst hcx
        cases r with
        | nil =>
          rw [formatWidth_lower w [] hdata (fun r2 h => by cases h),
            formatWidth_x_fixed [] htrim]
          simp [strings.HasPrefix, List.isPrefixOf]
        | cons a t =>
          by_cases ha : a = 'X'
          · subst ha
            rw [formatWidth_lower_upper w t hdata,
              formatWidth_x_fixed t (trimSpaceChars_drop_second 'x' 'X' 'x' t htrim isSpace_x)]
            cases t with
            | nil => simp [strings.HasPrefix, List.isPrefixOf]
            | cons b u =>
              by_cases hb : b = 'X'
              · subst hb
                simp [strings.HasPrefix, List.isPrefixOf]
              · simp [strings.HasPrefix, List.isPrefixOf, hb, Ne.symm hb]
          · have hr : ∀ r2, a :: t ≠ 'X' :: r2 := fun r2 h => ha (List.cons.inj h).1
            rw [formatWidth_lower w (a :: t) hdata hr, formatWidth_x_fixed (a :: t) htrim]
            simp [strings.HasPrefix, List.isPrefixOf, ha, Ne.symm ha]
      · have hne : strings.TrimSpace w ≠ "" := by
          intro h
          rw [h] at hdata
          cases hdata
        have hx : strings.HasPrefix (strings.ToLower (strings.TrimSpace w)) "x" = false := by
          cases hh : strings.HasPrefix (strings.ToLower (strings.TrimSpace w)) "x" with
          | false => rfl
          | true =>
            obtain ⟨c', r', hd, hc'⟩ := (hasPrefix_lower_x _).mp hh
            rw [hdata] at hd
            obtain ⟨h1, _⟩ := List.cons.inj hd
            subst h1
            rcases hc' with h | h
            · exact absurd h hcx
            · exact absurd h hcX
        have hright : ¬ (strings.HasPrefix ⟨c :: r⟩ ⟨['X', 'X']⟩ = true ∨
            strings.HasPrefix ⟨c :: r⟩ ⟨['x', 'X', 'X']⟩ = true) := by
          simp [strings.HasPrefix, List.isPrefixOf, Ne.symm hcx, Ne.symm hcX]
        refine ⟨fun _ => hright, fun _ => ?_⟩
        have hval := formatWidth_digits w hne hx
        by_cases hnil : firstDigitRun (strings.TrimSpace w).data = []
        · rw [if_pos hnil] at hval
          rw [hval, formatWidth_trim, hval]
        · rw [if_neg hnil] at hval
          by_cases hfit : digitsValue (firstDigitRun (strings.TrimSpace w).data) < 2 ^ 63
          · rw [if_pos hfit] at hval
            rw [hval]
            obtain ⟨hnum1, hnum2⟩ :=
              toDigits_numeral (digitsValue (firstDigitRun (strings.TrimSpace w).data))
            generalize Nat.toDigits 10
              (digitsValue (firstDigitRun (strings.TrimSpace w).data)) = ds at hnum1 hnum2
            have hlast : ∀ d ∈ ds, unicode.IsSpace d = false :=
              fun d hd => isSpace_not_digit d (hnum2 d hd)
            have htr : trimSpaceChars ('x' :: ds) = 'x' :: ds := by
              refine trimSpaceChars_of_eq_self _ ?_ ?_
              · rw [List.dropWhile_cons_of_neg (by simp [isSpace_x])]
              · rw [List.rdropWhile_eq_self_iff]
                intro hl
                have hmem : ('x' :: ds).getLast hl ∈ ds := by
                  rw [List.getLast_cons hnum1]
                  exact List.getLast_mem hnum1
                simp [hlast _ hmem]
            rw [formatWidth_x_fixed ds htr]
            intro r2 hr2
            have hX := hnum2 'X' (by rw [hr2]; exact List.mem_cons_self _ _)
            exact absurd hX (by decide)
          · rw [if_neg hfit] at hval
            rw [hval, formatWidth_trim, hval]

/-- C23 (amended) at widths on which a second application changes nothing and at the two
kinds of width on which it does. -/
theorem formatWidth_idempotent_witness :
    formatWidth (formatWidth "16\n") = formatWidth "16\n" ∧
      formatWidth (formatWidth " x8 ") = formatWidth " x8 " ∧
      formatWidth (formatWidth "xyz") = formatWidth "xyz" ∧
      formatWidth (formatWidth "XX8") ≠ formatWidth "XX8" ∧
      formatWidth (formatWidth "xXX8") ≠ formatWidth "xXX8" :=
  ⟨(formatWidth_idempotent "16\n").mpr (by decide),
   (formatWidth_idempotent " x8 ").mpr (by decide),
   (formatWidth_idempotent "xyz").mpr (by decide),
   fun h => (formatWidth_idempotent "XX8").mp h (by decide),
   fun h => (formatWidth_idempotent "xXX8").mp h (by decide)⟩

/-- C24: `compareWidth` reports at-maximum exactly when its ratio is defined (not NaN) and
at least 1, and not-at-maximum exactly when the ratio is NaN or below 1, the ratio being
taken as the exact quotient of the parsed integers (when the ratio is defined without
being that quotient, it is the 1.0 that stands for two equal strings).  The float64 ratio
that is returned agrees: it is at least 1 when at-maximum is true; when at-maximum is
false it is NaN or at most 1, and strictly below 1 when both integers are at most `2^53`.
Beyond `2^53` the conversion to float64 may round a quotient below 1 up to exactly
1.0. -/
theorem compareWidth_consistent (current max : String) :
    ((compareWidth current max).2 = true ↔
      (compareWidth current max).1 ≠ Float64.nan ∧
        ((parseFirstInt current).2 = true → (parseFirstInt max).2 = true →
          0 < (parseFirstInt max).1 →
          1 ≤ ((parseFirstInt current).1 : ℚ) / ((parseFirstInt max).1 : ℚ))) ∧
    ((compareWidth current max).2 = false ↔
      (compareWidth current max).1 = Float64.nan ∨
        ((parseFirstInt current).2 = true ∧ (parseFirstInt max).2 = true ∧
          0 < (parseFirstInt max).1 ∧
          ((parseFirstInt current).1 : ℚ) / ((parseFirstInt max).1 : ℚ) < 1)) ∧
    ((compareWidth current max).2 = true →
      ∃ r : ℚ, (compareWidth current max).1 = Float64.fin r ∧ 1 ≤ r) ∧
    ((compareWidth current max).2 = false →
      (compareWidth current max).1 = Float64.nan ∨
        ∃ r : ℚ, (compareWidth current max).1 = Float64.fin r ∧ r ≤ 1 ∧
          ((parseFirstInt current).1 ≤ 2 ^ 53 → (parseFirstInt max).1 ≤ 2 ^ 53 → r < 1)) := by
  by_cases hcond : (parseFirstInt current).2 = true ∧ (parseFirstInt max).2 = true ∧
      0 < (parseFirstInt max).1
  · obtain ⟨h1, h2, hm0⟩ := hcond
    have hw := compareWidth_int current max (parseFirstInt current).1 (parseFirstInt max).1
      (Prod.ext rfl h1) (Prod.ext rfl h2) hm0
    obtain ⟨r, hr, _, _, hge, hle, hlt, _⟩ := Float64.div_ofInt (parseFirstInt current).1
      (parseFirstInt max).1 (parseFirstInt_nonneg current) (parseFirstInt_lt current) hm0
      (parseFirstInt_lt max)
    have hmq : (0 : ℚ) < ((parseFirstInt max).1 : ℚ) := by exact_mod_cast hm0
    have hiff : 1 ≤ ((parseFirstInt current).1 : ℚ) / ((parseFirstInt max).1 : ℚ) ↔
        (parseFirstInt max).1 ≤ (parseFirstInt current).1 := by
      rw [one_le_div hmq]
      exact Int.cast_le
    rw [hw, hr]
    refine ⟨?_, ?_, ?_, ?_⟩
    · simp only [decide_eq_true_eq]
      constructor
      · intro h
        exact ⟨by simp, fun _ _ _ => hiff.mpr h⟩
      · intro h
        exact hiff.mp (h.2 h1 h2 hm0)
    · simp only [decide_eq_false_iff_not]
      constructor
      · intro h
        right
        refine ⟨h1, h2, hm0, ?_⟩
        rw [← not_le, hiff]
        exact h
      · rintro (h | ⟨_, _, _, h⟩)
        · cases h
        · intro hge2
          exact absurd (hiff.mpr hge2) (not_le.mpr h)
    · intro h
      exact ⟨r, rfl, hge (of_decide_eq_true h)⟩
    · intro h
      right
      have hcm : (parseFirstInt current).1 < (parseFirstInt max).1 :=
        not_le.mp (of_decide_eq_false h)
      exact ⟨r, rfl, hle hcm, fun a b => hlt a b hcm⟩
  · have hb : ¬ ((parseFirstInt current).2 && (parseFirstInt max).2 &&
        decide ((parseFirstInt max).1 > 0)) = true := by
      intro hb
      simp only [Bool.and_eq_true, decide_eq_true_eq] at hb
      exact hcond ⟨hb.1.1, hb.1.2, hb.2⟩
    by_cases hs : current ≠ "" ∧ current = max
    · have hw : compareWidth current max = (Float64.fin 1, true) := by
        simp only [compareWidth]
        rw [if_neg hb, if_pos hs]
      rw [hw]
      refine ⟨?_, ?_, ?_, ?_⟩
      · constructor
        · intro _
          exact ⟨by simp, fun a b c => absurd ⟨a, b, c⟩ hcond⟩
        · intro _
          rfl
      · constructor
        · intro h
          cases h
        · rintro (h | ⟨a, b, c, _⟩)
          · cases h
          · exact absurd ⟨a, b, c⟩ hcond
      · intro _
        exact ⟨1, rfl, le_refl _⟩
      · intro h
        cases h
    · have hw : compareWidth current max = (Float64.nan, false) := by
        simp only [compareWidth]
        rw [if_neg hb, if_neg hs]
      rw [hw]
      refine ⟨?_, ?_, ?_, ?_⟩
      · constructor
        · intro h
          cases h
        · intro h
          exact absurd rfl h.1
      · constructor
        · intro _
          exact Or.inl rfl
        · intro _
          rfl
      · intro h
        cases h
      · intro _
        exact Or.inl rfl

/-- C24 at a link of half width, at a link of full width, at equal texts without digits,
at two absent attributes, and at `2^53` against `2^53 + 1`, where the returned ratio is
1.0 with at-maximum false while the exact quotient is below 1. -/
theorem compareWidth_consistent_witness :
    compareWidth "x8" "x16" = (Float64.fin (1 / 2), false) ∧
      compareWidth "x16" "x16" = (Float64.fin 1, true) ∧
      compareWidth "auto" "auto" = (Float64.fin 1, true) ∧
      compareWidth "" "" = (Float64.nan, false) ∧
      compareWidth "9007199254740992" "9007199254740993" = (Float64.fin 1, false) ∧
      ((compareWidth "x8" "x16").2 = false ↔
        (compareWidth "x8" "x16").1 = Float64.nan ∨
          ((parseFirstInt "x8").2 = true ∧ (parseFirstInt "x16").2 = true ∧
            0 < (parseFirstInt "x16").1 ∧
            ((parseFirstInt "x8").1 : ℚ) / ((parseFirstInt "x16").1 : ℚ) < 1)) ∧
      (∃ r : ℚ, (compareWidth "x16" "x16").1 = Float64.fin r ∧ 1 ≤ r) ∧
      ((compareWidth "9007199254740992" "9007199254740993").1 = Float64.nan ∨
        ∃ r : ℚ, (compareWidth "9007199254740992" "9007199254740993").1 = Float64.fin r ∧
          r ≤ 1 ∧
          ((parseFirstInt "9007199254740992").1 ≤ 2 ^ 53 →
            (parseFirstInt "9007199254740993").1 ≤ 2 ^ 53 → r < 1)) :=
  ⟨compareWidth_8_16, compareWidth_16_16, by decide, by decide, compareWidth_wide,
   (compareWidth_consistent "x8" "x16").2.1,
   (compareWidth_consistent "x16" "x16").2.2.1 (by rw [compareWidth_16_16]),
   (compareWidth_consistent "9007199254740992" "9007199254740993").2.2.2
     (by rw [compareWidth_wide])⟩

/-- C25: for every snapshot, whatever parents the canonical paths give to the devices,
`ReadTree` returns: when the loop over the entries has filled the maps, the attachment
pass followed by `sortTree` returns within the depth it is given.  Following the child
lists of the returned forest from its roots ends too, meets no node twice, and meets at
most as many nodes as the directory has entries. -/
theorem ReadTree_terminates (fs : Sysfs) (sysfsRoot : String) (visit : MapOrder) :
    (∃ forest err, ReadTree fs sysfsRoot visit = some (forest, err) ∧
      ∃ l, forestNodes forest = some l ∧ l.Nodup ∧ (∀ x, x ∈ l ↔ Reaches forest x) ∧
        ∀ entries, fs.ReadDir (devicesDir sysfsRoot) = .ok entries →
          l.length ≤ entries.length) ∧
    (∀ entries nodes parents, fs.ReadDir (devicesDir sysfsRoot) = .ok entries →
      readTreeLoop fs (devicesDir sysfsRoot) entries [] [] = (nodes, parents, none) →
      ∃ forest, buildForest nodes parents visit = some forest ∧
        ReadTree fs sysfsRoot visit = some (forest, none)) := by
  constructor
  · rcases ReadTree_cases fs sysfsRoot visit with ⟨err, herr⟩ |
      ⟨entries, nodes, parents, forest, hdir, hloop, hread, hforest⟩
    · refine ⟨⟨[], []⟩, some err, herr, [], rfl, List.nodup_nil, fun x => ?_,
        fun entries _ => Nat.zero_le _⟩
      constructor
      · intro hx
        cases hx
      · rintro ⟨r, hr, _⟩
        cases hr
    · obtain ⟨l, hl, hlnd, hlmem, hlen⟩ := forestNodes_spec nodes parents forest hforest
      refine ⟨forest, none, hread, l, hl, hlnd, hlmem, fun entries' hdir' => ?_⟩
      rw [hdir] at hdir'
      cases hdir'
      have := readTreeLoop_length fs (devicesDir sysfsRoot) entries [] [] nodes parents hloop
      simp only [List.length_nil, Nat.zero_add] at this
      omega
  · intro entries nodes parents hdir hloop
    obtain ⟨hnd, hid, _⟩ := readTreeLoop_wf fs (devicesDir sysfsRoot) entries [] [] nodes
      parents List.nodup_nil (fun p n h => by simp [mapGet] at h) hloop
    obtain ⟨forest, hbuild, _⟩ := buildForest_spec nodes parents visit hnd hid
    refine ⟨forest, hbuild, ?_⟩
    rw [ReadTree_of_dir fs sysfsRoot visit entries hdir, hloop]
    simp only [hbuild, Option.map_some']

/-- C25 on a snapshot in which two devices name each other as parent, and on one in which
a device names itself: `ReadTree` returns, and the devices of the cycle are not met from
the roots. -/
theorem ReadTree_terminates_witness :
    ReadTree cycleFs "/sys" visitInOrder = some (cycleForest, none) ∧
      forestNodes cycleForest = some ["0000:02:00.0"] ∧
      ReadTree selfParentFs "/sys" visitInOrder = some (selfParentForest, none) ∧
      forestNodes selfParentForest = some [] ∧
      ∃ forest err, ReadTree cycleFs "/sys" visitReversed = some (forest, err) ∧
        ∃ l, forestNodes forest = some l ∧ l.Nodup ∧ (∀ x, x ∈ l ↔ Reaches forest x) ∧
          ∀ entries, cycleFs.ReadDir (devicesDir "/sys") = .ok entries →
            l.length ≤ entries.length :=
  ⟨by decide, by decide, by decide, by decide,
   (ReadTree_terminates cycleFs "/sys" visitReversed).1⟩

end PcieExporter
